import Mathlib

/-!
# Trie language-model store (sphinxbase `lm/ngrams_raw.c`, `lm/ngram_model_trie.c`)

A shallow embedding of the n-gram loaders, the count reconciliation and the
scoring entry point, followed by the properties established about them.

Conventions of the embedding
* `uint32` values are natural numbers, reduced modulo `2 ^ 32` where the C code
  can wrap;
* `float` values are exact rationals (`ℚ`): rounding is outside the model;
* a C array is a `List`; reading past its end yields `0` through `List.getD`
  (the C code has undefined behaviour there, the embedding is only used inside
  the bounds); the capacity of the fixed-size local arrays (`NGRAM_MAX_ORDER`
  slots for `counts` and `words`) is not represented, they are lists of the
  length in use;
* a `NULL` pointer is `none`.
-/

set_option autoImplicit false

namespace Durandal

/-! ## Raw n-grams and their comparators (`ngrams_raw.c`) -/

/-- The raw n-gram record `ngram_raw_t`: `words` holds the word ids, most recent
word first, `weights` the probability and, below the maximum order, the
back-off. -/
structure ngram_raw_t where
  words : List Nat
  weights : List ℚ
deriving DecidableEq

/-- The queue entry `ngram_raw_ord_t`: a raw n-gram together with its order
(the C field `instance` is spelled `instance_` here). -/
structure ngram_raw_ord_t where
  instance_ : ngram_raw_t
  order : Nat
deriving DecidableEq

/-- The value `memset(words, -1, ...)` leaves in every `uint32` slot. -/
def UINT32_MAX : Nat := 4294967295

/-- The comparison loop of `ngram_comparator`: `n` words remain to be compared,
`i` is the index `first - words`. -/
def ngram_comparator_loop (first second : List Nat) : Nat → Nat → Int
  | 0, _ => 0
  | n + 1, i =>
    if first.getD i 0 < second.getD i 0 then -1
    else if first.getD i 0 > second.getD i 0 then 1
    else ngram_comparator_loop first second n (i + 1)

/-- The function `ngram_comparator` with its static `order` made an argument:
lexicographic comparison of the first `order` stored words; `0` when the order
was not set up (`order < 2`). -/
def ngram_comparator (order : Nat) (first second : ngram_raw_t) : Int :=
  if order < 2 then 0
  else ngram_comparator_loop first.words second.words order 0

/-- The `while` loop of `ngram_ord_comparator`; both word pointers advance
together, so one index `i` stands for `a_w_ptr` and `b_w_ptr`. -/
def ngram_ord_comparator_loop (a b : ngram_raw_ord_t) : Nat → Nat → Int
  | 0, _ => (b.order : Int) - (a.order : Int)
  | n + 1, i =>
    if i < a.order ∧ i < b.order then
      if a.instance_.words.getD i 0 = b.instance_.words.getD i 0 then
        ngram_ord_comparator_loop a b n (i + 1)
      else if a.instance_.words.getD i 0 < b.instance_.words.getD i 0 then 1
      else -1
    else (b.order : Int) - (a.order : Int)

/-- The function `ngram_ord_comparator`: `1` when `a` has the smaller word at the
first difference, `-1` when the larger, and `b->order - a->order` when one tuple
is a prefix of the other. -/
def ngram_ord_comparator (a b : ngram_raw_ord_t) : Int :=
  ngram_ord_comparator_loop a b a.order 0

/-! ## The priority queue used by the merge -/

/-- Modelled from the spec: the priority queue of sphinxbase (`priority_queue.h`,
not part of the sources at hand). The queue holds the current entry of every
order; `priority_queue_add` puts an entry in. -/
def priority_queue_add (queue : List ngram_raw_ord_t) (e : ngram_raw_ord_t) :
    List ngram_raw_ord_t :=
  queue ++ [e]

/-- Modelled from the spec: the entry that `priority_queue_poll` hands out, the
one the comparator ranks first (`compare x best > 0` makes `x` the new best):
with `ngram_ord_comparator` this is the lexicographically least tuple, a shorter
tuple going before its extensions. -/
def priority_queue_top (compare : ngram_raw_ord_t → ngram_raw_ord_t → Int) :
    List ngram_raw_ord_t → Option ngram_raw_ord_t
  | [] => none
  | e :: rest =>
    some (rest.foldl (fun best x => if compare x best > 0 then x else best) e)

/-- Modelled from the spec: `priority_queue_poll` removes the first-ranked entry
from the queue and returns it with the remaining queue. -/
def priority_queue_poll (compare : ngram_raw_ord_t → ngram_raw_ord_t → Int)
    (queue : List ngram_raw_ord_t) : Option (ngram_raw_ord_t × List ngram_raw_ord_t) :=
  match priority_queue_top compare queue with
  | none => none
  | some top => some (top, queue.erase top)

/-- Modelled from the spec: `priority_queue_size`. -/
def priority_queue_size (queue : List ngram_raw_ord_t) : Nat := queue.length

/-! ## Count reconciliation (`ngrams_raw_fix_counts`) -/

/-- The call `memcpy(dst, src, n * sizeof(*dst))` on word arrays. -/
def memcpy_words (dst src : List Nat) (n : Nat) : List Nat :=
  src.take n ++ dst.drop n

/-- The local state of `ngrams_raw_fix_counts` during the merge. -/
structure fix_counts_state where
  ngrams : List ngram_raw_ord_t
  raw_ngram_ptrs : List Nat
  words : List Nat
  fixed_counts : List Nat
deriving DecidableEq

/-- The element `raw_ngrams[k][p]`. -/
def raw_ngram_at (raw_ngrams : List (List ngram_raw_t)) (k p : Nat) : ngram_raw_t :=
  (raw_ngrams.getD k []).getD p ⟨[], []⟩

/-- The first loop of `ngrams_raw_fix_counts` (`for (i = 2; i <= order; i++)`),
run for the orders `i, i + 1, ...` (`n` of them): every non-empty order puts its
first n-gram into the queue. -/
def fix_counts_init (raw_ngrams : List (List ngram_raw_t)) (counts : List Nat) :
    Nat → Nat → fix_counts_state → fix_counts_state
  | 0, _, s => s
  | n + 1, i, s =>
    if counts.getD (i - 1) 0 ≤ 0 then fix_counts_init raw_ngrams counts n (i + 1) s
    else
      fix_counts_init raw_ngrams counts n (i + 1)
        { s with
          raw_ngram_ptrs := s.raw_ngram_ptrs.set (i - 2) 0
          ngrams := priority_queue_add s.ngrams ⟨raw_ngram_at raw_ngrams (i - 2) 0, i⟩ }

/-- The inner `for (i = 0; i < top->order - 1; i++)` scan of the merge: the
first index at which the tracked `words` differ from the popped n-gram, if
any (`n` indices remain, starting at `i`). -/
def fix_counts_first_diff (words top_words : List Nat) : Nat → Nat → Option Nat
  | 0, _ => none
  | n + 1, i =>
    if words.getD i 0 ≠ top_words.getD i 0 then some i
    else fix_counts_first_diff words top_words n (i + 1)

/-- One pass through the body of the `for (;;)` loop of `ngrams_raw_fix_counts`;
`none` is the `break` taken when the queue is empty. -/
def fix_counts_step (raw_ngrams : List (List ngram_raw_t)) (counts : List Nat)
    (s : fix_counts_state) : Option fix_counts_state :=
  if priority_queue_size s.ngrams = 0 then none
  else
    match priority_queue_poll ngram_ord_comparator s.ngrams with
    | none => none
    | some (top, queue) =>
      let tw := top.instance_.words
      -- the tracked words, the corrected counts and `to_increment`
      let r : List Nat × List Nat × Bool :=
        if top.order = 2 then (memcpy_words s.words tw 2, s.fixed_counts, true)
        else
          match fix_counts_first_diff s.words tw (top.order - 1) 0 with
          | some i =>
            let num := if i = 0 then 1 else i
            let w := memcpy_words s.words tw (num + 1)
            (w.set (top.order - 1) (tw.getD (top.order - 1) 0),
              s.fixed_counts.set num ((s.fixed_counts.getD num 0 + 1) % 2 ^ 32), false)
          | none =>
            (s.words.set (top.order - 1) (tw.getD (top.order - 1) 0), s.fixed_counts, true)
      let ptrs :=
        if r.2.2 then
          s.raw_ngram_ptrs.set (top.order - 2)
            ((s.raw_ngram_ptrs.getD (top.order - 2) 0 + 1) % 2 ^ 32)
        else s.raw_ngram_ptrs
      let p := ptrs.getD (top.order - 2) 0
      let queue :=
        if p < counts.getD (top.order - 1) 0 then
          priority_queue_add queue ⟨raw_ngram_at raw_ngrams (top.order - 2) p, top.order⟩
        else queue
      some { ngrams := queue, raw_ngram_ptrs := ptrs, words := r.1, fixed_counts := r.2.1 }

/-- The `for (;;)` loop of `ngrams_raw_fix_counts`, run for at most `fuel`
passes; `none` when the fuel ends before the queue is empty. -/
def fix_counts_loop (raw_ngrams : List (List ngram_raw_t)) (counts : List Nat) :
    Nat → fix_counts_state → Option fix_counts_state
  | 0, _ => none
  | fuel + 1, s =>
    match fix_counts_step raw_ngrams counts s with
    | none => some s
    | some s1 => fix_counts_loop raw_ngrams counts fuel s1

/-- A number of passes that suffices for the merge: an n-gram of order `k` is
popped at most `k` times. -/
def fix_counts_fuel (counts : List Nat) (order : Nat) : Nat :=
  ((List.range order).map (fun k => counts.getD k 0 * (k + 1))).sum + 1

/-- The function `ngrams_raw_fix_counts`: `raw_ngrams[k]` is the array of order
`k + 2`, `counts[k]` the declared count of order `k + 1`; the result is the
array `fixed_counts`. The tracked `words` start as all-ones (`memset(words, -1)`)
and `fixed_counts` as a copy of `counts`. Of the `NGRAM_MAX_ORDER` slots of
`words` and the `NGRAM_MAX_ORDER - 1` slots of `raw_ngram_ptrs` only the first
`order`, respectively `order - 1`, are ever touched; the lists hold those. -/
def ngrams_raw_fix_counts (raw_ngrams : List (List ngram_raw_t)) (counts : List Nat)
    (order : Nat) : Option (List Nat) :=
  let s0 : fix_counts_state :=
    { ngrams := []
      raw_ngram_ptrs := List.replicate (order - 1) 0
      words := List.replicate order UINT32_MAX
      fixed_counts := counts.take order }
  (fix_counts_loop raw_ngrams counts (fix_counts_fuel counts order)
    (fix_counts_init raw_ngrams counts (order - 1) 2 s0)).map (fun s => s.fixed_counts)

/-- The `k`-word tuples that need a node of order `k`: the stored words of the
order-`k` n-grams and the first `k` stored words of every n-gram of a higher
order, without repetition (`raw_ngrams[k - 2]` is the array of order `k`). -/
def context_tuples (raw_ngrams : List (List ngram_raw_t)) (k : Nat) : List (List Nat) :=
  ((raw_ngrams.drop (k - 2)).flatten.map (fun g => g.words.take k)).dedup

/-- An array is sorted ascending and duplicate-free under `ngram_comparator` set
to `order`. -/
def sorted_raw_ngrams (order : Nat) (arr : List ngram_raw_t) : Prop :=
  List.Pairwise (fun a b => ngram_comparator order a b < 0) arr

instance (order : Nat) (arr : List ngram_raw_t) : Decidable (sorted_raw_ngrams order arr) := by
  unfold sorted_raw_ngrams
  infer_instance

/-- A raw n-gram with the given words and no weights attached. -/
def raw_of_words (ws : List Nat) : ngram_raw_t := ⟨ws, []⟩

/-- An order-4 input whose only n-grams are the 4-grams `(0,0,0,0)` and
`(1,0,0,0)` (two unigrams, no bigram, no trigram). -/
def sparse_order4_ngrams : List (List ngram_raw_t) :=
  [[], [], [raw_of_words [0, 0, 0, 0], raw_of_words [1, 0, 0, 0]]]

/-- An order-4 input with the bigrams `(0,0)`, `(1,0)`, the trigram `(0,0,0)`
and the 4-grams `(0,0,0,0)`, `(1,0,0,0)`. -/
def dense_order4_ngrams : List (List ngram_raw_t) :=
  [[raw_of_words [0, 0], raw_of_words [1, 0]], [raw_of_words [0, 0, 0]],
    [raw_of_words [0, 0, 0, 0], raw_of_words [1, 0, 0, 0]]]

/-! ## Text-format loader (`read_counts_arpa`, `read_1grams_arpa`, `ngrams_raw_read_arpa`) -/

/-- The ways in which the C code leaves defined behaviour. -/
inductive Fault where
  | null_deref
  | out_of_bounds
  | alloc_failure
  | uninitialised_read
  | no_return
  | assertion_failed
deriving DecidableEq

/-- The routines of sphinxbase and of the C library that the loaders call and
whose code is not part of the sources at hand; the embedding takes them as
parameters.
* `string_trim buf` is the buffer after `string_trim(buf, STRING_BOTH)`;
* `sscanf_ngram buf` is `some (ngram, ngram_cnt)` exactly when
  `sscanf(buf, "ngram %d=%d", &ngram, &ngram_cnt)` returns `2`;
* `str2words buf max` is the return value `n` of `str2words(buf, wptr, max)`
  together with the words `wptr[0], wptr[1], ...` it found;
* `atof_c` and `logmath_log10_to_log_float` are the number conversions;
* `NGRAM_MAX_ORDER` is the constant of `ngram_model_internal.h`;
* `lm_trie_read_bin counts order fp` is the part of the file that
  `lm_trie_read_bin` leaves unread (the trie it builds is not represented). -/
structure Library where
  string_trim : String → String
  sscanf_ngram : String → Option (Int × Nat)
  str2words : String → Nat → Int × List String
  atof_c : String → ℚ
  logmath_log10_to_log_float : ℚ → ℚ
  NGRAM_MAX_ORDER : Nat
  lm_trie_read_bin : List Nat → Nat → List Nat → List Nat

/-- Modelled from the spec: the line iterator `lineiter_t *` of sphinxbase (`pio.h`,
not part of the sources at hand), which reads the text file line by line. It is
the list of the lines from the current one on; its head is `(*li)->buf`, the
empty list is `NULL`. `lineiter_start` hands out the whole file. -/
def lineiter_start (lines : List String) : List String := lines

/-- Modelled from the spec: the call `lineiter_next(li)` of sphinxbase (`pio.h`):
the iterator moves to the next line and becomes `NULL` at the end of the file;
the argument is dereferenced. -/
def lineiter_next : List String → Except Fault (List String)
  | [] => Except.error Fault.null_deref
  | _ :: rest => Except.ok rest

/-- The loop `while (li) { string_trim(buf); if (strcmp(buf, marker) == 0) break;
li = lineiter_next(li); }`: the iterator stops on the first line that equals
`marker` once trimmed (the line is trimmed in place), or becomes `NULL`. -/
def lineiter_skip_to (L : Library) (marker : String) : List String → List String
  | [] => []
  | buf :: rest =>
    if L.string_trim buf = marker then L.string_trim buf :: rest
    else lineiter_skip_to L marker rest

/-- The second loop of `read_counts_arpa`, entered with the lines that follow
the current one: `none` is `return -1` (counts out of sequence, or the end of
the file), otherwise the iterator rests on the line that ended the loop. The
caller's array `counts` is written at index `*order` without a bound test; the
list grows by one element per count line. -/
def read_counts_lines (L : Library) : List String → Int → List Nat →
    Option (List String × List Nat)
  | [], _, _ => none
  | buf :: rest, prev_ngram, counts =>
    match L.sscanf_ngram buf with
    | none => some (buf :: rest, counts)
    | some (ngram, ngram_cnt) =>
      if ngram ≠ prev_ngram + 1 then none
      else read_counts_lines L rest ngram (counts ++ [ngram_cnt])

/-- The function `read_counts_arpa`: `none` is the return value `-1`; on `0` the
result holds the iterator (on the `\1-grams:` line), `counts` and `*order`. -/
def read_counts_arpa (L : Library) (li : List String) :
    Option (List String × List Nat × Nat) :=
  match lineiter_skip_to L "\\data\\" li with
  | [] => none
  | _ :: rest =>
    match read_counts_lines L rest 0 [] with
    | none => none
    | some ([], _) => none
    | some (_ :: rest2, counts) =>
      match lineiter_skip_to L "\\1-grams:" rest2 with
      | [] => none
      | li3 => some (li3, counts, counts.length)

/-- The unigram record `unigram_t`. -/
structure unigram_t where
  prob : ℚ
  bo : ℚ
  next : Nat
deriving DecidableEq

/-- Modelled from the spec: the vocabulary mapping from word string to word id,
the hash table `base->wid` of sphinxbase (`hash_table.h`, not part of the
sources at hand), as the list of its (key, value) pairs in the order of
insertion; `hash_table_lookup` finds the value of a key. -/
def hash_table_lookup (h : List (String × Nat)) (key : String) : Option Nat :=
  (h.find? (fun kv => kv.1 = key)).map (fun kv => kv.2)

/-- Modelled from the spec: the call `hash_table_enter(h, key, val)` of sphinxbase:
a key already present keeps its value, which is returned ("first occurrence
wins"); a new key is entered with `val`. -/
def hash_table_enter (h : List (String × Nat)) (key : String) (val : Nat) :
    List (String × Nat) × Nat :=
  match hash_table_lookup h key with
  | some v => (h, v)
  | none => (h ++ [(key, val)], val)

/-- The first loop of `read_1grams_arpa` (`n` unigrams remain, the next one is
the `i`-th): the end of the file ends the loop, a line with fewer than two
words is passed over and leaves entry `i` as it was. -/
def read_1grams_lines (L : Library) : Nat → Nat → List String → List unigram_t →
    List (Option String) → Except Fault (List String × List unigram_t × List (Option String))
  | 0, _, li, unigrams, word_str => Except.ok (li, unigrams, word_str)
  | n + 1, i, li, unigrams, word_str =>
    match lineiter_next li with
    | Except.error f => Except.error f
    | Except.ok [] => Except.ok ([], unigrams, word_str)
    | Except.ok (buf :: rest) =>
      let buf1 := L.string_trim buf
      let r := L.str2words buf1 3
      if r.1 < 2 then read_1grams_lines L n (i + 1) (buf1 :: rest) unigrams word_str
      else
        let prob0 := L.logmath_log10_to_log_float (L.atof_c (r.2.getD 0 ""))
        let prob := if prob0 > 0 then 0 else prob0
        let bo := if r.1 = 2 + 1 then L.logmath_log10_to_log_float (L.atof_c (r.2.getD 2 "")) else 0
        read_1grams_lines L n (i + 1) (buf1 :: rest)
          (unigrams.set i ⟨prob, bo, (unigrams.getD i ⟨0, 0, 0⟩).next⟩)
          (word_str.set i (some (r.2.getD 1 "")))

/-- The second loop of `read_1grams_arpa`: every `word_str[i]` is entered into the
word-id table with value `i`; a `NULL` string is dereferenced by the table. -/
def read_1grams_fill_wid : List (Option String) → Nat → List (String × Nat) →
    Except Fault (List (String × Nat))
  | [], _, wid => Except.ok wid
  | none :: _, _, _ => Except.error Fault.null_deref
  | some w :: rest, i, wid => read_1grams_fill_wid rest (i + 1) (hash_table_enter wid w i).1

/-- The function `read_1grams_arpa`: `unigrams` and `word_str` are the zeroed
arrays of `lm_trie_create` and `ngram_model_init`, `wid` the word-id table. -/
def read_1grams_arpa (L : Library) (li : List String) (count : Nat)
    (unigrams : List unigram_t) (word_str : List (Option String)) (wid : List (String × Nat)) :
    Except Fault (List String × List unigram_t × List (Option String) × List (String × Nat)) :=
  match read_1grams_lines L count 0 li unigrams word_str with
  | Except.error f => Except.error f
  | Except.ok (li1, unigrams1, word_str1) =>
    match read_1grams_fill_wid (word_str1.take count) 0 wid with
    | Except.error f => Except.error f
    | Except.ok wid1 => Except.ok (li1, unigrams1, word_str1, wid1)

/-- The word loop of `read_ngram_instance`
(`for (word_out = words + order - 1, i = 1; word_out >= words; --word_out, i++)`):
`n` words remain, `hash_table_lookup_int32` stores the id of `wptr[i]` into
`words[order - i]` and leaves the slot alone when the word is unknown. -/
def read_ngram_words (wid : List (String × Nat)) (wptr : List String) (order : Nat) :
    Nat → Nat → List Nat → List Nat
  | 0, _, words => words
  | n + 1, i, words =>
    read_ngram_words wid wptr order n (i + 1)
      (match hash_table_lookup wid (wptr.getD i "") with
       | some v => words.set (order - i) v
       | none => words)

/-- The function `read_ngram_instance`: the result is the iterator and the raw
n-gram it filled, `none` when `*raw_ngram` is left as allocated (all zero, both
pointers `NULL`): at the end of the file and for a line with too few words. -/
def read_ngram_instance (L : Library) (li : List String) (wid : List (String × Nat))
    (order order_max : Nat) : Except Fault (List String × Option ngram_raw_t) :=
  match lineiter_next li with
  | Except.error f => Except.error f
  | Except.ok [] => Except.ok ([], none)
  | Except.ok (buf :: rest) =>
    let buf1 := L.string_trim buf
    let words_expected : Int := order + 1
    let r := L.str2words buf1 (L.NGRAM_MAX_ORDER + 1)
    if r.1 < words_expected then Except.ok (buf1 :: rest, none)
    else
      let weights : List ℚ :=
        if order = order_max then
          let w0 := L.atof_c (r.2.getD 0 "")
          [L.logmath_log10_to_log_float (if w0 > 0 then 0 else w0)]
        else
          let weight := L.atof_c (r.2.getD 0 "")
          let w0 := if weight > 0 then 0 else L.logmath_log10_to_log_float weight
          let w1 :=
            if r.1 = order + 1 then 0
            else L.logmath_log10_to_log_float (L.atof_c (r.2.getD (order + 1) ""))
          [w0, w1]
      let words := read_ngram_words wid r.2 order order 1 (List.replicate order 0)
      Except.ok (buf1 :: rest, some ⟨words, weights⟩)

/-- The reading loop of `ngrams_raw_read_order`: `n` calls of
`read_ngram_instance`, the slots filled in turn. -/
def read_ngram_instances (L : Library) (wid : List (String × Nat)) (order order_max : Nat) :
    Nat → List String → List (Option ngram_raw_t) →
    Except Fault (List String × List (Option ngram_raw_t))
  | 0, li, arr => Except.ok (li, arr)
  | n + 1, li, arr =>
    match read_ngram_instance L li wid order order_max with
    | Except.error f => Except.error f
    | Except.ok (li1, slot) => read_ngram_instances L wid order order_max n li1 (arr ++ [slot])

/-- The call `qsort(raw_ngrams, count, sizeof(ngram_raw_t), &ngram_comparator)`:
with two or more elements every element is compared, and the comparator
dereferences `words`, `NULL` in a slot that was left as allocated. Elements that
compare equal keep their relative order here (the C library leaves it open). -/
def qsort_raw_ngrams (order : Nat) (arr : List (Option ngram_raw_t)) :
    Except Fault (List (Option ngram_raw_t)) :=
  if arr.length < 2 then Except.ok arr
  else if arr.any (fun slot => slot.isNone) then Except.error Fault.null_deref
  else
    Except.ok (((arr.filterMap id).insertionSort
      (fun a b => ngram_comparator order a b ≤ 0)).map some)

/-- The function `ngrams_raw_read_order`: skip to the header `\<order>-grams:`,
read `count` n-grams, sort them. -/
def ngrams_raw_read_order (L : Library) (li : List String) (wid : List (String × Nat))
    (count order order_max : Nat) : Except Fault (List String × List (Option ngram_raw_t)) :=
  match lineiter_next li with
  | Except.error f => Except.error f
  | Except.ok li0 =>
    let li1 := lineiter_skip_to L ("\\" ++ toString order ++ "-grams:") li0
    match read_ngram_instances L wid order order_max count li1 [] with
    | Except.error f => Except.error f
    | Except.ok (li2, arr) =>
      match qsort_raw_ngrams order arr with
      | Except.error f => Except.error f
      | Except.ok sorted => Except.ok (li2, sorted)

/-- The loop `for (order_it = 2; order_it <= order; order_it++)` of
`ngrams_raw_read_arpa` (`n` orders remain, the next one is `order_it`). -/
def ngrams_raw_read_orders (L : Library) (wid : List (String × Nat)) (counts : List Nat)
    (order : Nat) : Nat → Nat → List String → List (List (Option ngram_raw_t)) →
    Except Fault (List String × List (List (Option ngram_raw_t)))
  | 0, _, li, raw => Except.ok (li, raw)
  | n + 1, order_it, li, raw =>
    match ngrams_raw_read_order L li wid (counts.getD (order_it - 1) 0) order_it order with
    | Except.error f => Except.error f
    | Except.ok (li1, arr) =>
      ngrams_raw_read_orders L wid counts order n (order_it + 1) li1 (raw ++ [arr])

/-- The loop `while (*li && strlen((*li)->buf) == 0)` of `ngrams_raw_read_arpa`
on a current line `buf` followed by `rest`: the body trims the next line
without testing the iterator. -/
def skip_empty_lines (L : Library) : String → List String → Except Fault (List String)
  | buf, [] => if buf.length = 0 then Except.error Fault.null_deref else Except.ok [buf]
  | buf, b :: rest =>
    if buf.length = 0 then skip_empty_lines L (L.string_trim b) rest
    else Except.ok (buf :: b :: rest)

/-- The function `ngrams_raw_read_arpa`: the arrays of the orders `2 .. order`,
then the search for the end mark, which dereferences the iterator before it
tests it. -/
def ngrams_raw_read_arpa (L : Library) (li : List String) (counts : List Nat) (order : Nat)
    (wid : List (String × Nat)) :
    Except Fault (List String × List (List (Option ngram_raw_t))) :=
  match ngrams_raw_read_orders L wid counts order (order - 1) 2 li [] with
  | Except.error f => Except.error f
  | Except.ok (li1, raw_ngrams) =>
    match lineiter_next li1 with
    | Except.error f => Except.error f
    | Except.ok [] => Except.error Fault.null_deref
    | Except.ok (buf :: rest) =>
      match skip_empty_lines L (L.string_trim buf) rest with
      | Except.error f => Except.error f
      | Except.ok li2 => Except.ok (li2, raw_ngrams)

/-- What `ngram_model_trie_read_arpa` has gathered when it returns `base`: the
order, the corrected counts, the unigram table, the vocabulary and the raw
n-gram arrays handed to `lm_trie_build` (whose code is not at hand). -/
structure arpa_model where
  n : Nat
  n_counts : List Nat
  unigrams : List unigram_t
  word_str : List (Option String)
  wid : List (String × Nat)
  raw_ngrams : List (List ngram_raw_t)
deriving DecidableEq

/-- The raw n-gram arrays as `ngrams_raw_fix_counts` and `lm_trie_build` read
them: every element is visited and its `words` dereferenced, so a slot left as
allocated is a `NULL` dereference. -/
def deref_raw_ngrams (raw : List (List (Option ngram_raw_t))) :
    Except Fault (List (List ngram_raw_t)) :=
  if raw.any (fun arr => arr.any (fun slot => slot.isNone)) then Except.error Fault.null_deref
  else Except.ok (raw.map (fun arr => arr.filterMap id))

/-- The function `ngram_model_trie_read_arpa` on the lines of the file (`none`
when the file cannot be opened): `Except.ok none` is the return value `NULL`.
With `order = 0` the calls of `ngram_model_init` and `lm_trie_create` read
`counts[0]`, which was never written. -/
def ngram_model_trie_read_arpa (L : Library) (file : Option (List String)) :
    Except Fault (Option arpa_model) :=
  match file with
  | none => Except.ok none
  | some lines =>
    match read_counts_arpa L (lineiter_start lines) with
    | none => Except.ok none
    | some (li, counts, order) =>
      if order = 0 then Except.error Fault.uninitialised_read
      else
        let count := counts.getD 0 0
        match read_1grams_arpa L li count (List.replicate (count + 1) ⟨0, 0, 0⟩)
            (List.replicate count none) [] with
        | Except.error f => Except.error f
        | Except.ok (li1, unigrams, word_str, wid) =>
          if order > 1 then
            match ngrams_raw_read_arpa L li1 counts order wid with
            | Except.error f => Except.error f
            | Except.ok (_, raw) =>
              match deref_raw_ngrams raw with
              | Except.error f => Except.error f
              | Except.ok raw_ngrams =>
                match ngrams_raw_fix_counts raw_ngrams counts order with
                | none => Except.error Fault.no_return
                | some fixed_counts =>
                  Except.ok (some ⟨order, fixed_counts, unigrams, word_str, wid, raw_ngrams⟩)
          else Except.ok (some ⟨order, [count], unigrams, word_str, wid, []⟩)

/-! ## Scoring (`ngram_model_trie_raw_score`) -/

/-- Modelled from the spec: a record of one of the trie levels `2 .. N`, listed
under its full word tuple in storage order (predicted word first, then the
context from the most recent word on), which stands for the path of child
ranges that leads to it; `bo` is unused at the longest level. -/
structure trie_entry where
  words : List Nat
  prob : ℚ
  bo : ℚ
deriving DecidableEq

/-- Modelled from the spec: the compact trie `lm_trie_t` as the scorer sees it
(`lm_trie.c` is not part of the sources at hand): the dense unigram level and
the records of the higher levels. -/
structure lm_trie_t where
  unigrams : List unigram_t
  entries : List trie_entry
deriving DecidableEq

/-- Modelled from the spec: the search for the record of a word tuple of length
two or more (the walk "from level 1 downward into matching child ranges"). -/
def lm_trie_find (trie : lm_trie_t) (key : List Nat) : Option trie_entry :=
  trie.entries.find? (fun e => e.words = key)

/-- Modelled from the spec: the back-off weight of a context, read from the
record of the context's own word tuple; `0` when the context has no record. -/
def lm_trie_backoff (trie : lm_trie_t) : List Nat → ℚ
  | [] => 0
  | [w] => (trie.unigrams.getD w ⟨0, 0, 0⟩).bo
  | w :: ctx =>
    match lm_trie_find trie (w :: ctx) with
    | some e => e.bo
    | none => 0

/-- Modelled from the spec: the back-off traversal with `n` history words:
"attempt the longest context first"; without a record for the full tuple, add the
back-off weight of the skipped context and "retry with one fewer history word",
down to the unigram level, "which always matches". The result is the
log-probability and the matched order. -/
def lm_trie_score_from (trie : lm_trie_t) (wid : Nat) (hist : List Nat) : Nat → ℚ × Nat
  | 0 => ((trie.unigrams.getD wid ⟨0, 0, 0⟩).prob, 1)
  | n + 1 =>
    match lm_trie_find trie (wid :: hist.take (n + 1)) with
    | some e => (e.prob, n + 2)
    | none =>
      ((lm_trie_score_from trie wid hist n).1 + lm_trie_backoff trie (hist.take (n + 1)),
        (lm_trie_score_from trie wid hist n).2)

/-- Modelled from the spec: the scorer `lm_trie_score(trie, order, wid, hist,
n_hist, n_used)` of `lm_trie.c`; the result is the float score and `*n_used`. -/
def lm_trie_score (trie : lm_trie_t) (_order : Nat) (wid : Int) (hist : List Int)
    (n_hist : Int) : ℚ × Nat :=
  lm_trie_score_from trie wid.toNat (hist.map Int.toNat) n_hist.toNat

/-- The model `ngram_model_trie_t`, reduced to the fields the scorer reads: the
order `base.n` and the trie. -/
structure ngram_model_trie_t where
  n : Nat
  trie : lm_trie_t
deriving DecidableEq

/-- The conversion `(int32) x` of a float: truncation toward zero (the C code is
undefined outside the `int32` range). -/
def float_to_int32 (x : ℚ) : Int := if 0 ≤ x then ⌊x⌋ else ⌈x⌉

/-- The loop `for (i = 0; i < n_hist; i++) if (hist[i] < 0) { n_hist = i; break; }`
of `ngram_model_trie_raw_score` (`fuel` passes remain): the resulting `n_hist`. -/
def raw_score_hist_scan (hist : List Int) (n_hist : Int) : Nat → Nat → Int
  | 0, _ => n_hist
  | fuel + 1, i =>
    if (i : Int) < n_hist then
      if hist.getD i 0 < 0 then (i : Int) else raw_score_hist_scan hist n_hist fuel (i + 1)
    else n_hist

/-- The history length that `ngram_model_trie_raw_score` hands to
`lm_trie_score`: `n_hist` capped at `n - 1`, then cut at the first negative word
id. -/
def raw_score_n_hist (model : ngram_model_trie_t) (hist : List Int) (n_hist : Int) : Int :=
  let n_hist1 := if n_hist > (model.n : Int) - 1 then (model.n : Int) - 1 else n_hist
  raw_score_hist_scan hist n_hist1 n_hist1.toNat 0

/-- The function `ngram_model_trie_raw_score`: the `int32` score and `*n_used`. -/
def ngram_model_trie_raw_score (model : ngram_model_trie_t) (wid : Int) (hist : List Int)
    (n_hist : Int) : Int × Nat :=
  let r := lm_trie_score model.trie model.n wid hist (raw_score_n_hist model hist n_hist)
  (float_to_int32 r.1, r.2)

/-- Modelled from the spec: the log-probability recorded for the word `wid` after
the context `ctx` (most recent word first), when that n-gram has a record. -/
def lm_trie_prob (trie : lm_trie_t) (wid : Nat) : List Nat → Option ℚ
  | [] => (trie.unigrams.get? wid).map (fun u => u.prob)
  | w :: ctx => (lm_trie_find trie (wid :: w :: ctx)).map (fun e => e.prob)

/-- An order-3 model over the words `A = 0`, `B = 1`, `C = 2`: unigrams with
log-probabilities `-10, -20, -30` and back-offs `-1, -2, -3`, and the single
bigram "`B` after `C`" with log-probability `-5` and back-off `-4`. -/
def three_word_model : ngram_model_trie_t :=
  ⟨3, ⟨[⟨-10, -1, 0⟩, ⟨-20, -2, 0⟩, ⟨-30, -3, 0⟩], [⟨[1, 2], -5, -4⟩]⟩⟩

/-- The model of the scoring example: unigrams `A = 0` with log-probability `-1`,
`B = 1` with `-2`, a further word `C = 2` with `-3` and back-off `-3/10`, and the
bigram "`A` after `B`" with log-probability `-1/2`. -/
def scoring_example_model : ngram_model_trie_t :=
  ⟨2, ⟨[⟨-1, 0, 0⟩, ⟨-2, 0, 0⟩, ⟨-3, -3 / 10, 0⟩], [⟨[0, 1], -1 / 2, 0⟩]⟩⟩

/-! ## Private binary format (`ngram_model_trie_read_bin`, `read_word_str`) -/

/-- The bytes of a C string literal, without the terminator. -/
def c_string (s : String) : List Nat := s.toList.map Char.toNat

/-- The magic string `trie_hdr`. -/
def trie_hdr : List Nat := c_string "Trie Language Model"

/-- The magic string `dmp_hdr`. -/
def dmp_hdr : List Nat := c_string "Darpa Trigram LM"

/-- The C library's `strlen` on the bytes of a terminated string. -/
def strlen (s : List Nat) : Nat := (s.takeWhile (fun b => b ≠ 0)).length

/-- The C library's `strcmp` on byte buffers; the end of the list stands for the
terminating NUL. -/
def strcmp : List Nat → List Nat → Int
  | [], [] => 0
  | [], b :: _ => 0 - (b : Int)
  | a :: _, [] => (a : Int)
  | a :: as, b :: bs =>
    if a ≠ b then (a : Int) - (b : Int) else if a = 0 then 0 else strcmp as bs

/-- The call `fread(buf, 1, n, fp)` into a zeroed buffer of `size` bytes: the
buffer afterwards and the rest of the file. -/
def fread_bytes (fp : List Nat) (n size : Nat) : List Nat × List Nat :=
  (fp.take n ++ List.replicate (size - (fp.take n).length) 0, fp.drop n)

/-- The value of a little-endian integer field. -/
def le_value : List Nat → Nat
  | [] => 0
  | b :: rest => b + 256 * le_value rest

/-- The call `fread(&x, sizeof(x), 1, fp)` for a field of `size` bytes whose
return value is not tested: the variable stays unset when the file is too
short. -/
def fread_field (fp : List Nat) (size : Nat) : Except Fault (Nat × List Nat) :=
  if fp.length < size then Except.error Fault.uninitialised_read
  else Except.ok (le_value (fp.take size), fp.drop size)

/-- The header test of `ngram_model_trie_read_bin`: `hdr` is a zeroed buffer of
`hdr_size + 1` bytes filled by `fread(hdr, 1, hdr_size, fp)`; the result is
`cmp_res`. -/
def read_bin_cmp_res (fp : List Nat) : Int :=
  strcmp (fread_bytes fp (strlen trie_hdr) (strlen trie_hdr + 1)).1 trie_hdr

/-- The string `tmp_word_str + j` as `ckd_salloc` copies it: the bytes up to the
next NUL, which has to lie inside the buffer. -/
def c_string_at (buf : List Nat) (j : Nat) : Except Fault (List Nat) :=
  if (buf.drop j).contains 0 then Except.ok ((buf.drop j).takeWhile (fun b => b ≠ 0))
  else Except.error Fault.out_of_bounds

/-- The text of a byte string. -/
def string_of_bytes (bs : List Nat) : String := String.mk (bs.map Char.ofNat)

/-- The loop of `read_word_str` that breaks the block up into words (`n` words
remain, the next one is the `i`-th and starts at offset `j`). -/
def read_word_str_words (buf : List Nat) : Nat → Nat → Nat → List (Option String) →
    List (String × Nat) → Except Fault (List (Option String) × List (String × Nat))
  | 0, _, _, word_str, wid => Except.ok (word_str, wid)
  | n + 1, i, j, word_str, wid =>
    match c_string_at buf j with
    | Except.error f => Except.error f
    | Except.ok w =>
      read_word_str_words buf n (i + 1) (j + (w.length + 1))
        (word_str.set i (some (string_of_bytes w)))
        (hash_table_enter wid (string_of_bytes w) i).1

/-- The function `read_word_str` for a model with `n_unigrams = n_counts[0]`: the
block length `k`, the block, the count `j` of its NUL bytes (compared with
`n_unigrams` for the error message only), then the words. The result holds
`word_str`, the word-id table, the rest of the file and whether the error was
reported. -/
def read_word_str (n_unigrams : Nat) (fp : List Nat) :
    Except Fault (List (Option String) × List (String × Nat) × List Nat × Bool) :=
  match fread_field fp 4 with
  | Except.error f => Except.error f
  | Except.ok (k, fp1) =>
    if k ≥ 2 ^ 31 then Except.error Fault.alloc_failure
    else
      let tmp_word_str := (fread_bytes fp1 k k).1
      let j := tmp_word_str.count 0
      match read_word_str_words tmp_word_str n_unigrams 0 0
          (List.replicate n_unigrams none) [] with
      | Except.error f => Except.error f
      | Except.ok (word_str, wid) =>
        Except.ok (word_str, wid, (fread_bytes fp1 k k).2, decide (j ≠ n_unigrams))

/-- The loop `for (i = 0; i < order; i++) fread(&counts[i], ...)` of
`ngram_model_trie_read_bin` (`n` counts remain). -/
def read_bin_counts : Nat → List Nat → List Nat → Except Fault (List Nat × List Nat)
  | 0, fp, counts => Except.ok (counts, fp)
  | n + 1, fp, counts =>
    match fread_field fp 4 with
    | Except.error f => Except.error f
    | Except.ok (c, fp1) => read_bin_counts n fp1 (counts ++ [c])

/-- What `ngram_model_trie_read_bin` has gathered when it returns `base`. -/
structure bin_model where
  n : Nat
  n_counts : List Nat
  word_str : List (Option String)
  wid : List (String × Nat)
deriving DecidableEq

/-- The function `ngram_model_trie_read_bin` on the bytes of the file (`none`
when the file cannot be opened): `Except.ok none` is the return value `NULL`.
With `order = 0` the call of `ngram_model_init` reads `counts[0]`, which was
never written. -/
def ngram_model_trie_read_bin (L : Library) (file : Option (List Nat)) :
    Except Fault (Option bin_model) :=
  match file with
  | none => Except.ok none
  | some fp =>
    if read_bin_cmp_res fp ≠ 0 then Except.ok none
    else
      match fread_field (fread_bytes fp (strlen trie_hdr) (strlen trie_hdr + 1)).2 1 with
      | Except.error f => Except.error f
      | Except.ok (order, fp1) =>
        match read_bin_counts order fp1 [] with
        | Except.error f => Except.error f
        | Except.ok (counts, fp2) =>
          if order = 0 then Except.error Fault.uninitialised_read
          else
            match read_word_str (counts.getD 0 0) (L.lm_trie_read_bin counts order fp2) with
            | Except.error f => Except.error f
            | Except.ok (word_str, wid, _, _) =>
              Except.ok (some ⟨order, counts, word_str, wid⟩)

/-! ## Legacy dump (`ngram_model_trie_read_dmp`) -/

/-- Modelled from the spec: the macro `SWAP_INT32` of `byteorder.h` (not part of
the sources at hand), the reversal of the four bytes of a 32-bit value. -/
def SWAP_INT32 (x : Nat) : Nat :=
  (x % 256) * 2 ^ 24 + (x / 2 ^ 8 % 256) * 2 ^ 16 + (x / 2 ^ 16 % 256) * 2 ^ 8 + x / 2 ^ 24 % 256

/-- The byte-order detection at the head of `ngram_model_trie_read_dmp`, on the
32-bit pattern `k` just read: `none` is `return NULL` ("Wrong magic header size
number"), otherwise the value of `do_swap`. The comparison with
`strlen(dmp_hdr) + 1` is unsigned. -/
def read_dmp_do_swap (k : Nat) : Option Bool :=
  if k ≠ strlen dmp_hdr + 1 then
    if SWAP_INT32 k ≠ strlen dmp_hdr + 1 then none else some true
  else some false

/-- The magic header of `ngram_model_trie_read_dmp`: the length field, the
byte-order detection, then the header string itself; `Except.ok none` is
`return NULL`, otherwise `do_swap` and the rest of the file. -/
def read_dmp_magic (fp : List Nat) : Except Fault (Option (Bool × List Nat)) :=
  match fread_field fp 4 with
  | Except.error f => Except.error f
  | Except.ok (k, fp1) =>
    match read_dmp_do_swap k with
    | none => Except.ok none
    | some do_swap =>
      if (fp1.take 17).length ≠ 17 then Except.ok none
      else if fp1.take 17 ≠ dmp_hdr ++ [0] then Except.ok none
      else Except.ok (some (do_swap, fp1.drop 17))

/-! ## A concrete text library

An instance of `Library` on ASCII text, used to run the embedding on sample
files. -/

/-- The characters `isspace` accepts. -/
def is_space (c : Char) : Bool :=
  c = ' ' || c = '\t' || c = '\n' || c = '\r' || c = Char.ofNat 11 || c = Char.ofNat 12

/-- Whitespace removed at both ends. -/
def ascii_trim (s : String) : String :=
  String.mk ((s.toList.dropWhile is_space).reverse.dropWhile is_space).reverse

/-- The whitespace-separated words of a character list; `cur` is the word being
read, reversed. -/
def ascii_words : List Char → List Char → List String
  | [], cur => if cur.isEmpty then [] else [String.mk cur.reverse]
  | c :: cs, cur =>
    if is_space c then
      if cur.isEmpty then ascii_words cs [] else String.mk cur.reverse :: ascii_words cs []
    else ascii_words cs (c :: cur)

/-- The routine `str2words`: the number of words and the words, `-1` when there
are more than `max` of them. -/
def ascii_str2words (s : String) (max : Nat) : Int × List String :=
  if (ascii_words s.toList []).length > max then (-1, [])
  else (((ascii_words s.toList []).length : Int), ascii_words s.toList [])

/-- The value of a run of decimal digits, with the number of digits read and the
remaining characters. -/
def ascii_digits : List Char → Nat → Nat → Nat × Nat × List Char
  | [], acc, n => (acc, n, [])
  | c :: cs, acc, n =>
    if c.isDigit then ascii_digits cs (acc * 10 + (c.toNat - 48)) (n + 1)
    else (acc, n, c :: cs)

/-- The conversion `%d` of `sscanf`: leading whitespace, an optional sign, at
least one digit. -/
def ascii_scan_int (cs : List Char) : Option (Int × List Char) :=
  match cs.dropWhile is_space with
  | '-' :: rest =>
    if (ascii_digits rest 0 0).2.1 = 0 then none
    else some (-((ascii_digits rest 0 0).1 : Int), (ascii_digits rest 0 0).2.2)
  | rest =>
    if (ascii_digits rest 0 0).2.1 = 0 then none
    else some (((ascii_digits rest 0 0).1 : Int), (ascii_digits rest 0 0).2.2)

/-- The call `sscanf(buf, "ngram %d=%d", ...)` when it converts both fields. -/
def ascii_sscanf_ngram (s : String) : Option (Int × Nat) :=
  match s.toList with
  | 'n' :: 'g' :: 'r' :: 'a' :: 'm' :: rest =>
    match ascii_scan_int rest with
    | some (ngram, '=' :: rest1) =>
      match ascii_scan_int rest1 with
      | some (cnt, _) => some (ngram, cnt.toNat)
      | none => none
    | _ => none
  | _ => none

/-- A decimal number `[-]digits[.digits]` as a rational. -/
def ascii_atof (s : String) : ℚ :=
  let neg := s.toList.head? = some '-'
  let body := if neg then s.toList.drop 1 else s.toList
  let ip := ascii_digits body 0 0
  let fp := match ip.2.2 with
    | '.' :: rest => ascii_digits rest 0 0
    | _ => (0, 0, [])
  let v : ℚ := (ip.1 : ℚ) + (fp.1 : ℚ) / (10 : ℚ) ^ fp.2.1
  if neg then -v else v

/-- The concrete library: ASCII text routines, the natural-log conversion
approximated by the factor `2302585 / 1000000`, maximum order `5`, and a trie
reader that takes the unigram level of an order-1 file (`counts[0] + 1` records
of twelve bytes). -/
def ascii_library : Library where
  string_trim := ascii_trim
  sscanf_ngram := ascii_sscanf_ngram
  str2words := ascii_str2words
  atof_c := ascii_atof
  logmath_log10_to_log_float := fun x => x * (2302585 / 1000000)
  NGRAM_MAX_ORDER := 5
  lm_trie_read_bin := fun counts _ fp => fp.drop (12 * (counts.getD 0 0 + 1))

/-- A text file that declares one unigram and one bigram and ends right after
the `\2-grams:` header. -/
def truncated_arpa_file : List String :=
  ["\\data\\", "ngram 1=1", "ngram 2=1", "", "\\1-grams:", "-1.0 A -0.5", "", "\\2-grams:"]

/-- A text file that declares two unigrams and ends after the first of them. -/
def truncated_unigram_file : List String :=
  ["\\data\\", "ngram 1=2", "", "\\1-grams:", "-1.0 A"]

/-- A text file whose count lines declare the orders 1 and 3. -/
def out_of_sequence_file : List String :=
  ["\\data\\", "ngram 1=1", "ngram 3=1", "", "\\1-grams:", "-1.0 A"]

/-- The lines that follow the `\data\` marker. -/
def lines_after_data (L : Library) (li : List String) : List String :=
  (lineiter_skip_to L "\\data\\" li).drop 1

/-- The declarations `(k, c)` of the leading lines that scan as `ngram k=c`. -/
def ngram_count_lines (L : Library) : List String → List (Int × Nat)
  | [] => []
  | buf :: rest =>
    match L.sscanf_ngram buf with
    | some kc => kc :: ngram_count_lines L rest
    | none => []

/-- A word-string block of four bytes, `a NUL b NUL`, behind its length field. -/
def two_word_block : List Nat := [4, 0, 0, 0, 97, 0, 98, 0]

/-- A private-binary file of order 1 that declares one unigram and carries the
two-word block. -/
def two_word_bin_file : List Nat :=
  trie_hdr ++ [1] ++ [1, 0, 0, 0] ++ List.replicate 24 0 ++ two_word_block

/-! ## Legacy dump: the n-gram sections (`ngrams_raw_read_dmp`) -/

/-- Modelled from the spec: the macro `SWAP_INT16` of `byteorder.h` (not part of
the sources at hand), the exchange of the two bytes of a 16-bit value. -/
def SWAP_INT16 (x : Nat) : Nat := (x % 256) * 2 ^ 8 + x / 2 ^ 8 % 256

/-- The pair `fread(&x, sizeof(x), 1, fp); if (do_swap) SWAP_INT16(&x);` for a
16-bit field. -/
def fread_int16 (fp : List Nat) (do_swap : Bool) : Except Fault (Nat × List Nat) :=
  match fread_field fp 2 with
  | Except.error f => Except.error f
  | Except.ok (x, fp1) => Except.ok (if do_swap then SWAP_INT16 x else x, fp1)

/-- The pair `fread(&x, sizeof(x), 1, fp); if (do_swap) SWAP_INT32(&x);` for a
32-bit field. -/
def fread_int32 (fp : List Nat) (do_swap : Bool) : Except Fault (Nat × List Nat) :=
  match fread_field fp 4 with
  | Except.error f => Except.error f
  | Except.ok (x, fp1) => Except.ok (if do_swap then SWAP_INT32 x else x, fp1)

/-- The value of a 32-bit pattern read as `int32`. -/
def int32_of_bits (x : Nat) : Int := if x < 2 ^ 31 then (x : Int) else (x : Int) - 2 ^ 32

/-- The loop `while (ngram_idx < counts[0] && j == unigram_next[ngram_idx]) ngram_idx++;`
of the bigram loop (`fuel` passes remain): the resulting `ngram_idx`. -/
def dmp_advance_unigram (counts0 : Nat) (unigram_next : List Nat) (j : Nat) : Nat → Nat → Nat
  | 0, ngram_idx => ngram_idx
  | fuel + 1, ngram_idx =>
    if ngram_idx < counts0 ∧ j = unigram_next.getD ngram_idx 0 then
      dmp_advance_unigram counts0 unigram_next j fuel (ngram_idx + 1)
    else ngram_idx

/-- The bigram loop of `ngrams_raw_read_dmp` (`for (j = 0; j <= counts[1]; j++)`,
`n` records remain, the next one is the `j`-th): each record holds the word id,
the two weight indices and the trigram pointer; the weight indices are kept in
the float weights as `index + 0.5`. The result is the array `raw_ngrams[0]` in
file order, `bigrams_next`, the final `ngram_idx` and the rest of the file. -/
def read_dmp_bigrams (counts0 : Nat) (unigram_next : List Nat) (do_swap : Bool) :
    Nat → Nat → Nat → List Nat → List ngram_raw_t → List Nat →
    Except Fault (List ngram_raw_t × List Nat × Nat × List Nat)
  | 0, _, ngram_idx, fp, raw, bigrams_next => Except.ok (raw, bigrams_next, ngram_idx, fp)
  | n + 1, j, ngram_idx, fp, raw, bigrams_next =>
    match fread_int16 fp do_swap with
    | Except.error f => Except.error f
    | Except.ok (wid, fp1) =>
      match fread_int16 fp1 do_swap with
      | Except.error f => Except.error f
      | Except.ok (prob_idx, fp2) =>
        match fread_int16 fp2 do_swap with
        | Except.error f => Except.error f
        | Except.ok (bo_idx, fp3) =>
          match fread_int16 fp3 do_swap with
          | Except.error f => Except.error f
          | Except.ok (next, fp4) =>
            read_dmp_bigrams counts0 unigram_next do_swap n (j + 1)
              (dmp_advance_unigram counts0 unigram_next j counts0 ngram_idx) fp4
              (raw ++ [⟨[wid, dmp_advance_unigram counts0 unigram_next j counts0 ngram_idx - 1],
                [(prob_idx : ℚ) + 1 / 2, (bo_idx : ℚ) + 1 / 2]⟩])
              (bigrams_next ++ [next])

/-- The trigram loop of `ngrams_raw_read_dmp` (`n` records remain): each record
holds the word id and the probability index; `words[1]` and `words[2]` stay zero
for now. -/
def read_dmp_trigrams (do_swap : Bool) :
    Nat → List Nat → List ngram_raw_t → Except Fault (List ngram_raw_t × List Nat)
  | 0, fp, raw => Except.ok (raw, fp)
  | n + 1, fp, raw =>
    match fread_int16 fp do_swap with
    | Except.error f => Except.error f
    | Except.ok (wid, fp1) =>
      match fread_int16 fp1 do_swap with
      | Except.error f => Except.error f
      | Except.ok (prob_idx, fp2) =>
        read_dmp_trigrams do_swap n fp2 (raw ++ [⟨[wid, 0, 0], [(prob_idx : ℚ) + 1 / 2]⟩])

/-- The entries of a table of `k` 32-bit fields held in a buffer, each swapped
when `do_swap` is set. -/
def dmp_table_entries (do_swap : Bool) (buf : List Nat) (k : Nat) : List Nat :=
  (List.range k).map (fun i =>
    if do_swap then SWAP_INT32 (le_value ((buf.drop (4 * i)).take 4))
    else le_value ((buf.drop (4 * i)).take 4))

/-- The second loop of `read_dmp_weight_array` (`n` n-grams remain): the index
kept in `weights[weight_idx]` is replaced by the table entry; the index is
`(int) weights[weight_idx]` and has to lie inside the table. -/
def dmp_resolve_weights (tmp_weight_arr : List ℚ) (weight_idx : Nat) :
    Nat → List ngram_raw_t → Except Fault (List ngram_raw_t)
  | 0, raw => Except.ok raw
  | _ + 1, [] => Except.error Fault.out_of_bounds
  | n + 1, g :: rest =>
    if float_to_int32 (g.weights.getD weight_idx 0) < 0 ∨
        (tmp_weight_arr.length : Int) ≤ float_to_int32 (g.weights.getD weight_idx 0) then
      Except.error Fault.out_of_bounds
    else
      match dmp_resolve_weights tmp_weight_arr weight_idx n rest with
      | Except.error f => Except.error f
      | Except.ok rest1 =>
        Except.ok (⟨g.words, g.weights.set weight_idx
          (tmp_weight_arr.getD (float_to_int32 (g.weights.getD weight_idx 0)).toNat 0)⟩ :: rest1)

/-- The function `read_dmp_weight_array`: the table size `k`, the table (a
zeroed buffer filled by one `fread`), every entry swapped and converted from
log10, then the substitution in the first `counts` n-grams. `float_bits` is the
float value of a 32-bit pattern. -/
def read_dmp_weight_array (float_bits : Nat → ℚ) (L : Library) (fp : List Nat)
    (do_swap : Bool) (counts : Nat) (raw_ngrams : List ngram_raw_t) (weight_idx : Nat) :
    Except Fault (List ngram_raw_t × List Nat) :=
  match fread_int32 fp do_swap with
  | Except.error f => Except.error f
  | Except.ok (k, fp1) =>
    if k ≥ 2 ^ 31 then Except.error Fault.alloc_failure
    else
      match dmp_resolve_weights
          ((dmp_table_entries do_swap (fread_bytes fp1 (4 * k) (4 * k)).1 k).map
            (fun b => L.logmath_log10_to_log_float (float_bits b)))
          weight_idx counts raw_ngrams with
      | Except.error f => Except.error f
      | Except.ok raw1 => Except.ok (raw1, (fread_bytes fp1 (4 * k) (4 * k)).2)

/-- The constant `BIGRAM_SEGMENT_SIZE`. -/
def BIGRAM_SEGMENT_SIZE : Nat := 9

/-- The value `(uint32) (tseg_base[j >> BIGRAM_SEGMENT_SIZE] + bigrams_next[j])`:
the index of the first trigram that follows the trigrams of bigram `j - 1`. -/
def dmp_next_ngram_idx (tseg_base : List Int) (bigrams_next : List Nat) (j : Nat) : Nat :=
  ((tseg_base.getD (j >>> BIGRAM_SEGMENT_SIZE) 0 + (bigrams_next.getD j 0 : Int)) % 2 ^ 32).toNat

/-- The loop `while (ngram_idx < next_ngram_idx)` of the trigram reconstruction
(`fuel` passes remain): the trigrams from `ngram_idx` up to `next_ngram_idx` take
the two words of the bigram `b` as their `words[1]` and `words[2]`; a write
behind the end of the trigram array is out of bounds. -/
def dmp_fill_trigrams (b : ngram_raw_t) (next_ngram_idx : Nat) :
    Nat → Nat → List ngram_raw_t → Except Fault (List ngram_raw_t × Nat)
  | 0, ngram_idx, trigrams => Except.ok (trigrams, ngram_idx)
  | fuel + 1, ngram_idx, trigrams =>
    if ngram_idx < next_ngram_idx then
      if trigrams.length ≤ ngram_idx then Except.error Fault.out_of_bounds
      else
        dmp_fill_trigrams b next_ngram_idx fuel (ngram_idx + 1)
          (trigrams.set ngram_idx
            ⟨(((trigrams.getD ngram_idx ⟨[], []⟩).words.set 1 (b.words.getD 0 0)).set 2
                (b.words.getD 1 0)),
              (trigrams.getD ngram_idx ⟨[], []⟩).weights⟩)
    else Except.ok (trigrams, ngram_idx)

/-- The loop `for (j = 1; j <= counts[1]; j++)` of the trigram reconstruction
(`n` bigrams remain, the next value of `j` is given): `bigrams` is
`raw_ngrams[0]` in file order, `tseg_base` has to hold the segment of `j`. -/
def dmp_attach_trigrams (bigrams : List ngram_raw_t) (tseg_base : List Int)
    (bigrams_next : List Nat) :
    Nat → Nat → Nat → List ngram_raw_t → Except Fault (List ngram_raw_t × Nat)
  | 0, _, ngram_idx, trigrams => Except.ok (trigrams, ngram_idx)
  | n + 1, j, ngram_idx, trigrams =>
    if tseg_base.length ≤ j >>> BIGRAM_SEGMENT_SIZE then Except.error Fault.out_of_bounds
    else
      match dmp_fill_trigrams (bigrams.getD (j - 1) ⟨[], []⟩)
          (dmp_next_ngram_idx tseg_base bigrams_next j)
          (dmp_next_ngram_idx tseg_base bigrams_next j - ngram_idx) ngram_idx trigrams with
      | Except.error f => Except.error f
      | Except.ok (trigrams1, ngram_idx1) =>
        dmp_attach_trigrams bigrams tseg_base bigrams_next n (j + 1) ngram_idx1 trigrams1

/-- The part of `ngrams_raw_read_dmp` that follows `read prob3`: the size `k` of
`tseg_base`, the table itself (every entry swapped), then the reconstruction of
the trigram contexts and the assertion `ngram_idx == counts[2]`. -/
def read_dmp_tseg (fp : List Nat) (do_swap : Bool) (counts1 counts2 : Nat)
    (bigrams : List ngram_raw_t) (bigrams_next : List Nat) (trigrams : List ngram_raw_t) :
    Except Fault (List ngram_raw_t × List Nat) :=
  match fread_int32 fp do_swap with
  | Except.error f => Except.error f
  | Except.ok (k, fp1) =>
    if k ≥ 2 ^ 31 then Except.error Fault.alloc_failure
    else
      match dmp_attach_trigrams bigrams
          ((dmp_table_entries do_swap (fread_bytes fp1 (4 * k) (4 * k)).1 k).map int32_of_bits)
          bigrams_next counts1 1 0 trigrams with
      | Except.error f => Except.error f
      | Except.ok (trigrams1, ngram_idx) =>
        if ngram_idx ≠ counts2 then Except.error Fault.assertion_failed
        else Except.ok (trigrams1, (fread_bytes fp1 (4 * k) (4 * k)).2)

/-- The function `ngrams_raw_read_dmp` up to its final sorting: the arrays
`raw_ngrams[0]` (with `counts[1] + 1` elements, the last one a sentinel) and,
for order 3, `raw_ngrams[1]`, both in file order, and the rest of the file. The
back-off table of the bigrams, the trigram probabilities and `tseg_base` are
read for order 3 only. -/
def ngrams_raw_read_dmp_load (float_bits : Nat → ℚ) (L : Library) (fp : List Nat)
    (counts : List Nat) (order : Nat) (unigram_next : List Nat) (do_swap : Bool) :
    Except Fault (List (List ngram_raw_t) × List Nat) :=
  match read_dmp_bigrams (counts.getD 0 0) unigram_next do_swap (counts.getD 1 0 + 1) 0 1 fp
      [] [] with
  | Except.error f => Except.error f
  | Except.ok (bigrams, bigrams_next, ngram_idx, fp1) =>
    if ngram_idx ≠ counts.getD 0 0 then Except.error Fault.assertion_failed
    else if order > 2 then
      match read_dmp_trigrams do_swap (counts.getD 2 0) fp1 [] with
      | Except.error f => Except.error f
      | Except.ok (trigrams, fp2) =>
        match read_dmp_weight_array float_bits L fp2 do_swap (counts.getD 1 0) bigrams 0 with
        | Except.error f => Except.error f
        | Except.ok (bigrams1, fp3) =>
          match read_dmp_weight_array float_bits L fp3 do_swap (counts.getD 1 0) bigrams1 1 with
          | Except.error f => Except.error f
          | Except.ok (bigrams2, fp4) =>
            match read_dmp_weight_array float_bits L fp4 do_swap (counts.getD 2 0) trigrams 0 with
            | Except.error f => Except.error f
            | Except.ok (trigrams1, fp5) =>
              match read_dmp_tseg fp5 do_swap (counts.getD 1 0) (counts.getD 2 0) bigrams2
                  bigrams_next trigrams1 with
              | Except.error f => Except.error f
              | Except.ok (trigrams2, fp6) => Except.ok ([bigrams2, trigrams2], fp6)
    else
      match read_dmp_weight_array float_bits L fp1 do_swap (counts.getD 1 0) bigrams 0 with
      | Except.error f => Except.error f
      | Except.ok (bigrams1, fp3) => Except.ok ([bigrams1], fp3)

/-- The call `qsort(raw_ngrams, count, ...)` on an array whose elements all carry
their words: the first `count` elements are put in the order of
`ngram_comparator`, the elements behind them stay. -/
def qsort_first (order count : Nat) (arr : List ngram_raw_t) : List ngram_raw_t :=
  (arr.take count).insertionSort (fun a b => ngram_comparator order a b ≤ 0) ++ arr.drop count

/-- The function `ngrams_raw_read_dmp`: the arrays are loaded in file order and
then sorted, the bigrams (without the sentinel) under order 2 and the trigrams
under order 3. -/
def ngrams_raw_read_dmp (float_bits : Nat → ℚ) (L : Library) (fp : List Nat)
    (counts : List Nat) (order : Nat) (unigram_next : List Nat) (do_swap : Bool) :
    Except Fault (List (List ngram_raw_t) × List Nat) :=
  match ngrams_raw_read_dmp_load float_bits L fp counts order unigram_next do_swap with
  | Except.error f => Except.error f
  | Except.ok (raw_ngrams, fp1) =>
    Except.ok
      ((qsort_first 2 (counts.getD 1 0) (raw_ngrams.getD 0 [])) ::
        (if order > 2 then [qsort_first 3 (counts.getD 2 0) (raw_ngrams.getD 1 [])] else []),
        fp1)

/-- The unigram loop of `ngram_model_trie_read_dmp`
(`for (j = 0; j <= counts[0]; j++)`, `n` records remain): a record is the mapping
id (skipped), the probability, the back-off weight and the pointer `bigrams`
into the bigram table, which is also kept in `unigram_next`. -/
def read_dmp_unigrams (float_bits : Nat → ℚ) (L : Library) (do_swap : Bool) :
    Nat → List Nat → List unigram_t → List Nat →
    Except Fault (List unigram_t × List Nat × List Nat)
  | 0, fp, unigrams, unigram_next => Except.ok (unigrams, unigram_next, fp)
  | n + 1, fp, unigrams, unigram_next =>
    match fread_field fp 4 with
    | Except.error f => Except.error f
    | Except.ok (_, fp1) =>
      match fread_int32 fp1 do_swap with
      | Except.error f => Except.error f
      | Except.ok (prob, fp2) =>
        match fread_int32 fp2 do_swap with
        | Except.error f => Except.error f
        | Except.ok (bo, fp3) =>
          match fread_int32 fp3 do_swap with
          | Except.error f => Except.error f
          | Except.ok (bigrams, fp4) =>
            read_dmp_unigrams float_bits L do_swap n fp4
              (unigrams ++ [⟨L.logmath_log10_to_log_float (float_bits prob),
                L.logmath_log10_to_log_float (float_bits bo), bigrams⟩])
              (unigram_next ++ [bigrams])

/-! ## Text-format writer: the n-gram sections (`ngram_model_trie_write_arpa`) -/

/-- An n-gram line of the text format as `ngram_model_trie_write_arpa` prints it:
the probability, the word ids `words[0] .. words[i - 1]` whose strings
`word_str[words[k]]` are printed in this order, and the back-off weight below
the maximum order. -/
structure arpa_ngram_line where
  prob : ℚ
  words : List Nat
  bo : Option ℚ
deriving DecidableEq

/-- The word ids `words[0] .. words[order - 1]` of a raw n-gram. -/
def ngram_tuple (order : Nat) (g : ngram_raw_t) : List Nat :=
  (List.range order).map (fun k => g.words.getD k 0)

/-- The order-`i` section of `ngram_model_trie_write_arpa` for a model of order
`n`: `filled` is the array that `fill_raw_ngram` has filled from the trie (with
`raw_ngram_idx == n_counts[i - 1]` elements); it is sorted by `qsort` under
`ngram_comparator` set to `i`, then every element gives one line. -/
def write_arpa_ngram_section (i n : Nat) (filled : List ngram_raw_t) : List arpa_ngram_line :=
  (filled.insertionSort (fun a b => ngram_comparator i a b ≤ 0)).map
    (fun g => ⟨g.weights.getD 0 0, ngram_tuple i g,
      if i < n then some (g.weights.getD 1 0) else none⟩)

/-- Lexicographic "less or equal" on word-id tuples. -/
def lex_le : List Nat → List Nat → Prop
  | [], _ => True
  | _ :: _, [] => False
  | a :: as, b :: bs => a < b ∨ (a = b ∧ lex_le as bs)


/-! ## The layout of a legacy dump

The bytes that `ngrams_raw_read_dmp` walks over, written out from the records
they encode; the statements about the loader range over all such files. -/

/-- The `size` little-endian bytes of a value. -/
def le_bytes : Nat → Nat → List Nat
  | 0, _ => []
  | size + 1, x => x % 256 :: le_bytes size (x / 256)

/-- The bytes of a field of `size` bytes with value `x` in a file that the loader
reads natively (`do_swap` unset) or with byte swapping (`do_swap` set). -/
def field_bytes (do_swap : Bool) (size x : Nat) : List Nat :=
  if do_swap then (le_bytes size x).reverse else le_bytes size x

/-- A bigram record of the dump: the word id, the indices of the probability and
of the back-off weight, and the pointer into the trigram table (16 bits each). -/
structure dmp_bigram_rec where
  wid : Nat
  prob_idx : Nat
  bo_idx : Nat
  next : Nat
deriving DecidableEq

/-- A trigram record of the dump: the word id and the index of the probability. -/
structure dmp_trigram_rec where
  wid : Nat
  prob_idx : Nat
deriving DecidableEq

/-- The eight bytes of a bigram record. -/
def dmp_bigram_bytes (do_swap : Bool) (r : dmp_bigram_rec) : List Nat :=
  field_bytes do_swap 2 r.wid ++ field_bytes do_swap 2 r.prob_idx ++
    field_bytes do_swap 2 r.bo_idx ++ field_bytes do_swap 2 r.next

/-- The four bytes of a trigram record. -/
def dmp_trigram_bytes (do_swap : Bool) (r : dmp_trigram_rec) : List Nat :=
  field_bytes do_swap 2 r.wid ++ field_bytes do_swap 2 r.prob_idx

/-- The bytes of a table of 32-bit entries: its size, then the entries. -/
def dmp_table_bytes (do_swap : Bool) (entries : List Nat) : List Nat :=
  field_bytes do_swap 4 entries.length ++ entries.flatMap (field_bytes do_swap 4)

/-- The n-gram sections of a dump of order 2 or 3: the bigram records (the last
one is the sentinel), the trigram records, the tables `prob2`, `bo2`, `prob3` of
32-bit float patterns and the table `tseg_base`. -/
structure dmp_sections where
  bigrams : List dmp_bigram_rec
  trigrams : List dmp_trigram_rec
  prob2 : List Nat
  bo2 : List Nat
  prob3 : List Nat
  tseg_base : List Nat
deriving DecidableEq

/-- The bytes of the n-gram sections in the order in which `ngrams_raw_read_dmp`
reads them; the trigram records and the last three tables are present for
order 3 only. -/
def dmp_sections_bytes (do_swap : Bool) (order : Nat) (s : dmp_sections) : List Nat :=
  s.bigrams.flatMap (dmp_bigram_bytes do_swap) ++
    (if order > 2 then s.trigrams.flatMap (dmp_trigram_bytes do_swap) else []) ++
    dmp_table_bytes do_swap s.prob2 ++
    (if order > 2 then
      dmp_table_bytes do_swap s.bo2 ++ dmp_table_bytes do_swap s.prob3 ++
        dmp_table_bytes do_swap s.tseg_base
     else [])

/-- The fields of the records and tables fit their widths. -/
def dmp_sections_fit (s : dmp_sections) : Prop :=
  (∀ r ∈ s.bigrams, r.wid < 2 ^ 16 ∧ r.prob_idx < 2 ^ 16 ∧ r.bo_idx < 2 ^ 16 ∧ r.next < 2 ^ 16) ∧
  (∀ r ∈ s.trigrams, r.wid < 2 ^ 16 ∧ r.prob_idx < 2 ^ 16) ∧
  (∀ b ∈ s.prob2, b < 2 ^ 32) ∧ (∀ b ∈ s.bo2, b < 2 ^ 32) ∧ (∀ b ∈ s.prob3, b < 2 ^ 32) ∧
  (∀ b ∈ s.tseg_base, b < 2 ^ 32) ∧
  s.prob2.length < 2 ^ 31 ∧ s.bo2.length < 2 ^ 31 ∧ s.prob3.length < 2 ^ 31 ∧
  s.tseg_base.length < 2 ^ 31

/-- The unigram pointers of a well-formed dump with `counts0` unigrams and
`counts1` bigrams: `counts0 + 1` pointers, non-decreasing, from `0` to
`counts1`. -/
def dmp_unigram_next_ok (counts0 counts1 : Nat) (unigram_next : List Nat) : Prop :=
  1 ≤ counts0 ∧
  (∀ a b, a ≤ b → b ≤ counts0 → unigram_next.getD a 0 ≤ unigram_next.getD b 0) ∧
  unigram_next.getD 0 0 = 0 ∧ unigram_next.getD counts0 0 = counts1


/-! ## Well-formed dumps and sample inputs -/

/-- The value `first(j) = tseg_base[j >> 9] + bigrams_next[j]` taken from the
sections of a dump: the index of the first trigram of bigram `j`. -/
def dmp_first_trigram (s : dmp_sections) (j : Nat) : Nat :=
  dmp_next_ngram_idx (s.tseg_base.map int32_of_bits) (s.bigrams.map (fun r => r.next)) j

/-- The trigram pointers of a well-formed dump of order 3 with `counts1` bigrams
and `counts2` trigrams: `tseg_base` holds the segment of every bigram, and
`first` is non-decreasing, from `0` to `counts2`. -/
def dmp_trigram_ranges_ok (counts1 counts2 : Nat) (s : dmp_sections) : Prop :=
  counts1 >>> BIGRAM_SEGMENT_SIZE < s.tseg_base.length ∧
  (∀ a b, a ≤ b → b ≤ counts1 → dmp_first_trigram s a ≤ dmp_first_trigram s b) ∧
  dmp_first_trigram s 0 = 0 ∧ dmp_first_trigram s counts1 = counts2

/-- The stored 16-bit indices lie within the tables that the loader reads for a
dump of the given order: `prob2` always, `bo2` and `prob3` for order 3. -/
def dmp_indices_ok (order counts1 : Nat) (s : dmp_sections) : Prop :=
  (∀ r ∈ s.bigrams.take counts1, r.prob_idx < s.prob2.length) ∧
  (order > 2 → (∀ r ∈ s.bigrams.take counts1, r.bo_idx < s.bo2.length) ∧
    ∀ r ∈ s.trigrams, r.prob_idx < s.prob3.length)

/-- The float value of some 32-bit patterns: `0xBF800000` is `-1.0`,
`0xBF000000` is `-0.5`; every other pattern is given the value of the pattern
`0`, which is `0.0`. -/
def binary32_sample (b : Nat) : ℚ :=
  if b = 3212836864 then -1 else if b = 3204448256 then -1 / 2 else 0

/-- The sections of a small dump over two unigrams: the bigram `(0, 1)` with
probability index `0` and back-off index `0`, the sentinel bigram record, the
trigram `(0, 1, 0)`, and tables of one entry each (`prob2` holds `-0.5`, `bo2`
and `prob3` hold `-1.0`, `tseg_base` holds `0`). -/
def minimal_dump_sections : dmp_sections :=
  ⟨[⟨1, 0, 0, 0⟩, ⟨0, 0, 0, 1⟩], [⟨0, 0⟩], [3204448256], [3212836864], [3212836864], [0]⟩

/-- The unigram pointers of the small dump: the bigram belongs to unigram `0`. -/
def minimal_dump_next : List Nat := [0, 1, 1]

/-- The word-id table of the vocabulary of two words. -/
def two_word_wid : List (String × Nat) := [("A", 0), ("B", 1)]

/-- A text file of order 2 whose first bigram line has one word only. -/
def short_bigram_line_file : List String :=
  ["\\data\\", "ngram 1=2", "ngram 2=2", "", "\\1-grams:", "-1.0 A -0.5", "-1.0 B -0.5", "",
    "\\2-grams:", "-0.5 A", "-0.3 A B", "", "\\end\\"]

/-- A text file of order 2 whose only bigram line has one word only. -/
def lone_short_bigram_line_file : List String :=
  ["\\data\\", "ngram 1=2", "ngram 2=1", "", "\\1-grams:", "-1.0 A -0.5", "-1.0 B -0.5", "",
    "\\2-grams:", "-0.5 A", "", "\\end\\"]

/-- A text file of order 1 whose first unigram line has no word. -/
def short_unigram_line_file : List String :=
  ["\\data\\", "ngram 1=2", "", "\\1-grams:", "-1.0", "-2.0 B", "", "\\end\\"]

/-- The lines of a text-format model of order 2 from its last unigram line up to
its only bigram line, followed by the given lines. -/
def bigram_section_then (tail : List String) : List String :=
  ["-1.0 B -0.5", "", "\\2-grams:", "-0.3 A B"] ++ tail

/-- A text file of order 2 that ends right after its last bigram line. -/
def no_end_mark_file : List String :=
  ["\\data\\", "ngram 1=2", "ngram 2=1", "", "\\1-grams:", "-1.0 A -0.5", "-1.0 B -0.5", "",
    "\\2-grams:", "-0.3 A B"]

/-- The words of the slots of raw n-gram arrays, without the weights. -/
def raw_words (raw : List (List (Option ngram_raw_t))) : List (List (Option (List Nat))) :=
  raw.map (fun arr => arr.map (fun slot => slot.map (fun g => g.words)))

/-- A unigram section that lists the word `A` twice. -/
def duplicate_word_lines : List String :=
  ["\\1-grams:", "-1.0 A", "-2.0 B", "-3.0 A"]


/-! ## Weighting and out-of-vocabulary insertion
(`trie_apply_weights`, `ngram_model_trie_score`, `lm_trie_add_ug`) -/

/-- Modelled from the spec: the fields of the base record `ngram_model_t`
(`ngram_model_internal.h`, not part of the sources at hand) that the functions
below read and write: the order `n`, the counts `n_counts`, the size
`n_1g_alloc` of the unigram allocation, the language weight `lw` (a float) and
the logarithm `log_wip` of the word insertion penalty (an `int32`). -/
structure ngram_model_t where
  n : Nat
  n_counts : List Nat
  n_1g_alloc : Nat
  lw : ℚ
  log_wip : Int
deriving DecidableEq

/-- The model `ngram_model_trie_t` with the whole of its base record in view. -/
structure trie_model_t where
  base : ngram_model_t
  trie : lm_trie_t
deriving DecidableEq

/-- The integer nearest to `q`, the even one of the two when `q` lies half-way
between them. -/
def round_half_even (q : ℚ) : Int :=
  if q - ⌊q⌋ < 1 / 2 then ⌊q⌋
  else if 1 / 2 < q - ⌊q⌋ then ⌊q⌋ + 1
  else if ⌊q⌋ % 2 = 0 then ⌊q⌋ else ⌊q⌋ + 1

/-- The exponent of the unit in the last place at the value `x`, in the binary
floating-point format with `prec` significant bits whose least unit is
`2 ^ emin`. -/
def binary_ulp_exp (prec : Nat) (emin : Int) (x : ℚ) : Int :=
  max (Int.log 2 |x| + 1 - prec) emin

/-- The value of the binary floating-point format with `prec` significant bits
and least unit `2 ^ emin` that is nearest to `x`, a tie going to the even
significand: the rounding of IEEE 754 arithmetic in its default mode. Values
beyond the largest finite number, which the format turns into an infinity, are
not represented. -/
def binary_round (prec : Nat) (emin : Int) (x : ℚ) : ℚ :=
  (round_half_even (x / (2 : ℚ) ^ binary_ulp_exp prec emin x) : ℚ) *
    (2 : ℚ) ^ binary_ulp_exp prec emin x

/-- The rounding to `float` (`float32`, IEEE binary32): 24 significant bits. -/
def float32_round (x : ℚ) : ℚ := binary_round 24 (-149) x

/-- The rounding to `double` (IEEE binary64): 53 significant bits. -/
def float64_round (x : ℚ) : ℚ := binary_round 53 (-1074) x

/-- The function `weight_score`: `(int32) (score * base->lw + base->log_wip)`.
`base->lw` is a `float32`, so `score` and `log_wip` are converted to `float` and
the product and the sum are `float` operations, each rounded to `float`; the
cast truncates toward zero (in C it is undefined when the value lies outside the
`int32` range). -/
def weight_score (base : ngram_model_t) (score : Int) : Int :=
  float_to_int32
    (float32_round
      (float32_round (float32_round (score : ℚ) * base.lw) +
        float32_round (base.log_wip : ℚ)))

/-- Modelled from the spec: the macro `NGRAM_IS_CLASSWID` of
`ngram_model_internal.h` (not part of the sources at hand), the test of the top
bit of a 32-bit word id, which is set exactly in the negative `int32` values. -/
def NGRAM_IS_CLASSWID (wid : Int) : Bool := decide (wid < 0)

/-- The call `ckd_realloc(unigrams, sizeof(*unigrams) * n)`: the entries of the
old allocation are kept, the entries behind it are indeterminate and given by
`junk`. -/
def realloc_unigrams (junk : Nat → unigram_t) (unigrams : List unigram_t) (n : Nat) :
    List unigram_t :=
  (List.range n).map (fun i => if i < unigrams.length then unigrams.getD i ⟨0, 0, 0⟩ else junk i)

/-- The call `memset(unigrams + first, 0, count * sizeof(*unigrams))` inside the
allocation. -/
def memset_unigrams (unigrams : List unigram_t) (first count : Nat) : List unigram_t :=
  (List.range unigrams.length).map
    (fun i => if first ≤ i ∧ i < first + count then ⟨0, 0, 0⟩ else unigrams.getD i ⟨0, 0, 0⟩)

/-- The function `lm_trie_add_ug`. The assertion stops a class word id; the
`memset` count `n_1g_alloc - n_counts[0]` is unsigned and wraps when the
allocation is smaller than the count; the entries `wid` and `wid + 1` have to lie
inside the `n_1g_alloc + 1` entries of the new allocation. The quotient
`1.0 / base->n_counts[0]` is a `double` division, `lweight += ...` an `int32`
addition (taken without its overflow, which is undefined in C), and
`(float) lweight` rounds the sum to `float`. The result is the model and the
return value. -/
def lm_trie_add_ug (logmath_log : ℚ → Int) (junk : Nat → unigram_t) (model : trie_model_t)
    (wid lweight : Int) : Except Fault (trie_model_t × Int) :=
  if NGRAM_IS_CLASSWID wid then Except.error Fault.assertion_failed
  else if model.base.n_1g_alloc < model.base.n_counts.getD 0 0 then
    Except.error Fault.out_of_bounds
  else if model.base.n_1g_alloc < wid.toNat + 1 then Except.error Fault.out_of_bounds
  else
    let c := model.base.n_counts.getD 0 0
    let u1 := memset_unigrams
      (realloc_unigrams junk model.trie.unigrams (model.base.n_1g_alloc + 1)) (c + 1)
      (model.base.n_1g_alloc - c)
    let c1 : Nat := (c + 1) % 2 ^ 32
    let lweight1 := lweight + logmath_log (float64_round (1 / (c1 : ℚ)))
    let u2 := u1.set (wid.toNat + 1)
      { u1.getD (wid.toNat + 1) ⟨0, 0, 0⟩ with next := (u1.getD wid.toNat ⟨0, 0, 0⟩).next }
    let u3 := u2.set wid.toNat
      { u2.getD wid.toNat ⟨0, 0, 0⟩ with prob := float32_round (lweight1 : ℚ), bo := 0 }
    let c2 : Nat := if wid.toNat ≥ c1 then wid.toNat + 1 else c1
    let base1 := { model.base with n_counts := model.base.n_counts.set 0 c2 }
    Except.ok ({ base := base1, trie := { model.trie with unigrams := u3 } },
      weight_score base1 lweight1)

/-! ## Writers (`write_word_str`, the head of `ngram_model_trie_write_arpa`, `fill_raw_ngram`) -/

/-- The function `write_word_str`: the `int32` sum `k` of `strlen + 1` over the
first `n_counts[0]` word strings, then every word string with its terminator.
A word string is the list of the bytes of its buffer. -/
def write_word_str (n_counts0 : Nat) (word_str : List (List Nat)) : List Nat :=
  le_bytes 4 (((List.range n_counts0).map (fun i => strlen (word_str.getD i []) + 1)).sum
      % 2 ^ 32) ++
    (List.range n_counts0).flatMap
      (fun i => (word_str.getD i []).takeWhile (fun b => b ≠ 0) ++ [0])

/-- The head of the file that `ngram_model_trie_write_arpa` prints, as the lines
the line iterator hands out: the comment line, `\data\`, one line per order
(`fprintf_ngram i c` is the text of `fprintf(fp, "ngram %d=%d\n", i, c)` without
its newline), the empty line and `\1-grams:`. -/
def write_arpa_header (fprintf_ngram : Int → Nat → String) (n : Nat) (n_counts : List Nat) :
    List String :=
  ["This is an ARPA-format language model file, generated by CMU Sphinx", "\\data\\"] ++
    (List.range n).map (fun i : Nat => fprintf_ngram ((i : Int) + 1) (n_counts.getD i 0)) ++
    ["", "\\1-grams:"]

/-- A rendering of `ngram %d=%d` in decimal digits. -/
def decimal_fprintf_ngram (i : Int) (c : Nat) : String :=
  "ngram " ++ toString i ++ "=" ++ toString c

/-- The loop `for (i = 0; i <= n_hist; i++) raw_ngram->words[i] = hist[n_hist - i];`
of `fill_raw_ngram` (`n` passes remain, the next index is `i`). -/
def fill_raw_ngram_words (hist : List Nat) (n_hist : Nat) : Nat → Nat → List Nat → List Nat
  | 0, _, words => words
  | n + 1, i, words =>
    fill_raw_ngram_words hist n_hist n (i + 1) (words.set i (hist.getD (n_hist - i) 0))

/-- The words of the raw n-gram that the last case of `fill_raw_ngram` emits for
the trie path `hist[0 .. order - 1]` (there `n_hist == order - 1`): the array of
`order` zeroed words, then the loop. -/
def fill_raw_ngram_emit (hist : List Nat) (order : Nat) : List Nat :=
  fill_raw_ngram_words hist (order - 1) order 0 (List.replicate order 0)


/-! ## Sample inputs for the word-adding and merge properties -/

/-- A model of order 2 over two unigrams, with room for ten: the unigram table
holds the two words and the end sentinel, whose `next` is `3`; the higher levels
hold one record; the weights are neutral. -/
def two_unigram_model : trie_model_t :=
  ⟨⟨2, [2, 3], 10, 1, 0⟩, ⟨[⟨-1, -1 / 2, 0⟩, ⟨-2, 0, 2⟩, ⟨0, 0, 3⟩], [⟨[0, 1], -1 / 2, 0⟩]⟩⟩

/-- A stand-in for `logmath_log` that returns `-7` for every argument. -/
def sample_logmath_log : ℚ → Int := fun _ => -7

/-- Indeterminate memory that happens to hold the entry `(9, 9, 9)` everywhere. -/
def sample_junk : Nat → unigram_t := fun _ => ⟨9, 9, 9⟩

/-! ## The merge of `ngrams_raw_fix_counts`, pass by pass -/

/-- The pointer array of the merge after the pointer of the popped order has
advanced (`raw_ngram_ptrs[top->order - 2]++`). -/
def advance_ptr (ptrs : List Nat) (top : ngram_raw_ord_t) : List Nat :=
  ptrs.set (top.order - 2) ((ptrs.getD (top.order - 2) 0 + 1) % 2 ^ 32)

/-- The queue of the merge at the end of a pass: the n-gram the pointer of the
popped order stands at goes back in while that order is not exhausted. -/
def refill_queue (raw_ngrams : List (List ngram_raw_t)) (counts : List Nat)
    (queue : List ngram_raw_ord_t) (ptrs : List Nat) (top : ngram_raw_ord_t) :
    List ngram_raw_ord_t :=
  if ptrs.getD (top.order - 2) 0 < counts.getD (top.order - 1) 0 then
    priority_queue_add queue
      ⟨raw_ngram_at raw_ngrams (top.order - 2) (ptrs.getD (top.order - 2) 0), top.order⟩
  else queue

/-- The queue of the merge holds, for every order that is not exhausted, exactly
the n-gram its pointer stands at (`raw_ngrams[j]` is the array of order `j + 2`
with `counts[j + 1]` elements). -/
def merge_queue_inv (raw_ngrams : List (List ngram_raw_t)) (counts : List Nat) (order : Nat)
    (s : fix_counts_state) : Prop :=
  s.raw_ngram_ptrs.length = order - 1 ∧ s.ngrams.Nodup ∧
  (∀ j, j < order - 1 → s.raw_ngram_ptrs.getD j 0 ≤ counts.getD (j + 1) 0) ∧
  ∀ e, e ∈ s.ngrams ↔
    ∃ j, j < order - 1 ∧ s.raw_ngram_ptrs.getD j 0 < counts.getD (j + 1) 0 ∧
      e = ⟨raw_ngram_at raw_ngrams j (s.raw_ngram_ptrs.getD j 0), j + 2⟩

/-- The n-grams the merge has still to consume: the distance of every pointer
from the end of its array, summed. -/
def merge_remaining (counts : List Nat) (order : Nat) (ptrs : List Nat) : Nat :=
  ((List.range (order - 1)).map (fun j => counts.getD (j + 1) 0 - ptrs.getD j 0)).sum

/-- The arrays as the loaders leave them: `raw_ngrams[j]`, the array of order
`j + 2`, has `counts[j + 1]` elements (a 32-bit count) of `j + 2` words each and
is sorted ascending under `ngram_comparator` set to its order (the `qsort` the
loaders end with). -/
def loaded_raw_ngrams (raw_ngrams : List (List ngram_raw_t)) (counts : List Nat)
    (order : Nat) : Prop :=
  ∀ j, j < order - 1 →
    counts.getD (j + 1) 0 = (raw_ngrams.getD j []).length ∧
    counts.getD (j + 1) 0 < 2 ^ 32 ∧
    (∀ g ∈ raw_ngrams.getD j [], g.words.length = j + 2) ∧
    List.Pairwise (fun a b => ngram_comparator (j + 2) a b ≤ 0) (raw_ngrams.getD j [])

/-- An input that is already reconciled: the first `k` stored words of every
n-gram of a higher order form a tuple of the order-`k` array, for every order
`k = j + 2` below the maximum. -/
def reconciled_raw_ngrams (raw_ngrams : List (List ngram_raw_t)) (order : Nat) : Prop :=
  ∀ m, m < order - 1 → ∀ j, j < m → ∀ g ∈ raw_ngrams.getD m [],
    ∃ q ∈ raw_ngrams.getD j [], ngram_tuple (j + 2) q = ngram_tuple (j + 2) g

/-- The state of the merge over a reconciled input: the counts are untouched,
and for every order that has been popped the tracked words hold the last word
of the n-gram popped last (and the first word too, for order 2), whose tuple is
not above any queued one. -/
def reconciled_merge_inv (raw_ngrams : List (List ngram_raw_t)) (counts : List Nat)
    (order : Nat) (s : fix_counts_state) : Prop :=
  merge_queue_inv raw_ngrams counts order s ∧ s.fixed_counts = counts.take order ∧
  s.words.length = order ∧
  ∀ j, j < order - 1 → 0 < s.raw_ngram_ptrs.getD j 0 →
    s.words.getD (j + 1) 0 =
      (raw_ngram_at raw_ngrams j (s.raw_ngram_ptrs.getD j 0 - 1)).words.getD (j + 1) 0 ∧
    (j = 0 → s.words.getD 0 0 =
      (raw_ngram_at raw_ngrams 0 (s.raw_ngram_ptrs.getD 0 0 - 1)).words.getD 0 0) ∧
    ∀ e ∈ s.ngrams,
      lex_le (ngram_tuple (j + 2) (raw_ngram_at raw_ngrams j (s.raw_ngram_ptrs.getD j 0 - 1)))
        (ngram_tuple e.order e.instance_)

/-- The pairs `(words[0], words[1])` of the n-grams of an array from index `p`
on: the part of the array the merge has not consumed yet. -/
def pending_tuples (arr : List ngram_raw_t) (p : Nat) : Finset (List Nat) :=
  ((arr.drop p).map (ngram_tuple 2)).toFinset

/-- The pair held in the first two slots of the tracked `words`. -/
def tracked_context (s : fix_counts_state) : List Nat :=
  ngram_tuple 2 ⟨s.words, []⟩

/-- The trigram contexts the merge of an order-3 model has still to count: the
pending trigram contexts that are neither the tracked pair nor a pending
bigram. -/
def missing_contexts (bigrams trigrams : List ngram_raw_t) (s : fix_counts_state) : Nat :=
  (pending_tuples trigrams (s.raw_ngram_ptrs.getD 1 0) \
    insert (tracked_context s) (pending_tuples bigrams (s.raw_ngram_ptrs.getD 0 0))).card

/-- The state of the merge of an order-3 model: when the tracked pair is the
context of a pending trigram, every pending bigram is above it; and the tracked
pair is either no pending trigram context or not above any of them. -/
def context_merge_inv (bigrams trigrams : List ngram_raw_t) (counts : List Nat)
    (s : fix_counts_state) : Prop :=
  merge_queue_inv [bigrams, trigrams] counts 3 s ∧ s.words.length = 3 ∧
  1 < s.fixed_counts.length ∧
  (∀ c ∈ pending_tuples trigrams (s.raw_ngram_ptrs.getD 1 0), c = tracked_context s →
    ∀ c1 ∈ pending_tuples bigrams (s.raw_ngram_ptrs.getD 0 0),
      ¬ lex_le c1 (tracked_context s)) ∧
  ((∀ c ∈ pending_tuples trigrams (s.raw_ngram_ptrs.getD 1 0), c ≠ tracked_context s) ∨
    ∀ c ∈ pending_tuples trigrams (s.raw_ngram_ptrs.getD 1 0), lex_le (tracked_context s) c)

/-- The passes the merge of an order-3 model may still need, but for the one
saved when the tracked pair is the context of the pending trigram. -/
def context_merge_pending (counts : List Nat) (s : fix_counts_state) : Nat :=
  (counts.getD 1 0 - s.raw_ngram_ptrs.getD 0 0) +
    2 * (counts.getD 2 0 - s.raw_ngram_ptrs.getD 1 0)

/-- One when the tracked pair is the context of the pending trigram. -/
def context_merge_hit (trigrams : List ngram_raw_t) (counts : List Nat)
    (s : fix_counts_state) : Nat :=
  if s.raw_ngram_ptrs.getD 1 0 < counts.getD 2 0 ∧
      ngram_tuple 2 (trigrams.getD (s.raw_ngram_ptrs.getD 1 0) ⟨[], []⟩) = tracked_context s
  then 1 else 0

instance (raw_ngrams : List (List ngram_raw_t)) (counts : List Nat) (order : Nat) :
    Decidable (loaded_raw_ngrams raw_ngrams counts order) := by
  unfold loaded_raw_ngrams
  infer_instance

instance (raw_ngrams : List (List ngram_raw_t)) (order : Nat) :
    Decidable (reconciled_raw_ngrams raw_ngrams order) := by
  unfold reconciled_raw_ngrams
  infer_instance

/-- An order-3 input that is reconciled: both trigram contexts, `(0, 0)` and
`(1, 0)`, are bigrams. -/
def reconciled_order3_ngrams : List (List ngram_raw_t) :=
  [[raw_of_words [0, 0], raw_of_words [1, 0]], [raw_of_words [0, 0, 0], raw_of_words [1, 0, 1]]]

/-- The bigrams of an order-3 input that lacks a context: `(0, 0)` alone. -/
def sparse_order3_bigrams : List ngram_raw_t := [raw_of_words [0, 0]]

/-- The trigrams of an order-3 input that lacks a context: two of them share the
context `(1, 0)`, which is no bigram. -/
def sparse_order3_trigrams : List ngram_raw_t :=
  [raw_of_words [0, 0, 0], raw_of_words [1, 0, 0], raw_of_words [1, 0, 1]]

/-! ## Count lines outside the supported orders -/

/-- A text file without any count line between `\data\` and `\1-grams:`. -/
def no_counts_file : List String :=
  ["\\data\\", "", "\\1-grams:", "-1.0 A"]

/-- A text file whose count lines declare the orders 1 to 6, one more than the
`NGRAM_MAX_ORDER` of the concrete library. -/
def six_orders_file : List String :=
  ["\\data\\", "ngram 1=1", "ngram 2=1", "ngram 3=1", "ngram 4=1", "ngram 5=1", "ngram 6=1",
    "", "\\1-grams:", "-1.0 A"]

/-! ## Voice activity hangover (`fe_vad_hangover`) -/

/-- The fields of `vad_data_t` that `fe_vad_hangover` tracks (the record is
declared in `fe_internal.h`, not part of the sources at hand): the flag
`in_speech` and the two frame counters, taken without a width. -/
structure vad_data_t where
  in_speech : Nat
  pre_speech_frames : Int
  post_speech_frames : Int
deriving DecidableEq

/-- The function `fe_vad_hangover` as a step on the tracked fields, with the
thresholds `fe->start_speech` and `fe->post_speech` as arguments; the writes to
the pre-speech buffer and its resets (`fe_prespch_*`) are left out. -/
def fe_vad_hangover (start_speech post_speech : Int) (v : vad_data_t) (is_speech : Int) :
    vad_data_t :=
  if is_speech ≠ 0 then
    let v1 := { v with post_speech_frames := 0 }
    if v1.in_speech = 0 then
      let v2 := { v1 with pre_speech_frames := v1.pre_speech_frames + 1 }
      if v2.pre_speech_frames ≥ start_speech then
        { v2 with pre_speech_frames := 0, in_speech := 1 }
      else v2
    else v1
  else
    let v1 := { v with pre_speech_frames := 0 }
    if v1.in_speech ≠ 0 then
      let v2 := { v1 with post_speech_frames := v1.post_speech_frames + 1 }
      if v2.post_speech_frames ≥ post_speech then
        { v2 with post_speech_frames := 0, in_speech := 0 }
      else v2
    else v1

/-- The tracked fields after `fe_vad_hangover` has seen the frames with the
given `is_speech` values, from the zeroed record on. -/
def fe_vad_run (start_speech post_speech : Int) (frames : List Int) : vad_data_t :=
  frames.foldl (fe_vad_hangover start_speech post_speech) ⟨0, 0, 0⟩

/-- The number of speech frames at the end of the frames seen. -/
def trailing_speech (frames : List Int) : Nat :=
  (frames.reverse.takeWhile (fun x => decide (x ≠ 0))).length

/-- The number of non-speech frames at the end of the frames seen. -/
def trailing_silence (frames : List Int) : Nat :=
  (frames.reverse.takeWhile (fun x => decide (x = 0))).length

/-! ## Passes of the merge in `ngrams_raw_fix_counts` -/

/-- The arrays as they are allocated and filled: `raw_ngrams[j]`, the array of
order `j + 2`, has `counts[j + 1]` elements (a 32-bit count) of `j + 2` words
each; nothing is said about their order. -/
def allocated_raw_ngrams (raw_ngrams : List (List ngram_raw_t)) (counts : List Nat)
    (order : Nat) : Prop :=
  ∀ j, j < order - 1 →
    counts.getD (j + 1) 0 = (raw_ngrams.getD j []).length ∧
    counts.getD (j + 1) 0 < 2 ^ 32 ∧
    ∀ g ∈ raw_ngrams.getD j [], g.words.length = j + 2

instance (raw_ngrams : List (List ngram_raw_t)) (counts : List Nat) (order : Nat) :
    Decidable (allocated_raw_ngrams raw_ngrams counts order) := by
  unfold allocated_raw_ngrams
  infer_instance

/-- The state in which the merge loop of `ngrams_raw_fix_counts` starts: the
tracked words all-ones, `fixed_counts` a copy of `counts`, the first n-gram of
every non-empty order queued. -/
def fix_counts_start (raw_ngrams : List (List ngram_raw_t)) (counts : List Nat) (order : Nat) :
    fix_counts_state :=
  fix_counts_init raw_ngrams counts (order - 1) 2
    { ngrams := []
      raw_ngram_ptrs := List.replicate (order - 1) 0
      words := List.replicate order UINT32_MAX
      fixed_counts := counts.take order }

/-- The state of the merge after `n` passes through the body of its loop, when
the loop has not ended before. -/
def fix_counts_passes (raw_ngrams : List (List ngram_raw_t)) (counts : List Nat) :
    Nat → fix_counts_state → Option fix_counts_state
  | 0, s => some s
  | n + 1, s =>
    match fix_counts_step raw_ngrams counts s with
    | none => none
    | some s1 => fix_counts_passes raw_ngrams counts n s1

/-- The passes the merge may still need: an n-gram of order `k` that has not
been consumed stands for `k` passes. -/
def merge_weighted_remaining (counts : List Nat) (order : Nat) (ptrs : List Nat) : Nat :=
  ((List.range (order - 1)).map
    (fun j => (counts.getD (j + 1) 0 - ptrs.getD j 0) * (j + 2))).sum

/-- The number of leading tracked words that agree with the n-gram the queue
hands out next, up to the last but one of its words. -/
def merge_agree (s : fix_counts_state) : Nat :=
  match priority_queue_poll ngram_ord_comparator s.ngrams with
  | none => 0
  | some (top, _) =>
    match fix_counts_first_diff s.words top.instance_.words (top.order - 1) 0 with
    | some i => i
    | none => top.order - 1

/-! ## Trie traversal of the text writer (`fill_raw_ngram`) -/

/-- Modelled from the spec: a record of a middle level of the trie (`middle_t`,
`lm_trie.h` and `bitarr.h` are not part of the sources at hand), reduced to the
two fields `fill_raw_ngram` reads with `bitarr_read_int25`: the word id and the
child-range start `next`. -/
structure middle_rec where
  word : Nat
  next : Nat
deriving DecidableEq

/-- Modelled from the spec: the levels of the trie as `fill_raw_ngram` reads
them: the unigram array with its sentinel, `middle_begin[m]` (the records of
order `m + 2`, the last one a sentinel) and the word ids of the records of
`longest`. -/
structure trie_levels where
  unigrams : List unigram_t
  middle_begin : List (List middle_rec)
  longest : List Nat
deriving DecidableEq

/-- Modelled from the spec: `unigram_find(u, word, &next)` of `lm_trie.c`: the
child range of a unigram starts at its own `next` and ends at the `next` of the
unigram after it. -/
def unigram_find (unigrams : List unigram_t) (word : Nat) : Nat × Nat :=
  ((unigrams.getD word ⟨0, 0, 0⟩).next, (unigrams.getD (word + 1) ⟨0, 0, 0⟩).next)

/-- The record `middle_begin[m]` holds at index `ptr`. -/
def middle_at (trie : trie_levels) (m ptr : Nat) : middle_rec :=
  (trie.middle_begin.getD m []).getD ptr ⟨0, 0⟩

/-- What `fill_raw_ngram` works on: the array `raw_ngrams` (the words of every
slot, `[]` for a slot still zeroed), `*raw_ngram_idx`, the array `hist`, and the
trace of the values of `ptr` at which the last case has read a record. -/
structure fill_state where
  raw_ngrams : List (List Nat)
  raw_ngram_idx : Nat
  hist : List Nat
  visited : List Nat
deriving DecidableEq

/-- The loop `for (ptr = p; ...; ptr++)` with `k` passes left and the body
`body`. -/
def for_range (body : fill_state → Nat → Except Fault fill_state) :
    Nat → Nat → fill_state → Except Fault fill_state
  | 0, _, s => Except.ok s
  | k + 1, p, s =>
    match body s p with
    | Except.ok s1 => for_range body k (p + 1) s1
    | Except.error e => Except.error e

/-- The function `fill_raw_ngram(trie, lmath, raw_ngrams, raw_ngram_idx, counts,
range, hist, n_hist, order, max_order)`, with `fuel` nested calls allowed for. The
weights it reads through the quantizer are left out. A write behind the end of
`raw_ngrams` is a fault. -/
def fill_raw_ngram (trie : trie_levels) (counts : List Nat) (order max_order : Nat) :
    Nat → Nat × Nat → Nat → fill_state → Except Fault fill_state
  | 0, _, _, _ => Except.error Fault.no_return
  | fuel + 1, range, n_hist, s =>
    if n_hist > 0 ∧ range.1 = range.2 then Except.ok s
    else if n_hist = 0 then
      for_range (fun s1 i =>
        fill_raw_ngram trie counts order max_order fuel (unigram_find trie.unigrams i) 1
          { s1 with hist := s1.hist.set 0 i }) (counts.getD 0 0) 0 s
    else if n_hist < order - 1 then
      for_range (fun s1 ptr =>
        fill_raw_ngram trie counts order max_order fuel
          ((middle_at trie (n_hist - 1) ptr).next, (middle_at trie (n_hist - 1) (ptr + 1)).next)
          (n_hist + 1)
          { s1 with hist := s1.hist.set n_hist (middle_at trie (n_hist - 1) ptr).word })
        (range.2 - range.1) range.1 s
    else
      for_range (fun s1 ptr =>
        if s1.raw_ngram_idx < s1.raw_ngrams.length then
          let hist :=
            s1.hist.set n_hist
              (if order = max_order then trie.longest.getD ptr 0
               else (middle_at trie (n_hist - 1) ptr).word)
          Except.ok
            { raw_ngrams := s1.raw_ngrams.set s1.raw_ngram_idx (fill_raw_ngram_emit hist order)
              raw_ngram_idx := (s1.raw_ngram_idx + 1) % 2 ^ 32
              hist := hist
              visited := s1.visited ++ [ptr] }
        else Except.error Fault.out_of_bounds)
        (range.2 - range.1) range.1 s

/-- The part of `ngram_model_trie_write_arpa` that fills the array of order `i`
of a model of order `n` from the trie, up to the assertion
`raw_ngram_idx == base->n_counts[i - 1]`; `hist` is the content of the
uninitialised local array. -/
def write_arpa_fill (trie : trie_levels) (n_counts : List Nat) (n i : Nat) (hist : List Nat) :
    Except Fault fill_state :=
  match fill_raw_ngram trie n_counts i n i (0, 0) 0
      ⟨List.replicate (n_counts.getD (i - 1) 0) [], 0, hist, []⟩ with
  | Except.ok s =>
    if s.raw_ngram_idx = n_counts.getD (i - 1) 0 then Except.ok s
    else Except.error Fault.assertion_failed
  | Except.error e => Except.error e

/-- The `next` fields of a level of `c` records and a sentinel: they start
at 0, do not decrease, and the sentinel is the record count `c_next` of the next
level. -/
def next_ranges (next : Nat → Nat) (c c_next : Nat) : Prop :=
  next 0 = 0 ∧ next c = c_next ∧ ∀ p, p < c → next p ≤ next (p + 1)

instance (next : Nat → Nat) (c c_next : Nat) : Decidable (next_ranges next c c_next) := by
  unfold next_ranges
  infer_instance

/-- The range invariant of a trie of order `n` with the counts `n_counts`, for
the unigram level and every middle level. -/
def range_invariant (trie : trie_levels) (n_counts : List Nat) (n : Nat) : Prop :=
  next_ranges (fun p => (trie.unigrams.getD p ⟨0, 0, 0⟩).next) (n_counts.getD 0 0)
    (n_counts.getD 1 0) ∧
  ∀ m, m < n - 2 →
    next_ranges (fun p => (middle_at trie m p).next) (n_counts.getD (m + 1) 0)
      (n_counts.getD (m + 2) 0)

instance (trie : trie_levels) (n_counts : List Nat) (n : Nat) :
    Decidable (range_invariant trie n_counts n) := by
  unfold range_invariant
  infer_instance

/-- The index in the level of order `h + d + 1` at which the descendants of
the record `x` of the level of order `h + 1` start. -/
def leaf_boundary (trie : trie_levels) : Nat → Nat → Nat → Nat
  | 0, _, x => x
  | d + 1, h, x => leaf_boundary trie d (h + 1) (middle_at trie (h - 1) x).next

/-- A trie of order 3 with two unigrams, two bigrams and three trigrams. -/
def small_trie : trie_levels :=
  { unigrams := [⟨0, 0, 0⟩, ⟨0, 0, 1⟩, ⟨0, 0, 2⟩]
    middle_begin := [[⟨1, 0⟩, ⟨0, 2⟩, ⟨0, 3⟩]]
    longest := [0, 1, 0] }

/-! ## Examples for the rounding of scores and for unigram sections -/

/-- C1. `ngrams_raw_fix_counts` on order-4 inputs that are sorted and
duplicate-free: the 4-grams `(0,0,0,0)` and `(1,0,0,0)` need the two trigram
nodes `(0,0,0)` and `(1,0,0)`, but the corrected trigram count is `1`: after the
bigram-level words change, the stale third tracked word still matches. The same
happens when the bigrams and a trigram are present. -/
theorem fix_counts_order4_stale_context :
    (∀ k < 3, sorted_raw_ngrams (k + 2) (sparse_order4_ngrams.getD k [])) ∧
    ngrams_raw_fix_counts sparse_order4_ngrams [2, 0, 0, 2] 4 = some [2, 2, 1, 2] ∧
    (context_tuples sparse_order4_ngrams 3).length = 2 ∧
    (∀ k < 3, sorted_raw_ngrams (k + 2) (dense_order4_ngrams.getD k [])) ∧
    ngrams_raw_fix_counts dense_order4_ngrams [2, 2, 1, 2] 4 = some [2, 2, 1, 2] ∧
    (context_tuples dense_order4_ngrams 3).length = 2 := by
  refine ⟨by decide, by decide, by decide, by decide, by decide, by decide⟩

theorem float_to_int32_intCast (z : Int) : float_to_int32 (z : ℚ) = z := by
  unfold float_to_int32
  split <;> simp

theorem raw_score_three_word_eval :
    ngram_model_trie_raw_score three_word_model 0 [1, 2] 2 = (-16, 1) := by
  have h : raw_score_n_hist three_word_model [1, 2] 2 = 2 := by decide
  have hs : lm_trie_score three_word_model.trie three_word_model.n 0 [1, 2] 2 =
      (((-16 : Int) : ℚ), 1) := by
    simp [lm_trie_score, lm_trie_score_from, lm_trie_find, lm_trie_backoff, three_word_model]
    norm_num
  simp only [ngram_model_trie_raw_score, h, hs, float_to_int32_intCast]

theorem raw_score_example_eval :
    ngram_model_trie_raw_score scoring_example_model 0 [1] 1 = (0, 2) := by
  have h : raw_score_n_hist scoring_example_model [1] 1 = 1 := by decide
  have hs : lm_trie_score scoring_example_model.trie scoring_example_model.n 0 [1] 1 =
      (-1 / 2, 2) := by
    simp [lm_trie_score, lm_trie_score_from, lm_trie_find, scoring_example_model]
  have hc : ⌈(-1 / 2 : ℚ)⌉ = 0 := by
    rw [Int.ceil_eq_iff]
    norm_num
  have hf : float_to_int32 (-1 / 2 : ℚ) = 0 := by
    unfold float_to_int32
    rw [if_neg (by norm_num), hc]
  simp only [ngram_model_trie_raw_score, h, hs, hf]

/-- C2, as stated, fails on two inputs. On the order-3 model `three_word_model`
the query "`A` after `[B, C]`" has no bigram record "`A` after `B`" while the
unigram `A` is there (`k = 2`), yet the score is `-16 = -10 + (-2) + (-4)`: the
back-offs of both skipped contexts are added, not only the `-2` of the context
`[B]`, which would give `-12`. On the model of the scoring example, whose bigram
"`A` after `B`" has log-probability `-1/2`, the `int32` result is `0`. -/
theorem raw_score_not_single_backoff :
    lm_trie_find three_word_model.trie [0, 1] = none ∧
    lm_trie_prob three_word_model.trie 0 [] = some (-10) ∧
    lm_trie_backoff three_word_model.trie [1] = -2 ∧
    ngram_model_trie_raw_score three_word_model 0 [1, 2] 2 = (-16, 1) ∧
    ngram_model_trie_raw_score three_word_model 0 [1, 2] 2 ≠
      (float_to_int32 (-10 + lm_trie_backoff three_word_model.trie [1]), 2 - 1) ∧
    lm_trie_prob scoring_example_model.trie 0 [1] = some (-1 / 2) ∧
    ngram_model_trie_raw_score scoring_example_model 0 [1] 1 = (0, 2) ∧
    ((0 : Int) : ℚ) ≠ -1 / 2 := by
  have hb : lm_trie_backoff three_word_model.trie [1] = -2 := rfl
  have hsum : (-10 : ℚ) + -2 = ((-12 : Int) : ℚ) := by norm_num
  refine ⟨by decide, rfl, hb, raw_score_three_word_eval, ?_, rfl,
    raw_score_example_eval, by norm_num⟩
  rw [raw_score_three_word_eval, hb, hsum, float_to_int32_intCast]
  decide

/-- C2, amended. When the history that `ngram_model_trie_raw_score` hands on
(`n_hist` capped at `n - 1` and cut at the first negative id) has exactly `k - 1`
words, the word `wid` has no order-`k` record after the context `hist[0..k-2]`
and has the order-`(k-1)` record with log-probability `p` after `hist[0..k-3]`,
the result is the `int32` truncation of `p` plus the back-off weight of the
context `hist[0..k-2]`, and `n_used = k - 1`. -/
theorem raw_score_backs_off_one_level (model : ngram_model_trie_t) (wid : Int)
    (hist : List Int) (n_hist : Int) (k : Nat) (p : ℚ)
    (hk : 2 ≤ k)
    (hlen : k - 1 ≤ hist.length)
    (heff : raw_score_n_hist model hist n_hist = (k : Int) - 1)
    (hmiss : lm_trie_find model.trie (wid.toNat :: (hist.map Int.toNat).take (k - 1)) = none)
    (hhit : lm_trie_prob model.trie wid.toNat ((hist.map Int.toNat).take (k - 2)) = some p) :
    ngram_model_trie_raw_score model wid hist n_hist =
      (float_to_int32 (p + lm_trie_backoff model.trie ((hist.map Int.toNat).take (k - 1))),
        k - 1) := by
  obtain ⟨m, rfl⟩ : ∃ m, k = m + 2 := ⟨k - 2, by omega⟩
  have hn : ((m + 2 : Nat) : Int) - 1 = ((m + 1 : Nat) : Int) := by
    push_cast
    ring
  simp only [Nat.add_sub_cancel, show m + 2 - 1 = m + 1 from rfl] at hmiss hhit hlen ⊢
  have hlow : lm_trie_score_from model.trie wid.toNat (hist.map Int.toNat) m = (p, m + 1) := by
    cases m with
    | zero =>
      simp only [List.take_zero, lm_trie_prob, Option.map_eq_some'] at hhit
      obtain ⟨u, hu, hp⟩ := hhit
      simp only [lm_trie_score_from, List.getD_eq_getElem?_getD]
      rw [List.get?_eq_getElem?] at hu
      simp [hu, hp]
    | succ m1 =>
      have hl : m1 + 1 ≤ (hist.map Int.toNat).length := by
        simp only [List.length_map]
        omega
      obtain ⟨w, ctx, hctx⟩ : ∃ w ctx, (hist.map Int.toNat).take (m1 + 1) = w :: ctx := by
        cases hh : (hist.map Int.toNat).take (m1 + 1) with
        | nil =>
          have := congrArg List.length hh
          simp only [List.length_take, List.length_nil] at this
          omega
        | cons w ctx => exact ⟨w, ctx, rfl⟩
      rw [hctx] at hhit
      simp only [lm_trie_prob, Option.map_eq_some'] at hhit
      obtain ⟨e, he, hp⟩ := hhit
      simp only [lm_trie_score_from, hctx, he, hp]
  simp only [ngram_model_trie_raw_score, heff, hn, lm_trie_score, Int.toNat_ofNat,
    lm_trie_score_from, hmiss, hlow]

theorem raw_score_backs_off_one_level_witness :
    ngram_model_trie_raw_score scoring_example_model 0 [2] 1 =
      (float_to_int32 (-1 + lm_trie_backoff scoring_example_model.trie [2]), 1) ∧
    lm_trie_backoff scoring_example_model.trie [2] = -3 / 10 :=
  ⟨raw_score_backs_off_one_level scoring_example_model 0 [2] 1 2 (-1) (by decide) (by decide)
    (by decide) (by simp [lm_trie_find, scoring_example_model]) rfl, rfl⟩

theorem read_ngram_words_spec (wid : List (String × Nat)) (wptr : List String) (order : Nat)
    (ids : Nat → Nat)
    (hid : ∀ i, 1 ≤ i → i ≤ order → hash_table_lookup wid (wptr.getD i "") = some (ids i))
    (n : Nat) : ∀ (i : Nat) (words : List Nat), 1 ≤ i → i + n = order + 1 →
      words.length = order →
      (read_ngram_words wid wptr order n i words).length = order ∧
      ∀ j < order, (read_ngram_words wid wptr order n i words).getD j 0 =
        if j + i ≤ order then ids (order - j) else words.getD j 0 := by
  induction n with
  | zero =>
    intro i words _ hin hlen
    refine ⟨hlen, fun j hj => ?_⟩
    have : ¬ (j + i ≤ order) := by omega
    simp [read_ngram_words, this]
  | succ n ih =>
    intro i words hi hin hlen
    have hio : i ≤ order := by omega
    simp only [read_ngram_words, hid i hi hio]
    obtain ⟨h1, h2⟩ := ih (i + 1) (words.set (order - i) (ids i)) (by omega) (by omega)
      (by simp [hlen])
    refine ⟨h1, fun j hj => ?_⟩
    rw [h2 j hj]
    by_cases hc1 : j + (i + 1) ≤ order
    · have : j + i ≤ order := by omega
      simp [hc1, this]
    · by_cases hc2 : j + i ≤ order
      · have hji : order - i = j := by omega
        have hoj : order - j = i := by omega
        simp only [hc1, hc2, ↓reduceIte, hji, hoj]
        simp [List.getD_eq_getElem?_getD, List.getElem?_set, hlen, hj]
      · have hne : order - i ≠ j := by omega
        simp only [hc1, hc2, ↓reduceIte]
        simp [List.getD_eq_getElem?_getD, List.getElem?_set, hne]

/-- C4. For a line of any order `k` (`k ≥ 2` in the loader) with at least `k + 1`
words (the probability and the word tokens `t_1 .. t_k = wptr[1] .. wptr[k]`, each with an id in the
vocabulary), `read_ngram_instance` stores `words[j] = id(t_(k-j))` for every
`j < k`: index `0` holds the last word of the line, index `k - 1` the first. -/
theorem read_ngram_instance_reverses_words (L : Library) (li : List String) (buf : String)
    (rest : List String) (wid : List (String × Nat)) (order order_max : Nat) (n : Int)
    (wptr : List String) (ids : Nat → Nat)
    (hnext : lineiter_next li = Except.ok (buf :: rest))
    (hwords : L.str2words (L.string_trim buf) (L.NGRAM_MAX_ORDER + 1) = (n, wptr))
    (hn : (order : Int) + 1 ≤ n)
    (hid : ∀ i, 1 ≤ i → i ≤ order →
      hash_table_lookup wid (wptr.getD i "") = some (ids i)) :
    ∃ raw, read_ngram_instance L li wid order order_max =
        Except.ok (L.string_trim buf :: rest, some raw) ∧
      raw.words.length = order ∧
      ∀ j < order, raw.words.get? j = some (ids (order - j)) := by
  obtain ⟨h1, h2⟩ := read_ngram_words_spec wid wptr order ids hid order 1
    (List.replicate order 0) (le_refl 1) (by omega) (by simp)
  have hnot : ¬ (n < (order : Int) + 1) := by omega
  simp only [read_ngram_instance, hnext, hwords, hnot, ↓reduceIte]
  refine ⟨_, rfl, h1, ?_⟩
  · intro j hj
    have h3 := h2 j hj
    have hle : j + 1 ≤ order := by omega
    simp only [hle, ↓reduceIte] at h3
    have hjl : j < (read_ngram_words wid wptr order order 1 (List.replicate order 0)).length := by
      omega
    show (read_ngram_words wid wptr order order 1 (List.replicate order 0)).get? j = _
    rw [List.get?_eq_getElem?, List.getElem?_eq_getElem hjl]
    rw [List.getD_eq_getElem?_getD, List.getElem?_eq_getElem hjl] at h3
    simpa using h3

theorem read_ngram_instance_reverses_words_witness :
    ∃ raw, read_ngram_instance ascii_library ["\\2-grams:", "-0.5 B A"] [("A", 0), ("B", 1)] 2 2 =
        Except.ok (ascii_library.string_trim "-0.5 B A" :: [], some raw) ∧
      raw.words.length = 2 ∧
      ∀ j < 2, raw.words.get? j = some ((fun i => if i = 1 then 1 else 0) (2 - j)) :=
  read_ngram_instance_reverses_words ascii_library ["\\2-grams:", "-0.5 B A"] "-0.5 B A" []
    [("A", 0), ("B", 1)] 2 2 3 ["-0.5", "B", "A"] (fun i => if i = 1 then 1 else 0)
    rfl (by decide) (by decide)
    (by
      intro i h1 h2
      interval_cases i <;> decide)

theorem lineiter_skip_to_absent (L : Library) (marker : String) (lines : List String)
    (h : ∀ l ∈ lines, L.string_trim l ≠ marker) : lineiter_skip_to L marker lines = [] := by
  induction lines with
  | nil => rfl
  | cons buf rest ih =>
    have h1 : L.string_trim buf ≠ marker := h buf (List.mem_cons_self _ _)
    have h2 : ∀ l ∈ rest, L.string_trim l ≠ marker :=
      fun l hl => h l (List.mem_cons_of_mem _ hl)
    simp [lineiter_skip_to, h1, ih h2]

/-- C5. Without a line that equals `\data\` once trimmed, `read_counts_arpa`
returns `-1` and `ngram_model_trie_read_arpa` returns `NULL`. -/
theorem read_arpa_without_data_marker (L : Library) (lines : List String)
    (h : ∀ l ∈ lines, L.string_trim l ≠ "\\data\\") :
    read_counts_arpa L (lineiter_start lines) = none ∧
    ngram_model_trie_read_arpa L (some lines) = Except.ok none := by
  have h0 : read_counts_arpa L (lineiter_start lines) = none := by
    simp [read_counts_arpa, lineiter_start, lineiter_skip_to_absent L _ lines h]
  exact ⟨h0, by simp [ngram_model_trie_read_arpa, h0]⟩

theorem read_arpa_without_data_marker_witness :
    (∀ l ∈ ["ngram 1=1", "", "\\1-grams:", "-1.0 A"],
      ascii_library.string_trim l ≠ "\\data\\") ∧
    read_counts_arpa ascii_library
      (lineiter_start ["ngram 1=1", "", "\\1-grams:", "-1.0 A"]) = none ∧
    ngram_model_trie_read_arpa ascii_library
      (some ["ngram 1=1", "", "\\1-grams:", "-1.0 A"]) = Except.ok none :=
  ⟨by decide, read_arpa_without_data_marker ascii_library _ (by decide)⟩

theorem read_counts_lines_spec (L : Library) (lines : List String) (prev : Int)
    (counts : List Nat) :
    (((ngram_count_lines L lines).map Prod.fst ≠
        (List.range (ngram_count_lines L lines).length).map
          (fun i : Nat => prev + 1 + (i : Int))) →
      read_counts_lines L lines prev counts = none) ∧
    (∀ li2 counts2, read_counts_lines L lines prev counts = some (li2, counts2) →
      counts2 = counts ++ (ngram_count_lines L lines).map Prod.snd ∧
      (ngram_count_lines L lines).map Prod.fst =
        (List.range (ngram_count_lines L lines).length).map
          (fun i : Nat => prev + 1 + (i : Int))) := by
  induction lines generalizing prev counts with
  | nil => simp [ngram_count_lines, read_counts_lines]
  | cons buf rest ih =>
    cases hs : L.sscanf_ngram buf with
    | none => simp [ngram_count_lines, read_counts_lines, hs]
    | some kc =>
      obtain ⟨ngram, cnt⟩ := kc
      have hrange : ∀ n : Nat, (List.range (n + 1)).map (fun i : Nat => prev + 1 + (i : Int)) =
          (prev + 1) :: (List.range n).map (fun i : Nat => prev + 1 + 1 + (i : Int)) := by
        intro n
        rw [List.range_succ_eq_map]
        simp only [List.map_cons, List.map_map, Nat.cast_zero, add_zero, List.cons.injEq, true_and]
        apply List.map_congr_left
        intro i _
        simp only [Function.comp_apply, Nat.cast_succ]
        ring
      by_cases hseq : ngram = prev + 1
      · subst hseq
        obtain ⟨ih1, ih2⟩ := ih (prev + 1) (counts ++ [cnt])
        constructor
        · intro hne
          simp only [read_counts_lines, hs, ne_eq, not_true_eq_false, ↓reduceIte]
          apply ih1
          intro heq
          apply hne
          simp only [ngram_count_lines, hs, List.map_cons, List.length_cons, hrange]
          rw [heq]
        · intro li2 counts2 hres
          simp only [read_counts_lines, hs, ne_eq, not_true_eq_false, ↓reduceIte] at hres
          obtain ⟨h1, h2⟩ := ih2 li2 counts2 hres
          constructor
          · simp [ngram_count_lines, hs, h1]
          · simp only [ngram_count_lines, hs, List.map_cons, List.length_cons, hrange]
            rw [h2]
      · constructor
        · intro _
          simp [read_counts_lines, hs, hseq]
        · intro li2 counts2 hres
          simp [read_counts_lines, hs, hseq] at hres

theorem lineiter_skip_to_present (L : Library) (marker : String) (lines : List String)
    (h : ∃ l ∈ lines, L.string_trim l = marker) : lineiter_skip_to L marker lines ≠ [] := by
  induction lines with
  | nil => simp at h
  | cons buf rest ih =>
    by_cases hb : L.string_trim buf = marker
    · simp [lineiter_skip_to, hb]
    · simp only [lineiter_skip_to, hb, ↓reduceIte]
      apply ih
      obtain ⟨l, hl, hl2⟩ := h
      rcases List.mem_cons.mp hl with h1 | h1
      · exact absurd (h1 ▸ hl2) hb
      · exact ⟨l, h1, hl2⟩

/-- C6. `read_counts_arpa` on an input that holds the `\data\` marker: when the
orders declared by the `ngram k=c` lines that follow the marker are not
`1, 2, 3, ...` it returns `-1`; when it returns `0`, the order is the number of
those lines and line `i` declares order `i + 1` with count `counts[i]`. -/
theorem read_counts_arpa_sequence (L : Library) (li : List String)
    (hmark : ∃ l ∈ li, L.string_trim l = "\\data\\") :
    (((ngram_count_lines L (lines_after_data L li)).map Prod.fst ≠
        (List.range (ngram_count_lines L (lines_after_data L li)).length).map
          (fun i : Nat => (i : Int) + 1)) →
      read_counts_arpa L li = none) ∧
    (∀ li3 counts order, read_counts_arpa L li = some (li3, counts, order) →
      order = (ngram_count_lines L (lines_after_data L li)).length ∧
      ∀ i < order, (ngram_count_lines L (lines_after_data L li)).get? i =
        some ((i : Int) + 1, counts.getD i 0)) := by
  obtain ⟨h1, h2⟩ := read_counts_lines_spec L (lines_after_data L li) 0 []
  have hfun : (fun i : Nat => (0 : Int) + 1 + (i : Int)) = (fun i : Nat => (i : Int) + 1) := by
    funext i
    ring
  rw [hfun] at h1 h2
  cases hskip : lineiter_skip_to L "\\data\\" li with
  | nil =>
    exact absurd hskip (lineiter_skip_to_present L _ li hmark)
  | cons marker rest =>
    have hrest : lines_after_data L li = rest := by simp [lines_after_data, hskip]
    rw [hrest] at h1 h2
    rw [hrest]
    constructor
    · intro hne
      simp [read_counts_arpa, hskip, h1 hne]
    · intro li3 counts order hres
      simp only [read_counts_arpa, hskip] at hres
      cases hloop : read_counts_lines L rest 0 [] with
      | none => simp [hloop] at hres
      | some r =>
        obtain ⟨li2, counts2⟩ := r
        obtain ⟨hc, hk⟩ := h2 li2 counts2 hloop
        simp only [List.nil_append] at hc
        cases li2 with
        | nil => simp [hloop] at hres
        | cons b2 rest2 =>
          simp only [hloop] at hres
          cases h3 : lineiter_skip_to L "\\1-grams:" rest2 with
          | nil => simp [h3] at hres
          | cons b3 rest3 =>
            simp only [h3, Option.some.injEq, Prod.mk.injEq] at hres
            obtain ⟨_, hcounts, horder⟩ := hres
            subst hcounts
            subst horder
            constructor
            · simp [hc]
            · intro i hi
              have hlen : (ngram_count_lines L rest).length = counts2.length := by simp [hc]
              have hi2 : i < (ngram_count_lines L rest).length := by omega
              have hfst := congrArg (fun l => l.get? i) hk
              have hsnd := congrArg (fun l => l.get? i) hc
              simp only [List.get?_eq_getElem?, List.getElem?_map, List.getElem?_range hi2,
                Option.map_some'] at hfst hsnd
              rw [List.get?_eq_getElem?]
              rw [List.getElem?_eq_getElem hi2] at hfst hsnd ⊢
              simp only [Option.map_some', Option.some.injEq] at hfst
              rw [List.getElem?_eq_getElem hi] at hsnd
              simp only [Option.map_some', Option.some.injEq] at hsnd
              rw [List.getD_eq_getElem _ _ hi, hsnd, ← hfst]

theorem read_counts_arpa_sequence_witness :
    (∃ l ∈ truncated_arpa_file, ascii_library.string_trim l = "\\data\\") ∧
    (∃ l ∈ out_of_sequence_file, ascii_library.string_trim l = "\\data\\") ∧
    read_counts_arpa ascii_library out_of_sequence_file = none ∧
    read_counts_arpa ascii_library truncated_arpa_file =
      some (["\\1-grams:", "-1.0 A -0.5", "", "\\2-grams:"], [1, 1], 2) ∧
    (2 = (ngram_count_lines ascii_library
          (lines_after_data ascii_library truncated_arpa_file)).length ∧
      ∀ i < 2, (ngram_count_lines ascii_library
          (lines_after_data ascii_library truncated_arpa_file)).get? i =
        some ((i : Int) + 1, [1, 1].getD i 0)) :=
  ⟨⟨"\\data\\", by decide, by decide⟩, ⟨"\\data\\", by decide, by decide⟩,
    (read_counts_arpa_sequence ascii_library out_of_sequence_file
      ⟨"\\data\\", by decide, by decide⟩).1 (by decide),
    by decide,
    (read_counts_arpa_sequence ascii_library truncated_arpa_file
      ⟨"\\data\\", by decide, by decide⟩).2
      ["\\1-grams:", "-1.0 A -0.5", "", "\\2-grams:"] [1, 1] 2 (by decide)⟩

/-- C7. Two files that end before the declared n-grams have been read: the
first stops right after the `\2-grams:` header (one bigram declared), the second
after one of two declared unigrams. `read_counts_arpa` accepts both; the loader
then reports the end of the file, goes on, and dereferences the `NULL` iterator
(first file) or the `NULL` word string (second file); it does not return
`NULL`. -/
theorem read_arpa_truncated_file_goes_on :
    read_counts_arpa ascii_library truncated_arpa_file =
      some (["\\1-grams:", "-1.0 A -0.5", "", "\\2-grams:"], [1, 1], 2) ∧
    ngrams_raw_read_order ascii_library ["", "\\2-grams:"] [("A", 0)] 1 2 2 =
      Except.ok ([], [none]) ∧
    ngram_model_trie_read_arpa ascii_library (some truncated_arpa_file) =
      Except.error Fault.null_deref ∧
    ngram_model_trie_read_arpa ascii_library (some truncated_arpa_file) ≠ Except.ok none ∧
    (read_1grams_lines ascii_library 2 0 ["\\1-grams:", "-1.0 A"]
        (List.replicate 3 ⟨0, 0, 0⟩) (List.replicate 2 none)).map (fun r => (r.1, r.2.2)) =
      Except.ok ([], [some "A", none]) ∧
    ngram_model_trie_read_arpa ascii_library (some truncated_unigram_file) =
      Except.error Fault.null_deref ∧
    ngram_model_trie_read_arpa ascii_library (some truncated_unigram_file) ≠ Except.ok none := by
  have h1 : ngram_model_trie_read_arpa ascii_library (some truncated_arpa_file) =
      Except.error Fault.null_deref := rfl
  have h2 : ngram_model_trie_read_arpa ascii_library (some truncated_unigram_file) =
      Except.error Fault.null_deref := rfl
  refine ⟨by decide, rfl, h1, ?_, rfl, h2, ?_⟩
  · rw [h1]
    intro h
    cases h
  · rw [h2]
    intro h
    cases h

/-- Once `read_counts_arpa` has returned `0`, no path of
`ngram_model_trie_read_arpa` returns `NULL`. -/
theorem read_arpa_null_only_from_counts (L : Library) (lines : List String)
    (h : read_counts_arpa L (lineiter_start lines) ≠ none) :
    ngram_model_trie_read_arpa L (some lines) ≠ Except.ok none := by
  cases hc : read_counts_arpa L (lineiter_start lines) with
  | none => exact absurd hc h
  | some r =>
    obtain ⟨li, counts, order⟩ := r
    simp only [ngram_model_trie_read_arpa, hc]
    repeat' split
    all_goals simp

theorem strcmp_eq_zero_iff (a b : List Nat) (hb : ∀ x ∈ b, x ≠ 0) :
    strcmp a b = 0 ↔ a.takeWhile (fun x => x ≠ 0) = b := by
  induction a generalizing b with
  | nil =>
    cases b with
    | nil => simp [strcmp]
    | cons x bs =>
      have hx : x ≠ 0 := hb x (List.mem_cons_self _ _)
      simp only [strcmp, List.takeWhile_nil]
      constructor
      · intro h
        omega
      · intro h
        cases h
  | cons y as ih =>
    cases b with
    | nil =>
      by_cases hy : y = 0
      · simp [strcmp, hy]
      · simp [strcmp, hy, List.takeWhile_cons]
    | cons x bs =>
      have hx : x ≠ 0 := hb x (List.mem_cons_self _ _)
      have hbs : ∀ z ∈ bs, z ≠ 0 := fun z hz => hb z (List.mem_cons_of_mem _ hz)
      by_cases hyx : y = x
      · subst hyx
        simp [strcmp, hx, List.takeWhile_cons, ih bs hbs]
      · simp only [strcmp, ne_eq, hyx, not_false_eq_true, ↓reduceIte, List.takeWhile_cons]
        constructor
        · intro h
          omega
        · intro h
          by_cases hy : y = 0
          · simp [hy] at h
          · simp [hy] at h
            exact absurd h.1 hyx

theorem takeWhile_append_zeros (t : List Nat) (n : Nat) :
    (t ++ List.replicate n 0).takeWhile (fun x => x ≠ 0) = t.takeWhile (fun x => x ≠ 0) := by
  induction t with
  | nil =>
    cases n with
    | zero => rfl
    | succ m => simp [List.replicate_succ, List.takeWhile_cons]
  | cons y ys ih =>
    by_cases hy : y = 0
    · simp [List.takeWhile_cons, hy]
    · simp only [List.cons_append, List.takeWhile_cons, ih]

theorem trie_hdr_nonzero : ∀ x ∈ trie_hdr, x ≠ 0 := by decide

theorem read_bin_cmp_res_eq_zero_iff (fp : List Nat) :
    read_bin_cmp_res fp = 0 ↔ fp.take 19 = trie_hdr := by
  have hlen : strlen trie_hdr = 19 := by decide
  unfold read_bin_cmp_res fread_bytes
  rw [hlen, strcmp_eq_zero_iff _ _ trie_hdr_nonzero, takeWhile_append_zeros]
  constructor
  · intro h
    have hpre : (fp.take 19).takeWhile (fun x => x ≠ 0) <+: fp.take 19 :=
      List.takeWhile_prefix _
    have hl1 : ((fp.take 19).takeWhile (fun x => x ≠ 0)).length = 19 := by
      rw [h]
      decide
    have hl2 : (fp.take 19).length ≤ 19 := by simp
    have heq : (fp.take 19).takeWhile (fun x => x ≠ 0) = fp.take 19 :=
      hpre.eq_of_length_le (by omega)
    rw [← heq]
    exact h
  · intro h
    rw [h]
    decide

/-- C8. The header test of `ngram_model_trie_read_bin` separates the inputs in
two: those whose first 19 bytes are the magic string `Trie Language Model` pass
it (`cmp_res = 0`), all others, the inputs shorter than 19 bytes among them,
give `cmp_res ≠ 0` and the return value `NULL`. -/
theorem read_bin_header_check (L : Library) (fp : List Nat) :
    (fp.take 19 = trie_hdr ∧ read_bin_cmp_res fp = 0) ∨
    (fp.take 19 ≠ trie_hdr ∧ read_bin_cmp_res fp ≠ 0 ∧
      ngram_model_trie_read_bin L (some fp) = Except.ok none) := by
  by_cases h : fp.take 19 = trie_hdr
  · exact Or.inl ⟨h, (read_bin_cmp_res_eq_zero_iff fp).mpr h⟩
  · have hc : read_bin_cmp_res fp ≠ 0 := fun hz => h ((read_bin_cmp_res_eq_zero_iff fp).mp hz)
    exact Or.inr ⟨h, hc, by simp [ngram_model_trie_read_bin, hc]⟩

/-- C9. A private-binary file that declares one unigram and whose word-string
block holds two NUL bytes (`a NUL b NUL`): `read_word_str` reports the mismatch
and goes on, and `ngram_model_trie_read_bin` returns a model with the single
word `a`, not `NULL`. -/
theorem read_bin_returns_model_on_word_count_mismatch :
    (List.drop 4 two_word_block).count 0 = 2 ∧
    read_word_str 1 two_word_block = Except.ok ([some "a"], [("a", 0)], [], true) ∧
    ngram_model_trie_read_bin ascii_library (some two_word_bin_file) =
      Except.ok (some ⟨1, [1], [some "a"], [("a", 0)]⟩) ∧
    ngram_model_trie_read_bin ascii_library (some two_word_bin_file) ≠ Except.ok none := by
  have h : ngram_model_trie_read_bin ascii_library (some two_word_bin_file) =
      Except.ok (some ⟨1, [1], [some "a"], [("a", 0)]⟩) := rfl
  refine ⟨by decide, rfl, h, ?_⟩
  rw [h]
  intro hn
  cases hn

theorem strlen_dmp_hdr : strlen dmp_hdr + 1 = 17 := by decide

/-- C10. For every 32-bit length field `k` at the head of a legacy dump,
`ngram_model_trie_read_dmp` returns `NULL` at the length check exactly when
neither `k` nor its byte-swapped value is `17`, and turns byte swapping on
exactly when `k` is not `17` but its byte-swapped value is, which is the case of
the single value `0x11000000`. -/
theorem read_dmp_length_check (k : Nat) (hk : k < 2 ^ 32) :
    (read_dmp_do_swap k = none ↔ k ≠ 17 ∧ SWAP_INT32 k ≠ 17) ∧
    (read_dmp_do_swap k = some true ↔ k ≠ 17 ∧ SWAP_INT32 k = 17) ∧
    (read_dmp_do_swap k = some false ↔ k = 17) ∧
    (SWAP_INT32 k = 17 ↔ k = 285212672) := by
  unfold read_dmp_do_swap
  rw [strlen_dmp_hdr]
  refine ⟨?_, ?_, ?_, ?_⟩
  · by_cases h1 : k = 17
    · simp [h1]
    · by_cases h2 : SWAP_INT32 k = 17 <;> simp [h1, h2]
  · by_cases h1 : k = 17
    · simp [h1]
    · by_cases h2 : SWAP_INT32 k = 17 <;> simp [h1, h2]
  · by_cases h1 : k = 17
    · simp [h1]
    · by_cases h2 : SWAP_INT32 k = 17 <;> simp [h1, h2]
  · unfold SWAP_INT32
    norm_num at hk ⊢
    omega

theorem read_dmp_length_check_witness :
    (285212672 : Nat) < 2 ^ 32 ∧ read_dmp_do_swap 285212672 = some true ∧
    SWAP_INT32 285212672 = 17 :=
  ⟨by decide, ((read_dmp_length_check 285212672 (by decide)).2.1).mpr ⟨by decide, by decide⟩,
    ((read_dmp_length_check 285212672 (by decide)).2.2.2).mpr rfl⟩

/-! ### Legacy dump: reading the fields -/

theorem fread_field_append (bytes rest : List Nat) (size : Nat) (h : bytes.length = size) :
    fread_field (bytes ++ rest) size = Except.ok (le_value bytes, rest) := by
  unfold fread_field
  have h1 : ¬ ((bytes ++ rest).length < size) := by
    simp only [List.length_append]
    omega
  simp only [h1, ↓reduceIte]
  rw [← h, List.take_left, List.drop_left]

theorem swap_int16_bytes (b0 b1 : Nat) (h1 : b1 < 256) :
    SWAP_INT16 (b1 + 256 * b0) = (b0 % 256) + 256 * b1 := by
  unfold SWAP_INT16
  have e1 : (b1 + 256 * b0) % 256 = b1 := by omega
  have e2 : (b1 + 256 * b0) / 2 ^ 8 = b0 := by
    norm_num
    omega
  rw [e1, e2]
  norm_num
  omega

theorem swap_int32_bytes (b0 b1 b2 b3 : Nat) (h1 : b1 < 256) (h2 : b2 < 256)
    (h3 : b3 < 256) :
    SWAP_INT32 (b3 + 256 * (b2 + 256 * (b1 + 256 * b0))) =
      (b0 % 256) + 256 * (b1 + 256 * (b2 + 256 * b3)) := by
  unfold SWAP_INT32
  have e1 : (b3 + 256 * (b2 + 256 * (b1 + 256 * b0))) % 256 = b3 := by omega
  have d1 : (b3 + 256 * (b2 + 256 * (b1 + 256 * b0))) / 2 ^ 8 = b2 + 256 * (b1 + 256 * b0) := by
    norm_num
    omega
  have d2 : (b3 + 256 * (b2 + 256 * (b1 + 256 * b0))) / 2 ^ 16 = b1 + 256 * b0 := by
    have : (2 : Nat) ^ 16 = 2 ^ 8 * 2 ^ 8 := by norm_num
    rw [this, ← Nat.div_div_eq_div_mul, d1]
    norm_num
    omega
  have d3 : (b3 + 256 * (b2 + 256 * (b1 + 256 * b0))) / 2 ^ 24 = b0 := by
    have : (2 : Nat) ^ 24 = 2 ^ 16 * 2 ^ 8 := by norm_num
    rw [this, ← Nat.div_div_eq_div_mul, d2]
    norm_num
    omega
  rw [e1, d1, d2, d3]
  have e2 : (b2 + 256 * (b1 + 256 * b0)) % 256 = b2 := by omega
  have e3 : (b1 + 256 * b0) % 256 = b1 := by omega
  rw [e2, e3]
  norm_num
  omega

theorem fread_int16_field (do_swap : Bool) (x : Nat) (rest : List Nat) (hx : x < 2 ^ 16) :
    fread_int16 (field_bytes do_swap 2 x ++ rest) do_swap = Except.ok (x, rest) := by
  unfold fread_int16
  rw [fread_field_append _ _ 2 (by cases do_swap <;> simp [field_bytes, le_bytes])]
  norm_num at hx
  cases do_swap
  · simp only [field_bytes, le_bytes, le_value, Bool.false_eq_true, ↓reduceIte]
    congr 2
    omega
  · simp only [field_bytes, le_bytes, le_value, ↓reduceIte, List.reverse_cons, List.reverse_nil,
      List.nil_append, List.cons_append, Nat.mul_zero, Nat.add_zero]
    rw [swap_int16_bytes _ _ (Nat.mod_lt _ (by norm_num))]
    congr 2
    omega

theorem fread_int32_field (do_swap : Bool) (x : Nat) (rest : List Nat) (hx : x < 2 ^ 32) :
    fread_int32 (field_bytes do_swap 4 x ++ rest) do_swap = Except.ok (x, rest) := by
  unfold fread_int32
  rw [fread_field_append _ _ 4 (by cases do_swap <;> simp [field_bytes, le_bytes])]
  norm_num at hx
  cases do_swap
  · simp only [field_bytes, le_bytes, le_value, Bool.false_eq_true, ↓reduceIte]
    congr 2
    omega
  · simp only [field_bytes, le_bytes, le_value, ↓reduceIte, List.reverse_cons, List.reverse_nil,
      List.nil_append, List.cons_append, Nat.mul_zero, Nat.add_zero]
    rw [swap_int32_bytes _ _ _ _ (Nat.mod_lt _ (by norm_num)) (Nat.mod_lt _ (by norm_num))
      (Nat.mod_lt _ (by norm_num))]
    congr 2
    omega

theorem field_bytes_length (do_swap : Bool) (size x : Nat) :
    (field_bytes do_swap size x).length = size := by
  have h : ∀ (n y : Nat), (le_bytes n y).length = n := by
    intro n
    induction n with
    | zero => intro y; rfl
    | succ n ih => intro y; simp [le_bytes, ih]
  cases do_swap <;> simp [field_bytes, h]

theorem float_to_int32_index (i : Nat) : float_to_int32 ((i : ℚ) + 1 / 2) = (i : Int) := by
  unfold float_to_int32
  have h0 : (0 : ℚ) ≤ (i : ℚ) + 1 / 2 := by positivity
  rw [if_pos h0, Int.floor_eq_iff]
  constructor
  · push_cast
    linarith
  · push_cast
    linarith

theorem dmp_advance_unigram_spec (c0 : Nat) (next : List Nat) (j : Nat) :
    ∀ (fuel idx : Nat), idx ≤ c0 → c0 - idx ≤ fuel →
      idx ≤ dmp_advance_unigram c0 next j fuel idx ∧
      dmp_advance_unigram c0 next j fuel idx ≤ c0 ∧
      (∀ i, idx ≤ i → i < dmp_advance_unigram c0 next j fuel idx → next.getD i 0 = j) ∧
      (dmp_advance_unigram c0 next j fuel idx < c0 →
        next.getD (dmp_advance_unigram c0 next j fuel idx) 0 ≠ j) := by
  intro fuel
  induction fuel with
  | zero =>
    intro idx h1 h2
    have : idx = c0 := by omega
    subst this
    refine ⟨le_refl _, le_refl _, ?_, ?_⟩
    · intro i hi1 hi2
      simp only [dmp_advance_unigram] at hi2
      omega
    · intro h
      simp only [dmp_advance_unigram] at h
      omega
  | succ fuel ih =>
    intro idx h1 h2
    by_cases hc : idx < c0 ∧ j = next.getD idx 0
    · obtain ⟨a1, a2, a3, a4⟩ := ih (idx + 1) (by omega) (by omega)
      have e : dmp_advance_unigram c0 next j (fuel + 1) idx =
          dmp_advance_unigram c0 next j fuel (idx + 1) := by
        simp only [dmp_advance_unigram, hc, and_self, ↓reduceIte]
      rw [e]
      refine ⟨by omega, a2, ?_, a4⟩
      intro i hi1 hi2
      by_cases hii : i = idx
      · rw [hii]
        exact hc.2.symm
      · exact a3 i (by omega) hi2
    · have e : dmp_advance_unigram c0 next j (fuel + 1) idx = idx := by
        simp only [dmp_advance_unigram, hc, ↓reduceIte]
      rw [e]
      refine ⟨le_refl _, h1, ?_, ?_⟩
      · intro i hi1 hi2
        omega
      · intro hlt hn
        exact hc ⟨hlt, hn.symm⟩

theorem read_dmp_bigrams_spec (c0 c1 : Nat) (next : List Nat) (sw : Bool)
    (hwf : dmp_unigram_next_ok c0 c1 next) :
    ∀ (recs : List dmp_bigram_rec),
      (∀ r ∈ recs, r.wid < 2 ^ 16 ∧ r.prob_idx < 2 ^ 16 ∧ r.bo_idx < 2 ^ 16 ∧ r.next < 2 ^ 16) →
      ∀ (j idx : Nat) (rest : List Nat) (raw : List ngram_raw_t) (bn : List Nat),
        1 ≤ idx → idx ≤ c0 → next.getD (idx - 1) 0 ≤ j → (idx < c0 → j ≤ next.getD idx 0) →
        j + recs.length ≤ c1 + 1 →
        ∃ raw1 idx1,
          read_dmp_bigrams c0 next sw recs.length j idx
              (recs.flatMap (dmp_bigram_bytes sw) ++ rest) raw bn =
            Except.ok (raw ++ raw1, bn ++ recs.map (fun r => r.next), idx1, rest) ∧
          raw1.length = recs.length ∧
          (∀ t r, recs.get? t = some r →
            ∃ u, raw1.get? t = some ⟨[r.wid, u],
                [(r.prob_idx : ℚ) + 1 / 2, (r.bo_idx : ℚ) + 1 / 2]⟩ ∧
              (j + t < c1 → u < c0 ∧ next.getD u 0 ≤ j + t ∧ j + t < next.getD (u + 1) 0)) ∧
          (recs ≠ [] → j + recs.length = c1 + 1 → idx1 = c0) := by
  obtain ⟨hc0, hmono, hn0, hnc⟩ := hwf
  intro recs
  induction recs with
  | nil =>
    intro _ j idx rest raw bn _ _ _ _ _
    refine ⟨[], idx, ?_, rfl, ?_, ?_⟩
    · simp [read_dmp_bigrams]
    · intro t r h
      simp at h
    · intro h
      exact absurd rfl h
  | cons r rs ih =>
    intro hfit j idx rest raw bn h1 h2 h3 h4 h5
    obtain ⟨f1, f2, f3, f4⟩ := hfit r (List.mem_cons_self _ _)
    obtain ⟨a1, a2, a3, a4⟩ := dmp_advance_unigram_spec c0 next j c0 idx h2 (by omega)
    generalize hr : dmp_advance_unigram c0 next j c0 idx = r1 at a1 a2 a3 a4
    simp only [List.length_cons] at h5
    -- the pointer after the advance
    have hprev : next.getD (r1 - 1) 0 ≤ j := by
      by_cases e : r1 = idx
      · rw [e]
        exact h3
      · have := a3 (r1 - 1) (by omega) (by omega)
        omega
    have hge : r1 < c0 → j < next.getD r1 0 := by
      intro hlt
      have hne := a4 hlt
      have hle : j ≤ next.getD r1 0 := by
        by_cases e : r1 = idx
        · rw [e]
          exact h4 (by omega)
        · have e1 := a3 (r1 - 1) (by omega) (by omega)
          have e2 := hmono (r1 - 1) r1 (by omega) (by omega)
          omega
      omega
    obtain ⟨raw2, idx2, g1, g2, g3, g4⟩ := ih (fun x hx => hfit x (List.mem_cons_of_mem _ hx))
      (j + 1) r1 rest
      (raw ++ [⟨[r.wid, r1 - 1], [(r.prob_idx : ℚ) + 1 / 2, (r.bo_idx : ℚ) + 1 / 2]⟩])
      (bn ++ [r.next]) (by omega) a2 (by omega)
      (fun hlt => by have := hge hlt; omega) (by omega)
    refine ⟨⟨[r.wid, r1 - 1], [(r.prob_idx : ℚ) + 1 / 2, (r.bo_idx : ℚ) + 1 / 2]⟩ :: raw2,
      idx2, ?_, ?_, ?_, ?_⟩
    · simp only [List.flatMap_cons, dmp_bigram_bytes, List.append_assoc, List.length_cons,
        read_dmp_bigrams, fread_int16_field _ _ _ f1, fread_int16_field _ _ _ f2,
        fread_int16_field _ _ _ f3, fread_int16_field _ _ _ f4, hr]
      rw [g1]
      simp
    · simp [g2]
    · intro t x hx
      cases t with
      | zero =>
        simp only [List.get?_cons_zero, Option.some.injEq] at hx
        subst hx
        refine ⟨r1 - 1, rfl, ?_⟩
        intro hj
        simp only [Nat.add_zero] at hj ⊢
        refine ⟨by omega, hprev, ?_⟩
        have e : r1 - 1 + 1 = r1 := by omega
        rw [e]
        by_cases hlt : r1 < c0
        · exact hge hlt
        · have : r1 = c0 := by omega
          rw [this, hnc]
          exact hj
      | succ t1 =>
        simp only [List.get?_cons_succ] at hx
        obtain ⟨u, hu1, hu2⟩ := g3 t1 x hx
        refine ⟨u, by simpa using hu1, ?_⟩
        intro hj
        have := hu2 (by omega)
        have e : j + 1 + t1 = j + (t1 + 1) := by omega
        rw [e] at this
        exact this
    · intro _ hlen
      by_cases hrs : rs = []
      · subst hrs
        simp only [List.length_nil, List.flatMap_nil, List.nil_append, List.map_nil,
          read_dmp_bigrams, List.append_nil, Except.ok.injEq, Prod.mk.injEq] at g1
        have hidx : idx2 = r1 := g1.2.2.1.symm
        simp only [List.length_cons, List.length_nil] at hlen
        rw [hidx]
        by_contra hne
        have hlt : r1 < c0 := by omega
        have := hge hlt
        have := hmono r1 c0 (by omega) (le_refl _)
        omega
      · exact g4 hrs (by simp only [List.length_cons] at hlen; omega)

/-! ### Legacy dump: the trigram reconstruction -/

theorem getD_set_raw (l : List ngram_raw_t) (i t : Nat) (a d : ngram_raw_t) (hi : i < l.length) :
    (l.set i a).getD t d = if t = i then a else l.getD t d := by
  simp only [List.getD_eq_getElem?_getD, List.getElem?_set]
  by_cases h : i = t
  · subst h
    simp [hi]
  · have h2 : ¬ t = i := fun e => h e.symm
    simp [h, h2]

theorem dmp_fill_trigrams_spec (b : ngram_raw_t) (nx : Nat) :
    ∀ (fuel idx : Nat) (tri : List ngram_raw_t), nx - idx ≤ fuel → nx ≤ tri.length →
      ∃ tri1, dmp_fill_trigrams b nx fuel idx tri = Except.ok (tri1, max idx nx) ∧
        tri1.length = tri.length ∧
        ∀ t, tri1.getD t ⟨[], []⟩ =
          if idx ≤ t ∧ t < nx then
            ⟨((tri.getD t ⟨[], []⟩).words.set 1 (b.words.getD 0 0)).set 2 (b.words.getD 1 0),
              (tri.getD t ⟨[], []⟩).weights⟩
          else tri.getD t ⟨[], []⟩ := by
  intro fuel
  induction fuel with
  | zero =>
    intro idx tri h1 _
    refine ⟨tri, ?_, rfl, ?_⟩
    · simp only [dmp_fill_trigrams]
      congr 2
      omega
    · intro t
      have : ¬ (idx ≤ t ∧ t < nx) := by omega
      simp [this]
  | succ fuel ih =>
    intro idx tri h1 h2
    by_cases hlt : idx < nx
    · have hb : ¬ (tri.length ≤ idx) := by omega
      obtain ⟨tri1, e1, e2, e3⟩ := ih (idx + 1)
        (tri.set idx
          ⟨(((tri.getD idx ⟨[], []⟩).words.set 1 (b.words.getD 0 0)).set 2 (b.words.getD 1 0)),
            (tri.getD idx ⟨[], []⟩).weights⟩) (by omega) (by simpa using h2)
      refine ⟨tri1, ?_, ?_, ?_⟩
      · simp only [dmp_fill_trigrams, hlt, hb, ↓reduceIte, e1]
        congr 2
        omega
      · simpa using e2
      · intro t
        rw [e3 t, getD_set_raw _ _ _ _ _ (by omega)]
        by_cases ht : t = idx
        · subst ht
          have c1 : ¬ (t + 1 ≤ t) := by omega
          simp only [c1, hlt, le_refl, and_self, and_true, false_and, ↓reduceIte]
        · by_cases hc : idx + 1 ≤ t ∧ t < nx
          · have c2 : idx ≤ t ∧ t < nx := by omega
            simp only [hc, c2, and_self, ↓reduceIte, ht]
          · have c2 : ¬ (idx ≤ t ∧ t < nx) := by omega
            simp only [hc, c2, ↓reduceIte, ht]
    · refine ⟨tri, ?_, rfl, ?_⟩
      · simp only [dmp_fill_trigrams, hlt, ↓reduceIte]
        congr 2
        omega
      · intro t
        have : ¬ (idx ≤ t ∧ t < nx) := by omega
        simp [this]

theorem dmp_attach_trigrams_spec (bigrams : List ngram_raw_t) (tseg : List Int) (bn : List Nat)
    (c1 c2 : Nat) (hts : c1 >>> BIGRAM_SEGMENT_SIZE < tseg.length)
    (hmono : ∀ a b, a ≤ b → b ≤ c1 →
      dmp_next_ngram_idx tseg bn a ≤ dmp_next_ngram_idx tseg bn b)
    (hlast : dmp_next_ngram_idx tseg bn c1 = c2) :
    ∀ (n j idx : Nat) (tri : List ngram_raw_t), 1 ≤ j → j + n = c1 + 1 → tri.length = c2 →
      (n ≠ 0 → idx ≤ dmp_next_ngram_idx tseg bn j) →
      ∃ tri1, dmp_attach_trigrams bigrams tseg bn n j idx tri =
          Except.ok (tri1, if n = 0 then idx else c2) ∧
        tri1.length = tri.length ∧
        (∀ t, t < idx → tri1.getD t ⟨[], []⟩ = tri.getD t ⟨[], []⟩) ∧
        (∀ k, j ≤ k → k ≤ c1 → ∀ t,
          (if k = j then idx else dmp_next_ngram_idx tseg bn (k - 1)) ≤ t →
          t < dmp_next_ngram_idx tseg bn k →
          tri1.getD t ⟨[], []⟩ =
            ⟨((tri.getD t ⟨[], []⟩).words.set 1 ((bigrams.getD (k - 1) ⟨[], []⟩).words.getD 0 0)).set 2
                ((bigrams.getD (k - 1) ⟨[], []⟩).words.getD 1 0),
              (tri.getD t ⟨[], []⟩).weights⟩) := by
  intro n
  induction n with
  | zero =>
    intro j idx tri _ hj _ _
    refine ⟨tri, ?_, rfl, fun _ _ => rfl, ?_⟩
    · simp [dmp_attach_trigrams]
    · intro k hk1 hk2
      omega
  | succ n ih =>
    intro j idx tri hj1 hjn hlen hidx
    have hidx1 := hidx (Nat.succ_ne_zero _)
    have hjc : j ≤ c1 := by omega
    have hseg : ¬ (tseg.length ≤ j >>> BIGRAM_SEGMENT_SIZE) := by
      have : j >>> BIGRAM_SEGMENT_SIZE ≤ c1 >>> BIGRAM_SEGMENT_SIZE := by
        simp only [Nat.shiftRight_eq_div_pow]
        exact Nat.div_le_div_right hjc
      omega
    have hFle : dmp_next_ngram_idx tseg bn j ≤ tri.length := by
      rw [hlen, ← hlast]
      exact hmono j c1 hjc (le_refl _)
    obtain ⟨tri1, e1, e2, e3⟩ := dmp_fill_trigrams_spec (bigrams.getD (j - 1) ⟨[], []⟩)
      (dmp_next_ngram_idx tseg bn j) (dmp_next_ngram_idx tseg bn j - idx) idx tri
      (le_refl _) hFle
    have hmax : max idx (dmp_next_ngram_idx tseg bn j) = dmp_next_ngram_idx tseg bn j :=
      max_eq_right hidx1
    rw [hmax] at e1
    obtain ⟨tri2, g1, g2, g3, g4⟩ := ih (j + 1) (dmp_next_ngram_idx tseg bn j) tri1
      (by omega) (by omega) (by rw [e2]; exact hlen)
      (fun hn => hmono j (j + 1) (by omega) (by omega))
    refine ⟨tri2, ?_, ?_, ?_, ?_⟩
    · simp only [dmp_attach_trigrams, hseg, ↓reduceIte, e1, g1]
      congr 2
      by_cases hn : n = 0
      · subst hn
        have : j = c1 := by omega
        simp [this, hlast]
      · simp [hn]
    · rw [g2, e2]
    · intro t ht
      rw [g3 t (by omega), e3 t]
      have : ¬ (idx ≤ t ∧ t < dmp_next_ngram_idx tseg bn j) := by omega
      simp [this]
    · intro k hk1 hk2 t ht1 ht2
      by_cases hk : k = j
      · subst hk
        simp only [↓reduceIte] at ht1
        rw [g3 t ht2, e3 t]
        simp [ht1, ht2]
      · simp only [hk, ↓reduceIte] at ht1
        have hlow : dmp_next_ngram_idx tseg bn j ≤ t := by
          have := hmono j (k - 1) (by omega) (by omega)
          omega
        have := g4 k (by omega) hk2 t (by
          by_cases hk' : k = j + 1
          · simp only [hk', ↓reduceIte]
            exact hlow
          · simp only [hk', ↓reduceIte]
            exact ht1) ht2
        rw [this, e3 t]
        have hc : ¬ (idx ≤ t ∧ t < dmp_next_ngram_idx tseg bn j) := by omega
        simp [hc]

/-! ### Legacy dump: tables and weights -/

theorem flatMap_field_bytes_length (sw : Bool) (entries : List Nat) :
    (entries.flatMap (field_bytes sw 4)).length = 4 * entries.length := by
  induction entries with
  | nil => rfl
  | cons e es ih =>
    simp only [List.flatMap_cons, List.length_append, List.length_cons, ih, field_bytes_length]
    omega

theorem fread_bytes_exact (bytes rest : List Nat) (n : Nat) (h : bytes.length = n) :
    fread_bytes (bytes ++ rest) n n = (bytes, rest) := by
  unfold fread_bytes
  rw [← h, List.take_left, List.drop_left]
  simp

theorem field_value32 (sw : Bool) (x : Nat) (hx : x < 2 ^ 32) :
    (if sw then SWAP_INT32 (le_value (field_bytes sw 4 x)) else le_value (field_bytes sw 4 x))
      = x := by
  have h := fread_int32_field sw x [] hx
  unfold fread_int32 at h
  rw [fread_field_append _ _ _ (field_bytes_length sw 4 x)] at h
  simp only [Except.ok.injEq, Prod.mk.injEq, and_true] at h
  exact h

theorem dmp_table_entries_cons (sw : Bool) (e : Nat) (buf : List Nat) (k : Nat)
    (he : e < 2 ^ 32) :
    dmp_table_entries sw (field_bytes sw 4 e ++ buf) (k + 1) = e :: dmp_table_entries sw buf k := by
  have hl : (field_bytes sw 4 e).length = 4 := field_bytes_length sw 4 e
  unfold dmp_table_entries
  rw [List.range_succ_eq_map, List.map_cons, List.map_map]
  congr 1
  · simp only [Nat.mul_zero, List.drop_zero]
    rw [List.take_left' hl]
    exact field_value32 sw e he
  · apply List.map_congr_left
    intro i _
    simp only [Function.comp]
    have h4 : 4 * Nat.succ i = (field_bytes sw 4 e).length + 4 * i := by rw [hl]; omega
    rw [h4, List.drop_append]

theorem dmp_table_entries_bytes (sw : Bool) :
    ∀ entries : List Nat, (∀ b ∈ entries, b < 2 ^ 32) → ∀ tail : List Nat,
      dmp_table_entries sw (entries.flatMap (field_bytes sw 4) ++ tail) entries.length
        = entries := by
  intro entries
  induction entries with
  | nil => intro _ _; rfl
  | cons e es ih =>
    intro h tail
    have he := h e (List.mem_cons_self _ _)
    have hes : ∀ b ∈ es, b < 2 ^ 32 := fun b hb => h b (List.mem_cons_of_mem _ hb)
    rw [List.flatMap_cons, List.append_assoc, List.length_cons,
      dmp_table_entries_cons sw e _ _ he, ih hes tail]

theorem dmp_resolve_weights_spec (tab : List ℚ) (widx : Nat) :
    ∀ (n : Nat) (raw : List ngram_raw_t), n ≤ raw.length →
      (∀ g ∈ raw.take n, ∃ i : Nat, g.weights.getD widx 0 = (i : ℚ) + 1 / 2 ∧ i < tab.length) →
      dmp_resolve_weights tab widx n raw =
        Except.ok ((raw.take n).map (fun g => ⟨g.words, g.weights.set widx
          (tab.getD (float_to_int32 (g.weights.getD widx 0)).toNat 0)⟩) ++ raw.drop n) := by
  intro n
  induction n with
  | zero => intro raw _ _; simp [dmp_resolve_weights]
  | succ n ih =>
    intro raw hlen h
    cases raw with
    | nil => simp at hlen
    | cons g rest =>
      obtain ⟨i, hi1, hi2⟩ := h g (by simp)
      have hr := ih rest (by simpa using hlen)
        (fun g1 hg1 => h g1 (by simp only [List.take_succ_cons]; exact List.mem_cons_of_mem _ hg1))
      have hf : float_to_int32 (g.weights.getD widx 0) = (i : Int) := by
        rw [hi1]; exact float_to_int32_index i
      have hc : ¬ (float_to_int32 (g.weights.getD widx 0) < 0 ∨
          (tab.length : Int) ≤ float_to_int32 (g.weights.getD widx 0)) := by
        rw [hf]; omega
      simp only [dmp_resolve_weights, hc, ↓reduceIte, hr, List.take_succ_cons, List.map_cons,
        List.drop_succ_cons, List.cons_append]

theorem read_dmp_weight_array_spec (fb : Nat → ℚ) (L : Library) (sw : Bool)
    (entries : List Nat) (rest : List Nat) (counts : Nat) (raw : List ngram_raw_t) (widx : Nat)
    (hfit : ∀ b ∈ entries, b < 2 ^ 32) (hk : entries.length < 2 ^ 31)
    (hlen : counts ≤ raw.length)
    (hidx : ∀ g ∈ raw.take counts, ∃ i : Nat, g.weights.getD widx 0 = (i : ℚ) + 1 / 2 ∧
      i < entries.length) :
    read_dmp_weight_array fb L (dmp_table_bytes sw entries ++ rest) sw counts raw widx =
      Except.ok ((raw.take counts).map (fun g => ⟨g.words, g.weights.set widx
          ((entries.map (fun b => L.logmath_log10_to_log_float (fb b))).getD
            (float_to_int32 (g.weights.getD widx 0)).toNat 0)⟩) ++ raw.drop counts, rest) := by
  unfold read_dmp_weight_array dmp_table_bytes
  rw [List.append_assoc, fread_int32_field sw entries.length _ (by omega)]
  have hk2 : ¬ (entries.length ≥ 2 ^ 31) := by omega
  simp only [hk2, ↓reduceIte]
  rw [fread_bytes_exact _ _ _ (flatMap_field_bytes_length sw entries)]
  have ht := dmp_table_entries_bytes sw entries hfit []
  rw [List.append_nil] at ht
  simp only [ht]
  rw [dmp_resolve_weights_spec _ widx counts raw hlen (by simpa using hidx)]

theorem read_dmp_trigrams_spec (sw : Bool) :
    ∀ recs : List dmp_trigram_rec, (∀ r ∈ recs, r.wid < 2 ^ 16 ∧ r.prob_idx < 2 ^ 16) →
      ∀ (rest : List Nat) (raw : List ngram_raw_t),
      read_dmp_trigrams sw recs.length (recs.flatMap (dmp_trigram_bytes sw) ++ rest) raw =
        Except.ok (raw ++ recs.map (fun r => ⟨[r.wid, 0, 0], [(r.prob_idx : ℚ) + 1 / 2]⟩),
          rest) := by
  intro recs
  induction recs with
  | nil => intro _ rest raw; simp [read_dmp_trigrams]
  | cons r rs ih =>
    intro h rest raw
    obtain ⟨h1, h2⟩ := h r (List.mem_cons_self _ _)
    have hrs : ∀ r ∈ rs, r.wid < 2 ^ 16 ∧ r.prob_idx < 2 ^ 16 :=
      fun x hx => h x (List.mem_cons_of_mem _ hx)
    simp only [List.length_cons, read_dmp_trigrams, List.flatMap_cons, dmp_trigram_bytes,
      List.append_assoc]
    rw [fread_int16_field sw r.wid _ h1]
    simp only []
    rw [fread_int16_field sw r.prob_idx _ h2]
    simp only []
    rw [ih hrs]
    simp

theorem read_dmp_tseg_spec (sw : Bool) (tseg : List Nat) (rest : List Nat) (c1 c2 : Nat)
    (bigrams : List ngram_raw_t) (bn : List Nat) (tri tri1 : List ngram_raw_t)
    (hfit : ∀ b ∈ tseg, b < 2 ^ 32) (hk : tseg.length < 2 ^ 31)
    (hatt : dmp_attach_trigrams bigrams (tseg.map int32_of_bits) bn c1 1 0 tri =
      Except.ok (tri1, c2)) :
    read_dmp_tseg (dmp_table_bytes sw tseg ++ rest) sw c1 c2 bigrams bn tri =
      Except.ok (tri1, rest) := by
  unfold read_dmp_tseg dmp_table_bytes
  rw [List.append_assoc, fread_int32_field sw tseg.length _ (by omega)]
  have hk2 : ¬ (tseg.length ≥ 2 ^ 31) := by omega
  simp only [hk2, ↓reduceIte]
  rw [fread_bytes_exact _ _ _ (flatMap_field_bytes_length sw tseg)]
  have ht := dmp_table_entries_bytes sw tseg hfit []
  rw [List.append_nil] at ht
  simp only [ht, hatt, ne_eq, not_true_eq_false, ↓reduceIte]

/-! ### Legacy dump: the whole loader -/

theorem read_dmp_bigrams_all (c0 c1 : Nat) (next : List Nat) (sw : Bool)
    (hwf : dmp_unigram_next_ok c0 c1 next) (recs : List dmp_bigram_rec)
    (hfit : ∀ r ∈ recs, r.wid < 2 ^ 16 ∧ r.prob_idx < 2 ^ 16 ∧ r.bo_idx < 2 ^ 16 ∧ r.next < 2 ^ 16)
    (hlen : recs.length = c1 + 1) (rest : List Nat) :
    ∃ raw,
      read_dmp_bigrams c0 next sw (c1 + 1) 0 1 (recs.flatMap (dmp_bigram_bytes sw) ++ rest) [] [] =
        Except.ok (raw, recs.map (fun r => r.next), c0, rest) ∧
      raw.length = c1 + 1 ∧
      (∀ t r, recs.get? t = some r →
        ∃ u, raw.get? t = some ⟨[r.wid, u],
            [(r.prob_idx : ℚ) + 1 / 2, (r.bo_idx : ℚ) + 1 / 2]⟩ ∧
          (t < c1 → u < c0 ∧ next.getD u 0 ≤ t ∧ t < next.getD (u + 1) 0)) := by
  obtain ⟨raw1, idx1, e1, e2, e3, e4⟩ := read_dmp_bigrams_spec c0 c1 next sw hwf recs hfit 0 1 rest
    [] [] (le_refl _) hwf.1 (by rw [show 1 - 1 = 0 from rfl, hwf.2.2.1]) (fun _ => Nat.zero_le _) (by omega)
  have hne : recs ≠ [] := by
    intro h
    rw [h] at hlen
    simp at hlen
  have hidx := e4 hne (by omega)
  rw [hlen, hidx] at e1
  refine ⟨raw1, ?_, ?_, ?_⟩
  · simpa using e1
  · rw [e2, hlen]
  · intro t r h
    obtain ⟨u, h1, h2⟩ := e3 t r h
    exact ⟨u, h1, by simpa using h2⟩

theorem mem_take_get {α : Type} (l : List α) (n : Nat) (g : α) (h : g ∈ l.take n) :
    ∃ t, t < n ∧ l.get? t = some g := by
  obtain ⟨t, ht⟩ := List.mem_iff_get?.1 h
  refine ⟨t, ?_, ?_⟩
  · by_contra hc
    simp only [List.get?_eq_getElem?, List.getElem?_take] at ht
    simp [hc] at ht
  · simp only [List.get?_eq_getElem?, List.getElem?_take] at ht ⊢
    by_cases hc : t < n
    · simpa [hc] using ht
    · simp [hc] at ht

theorem resolved_get {α : Type} (raw : List α) (n : Nat) (f : α → α) (t : Nat) (g : α)
    (ht : t < n) (h : raw.get? t = some g) :
    ((raw.take n).map f ++ raw.drop n).get? t = some (f g) := by
  have hlt : t < raw.length := by
    by_contra hc
    rw [List.get?_eq_none.2 (by omega)] at h
    cases h
  have h1 : t < ((raw.take n).map f).length := by
    simp only [List.length_map, List.length_take]
    omega
  simp only [List.get?_eq_getElem?] at h ⊢
  rw [List.getElem?_append_left h1, List.getElem?_map, List.getElem?_take]
  simp [ht, h]

theorem resolved_length {α : Type} (raw : List α) (n : Nat) (f : α → α) :
    ((raw.take n).map f ++ raw.drop n).length = raw.length := by
  simp only [List.length_append, List.length_map, List.length_take, List.length_drop]
  omega

theorem resolved_take {α : Type} (raw : List α) (n : Nat) (f : α → α) (hn : n ≤ raw.length) :
    ((raw.take n).map f ++ raw.drop n).take n = (raw.take n).map f := by
  apply List.take_left'
  simp only [List.length_map, List.length_take]
  omega

theorem map_getD_lt (l : List Nat) (g : Nat → ℚ) (i : Nat) (h : i < l.length) :
    (l.map g).getD i 0 = g (l.getD i 0) := by
  simp only [List.getD_eq_getElem?_getD, List.getElem?_map]
  rw [List.getElem?_eq_getElem h]
  rfl

theorem dmp_load_order2 (fb : Nat → ℚ) (L : Library) (sw : Bool) (s : dmp_sections)
    (rest : List Nat) (counts : List Nat) (order : Nat) (next : List Nat) (c0 c1 : Nat)
    (hc0 : counts.getD 0 0 = c0) (hc1 : counts.getD 1 0 = c1) (ho : ¬ order > 2)
    (hnext : dmp_unigram_next_ok c0 c1 next) (hfit : dmp_sections_fit s)
    (hb : s.bigrams.length = c1 + 1)
    (hp2 : ∀ r ∈ s.bigrams.take c1, r.prob_idx < s.prob2.length) :
    ∃ bigrams,
      ngrams_raw_read_dmp_load fb L (dmp_sections_bytes sw order s ++ rest) counts order next sw =
        Except.ok ([bigrams], rest) ∧
      bigrams.length = c1 + 1 ∧
      ∀ t r, t < c1 → s.bigrams.get? t = some r →
        ∃ u, bigrams.get? t = some ⟨[r.wid, u],
            [L.logmath_log10_to_log_float (fb (s.prob2.getD r.prob_idx 0)),
              (r.bo_idx : ℚ) + 1 / 2]⟩ ∧
          u < c0 ∧ next.getD u 0 ≤ t ∧ t < next.getD (u + 1) 0 := by
  obtain ⟨f1, f2, f3, f4, f5, f6, f7, f8, f9, f10⟩ := hfit
  obtain ⟨raw, e1, e2, e3⟩ := read_dmp_bigrams_all c0 c1 next sw hnext s.bigrams f1 hb
    (dmp_table_bytes sw s.prob2 ++ rest)
  have hidx : ∀ g ∈ raw.take c1, ∃ i : Nat, g.weights.getD 0 0 = (i : ℚ) + 1 / 2 ∧
      i < s.prob2.length := by
    intro g hg
    obtain ⟨t, ht1, ht2⟩ := mem_take_get raw c1 g hg
    have hr : ∃ r, s.bigrams.get? t = some r := by
      have : t < s.bigrams.length := by omega
      exact ⟨s.bigrams.get ⟨t, this⟩, List.get?_eq_get this⟩
    obtain ⟨r, hr⟩ := hr
    obtain ⟨u, hu, _⟩ := e3 t r hr
    rw [hu] at ht2
    cases ht2
    refine ⟨r.prob_idx, rfl, hp2 r ?_⟩
    rw [List.mem_iff_get?]
    refine ⟨t, ?_⟩
    simp only [List.get?_eq_getElem?, List.getElem?_take] at hr ⊢
    simp [ht1, hr]
  have hw := read_dmp_weight_array_spec fb L sw s.prob2 rest c1 raw 0 f3 f7 (by omega) hidx
  refine ⟨(raw.take c1).map (fun g => ⟨g.words, g.weights.set 0
      ((s.prob2.map (fun b => L.logmath_log10_to_log_float (fb b))).getD
        (float_to_int32 (g.weights.getD 0 0)).toNat 0)⟩) ++ raw.drop c1, ?_, ?_, ?_⟩
  · unfold ngrams_raw_read_dmp_load dmp_sections_bytes
    simp only [hc0, hc1, ho, ↓reduceIte, List.append_nil, List.append_assoc, e1, ne_eq,
      not_true_eq_false, hw]
  · rw [resolved_length, e2]
  · intro t r ht hr
    obtain ⟨u, hu, hrange⟩ := e3 t r hr
    obtain ⟨r1, r2, r3⟩ := hrange ht
    refine ⟨u, ?_, r1, r2, r3⟩
    rw [resolved_get raw c1 _ t _ ht hu]
    have hp := hp2 r (by
      rw [List.mem_iff_get?]
      refine ⟨t, ?_⟩
      simp only [List.get?_eq_getElem?, List.getElem?_take] at hr ⊢
      simp [ht, hr])
    simp only [List.getD_cons_zero, float_to_int32_index, Int.toNat_ofNat, List.set_cons_zero,
      map_getD_lt _ _ _ hp]

theorem get?_of_getD_raw (l : List ngram_raw_t) (t : Nat) (d : ngram_raw_t) (h : t < l.length) :
    l.get? t = some (l.getD t d) := by
  simp only [List.get?_eq_getElem?, List.getD_eq_getElem?_getD]
  rw [List.getElem?_eq_getElem h]
  rfl

theorem getD_of_get?_raw (l : List ngram_raw_t) (t : Nat) (d g : ngram_raw_t)
    (h : l.get? t = some g) : l.getD t d = g := by
  simp only [List.get?_eq_getElem?] at h
  simp only [List.getD_eq_getElem?_getD, h, Option.getD_some]

theorem mem_take_of_get? {α : Type} (l : List α) (n t : Nat) (r : α) (ht : t < n)
    (h : l.get? t = some r) : r ∈ l.take n := by
  rw [List.mem_iff_get?]
  refine ⟨t, ?_⟩
  simp only [List.get?_eq_getElem?, List.getElem?_take] at h ⊢
  simp [ht, h]

theorem dmp_load_order3 (fb : Nat → ℚ) (L : Library) (sw : Bool) (s : dmp_sections)
    (rest : List Nat) (counts : List Nat) (order : Nat) (next : List Nat) (c0 c1 c2 : Nat)
    (hc0 : counts.getD 0 0 = c0) (hc1 : counts.getD 1 0 = c1) (hc2 : counts.getD 2 0 = c2)
    (ho : order > 2)
    (hnext : dmp_unigram_next_ok c0 c1 next) (hfit : dmp_sections_fit s)
    (hb : s.bigrams.length = c1 + 1) (ht : s.trigrams.length = c2)
    (hp2 : ∀ r ∈ s.bigrams.take c1, r.prob_idx < s.prob2.length ∧ r.bo_idx < s.bo2.length)
    (hp3 : ∀ r ∈ s.trigrams, r.prob_idx < s.prob3.length)
    (hseg : c1 >>> BIGRAM_SEGMENT_SIZE < s.tseg_base.length)
    (hmono : ∀ a b, a ≤ b → b ≤ c1 →
      dmp_next_ngram_idx (s.tseg_base.map int32_of_bits) (s.bigrams.map (fun r => r.next)) a ≤
        dmp_next_ngram_idx (s.tseg_base.map int32_of_bits) (s.bigrams.map (fun r => r.next)) b)
    (hF0 : dmp_next_ngram_idx (s.tseg_base.map int32_of_bits)
      (s.bigrams.map (fun r => r.next)) 0 = 0)
    (hlast : dmp_next_ngram_idx (s.tseg_base.map int32_of_bits)
      (s.bigrams.map (fun r => r.next)) c1 = c2) :
    ∃ bigrams trigrams,
      ngrams_raw_read_dmp_load fb L (dmp_sections_bytes sw order s ++ rest) counts order next sw =
        Except.ok ([bigrams, trigrams], rest) ∧
      bigrams.length = c1 + 1 ∧ trigrams.length = c2 ∧
      (∀ t r, t < c1 → s.bigrams.get? t = some r →
        ∃ u, bigrams.get? t = some ⟨[r.wid, u],
            [L.logmath_log10_to_log_float (fb (s.prob2.getD r.prob_idx 0)),
              L.logmath_log10_to_log_float (fb (s.bo2.getD r.bo_idx 0))]⟩ ∧
          u < c0 ∧ next.getD u 0 ≤ t ∧ t < next.getD (u + 1) 0) ∧
      (∀ t r, s.trigrams.get? t = some r → ∀ j, j < c1 →
        dmp_next_ngram_idx (s.tseg_base.map int32_of_bits) (s.bigrams.map (fun r => r.next)) j ≤ t →
        t < dmp_next_ngram_idx (s.tseg_base.map int32_of_bits)
          (s.bigrams.map (fun r => r.next)) (j + 1) →
        ∃ b, bigrams.get? j = some b ∧
          trigrams.get? t = some ⟨[r.wid, b.words.getD 0 0, b.words.getD 1 0],
            [L.logmath_log10_to_log_float (fb (s.prob3.getD r.prob_idx 0))]⟩) := by
  obtain ⟨f1, f2, f3, f4, f5, f6, f7, f8, f9, f10⟩ := hfit
  -- the bigram records
  obtain ⟨raw, e1, e2, e3⟩ := read_dmp_bigrams_all c0 c1 next sw hnext s.bigrams f1 hb
    (s.trigrams.flatMap (dmp_trigram_bytes sw) ++ (dmp_table_bytes sw s.prob2 ++
      (dmp_table_bytes sw s.bo2 ++ (dmp_table_bytes sw s.prob3 ++
        (dmp_table_bytes sw s.tseg_base ++ rest)))))
  -- the trigram records
  have et := read_dmp_trigrams_spec sw s.trigrams f2 (dmp_table_bytes sw s.prob2 ++
      (dmp_table_bytes sw s.bo2 ++ (dmp_table_bytes sw s.prob3 ++
        (dmp_table_bytes sw s.tseg_base ++ rest)))) []
  rw [ht, List.nil_append] at et
  -- prob2
  have hraw : ∀ g ∈ raw.take c1, ∃ r ∈ s.bigrams.take c1, ∃ u,
      g = ⟨[r.wid, u], [(r.prob_idx : ℚ) + 1 / 2, (r.bo_idx : ℚ) + 1 / 2]⟩ := by
    intro g hg
    obtain ⟨t, ht1, ht2⟩ := mem_take_get raw c1 g hg
    have hlt : t < s.bigrams.length := by omega
    obtain ⟨u, hu, _⟩ := e3 t (s.bigrams.get ⟨t, hlt⟩) (List.get?_eq_get hlt)
    rw [hu] at ht2
    cases ht2
    exact ⟨_, mem_take_of_get? _ _ _ _ ht1 (List.get?_eq_get hlt), u, rfl⟩
  have hidx0 : ∀ g ∈ raw.take c1, ∃ i : Nat, g.weights.getD 0 0 = (i : ℚ) + 1 / 2 ∧
      i < s.prob2.length := by
    intro g hg
    obtain ⟨r, hr, u, rfl⟩ := hraw g hg
    exact ⟨r.prob_idx, rfl, (hp2 r hr).1⟩
  have hw0 := read_dmp_weight_array_spec fb L sw s.prob2 (dmp_table_bytes sw s.bo2 ++
      (dmp_table_bytes sw s.prob3 ++ (dmp_table_bytes sw s.tseg_base ++ rest))) c1 raw 0 f3 f7
      (by omega) hidx0
  -- bo2
  obtain ⟨B1, hB1⟩ : ∃ B1, B1 = (raw.take c1).map (fun g => (⟨g.words, g.weights.set 0
      ((s.prob2.map (fun b => L.logmath_log10_to_log_float (fb b))).getD
        (float_to_int32 (g.weights.getD 0 0)).toNat 0)⟩ : ngram_raw_t)) ++ raw.drop c1 := ⟨_, rfl⟩
  rw [← hB1] at hw0
  have hB1len : B1.length = c1 + 1 := by rw [hB1, resolved_length, e2]
  have hidx1 : ∀ g ∈ B1.take c1, ∃ i : Nat, g.weights.getD 1 0 = (i : ℚ) + 1 / 2 ∧
      i < s.bo2.length := by
    intro g hg
    rw [hB1, resolved_take _ _ _ (by omega)] at hg
    obtain ⟨g0, hg0, rfl⟩ := List.mem_map.1 hg
    obtain ⟨r, hr, u, rfl⟩ := hraw g0 hg0
    exact ⟨r.bo_idx, rfl, (hp2 r hr).2⟩
  have hw1 := read_dmp_weight_array_spec fb L sw s.bo2
      (dmp_table_bytes sw s.prob3 ++ (dmp_table_bytes sw s.tseg_base ++ rest)) c1 B1 1 f4 f8
      (by omega) hidx1
  obtain ⟨B2, hB2⟩ : ∃ B2, B2 = (B1.take c1).map (fun g => (⟨g.words, g.weights.set 1
      ((s.bo2.map (fun b => L.logmath_log10_to_log_float (fb b))).getD
        (float_to_int32 (g.weights.getD 1 0)).toNat 0)⟩ : ngram_raw_t)) ++ B1.drop c1 := ⟨_, rfl⟩
  rw [← hB2] at hw1
  have hB2len : B2.length = c1 + 1 := by rw [hB2, resolved_length, hB1len]
  have hB2get : ∀ t r, t < c1 → s.bigrams.get? t = some r →
      ∃ u, B2.get? t = some ⟨[r.wid, u],
          [L.logmath_log10_to_log_float (fb (s.prob2.getD r.prob_idx 0)),
            L.logmath_log10_to_log_float (fb (s.bo2.getD r.bo_idx 0))]⟩ ∧
        u < c0 ∧ next.getD u 0 ≤ t ∧ t < next.getD (u + 1) 0 := by
    intro t r ht1 hr
    obtain ⟨u, hu, hrange⟩ := e3 t r hr
    obtain ⟨r1, r2, r3⟩ := hrange ht1
    refine ⟨u, ?_, r1, r2, r3⟩
    have hp := hp2 r (mem_take_of_get? _ _ _ _ ht1 hr)
    rw [hB2, resolved_get B1 c1 _ t _ ht1 (by rw [hB1]; exact resolved_get raw c1 _ t _ ht1 hu)]
    simp only [List.getD_cons_zero, List.getD_cons_succ, float_to_int32_index, Int.toNat_ofNat,
      List.set_cons_zero, List.set_cons_succ, map_getD_lt _ _ _ hp.1, map_getD_lt _ _ _ hp.2]
  -- prob3
  obtain ⟨T0, hT0⟩ : ∃ T0, T0 = s.trigrams.map
      (fun r => (⟨[r.wid, 0, 0], [(r.prob_idx : ℚ) + 1 / 2]⟩ : ngram_raw_t)) := ⟨_, rfl⟩
  rw [← hT0] at et
  have hT0len : T0.length = c2 := by rw [hT0, List.length_map, ht]
  have hidx2 : ∀ g ∈ T0.take c2, ∃ i : Nat, g.weights.getD 0 0 = (i : ℚ) + 1 / 2 ∧
      i < s.prob3.length := by
    intro g hg
    have hg1 := List.mem_of_mem_take hg
    rw [hT0] at hg1
    obtain ⟨r, hr, rfl⟩ := List.mem_map.1 hg1
    exact ⟨r.prob_idx, rfl, hp3 r hr⟩
  have hw2 := read_dmp_weight_array_spec fb L sw s.prob3
      (dmp_table_bytes sw s.tseg_base ++ rest) c2 T0 0 f5 f9 (by omega) hidx2
  obtain ⟨T1, hT1⟩ : ∃ T1, T1 = (T0.take c2).map (fun g => (⟨g.words, g.weights.set 0
      ((s.prob3.map (fun b => L.logmath_log10_to_log_float (fb b))).getD
        (float_to_int32 (g.weights.getD 0 0)).toNat 0)⟩ : ngram_raw_t)) ++ T0.drop c2 := ⟨_, rfl⟩
  rw [← hT1] at hw2
  have hT1len : T1.length = c2 := by rw [hT1, resolved_length, hT0len]
  have hT1get : ∀ t r, s.trigrams.get? t = some r →
      T1.get? t = some ⟨[r.wid, 0, 0],
        [L.logmath_log10_to_log_float (fb (s.prob3.getD r.prob_idx 0))]⟩ := by
    intro t r hr
    have hlt : t < c2 := by
      by_contra hc
      rw [List.get?_eq_none.2 (by omega)] at hr
      cases hr
    have h0 : T0.get? t = some ⟨[r.wid, 0, 0], [(r.prob_idx : ℚ) + 1 / 2]⟩ := by
      rw [hT0]
      simp only [List.get?_eq_getElem?, List.getElem?_map] at hr ⊢
      rw [hr]
      rfl
    have hp := hp3 r (List.mem_iff_get?.2 ⟨t, hr⟩)
    rw [hT1, resolved_get T0 c2 _ t _ hlt h0]
    simp only [List.getD_cons_zero, float_to_int32_index, Int.toNat_ofNat,
      List.set_cons_zero, map_getD_lt _ _ _ hp]
  -- tseg_base
  obtain ⟨T2, a1, a2, a3, a4⟩ := dmp_attach_trigrams_spec B2 (s.tseg_base.map int32_of_bits)
    (s.bigrams.map (fun r => r.next)) c1 c2 (by simpa using hseg) hmono hlast c1 1 0 T1
    (le_refl _) (by omega) hT1len (fun _ => Nat.zero_le _)
  have hidxfin : (if c1 = 0 then 0 else c2) = c2 := by
    by_cases h : c1 = 0
    · simp only [h, ↓reduceIte]
      rw [← hlast, h, hF0]
    · simp only [h, ↓reduceIte]
  rw [hidxfin] at a1
  have hts := read_dmp_tseg_spec sw s.tseg_base rest c1 c2 B2 (s.bigrams.map (fun r => r.next))
    T1 T2 f6 f10 a1
  refine ⟨B2, T2, ?_, hB2len, by rw [a2, hT1len], hB2get, ?_⟩
  · unfold ngrams_raw_read_dmp_load dmp_sections_bytes
    simp only [hc0, hc1, hc2, ho, ↓reduceIte, List.append_assoc, e1, ne_eq,
      not_true_eq_false, et, hw0, hw1, hw2, hts]
  · intro t r hr j hj hlo hhi
    have hjlt : j < B2.length := by omega
    refine ⟨B2.getD j ⟨[], []⟩, get?_of_getD_raw B2 j _ hjlt, ?_⟩
    have hlt : t < c2 := by
      by_contra hc
      rw [List.get?_eq_none.2 (by omega)] at hr
      cases hr
    have h4 := a4 (j + 1) (by omega) (by omega) t (by
      by_cases hj0 : j + 1 = 1
      · simp only [hj0, ↓reduceIte]
        exact Nat.zero_le _
      · simp only [hj0, ↓reduceIte, Nat.add_sub_cancel]
        exact hlo) hhi
    rw [get?_of_getD_raw T2 t ⟨[], []⟩ (by rw [a2, hT1len]; exact hlt), h4,
      getD_of_get?_raw T1 t _ _ (hT1get t r hr)]
    simp only [Nat.add_sub_cancel, List.set_cons_succ, List.set_cons_zero]

theorem minimal_dump_next_ok : dmp_unigram_next_ok 2 1 minimal_dump_next := by
  refine ⟨by decide, ?_, rfl, rfl⟩
  intro a b hab hb
  interval_cases b <;> interval_cases a <;> decide

theorem minimal_dump_fit : dmp_sections_fit minimal_dump_sections := by
  unfold dmp_sections_fit minimal_dump_sections
  decide

theorem minimal_dump_ranges_ok : dmp_trigram_ranges_ok 1 1 minimal_dump_sections := by
  refine ⟨by decide, ?_, by decide, by decide⟩
  intro a b hab hb
  interval_cases b <;> interval_cases a <;> decide

theorem minimal_dump_indices_ok (order : Nat) : dmp_indices_ok order 1 minimal_dump_sections := by
  refine ⟨by decide, fun _ => ⟨by decide, by decide⟩⟩

theorem range_cover (F : Nat → Nat) (h0 : F 0 = 0) (t : Nat) :
    ∀ n, t < F n → ∃ j, j < n ∧ F j ≤ t ∧ t < F (j + 1) := by
  intro n
  induction n with
  | zero =>
    intro h
    omega
  | succ n ih =>
    intro h
    by_cases hn : t < F n
    · obtain ⟨j, h1, h2, h3⟩ := ih hn
      exact ⟨j, by omega, h2, h3⟩
    · exact ⟨n, by omega, by omega, h⟩

theorem qsort_first_take_perm (order n : Nat) (arr : List ngram_raw_t) :
    ((qsort_first order n arr).take n).Perm (arr.take n) := by
  unfold qsort_first
  have hp := List.perm_insertionSort (fun a b => ngram_comparator order a b ≤ 0) (arr.take n)
  have hl : ((arr.take n).insertionSort (fun a b => ngram_comparator order a b ≤ 0)).length
      = (arr.take n).length := hp.length_eq
  by_cases h : n ≤ arr.length
  · rw [List.take_left' (by rw [hl, List.length_take]; omega)]
    exact hp
  · have hd : arr.drop n = [] := List.drop_eq_nil_of_le (by omega)
    rw [hd, List.append_nil, List.take_of_length_le (by rw [hl, List.length_take]; omega)]
    exact hp

theorem ngrams_raw_read_dmp_of_load (fb : Nat → ℚ) (L : Library) (fp : List Nat)
    (counts : List Nat) (order : Nat) (next : List Nat) (sw : Bool)
    (raw_ngrams : List (List ngram_raw_t)) (rest : List Nat)
    (h : ngrams_raw_read_dmp_load fb L fp counts order next sw = Except.ok (raw_ngrams, rest)) :
    ngrams_raw_read_dmp fb L fp counts order next sw =
      Except.ok
        ((qsort_first 2 (counts.getD 1 0) (raw_ngrams.getD 0 [])) ::
          (if order > 2 then [qsort_first 3 (counts.getD 2 0) (raw_ngrams.getD 1 [])] else []),
          rest) := by
  unfold ngrams_raw_read_dmp
  rw [h]

/-- C11. For a dump whose unigram pointers are well formed (non-decreasing, `next[0] = 0`,
`next[counts[0]] = counts[1]`), the bigram loop of `ngrams_raw_read_dmp` reads all `counts[1] + 1`
records, ends with `ngram_idx == counts[0]`, and gives every bigram `j < counts[1]` the word id of
its record as `words[0]` and as `words[1]` the one unigram `u` with `next[u] <= j < next[u + 1]`. -/
theorem read_dmp_bigrams_unigram_ranges (c0 c1 : Nat) (next : List Nat) (sw : Bool)
    (hwf : dmp_unigram_next_ok c0 c1 next) (recs : List dmp_bigram_rec)
    (hfit : ∀ r ∈ recs, r.wid < 2 ^ 16 ∧ r.prob_idx < 2 ^ 16 ∧ r.bo_idx < 2 ^ 16 ∧ r.next < 2 ^ 16)
    (hlen : recs.length = c1 + 1) (rest : List Nat) :
    ∃ raw,
      read_dmp_bigrams c0 next sw (c1 + 1) 0 1 (recs.flatMap (dmp_bigram_bytes sw) ++ rest) [] [] =
        Except.ok (raw, recs.map (fun r => r.next), c0, rest) ∧
      raw.length = c1 + 1 ∧
      ∀ j r, j < c1 → recs.get? j = some r →
        ∃ u, raw.get? j = some ⟨[r.wid, u],
            [(r.prob_idx : ℚ) + 1 / 2, (r.bo_idx : ℚ) + 1 / 2]⟩ ∧
          u < c0 ∧ next.getD u 0 ≤ j ∧ j < next.getD (u + 1) 0 ∧
          ∀ v, v < c0 → next.getD v 0 ≤ j → j < next.getD (v + 1) 0 → v = u := by
  obtain ⟨raw, e1, e2, e3⟩ := read_dmp_bigrams_all c0 c1 next sw hwf recs hfit hlen rest
  refine ⟨raw, e1, e2, ?_⟩
  intro j r hj hr
  obtain ⟨u, hu, hrange⟩ := e3 j r hr
  obtain ⟨r1, r2, r3⟩ := hrange hj
  refine ⟨u, hu, r1, r2, r3, ?_⟩
  intro v hv hv1 hv2
  obtain ⟨_, hmono, _, _⟩ := hwf
  by_contra hne
  rcases Nat.lt_or_gt_of_ne hne with h | h
  · have := hmono (v + 1) u (by omega) (by omega)
    omega
  · have := hmono (u + 1) v (by omega) (by omega)
    omega

theorem read_dmp_bigrams_unigram_ranges_witness :
    ∃ raw,
      read_dmp_bigrams 2 minimal_dump_next true (1 + 1) 0 1
          (minimal_dump_sections.bigrams.flatMap (dmp_bigram_bytes true) ++ [7]) [] [] =
        Except.ok (raw, minimal_dump_sections.bigrams.map (fun r => r.next), 2, [7]) ∧
      raw.length = 1 + 1 ∧
      ∀ j r, j < 1 → minimal_dump_sections.bigrams.get? j = some r →
        ∃ u, raw.get? j = some ⟨[r.wid, u],
            [(r.prob_idx : ℚ) + 1 / 2, (r.bo_idx : ℚ) + 1 / 2]⟩ ∧
          u < 2 ∧ minimal_dump_next.getD u 0 ≤ j ∧ j < minimal_dump_next.getD (u + 1) 0 ∧
          ∀ v, v < 2 → minimal_dump_next.getD v 0 ≤ j → j < minimal_dump_next.getD (v + 1) 0 →
            v = u :=
  read_dmp_bigrams_unigram_ranges 2 1 minimal_dump_next true minimal_dump_next_ok
    minimal_dump_sections.bigrams (by decide) rfl [7]

/-- C13, as stated, fails on an order-2 dump: two unigrams, one bigram with back-off index `0`,
the table `prob2`, followed by a table that holds `-1.0` where an order-3 dump has `bo2`.
`ngrams_raw_read_dmp` resolves the probability only; the back-off slot of the bigram keeps the
captured value `0 + 0.5`, and the table behind `prob2` is left unread. -/
theorem read_dmp_order2_backoff_unresolved :
    ∃ g sentinel,
      ngrams_raw_read_dmp binary32_sample ascii_library
          (dmp_sections_bytes false 2 minimal_dump_sections ++
            dmp_table_bytes false minimal_dump_sections.bo2) [2, 1] 2 minimal_dump_next false =
        Except.ok ([[g, sentinel]], dmp_table_bytes false minimal_dump_sections.bo2) ∧
      g.words = [1, 0] ∧
      g.weights.getD 1 0 = 1 / 2 ∧
      g.weights.getD 1 0 ≠ ascii_library.logmath_log10_to_log_float
        (binary32_sample (minimal_dump_sections.bo2.getD 0 0)) := by
  obtain ⟨bigrams, e1, e2, e3⟩ := dmp_load_order2 binary32_sample ascii_library false
    minimal_dump_sections (dmp_table_bytes false minimal_dump_sections.bo2) [2, 1] 2
    minimal_dump_next 2 1 rfl rfl (by decide) minimal_dump_next_ok minimal_dump_fit rfl
    (by decide)
  obtain ⟨u, hu, hu1, hu2, hu3⟩ := e3 0 ⟨1, 0, 0, 0⟩ (by decide) rfl
  have hu0 : u = 0 := by
    have h2 : u < 2 := hu1
    interval_cases u
    · rfl
    · exact absurd hu2 (by decide)
  subst hu0
  have e4 := ngrams_raw_read_dmp_of_load _ _ _ _ _ _ _ _ _ e1
  match bigrams, e2, hu, e4 with
  | [a, b], _, hu, e4 =>
    simp only [List.get?_cons_zero, Option.some.injEq] at hu
    refine ⟨a, b, ?_, ?_, ?_, ?_⟩
    · rw [e4]
      simp [qsort_first, List.insertionSort, List.orderedInsert]
    · rw [hu]
    · rw [hu]
      norm_num
    · rw [hu]
      norm_num [ascii_library, binary32_sample, minimal_dump_sections]

/-- C13, amended. For a well-formed dump whose stored indices lie within the tables the loader
reads, `ngrams_raw_read_dmp` gives every bigram the log-converted entry of `prob2` at its probability
index; for order 3 it gives every bigram the log-converted entry of `bo2` at its back-off index
and every trigram the log-converted entry of `prob3` at its probability index, while for order 2
no back-off table is read and the slot keeps `bo_idx + 0.5`. The final sorting permutes the
n-grams with their weights, and `(int) (i + 0.5)` is `i` for every index `i`. -/
theorem read_dmp_weights_resolved (fb : Nat → ℚ) (L : Library) (sw : Bool) (s : dmp_sections)
    (rest : List Nat) (counts : List Nat) (order : Nat) (next : List Nat) (c0 c1 c2 : Nat)
    (hc0 : counts.getD 0 0 = c0) (hc1 : counts.getD 1 0 = c1) (hc2 : counts.getD 2 0 = c2)
    (hnext : dmp_unigram_next_ok c0 c1 next) (hfit : dmp_sections_fit s)
    (hb : s.bigrams.length = c1 + 1) (hidx : dmp_indices_ok order c1 s)
    (h3 : order > 2 → s.trigrams.length = c2 ∧ dmp_trigram_ranges_ok c1 c2 s) :
    ∃ bigrams more,
      ngrams_raw_read_dmp_load fb L (dmp_sections_bytes sw order s ++ rest) counts order next sw =
        Except.ok (bigrams :: more, rest) ∧
      ngrams_raw_read_dmp fb L (dmp_sections_bytes sw order s ++ rest) counts order next sw =
        Except.ok (qsort_first 2 c1 bigrams ::
          (if order > 2 then [qsort_first 3 c2 (more.getD 0 [])] else []), rest) ∧
      ((qsort_first 2 c1 bigrams).take c1).Perm (bigrams.take c1) ∧
      ((qsort_first 3 c2 (more.getD 0 [])).take c2).Perm ((more.getD 0 []).take c2) ∧
      (∀ j r, j < c1 → s.bigrams.get? j = some r →
        ∃ g, bigrams.get? j = some g ∧ g.words.getD 0 0 = r.wid ∧
          g.weights = [L.logmath_log10_to_log_float (fb (s.prob2.getD r.prob_idx 0)),
            if order > 2 then L.logmath_log10_to_log_float (fb (s.bo2.getD r.bo_idx 0))
            else (r.bo_idx : ℚ) + 1 / 2]) ∧
      (order > 2 → ∀ t r, s.trigrams.get? t = some r →
        ∃ g, (more.getD 0 []).get? t = some g ∧ g.words.getD 0 0 = r.wid ∧
          g.weights = [L.logmath_log10_to_log_float (fb (s.prob3.getD r.prob_idx 0))]) ∧
      (∀ i : Nat, float_to_int32 ((i : ℚ) + 1 / 2) = (i : Int)) := by
  obtain ⟨hi1, hi2⟩ := hidx
  by_cases ho : order > 2
  · obtain ⟨ht, hseg, hmono, hF0, hlast⟩ := h3 ho
    obtain ⟨hi2, hi3⟩ := hi2 ho
    obtain ⟨bigrams, trigrams, e1, e2, e3, e4, e5⟩ := dmp_load_order3 fb L sw s rest counts
      order next c0 c1 c2 hc0 hc1 hc2 ho hnext hfit hb ht (fun r hr => ⟨hi1 r hr, hi2 r hr⟩) hi3
      hseg hmono hF0 hlast
    refine ⟨bigrams, [trigrams], e1, ?_, qsort_first_take_perm _ _ _, qsort_first_take_perm _ _ _,
      ?_, ?_, float_to_int32_index⟩
    · rw [ngrams_raw_read_dmp_of_load _ _ _ _ _ _ _ _ _ e1, hc1, hc2]
      rfl
    · intro j r hj hr
      obtain ⟨u, hu, _⟩ := e4 j r hj hr
      exact ⟨_, hu, rfl, by simp only [ho, ↓reduceIte]⟩
    · intro _ t r hr
      have htc : t < dmp_first_trigram s c1 := by
        have hlt : t < s.trigrams.length := by
          by_contra hc
          rw [List.get?_eq_none.2 (by omega)] at hr
          cases hr
        rw [hlast]
        omega
      obtain ⟨j, h1, h2, h3⟩ := range_cover (dmp_first_trigram s) hF0 t c1 htc
      obtain ⟨b, _, hg⟩ := e5 t r hr j h1 h2 h3
      exact ⟨_, hg, rfl, rfl⟩
  · obtain ⟨bigrams, e1, e2, e3⟩ := dmp_load_order2 fb L sw s rest counts order next c0 c1
      hc0 hc1 ho hnext hfit hb hi1
    refine ⟨bigrams, [], e1, ?_, qsort_first_take_perm _ _ _, qsort_first_take_perm _ _ _,
      ?_, fun h => absurd h ho, float_to_int32_index⟩
    · rw [ngrams_raw_read_dmp_of_load _ _ _ _ _ _ _ _ _ e1, hc1, hc2]
      rfl
    · intro j r hj hr
      obtain ⟨u, hu, _⟩ := e3 j r hj hr
      exact ⟨_, hu, rfl, by simp only [ho, ↓reduceIte]⟩

theorem read_dmp_weights_resolved_witness :
    ∃ bigrams more,
      ngrams_raw_read_dmp_load binary32_sample ascii_library
          (dmp_sections_bytes true 3 minimal_dump_sections ++ [7]) [2, 1, 1] 3
          minimal_dump_next true =
        Except.ok (bigrams :: more, [7]) ∧
      ngrams_raw_read_dmp binary32_sample ascii_library
          (dmp_sections_bytes true 3 minimal_dump_sections ++ [7]) [2, 1, 1] 3
          minimal_dump_next true =
        Except.ok (qsort_first 2 1 bigrams ::
          (if 3 > 2 then [qsort_first 3 1 (more.getD 0 [])] else []), [7]) ∧
      ((qsort_first 2 1 bigrams).take 1).Perm (bigrams.take 1) ∧
      ((qsort_first 3 1 (more.getD 0 [])).take 1).Perm ((more.getD 0 []).take 1) ∧
      (∀ j r, j < 1 → minimal_dump_sections.bigrams.get? j = some r →
        ∃ g, bigrams.get? j = some g ∧ g.words.getD 0 0 = r.wid ∧
          g.weights = [ascii_library.logmath_log10_to_log_float
              (binary32_sample (minimal_dump_sections.prob2.getD r.prob_idx 0)),
            if 3 > 2 then ascii_library.logmath_log10_to_log_float
              (binary32_sample (minimal_dump_sections.bo2.getD r.bo_idx 0))
            else (r.bo_idx : ℚ) + 1 / 2]) ∧
      (3 > 2 → ∀ t r, minimal_dump_sections.trigrams.get? t = some r →
        ∃ g, (more.getD 0 []).get? t = some g ∧ g.words.getD 0 0 = r.wid ∧
          g.weights = [ascii_library.logmath_log10_to_log_float
            (binary32_sample (minimal_dump_sections.prob3.getD r.prob_idx 0))]) ∧
      (∀ i : Nat, float_to_int32 ((i : ℚ) + 1 / 2) = (i : Int)) :=
  read_dmp_weights_resolved binary32_sample ascii_library true minimal_dump_sections [7]
    [2, 1, 1] 3 minimal_dump_next 2 1 1 rfl rfl rfl minimal_dump_next_ok minimal_dump_fit rfl
    (minimal_dump_indices_ok 3) (fun _ => ⟨rfl, minimal_dump_ranges_ok⟩)

theorem ngram_comparator_loop_le_iff (f s : List Nat) (n : Nat) : ∀ i : Nat,
    ngram_comparator_loop f s n i ≤ 0 ↔
      lex_le ((List.range' i n).map (fun k => f.getD k 0))
        ((List.range' i n).map (fun k => s.getD k 0)) := by
  induction n with
  | zero =>
    intro i
    simp [ngram_comparator_loop, lex_le]
  | succ n ih =>
    intro i
    have hstep : ngram_comparator_loop f s (n + 1) i =
        if f.getD i 0 < s.getD i 0 then -1
        else if f.getD i 0 > s.getD i 0 then 1
        else ngram_comparator_loop f s n (i + 1) := rfl
    have hlex : lex_le ((List.range' i (n + 1)).map (fun k => f.getD k 0))
          ((List.range' i (n + 1)).map (fun k => s.getD k 0)) ↔
        (f.getD i 0 < s.getD i 0 ∨ (f.getD i 0 = s.getD i 0 ∧
          lex_le ((List.range' (i + 1) n).map (fun k => f.getD k 0))
            ((List.range' (i + 1) n).map (fun k => s.getD k 0)))) := by
      rw [List.range'_succ]
      rfl
    rw [hstep, hlex, ← ih (i + 1)]
    generalize f.getD i 0 = a
    generalize s.getD i 0 = b
    by_cases h1 : a < b
    · simp [h1]
    · by_cases h2 : a > b
      · have h3 : ¬ (a = b) := by omega
        simp [h1, h2, h3]
      · have h3 : a = b := by omega
        simp [h1, h2, h3]

theorem ngram_comparator_le_iff (order : Nat) (h : 2 ≤ order) (a b : ngram_raw_t) :
    ngram_comparator order a b ≤ 0 ↔ lex_le (ngram_tuple order a) (ngram_tuple order b) := by
  have h2 : ¬ order < 2 := by omega
  simp only [ngram_comparator, h2, ↓reduceIte, ngram_tuple, List.range_eq_range']
  exact ngram_comparator_loop_le_iff a.words b.words order 0

theorem lex_le_total : ∀ x y : List Nat, lex_le x y ∨ lex_le y x
  | [], _ => Or.inl (by simp [lex_le])
  | _ :: _, [] => Or.inr (by simp [lex_le])
  | a :: as, b :: bs => by
    simp only [lex_le]
    rcases Nat.lt_trichotomy a b with h | h | h
    · exact Or.inl (Or.inl h)
    · rcases lex_le_total as bs with h1 | h1
      · exact Or.inl (Or.inr ⟨h, h1⟩)
      · exact Or.inr (Or.inr ⟨h.symm, h1⟩)
    · exact Or.inr (Or.inl h)

theorem lex_le_trans : ∀ x y z : List Nat, lex_le x y → lex_le y z → lex_le x z
  | [], _, _ => fun _ _ => by simp [lex_le]
  | _ :: _, [], _ => fun h _ => by simp [lex_le] at h
  | _ :: _, _ :: _, [] => fun _ h => by simp [lex_le] at h
  | a :: as, b :: bs, c :: cs => by
    simp only [lex_le]
    intro h1 h2
    rcases h1 with h1 | ⟨h1, h1'⟩
    · rcases h2 with h2 | ⟨h2, _⟩
      · exact Or.inl (by omega)
      · exact Or.inl (by omega)
    · rcases h2 with h2 | ⟨h2, h2'⟩
      · exact Or.inl (by omega)
      · exact Or.inr ⟨by omega, lex_le_trans as bs cs h1' h2'⟩

theorem ngram_comparator_sorts (order : Nat) (arr : List ngram_raw_t) :
    List.Sorted (fun a b => ngram_comparator order a b ≤ 0)
      (arr.insertionSort (fun a b => ngram_comparator order a b ≤ 0)) := by
  by_cases h : 2 ≤ order
  · haveI : IsTotal ngram_raw_t (fun a b => ngram_comparator order a b ≤ 0) :=
      ⟨fun a b => by
        simp only [ngram_comparator_le_iff order h]
        exact lex_le_total _ _⟩
    haveI : IsTrans ngram_raw_t (fun a b => ngram_comparator order a b ≤ 0) :=
      ⟨fun a b c => by
        simp only [ngram_comparator_le_iff order h]
        exact lex_le_trans _ _ _⟩
    exact List.sorted_insertionSort _ arr
  · have h0 : ∀ a b : ngram_raw_t, ngram_comparator order a b ≤ 0 := by
      intro a b
      have : order < 2 := by omega
      simp [ngram_comparator, this]
    haveI : IsTotal ngram_raw_t (fun a b => ngram_comparator order a b ≤ 0) :=
      ⟨fun a b => Or.inl (h0 a b)⟩
    haveI : IsTrans ngram_raw_t (fun a b => ngram_comparator order a b ≤ 0) :=
      ⟨fun a _ c _ _ => h0 a c⟩
    exact List.sorted_insertionSort _ arr

/-- C15. In the order-`i` section of `ngram_model_trie_write_arpa` (`2 <= i`) the lines come out
sorted: the word-id tuples `words[0] .. words[i - 1]`, which every line prints in this order, are
in non-decreasing lexicographic order, and this is the order of `ngram_comparator` set to `i`;
every line has `i` words, and the lines are the n-grams of the filled array, each of them once. -/
theorem write_arpa_section_sorted (i n : Nat) (filled : List ngram_raw_t) (hi : 2 ≤ i) :
    List.Pairwise (fun a b => lex_le a.words b.words) (write_arpa_ngram_section i n filled) ∧
    List.Pairwise (fun a b => ngram_comparator i ⟨a.words, []⟩ ⟨b.words, []⟩ ≤ 0)
      (write_arpa_ngram_section i n filled) ∧
    (∀ l ∈ write_arpa_ngram_section i n filled, l.words.length = i) ∧
    ((write_arpa_ngram_section i n filled).map (fun l => l.words)).Perm
      (filled.map (ngram_tuple i)) := by
  have hs := ngram_comparator_sorts i filled
  have hp := List.perm_insertionSort (fun a b => ngram_comparator i a b ≤ 0) filled
  have hlex : List.Pairwise (fun a b => lex_le a.words b.words)
      (write_arpa_ngram_section i n filled) := by
    unfold write_arpa_ngram_section
    rw [List.pairwise_map]
    refine List.Pairwise.imp ?_ hs
    intro a b hab
    exact (ngram_comparator_le_iff i hi a b).mp hab
  refine ⟨hlex, ?_, ?_, ?_⟩
  · unfold write_arpa_ngram_section
    rw [List.pairwise_map]
    refine List.Pairwise.imp ?_ hs
    intro a b hab
    have h2 : ¬ i < 2 := by omega
    have ha : ∀ g : ngram_raw_t, ∀ k ∈ List.range' 0 i,
        (ngram_tuple i g).getD k 0 = g.words.getD k 0 := by
      intro g k hk
      simp only [List.mem_range'_1, zero_add] at hk
      simp [ngram_tuple, List.getD_eq_getElem?_getD, hk.2]
    rw [ngram_comparator_le_iff i hi] at hab
    simp only [ngram_comparator, h2, ↓reduceIte]
    rw [ngram_comparator_loop_le_iff]
    have e1 : (List.range' 0 i).map (fun k => (ngram_tuple i a).getD k 0) = ngram_tuple i a := by
      rw [List.map_congr_left (ha a)]
      simp [ngram_tuple, List.range_eq_range']
    have e2 : (List.range' 0 i).map (fun k => (ngram_tuple i b).getD k 0) = ngram_tuple i b := by
      rw [List.map_congr_left (ha b)]
      simp [ngram_tuple, List.range_eq_range']
    show lex_le ((List.range' 0 i).map (fun k => (ngram_tuple i a).getD k 0))
      ((List.range' 0 i).map (fun k => (ngram_tuple i b).getD k 0))
    rw [e1, e2]
    exact hab
  · intro l hl
    simp only [write_arpa_ngram_section, List.mem_map] at hl
    obtain ⟨g, _, rfl⟩ := hl
    simp [ngram_tuple]
  · unfold write_arpa_ngram_section
    rw [List.map_map]
    exact (hp.map _)

theorem write_arpa_section_sorted_witness :
    List.Pairwise (fun a b => lex_le a.words b.words)
      (write_arpa_ngram_section 2 3 [⟨[1, 0], [-1, -2]⟩, ⟨[0, 1], [-3, -4]⟩, ⟨[0, 0], [-5, 0]⟩]) ∧
    List.Pairwise (fun a b => ngram_comparator 2 ⟨a.words, []⟩ ⟨b.words, []⟩ ≤ 0)
      (write_arpa_ngram_section 2 3 [⟨[1, 0], [-1, -2]⟩, ⟨[0, 1], [-3, -4]⟩, ⟨[0, 0], [-5, 0]⟩]) ∧
    (∀ l ∈ write_arpa_ngram_section 2 3
        [⟨[1, 0], [-1, -2]⟩, ⟨[0, 1], [-3, -4]⟩, ⟨[0, 0], [-5, 0]⟩], l.words.length = 2) ∧
    ((write_arpa_ngram_section 2 3
        [⟨[1, 0], [-1, -2]⟩, ⟨[0, 1], [-3, -4]⟩, ⟨[0, 0], [-5, 0]⟩]).map (fun l => l.words)).Perm
      ([⟨[1, 0], [-1, -2]⟩, ⟨[0, 1], [-3, -4]⟩, ⟨[0, 0], [-5, 0]⟩].map (ngram_tuple 2)) :=
  write_arpa_section_sorted 2 3 [⟨[1, 0], [-1, -2]⟩, ⟨[0, 1], [-3, -4]⟩, ⟨[0, 0], [-5, 0]⟩]
    (by decide)

/-! ### Text-format loader: probabilities, back-off weights, short lines -/

/-- C18. A bigram line or a unigram line with too few words is not dropped. `read_ngram_instance`
leaves the slot of the short line as allocated and the loop goes on with the next slot, so the
array of the two declared bigrams holds the empty slot and the bigram of the second line;
sorting compares the empty slot and dereferences its `words`, which is `NULL`. With one declared
bigram the empty slot reaches `ngrams_raw_fix_counts`; a unigram line that is passed over leaves
`word_str[i]` `NULL`, which the word-id table dereferences. On the three files the load ends in
a `NULL` dereference. -/
theorem read_arpa_short_line_not_dropped :
    (read_ngram_instances ascii_library two_word_wid 2 2 2
        ["\\2-grams:", "-0.5 A", "-0.3 A B", "", "\\end\\"] []).map
        (fun r => (r.1, r.2.map (fun slot => slot.map (fun g => g.words)))) =
      Except.ok (["-0.3 A B", "", "\\end\\"], [none, some [1, 0]]) ∧
    qsort_raw_ngrams 2 [none, some ⟨[1, 0], [0]⟩] = Except.error Fault.null_deref ∧
    ngram_model_trie_read_arpa ascii_library (some short_bigram_line_file) =
      Except.error Fault.null_deref ∧
    ngram_model_trie_read_arpa ascii_library (some lone_short_bigram_line_file) =
      Except.error Fault.null_deref ∧
    (read_1grams_lines ascii_library 2 0 ["\\1-grams:", "-1.0", "-2.0 B", "", "\\end\\"]
        (List.replicate 3 ⟨0, 0, 0⟩) (List.replicate 2 none)).map (fun r => (r.1, r.2.2)) =
      Except.ok (["-2.0 B", "", "\\end\\"], [none, some "B"]) ∧
    ngram_model_trie_read_arpa ascii_library (some short_unigram_line_file) =
      Except.error Fault.null_deref :=
  ⟨rfl, rfl, rfl, rfl, rfl, rfl⟩

/-! ### Text-format loader: the vocabulary and the end mark -/

theorem hash_table_lookup_enter (h : List (String × Nat)) (w : String) (i : Nat) (s : String) :
    hash_table_lookup (hash_table_enter h w i).1 s =
      match hash_table_lookup h s with
      | some v => some v
      | none => if s = w then some i else none := by
  unfold hash_table_enter
  cases hw : hash_table_lookup h w with
  | some v =>
    simp only
    cases hs : hash_table_lookup h s with
    | some v2 => rfl
    | none =>
      have hne : s ≠ w := by
        intro e
        rw [e, hw] at hs
        cases hs
      simp [hne]
  | none =>
    simp only
    cases hs : hash_table_lookup h s with
    | some v2 =>
      simp only [hash_table_lookup, Option.map_eq_some'] at hs ⊢
      obtain ⟨kv, hkv, hv⟩ := hs
      exact ⟨kv, by simp [List.find?_append, hkv], hv⟩
    | none =>
      simp only [hash_table_lookup, Option.map_eq_none'] at hs
      simp only [hash_table_lookup, List.find?_append, hs, Option.none_or]
      by_cases e : s = w
      · simp [e]
      · have e2 : ¬ (w = s) := fun h => e h.symm
        simp [e, e2]

theorem read_1grams_fill_wid_spec (ws : List (Option String)) (hall : ∀ w ∈ ws, w ≠ none) :
    ∀ (i0 : Nat) (wid : List (String × Nat)),
      ∃ wid1, read_1grams_fill_wid ws i0 wid = Except.ok wid1 ∧
        (∀ s v, hash_table_lookup wid s = some v → hash_table_lookup wid1 s = some v) ∧
        (∀ s i, hash_table_lookup wid s = none → ws.get? i = some (some s) →
          (∀ j < i, ws.get? j ≠ some (some s)) → hash_table_lookup wid1 s = some (i0 + i)) ∧
        (∀ s, hash_table_lookup wid s = none → some s ∉ ws →
          hash_table_lookup wid1 s = none) := by
  induction ws with
  | nil =>
    intro i0 wid
    refine ⟨wid, rfl, fun _ _ h => h, ?_, fun _ h _ => h⟩
    intro s i _ hget
    simp at hget
  | cons w0 rest ih =>
    intro i0 wid
    cases w0 with
    | none => exact absurd rfl (hall none (List.mem_cons_self _ _))
    | some w =>
      obtain ⟨wid1, h1, ha, hb, hc⟩ :=
        ih (fun x hx => hall x (List.mem_cons_of_mem _ hx)) (i0 + 1) (hash_table_enter wid w i0).1
      refine ⟨wid1, ?_, ?_, ?_, ?_⟩
      · simp only [read_1grams_fill_wid, h1]
      · intro s v hs
        apply ha
        rw [hash_table_lookup_enter, hs]
      · intro s i hs hget hfirst
        cases i with
        | zero =>
          simp only [List.get?_cons_zero, Option.some.injEq] at hget
          subst hget
          have := ha w i0 (by rw [hash_table_lookup_enter, hs]; simp)
          simpa using this
        | succ i1 =>
          have hne : s ≠ w := by
            intro e
            have := hfirst 0 (Nat.succ_pos _)
            simp [e] at this
          have hnone : hash_table_lookup (hash_table_enter wid w i0).1 s = none := by
            rw [hash_table_lookup_enter, hs]
            simp [hne]
          have := hb s i1 hnone (by simpa using hget) (by
            intro j hj
            have := hfirst (j + 1) (by omega)
            simpa using this)
          rw [this]
          congr 1
          omega
      · intro s hs hnot
        have hne : s ≠ w := by
          intro e
          apply hnot
          simp [e]
        have hnone : hash_table_lookup (hash_table_enter wid w i0).1 s = none := by
          rw [hash_table_lookup_enter, hs]
          simp [hne]
        apply hc s hnone
        intro hmem
        exact hnot (List.mem_cons_of_mem _ hmem)

/-- C19. When the unigram loop of `read_1grams_arpa` has left a word string in each of the
`count` entries (`word_str1`), the function returns, and the word-id table it has filled from
the empty table maps every string `s` of the section to the least index `i` with
`word_str1[i] = s`; a string that occurs again keeps the id of its first occurrence, and a
string that does not occur has no id. -/
theorem read_1grams_first_occurrence_wins (L : Library) (li : List String) (count : Nat)
    (unigrams : List unigram_t) (word_str : List (Option String))
    (word_str1 : List (Option String))
    (hlines : (read_1grams_lines L count 0 li unigrams word_str).map (fun r => r.2.2) =
      Except.ok word_str1)
    (hall : ∀ w ∈ word_str1.take count, w ≠ none) :
    ∃ li1 unigrams1 wid1, read_1grams_arpa L li count unigrams word_str [] =
        Except.ok (li1, unigrams1, word_str1, wid1) ∧
      (∀ s i, i < count → word_str1.get? i = some (some s) →
        (∀ j < i, word_str1.get? j ≠ some (some s)) → hash_table_lookup wid1 s = some i) ∧
      (∀ s, some s ∉ word_str1.take count → hash_table_lookup wid1 s = none) := by
  cases hl : read_1grams_lines L count 0 li unigrams word_str with
  | error f =>
    rw [hl] at hlines
    cases hlines
  | ok r =>
    obtain ⟨li1, unigrams1, ws⟩ := r
    rw [hl] at hlines
    have hws : ws = word_str1 := by
      simp only [Except.map, Except.ok.injEq] at hlines
      exact hlines
    subst hws
    obtain ⟨wid1, h1, _, hb, hc⟩ := read_1grams_fill_wid_spec (ws.take count) hall 0 []
    refine ⟨li1, unigrams1, wid1, ?_, ?_, ?_⟩
    · simp only [read_1grams_arpa, hl, h1]
    · intro s i hi hget hfirst
      have := hb s i rfl (by
        rw [List.get?_eq_getElem?, List.getElem?_take_of_lt hi, ← List.get?_eq_getElem?]
        exact hget) (by
        intro j hj
        rw [List.get?_eq_getElem?, List.getElem?_take_of_lt (by omega), ← List.get?_eq_getElem?]
        exact hfirst j hj)
      simpa using this
    · intro s hs
      exact hc s rfl hs

theorem read_1grams_first_occurrence_wins_witness :
    ∃ li1 unigrams1 wid1,
      read_1grams_arpa ascii_library duplicate_word_lines 3 (List.replicate 4 ⟨0, 0, 0⟩)
          (List.replicate 3 none) [] =
        Except.ok (li1, unigrams1, [some "A", some "B", some "A"], wid1) ∧
      hash_table_lookup wid1 "A" = some 0 ∧ hash_table_lookup wid1 "B" = some 1 ∧
      hash_table_lookup wid1 "C" = none := by
  obtain ⟨li1, unigrams1, wid1, h1, h2, h3⟩ :=
    read_1grams_first_occurrence_wins ascii_library duplicate_word_lines 3
      (List.replicate 4 ⟨0, 0, 0⟩) (List.replicate 3 none) [some "A", some "B", some "A"]
      rfl (by decide)
  exact ⟨li1, unigrams1, wid1, h1, h2 "A" 0 (by decide) rfl (by decide),
    h2 "B" 1 (by decide) rfl (by decide), h3 "C" (by decide)⟩

/-- C20. After the last declared section `ngrams_raw_read_arpa` moves to the next line and trims
it before it tests the iterator. When the file ends right after the last bigram line, or holds
blank lines only behind it, this is a `NULL` dereference and no array is returned; with the end
mark, or with any other line that is not blank, the arrays are returned. -/
theorem read_arpa_end_of_file_after_ngrams :
    ngrams_raw_read_arpa ascii_library (bigram_section_then []) [2, 1] 2 two_word_wid =
      Except.error Fault.null_deref ∧
    ngrams_raw_read_arpa ascii_library (bigram_section_then ["", ""]) [2, 1] 2 two_word_wid =
      Except.error Fault.null_deref ∧
    (ngrams_raw_read_arpa ascii_library (bigram_section_then ["", "\\end\\"]) [2, 1] 2
        two_word_wid).map (fun r => (r.1, raw_words r.2)) =
      Except.ok (["\\end\\"], [[some [1, 0]]]) ∧
    (ngrams_raw_read_arpa ascii_library (bigram_section_then ["", "junk"]) [2, 1] 2
        two_word_wid).map (fun r => (r.1, raw_words r.2)) =
      Except.ok (["junk"], [[some [1, 0]]]) ∧
    ngram_model_trie_read_arpa ascii_library (some no_end_mark_file) =
      Except.error Fault.null_deref :=
  ⟨rfl, rfl, rfl, rfl, rfl⟩

/-! ## Scoring, word adding, writing back and the count merge -/

theorem raw_score_hist_scan_spec (hist : List Int) (m : Int) :
    ∀ (fuel i : Nat), m ≤ (i : Int) + fuel →
      ((raw_score_hist_scan hist m fuel i = m ∧ ∀ j : Nat, i ≤ j → (j : Int) < m →
          0 ≤ hist.getD j 0) ∨
       (∃ r : Nat, raw_score_hist_scan hist m fuel i = (r : Int) ∧ i ≤ r ∧ (r : Int) < m ∧
          hist.getD r 0 < 0 ∧ ∀ j : Nat, i ≤ j → j < r → 0 ≤ hist.getD j 0)) := by
  intro fuel
  induction fuel with
  | zero =>
    intro i h
    left
    refine ⟨rfl, ?_⟩
    intro j h1 h2
    omega
  | succ fuel ih =>
    intro i h
    by_cases h1 : (i : Int) < m
    · by_cases h2 : hist.getD i 0 < 0
      · right
        refine ⟨i, ?_, le_refl _, h1, h2, ?_⟩
        · simp only [raw_score_hist_scan, h1, h2, ↓reduceIte]
        · intro j h3 h4
          omega
      · have e : raw_score_hist_scan hist m (fuel + 1) i =
            raw_score_hist_scan hist m fuel (i + 1) := by
          simp only [raw_score_hist_scan, h1, h2, ↓reduceIte]
        rw [e]
        rcases ih (i + 1) (by push_cast; omega) with ⟨a1, a2⟩ | ⟨r, a1, a2, a3, a4, a5⟩
        · left
          refine ⟨a1, ?_⟩
          intro j h3 h4
          by_cases hj : j = i
          · subst hj
            omega
          · exact a2 j (by omega) h4
        · right
          refine ⟨r, a1, by omega, a3, a4, ?_⟩
          intro j h3 h4
          by_cases hj : j = i
          · subst hj
            omega
          · exact a5 j (by omega) h4
    · left
      refine ⟨?_, ?_⟩
      · simp only [raw_score_hist_scan, h1, ↓reduceIte]
      · intro j h3 h4
        omega

/-- The history length handed to `lm_trie_score`, characterised: with
`m = min(n_hist, n - 1)`, it is `m` when none of the first `m` entries is
negative, and otherwise the index of the first negative entry. -/
theorem raw_score_n_hist_spec (model : ngram_model_trie_t) (hist : List Int) (n_hist : Int) :
    (raw_score_n_hist model hist n_hist = min n_hist ((model.n : Int) - 1) ∧
      ∀ j : Nat, (j : Int) < min n_hist ((model.n : Int) - 1) → 0 ≤ hist.getD j 0) ∨
    (∃ r : Nat, raw_score_n_hist model hist n_hist = (r : Int) ∧
      (r : Int) < min n_hist ((model.n : Int) - 1) ∧ hist.getD r 0 < 0 ∧
      ∀ j : Nat, j < r → 0 ≤ hist.getD j 0) := by
  have hm : (if n_hist > (model.n : Int) - 1 then (model.n : Int) - 1 else n_hist) =
      min n_hist ((model.n : Int) - 1) := by
    by_cases h : n_hist > (model.n : Int) - 1
    · simp only [h, ↓reduceIte]
      omega
    · simp only [h, ↓reduceIte]
      omega
  unfold raw_score_n_hist
  simp only [hm]
  rcases raw_score_hist_scan_spec hist (min n_hist ((model.n : Int) - 1))
      (min n_hist ((model.n : Int) - 1)).toNat 0 (by omega) with ⟨a1, a2⟩ | ⟨r, a1, _, a3, a4, a5⟩
  · left
    exact ⟨a1, fun j hj => a2 j (Nat.zero_le _) hj⟩
  · right
    exact ⟨r, a1, a3, a4, fun j hj => a5 j (Nat.zero_le _) hj⟩

theorem lm_trie_score_from_take (trie : lm_trie_t) (wid : Nat) (h1 h2 : List Nat) (N : Nat)
    (heq : h1.take N = h2.take N) :
    ∀ n, n ≤ N → lm_trie_score_from trie wid h1 n = lm_trie_score_from trie wid h2 n := by
  intro n
  induction n with
  | zero => intro _; rfl
  | succ n ih =>
    intro hn
    have e : h1.take (n + 1) = h2.take (n + 1) := by
      have := congrArg (List.take (n + 1)) heq
      simpa [List.take_take, Nat.min_eq_left hn] using this
    simp only [lm_trie_score_from, e, ih (by omega)]

theorem getD_of_take_eq (h1 h2 : List Int) (r j : Nat) (heq : h1.take r = h2.take r)
    (hj : j < r) : h1.getD j 0 = h2.getD j 0 := by
  have := congrArg (fun l => l.getD j 0) heq
  simpa [List.getD_eq_getElem?_getD, List.getElem?_take, hj] using this

theorem raw_score_n_hist_congr (model : ngram_model_trie_t) (hist hist1 : List Int)
    (n_hist : Int)
    (htake : hist1.take (raw_score_n_hist model hist n_hist).toNat =
      hist.take (raw_score_n_hist model hist n_hist).toNat)
    (hneg : raw_score_n_hist model hist n_hist < min n_hist ((model.n : Int) - 1) →
      hist1.getD (raw_score_n_hist model hist n_hist).toNat 0 < 0) :
    raw_score_n_hist model hist1 n_hist = raw_score_n_hist model hist n_hist := by
  rcases raw_score_n_hist_spec model hist n_hist with ⟨a1, a2⟩ | ⟨r, a1, a2, a3, a4⟩
  · rcases raw_score_n_hist_spec model hist1 n_hist with ⟨b1, _⟩ | ⟨s, b1, b2, b3, _⟩
    · rw [a1, b1]
    · exfalso
      rw [a1] at htake
      have hs : s < (min n_hist ((model.n : Int) - 1)).toNat := by omega
      have := getD_of_take_eq hist1 hist _ s htake hs
      have := a2 s b2
      omega
  · rw [a1] at htake hneg ⊢
    simp only [Int.toNat_ofNat] at htake hneg
    have hr := hneg a2
    rcases raw_score_n_hist_spec model hist1 n_hist with ⟨b1, b2⟩ | ⟨s, b1, b2, b3, b4⟩
    · exfalso
      have := b2 r a2
      omega
    · rw [b1]
      by_contra hne
      have hne1 : s ≠ r := fun h => hne (by rw [h])
      rcases Nat.lt_or_gt_of_ne hne1 with h | h
      · have := getD_of_take_eq hist1 hist r s htake h
        have := a4 s h
        omega
      · have := b4 r h
        omega

/-- C22, amended. `ngram_model_trie_raw_score` hands `lm_trie_score` the history length
`min(n_hist, n - 1)` when none of these leading entries of `hist` is negative, and the index of
the first negative one otherwise. A history that has the same entries below this length, and a
negative entry at it where the length was cut, gets the same result: the entries beyond the
length do not enter the score, and the entry at the length enters it through its sign only. -/
theorem raw_score_history_length (model : ngram_model_trie_t) (wid : Int) (hist : List Int)
    (n_hist : Int) :
    ngram_model_trie_raw_score model wid hist n_hist =
      (float_to_int32
        (lm_trie_score model.trie model.n wid hist (raw_score_n_hist model hist n_hist)).1,
       (lm_trie_score model.trie model.n wid hist (raw_score_n_hist model hist n_hist)).2) ∧
    ((raw_score_n_hist model hist n_hist = min n_hist ((model.n : Int) - 1) ∧
        ∀ j : Nat, (j : Int) < min n_hist ((model.n : Int) - 1) → 0 ≤ hist.getD j 0) ∨
      (∃ r : Nat, raw_score_n_hist model hist n_hist = (r : Int) ∧
        (r : Int) < min n_hist ((model.n : Int) - 1) ∧ hist.getD r 0 < 0 ∧
        ∀ j : Nat, j < r → 0 ≤ hist.getD j 0)) ∧
    (∀ hist1 : List Int,
      hist1.take (raw_score_n_hist model hist n_hist).toNat =
        hist.take (raw_score_n_hist model hist n_hist).toNat →
      (raw_score_n_hist model hist n_hist < min n_hist ((model.n : Int) - 1) →
        hist1.getD (raw_score_n_hist model hist n_hist).toNat 0 < 0) →
      ngram_model_trie_raw_score model wid hist1 n_hist =
        ngram_model_trie_raw_score model wid hist n_hist) := by
  refine ⟨rfl, raw_score_n_hist_spec model hist n_hist, ?_⟩
  intro hist1 htake hneg
  have hr := raw_score_n_hist_congr model hist hist1 n_hist htake hneg
  have hmap : (hist1.map Int.toNat).take (raw_score_n_hist model hist n_hist).toNat =
      (hist.map Int.toNat).take (raw_score_n_hist model hist n_hist).toNat := by
    rw [← List.map_take, ← List.map_take, htake]
  have hs := lm_trie_score_from_take model.trie wid.toNat (hist1.map Int.toNat)
    (hist.map Int.toNat) _ hmap (raw_score_n_hist model hist n_hist).toNat (le_refl _)
  simp only [ngram_model_trie_raw_score, lm_trie_score, hr, hs]

theorem realloc_unigrams_length (junk : Nat → unigram_t) (u : List unigram_t) (n : Nat) :
    (realloc_unigrams junk u n).length = n := by
  simp [realloc_unigrams]

theorem realloc_unigrams_getD (junk : Nat → unigram_t) (u : List unigram_t) (n i : Nat)
    (hi : i < n) :
    (realloc_unigrams junk u n).getD i ⟨0, 0, 0⟩ =
      if i < u.length then u.getD i ⟨0, 0, 0⟩ else junk i := by
  simp [realloc_unigrams, List.getD_eq_getElem?_getD, List.getElem?_map, List.getElem?_range, hi]

theorem memset_unigrams_length (u : List unigram_t) (first count : Nat) :
    (memset_unigrams u first count).length = u.length := by
  simp [memset_unigrams]

theorem memset_unigrams_getD (u : List unigram_t) (first count i : Nat) (hi : i < u.length) :
    (memset_unigrams u first count).getD i ⟨0, 0, 0⟩ =
      if first ≤ i ∧ i < first + count then ⟨0, 0, 0⟩ else u.getD i ⟨0, 0, 0⟩ := by
  simp [memset_unigrams, List.getD_eq_getElem?_getD, List.getElem?_map, List.getElem?_range, hi]

theorem getD_set_unigram (l : List unigram_t) (i t : Nat) (a : unigram_t) (hi : i < l.length) :
    (l.set i a).getD t ⟨0, 0, 0⟩ = if t = i then a else l.getD t ⟨0, 0, 0⟩ := by
  simp only [List.getD_eq_getElem?_getD, List.getElem?_set]
  by_cases h : i = t
  · subst h
    simp [hi]
  · have h2 : ¬ t = i := fun e => h e.symm
    simp [h, h2]

/-- The unigram table after `lm_trie_add_ug`, entry by entry. -/
theorem lm_trie_add_ug_spec (logmath_log : ℚ → Int) (junk : Nat → unigram_t)
    (model : trie_model_t) (wid lweight : Int) (hwid : 0 ≤ wid)
    (hca : model.base.n_counts.getD 0 0 ≤ model.base.n_1g_alloc)
    (hwa : wid.toNat + 1 ≤ model.base.n_1g_alloc) :
    ∃ model1 ret, lm_trie_add_ug logmath_log junk model wid lweight = Except.ok (model1, ret) ∧
      model1.trie.entries = model.trie.entries ∧
      model1.trie.unigrams.length = model.base.n_1g_alloc + 1 ∧
      model1.base.n_counts = model.base.n_counts.set 0
        (max ((model.base.n_counts.getD 0 0 + 1) % 2 ^ 32) (wid.toNat + 1)) ∧
      model1.base.n = model.base.n ∧ model1.base.lw = model.base.lw ∧
      model1.base.log_wip = model.base.log_wip ∧
      model1.base.n_1g_alloc = model.base.n_1g_alloc ∧
      (∀ i, i ≤ model.base.n_counts.getD 0 0 → i < model.trie.unigrams.length →
        i ≠ wid.toNat → i ≠ wid.toNat + 1 →
        model1.trie.unigrams.getD i ⟨0, 0, 0⟩ = model.trie.unigrams.getD i ⟨0, 0, 0⟩) ∧
      (wid.toNat ≤ model.base.n_counts.getD 0 0 → wid.toNat < model.trie.unigrams.length →
        model1.trie.unigrams.getD wid.toNat ⟨0, 0, 0⟩ =
          ⟨float32_round ((lweight + logmath_log (float64_round
              (1 / (((model.base.n_counts.getD 0 0 + 1) % 2 ^ 32 : Nat) : ℚ))) : Int) : ℚ), 0,
            (model.trie.unigrams.getD wid.toNat ⟨0, 0, 0⟩).next⟩ ∧
        (model1.trie.unigrams.getD (wid.toNat + 1) ⟨0, 0, 0⟩).next =
          (model.trie.unigrams.getD wid.toNat ⟨0, 0, 0⟩).next) := by
  have h1 : NGRAM_IS_CLASSWID wid = false := by
    simp only [NGRAM_IS_CLASSWID, decide_eq_false_iff_not]
    omega
  have h2 : ¬ (model.base.n_1g_alloc < model.base.n_counts.getD 0 0) := by omega
  have h3 : ¬ (model.base.n_1g_alloc < wid.toNat + 1) := by omega
  obtain ⟨u1, hu1⟩ : ∃ u1, u1 = memset_unigrams
      (realloc_unigrams junk model.trie.unigrams (model.base.n_1g_alloc + 1))
      (model.base.n_counts.getD 0 0 + 1)
      (model.base.n_1g_alloc - model.base.n_counts.getD 0 0) := ⟨_, rfl⟩
  have hl1 : u1.length = model.base.n_1g_alloc + 1 := by
    rw [hu1, memset_unigrams_length, realloc_unigrams_length]
  have hg1 : ∀ i, i ≤ model.base.n_counts.getD 0 0 → i < model.trie.unigrams.length →
      u1.getD i ⟨0, 0, 0⟩ = model.trie.unigrams.getD i ⟨0, 0, 0⟩ := by
    intro i hi1 hi2
    rw [hu1, memset_unigrams_getD _ _ _ _ (by rw [realloc_unigrams_length]; omega),
      realloc_unigrams_getD _ _ _ _ (by omega)]
    have hc : ¬ (model.base.n_counts.getD 0 0 + 1 ≤ i ∧
        i < model.base.n_counts.getD 0 0 + 1 +
          (model.base.n_1g_alloc - model.base.n_counts.getD 0 0)) := by omega
    simp only [hc, hi2, ↓reduceIte]
  simp only [lm_trie_add_ug, h1, h2, h3, ↓reduceIte, Bool.false_eq_true, ← hu1]
  refine ⟨_, _, rfl, ?_, ?_, ?_, ?_, ?_, ?_, ?_, ?_, ?_⟩
  · rfl
  · simp only [List.length_set, hl1]
  · show model.base.n_counts.set 0 _ = _
    congr 1
    by_cases hw : wid.toNat ≥ (model.base.n_counts.getD 0 0 + 1) % 2 ^ 32
    · simp only [hw, ↓reduceIte]
      omega
    · simp only [hw, ↓reduceIte]
      omega
  · rfl
  · rfl
  · rfl
  · rfl
  · intro i hi1 hi2 hi3 hi4
    show ((u1.set _ _).set _ _).getD i ⟨0, 0, 0⟩ = _
    rw [getD_set_unigram _ _ i _ (by rw [List.length_set, hl1]; omega)]
    simp only [hi3, ↓reduceIte]
    rw [getD_set_unigram _ _ i _ (by rw [hl1]; omega)]
    simp only [hi4, ↓reduceIte]
    exact hg1 i hi1 hi2
  · intro hw1 hw2
    have hne : ¬ (wid.toNat = wid.toNat + 1) := by omega
    have hne1 : ¬ (wid.toNat + 1 = wid.toNat) := by omega
    have e0 : (u1.set (wid.toNat + 1)
        { u1.getD (wid.toNat + 1) ⟨0, 0, 0⟩ with
          next := (u1.getD wid.toNat ⟨0, 0, 0⟩).next }).getD wid.toNat ⟨0, 0, 0⟩ =
        model.trie.unigrams.getD wid.toNat ⟨0, 0, 0⟩ := by
      rw [getD_set_unigram _ _ wid.toNat _ (by rw [hl1]; omega)]
      simp only [hne, ↓reduceIte]
      exact hg1 wid.toNat hw1 hw2
    constructor
    · show ((u1.set _ _).set _ _).getD wid.toNat ⟨0, 0, 0⟩ = _
      rw [getD_set_unigram _ _ wid.toNat _ (by rw [List.length_set, hl1]; omega)]
      simp only [↓reduceIte, e0]
    · show (((u1.set _ _).set _ _).getD (wid.toNat + 1) ⟨0, 0, 0⟩).next = _
      rw [getD_set_unigram _ _ (wid.toNat + 1) _ (by rw [List.length_set, hl1]; omega)]
      simp only [hne1, ↓reduceIte]
      rw [getD_set_unigram _ _ (wid.toNat + 1) _ (by rw [hl1]; omega)]
      simp only [↓reduceIte, hg1 wid.toNat hw1 hw2]

/-- C24. For a model with unigram count `c` whose table holds the entries `0 .. c` and whose
allocation has room for one more word (`c + 1 <= n_1g_alloc`), `lm_trie_add_ug(c, lweight)`
returns and leaves every entry `0 .. c - 1` as it was; entry `c` keeps its `next` (and gets the
new probability and back-off `0`), entry `c + 1` takes this `next` over as the new end sentinel,
and the records of the higher levels are the same. -/
theorem add_ug_append_only (logmath_log : ℚ → Int) (junk : Nat → unigram_t)
    (model : trie_model_t) (lweight : Int) (c : Nat)
    (hc : model.base.n_counts.getD 0 0 = c) (hlen : c < model.trie.unigrams.length)
    (hroom : c + 1 ≤ model.base.n_1g_alloc) :
    ∃ model1 ret, lm_trie_add_ug logmath_log junk model (c : Int) lweight =
        Except.ok (model1, ret) ∧
      c + 1 < model1.trie.unigrams.length ∧
      (∀ i, i < c → model1.trie.unigrams.getD i ⟨0, 0, 0⟩ =
        model.trie.unigrams.getD i ⟨0, 0, 0⟩) ∧
      (model1.trie.unigrams.getD c ⟨0, 0, 0⟩).next =
        (model.trie.unigrams.getD c ⟨0, 0, 0⟩).next ∧
      (model1.trie.unigrams.getD c ⟨0, 0, 0⟩).bo = 0 ∧
      (model1.trie.unigrams.getD (c + 1) ⟨0, 0, 0⟩).next =
        (model.trie.unigrams.getD c ⟨0, 0, 0⟩).next ∧
      model1.trie.entries = model.trie.entries := by
  have ht : ((c : Int)).toNat = c := Int.toNat_ofNat c
  obtain ⟨model1, ret, h1, h2, h3, _, _, _, _, _, h9, h10⟩ :=
    lm_trie_add_ug_spec logmath_log junk model (c : Int) lweight (Int.ofNat_nonneg c)
      (by rw [hc]; omega) (by rw [ht]; exact hroom)
  rw [ht, hc] at h9 h10
  obtain ⟨h11, h12⟩ := h10 (le_refl _) hlen
  refine ⟨model1, ret, h1, by rw [h3]; omega, ?_, ?_, ?_, h12, h2⟩
  · intro i hi
    exact h9 i (by omega) (by omega) (by omega) (by omega)
  · rw [h11]
  · rw [h11]

theorem add_ug_append_only_witness :
    ∃ model1 ret, lm_trie_add_ug sample_logmath_log sample_junk two_unigram_model ((2 : Nat) : Int)
        5 = Except.ok (model1, ret) ∧
      2 + 1 < model1.trie.unigrams.length ∧
      (∀ i, i < 2 → model1.trie.unigrams.getD i ⟨0, 0, 0⟩ =
        two_unigram_model.trie.unigrams.getD i ⟨0, 0, 0⟩) ∧
      (model1.trie.unigrams.getD 2 ⟨0, 0, 0⟩).next =
        (two_unigram_model.trie.unigrams.getD 2 ⟨0, 0, 0⟩).next ∧
      (model1.trie.unigrams.getD 2 ⟨0, 0, 0⟩).bo = 0 ∧
      (model1.trie.unigrams.getD (2 + 1) ⟨0, 0, 0⟩).next =
        (two_unigram_model.trie.unigrams.getD 2 ⟨0, 0, 0⟩).next ∧
      model1.trie.entries = two_unigram_model.trie.entries :=
  add_ug_append_only sample_logmath_log sample_junk two_unigram_model 5 2 rfl (by decide)
    (by decide)

/-- C25, as stated, fails for a word id beyond the unigram count: on the model with two
unigrams and room for ten, `lm_trie_add_ug(5, 0)` returns and leaves the unigram count `6`,
not `3`. -/
theorem add_ug_count_follows_wid :
    ∃ model1 ret, lm_trie_add_ug sample_logmath_log sample_junk two_unigram_model 5 0 =
        Except.ok (model1, ret) ∧
      two_unigram_model.base.n_counts.getD 0 0 = 2 ∧
      model1.base.n_counts.getD 0 0 = 6 ∧
      model1.base.n_counts.getD 0 0 ≠ two_unigram_model.base.n_counts.getD 0 0 + 1 :=
  ⟨_, _, rfl, rfl, rfl, by decide⟩

/-- C25, amended. For a word id `wid >= 0` with `wid + 1 <= n_1g_alloc` on a model with
unigram count `c <= n_1g_alloc` (`c + 1 < 2 ^ 32`), `lm_trie_add_ug` returns and the unigram
count afterwards is the larger of `c + 1` and `wid + 1`: it is `c + 1` exactly when
`wid <= c`; the counts of the other orders stay. -/
theorem add_ug_unigram_count (logmath_log : ℚ → Int) (junk : Nat → unigram_t)
    (model : trie_model_t) (wid lweight : Int) (c : Nat)
    (hc : model.base.n_counts.getD 0 0 = c) (hne : model.base.n_counts ≠ [])
    (hwid : 0 ≤ wid) (hca : c ≤ model.base.n_1g_alloc)
    (hwa : wid.toNat + 1 ≤ model.base.n_1g_alloc) (hc32 : c + 1 < 2 ^ 32) :
    ∃ model1 ret, lm_trie_add_ug logmath_log junk model wid lweight = Except.ok (model1, ret) ∧
      model1.base.n_counts.getD 0 0 = max (c + 1) (wid.toNat + 1) ∧
      (model1.base.n_counts.getD 0 0 = c + 1 ↔ wid.toNat ≤ c) ∧
      model1.base.n_counts.drop 1 = model.base.n_counts.drop 1 := by
  obtain ⟨model1, ret, h1, _, _, h4, _⟩ :=
    lm_trie_add_ug_spec logmath_log junk model wid lweight hwid (by rw [hc]; exact hca) hwa
  rw [hc, Nat.mod_eq_of_lt hc32] at h4
  have hget : model1.base.n_counts.getD 0 0 = max (c + 1) (wid.toNat + 1) := by
    rw [h4]
    cases hl : model.base.n_counts with
    | nil => exact absurd hl hne
    | cons x xs => rfl
  refine ⟨model1, ret, h1, hget, ?_, ?_⟩
  · rw [hget]
    omega
  · rw [h4]
    cases hl : model.base.n_counts with
    | nil => exact absurd hl hne
    | cons x xs => rfl

theorem add_ug_unigram_count_witness :
    ∃ model1 ret, lm_trie_add_ug sample_logmath_log sample_junk two_unigram_model 5 0 =
        Except.ok (model1, ret) ∧
      model1.base.n_counts.getD 0 0 = max (2 + 1) ((5 : Int).toNat + 1) ∧
      (model1.base.n_counts.getD 0 0 = 2 + 1 ↔ (5 : Int).toNat ≤ 2) ∧
      model1.base.n_counts.drop 1 = two_unigram_model.base.n_counts.drop 1 :=
  add_ug_unigram_count sample_logmath_log sample_junk two_unigram_model 5 0 2 rfl (by decide)
    (by decide) (by decide) (by decide) (by decide)

theorem getD_set_nat (l : List Nat) (i t a : Nat) (hi : i < l.length) :
    (l.set i a).getD t 0 = if t = i then a else l.getD t 0 := by
  simp only [List.getD_eq_getElem?_getD, List.getElem?_set]
  by_cases h : i = t
  · subst h
    simp [hi]
  · have h2 : ¬ t = i := fun e => h e.symm
    simp [h, h2]

theorem list_eq_of_getD (l1 l2 : List Nat) (hlen : l1.length = l2.length)
    (h : ∀ i, i < l1.length → l1.getD i 0 = l2.getD i 0) : l1 = l2 := by
  apply List.ext_getElem hlen
  intro i h1 h2
  have := h i h1
  simpa [List.getD_eq_getElem?_getD, List.getElem?_eq_getElem h1,
    List.getElem?_eq_getElem h2] using this

theorem fill_raw_ngram_words_spec (hist : List Nat) (n_hist : Nat) :
    ∀ (n i : Nat) (words : List Nat), i + n ≤ words.length →
      (fill_raw_ngram_words hist n_hist n i words).length = words.length ∧
      ∀ j, (fill_raw_ngram_words hist n_hist n i words).getD j 0 =
        if i ≤ j ∧ j < i + n then hist.getD (n_hist - j) 0 else words.getD j 0 := by
  intro n
  induction n with
  | zero =>
    intro i words _
    refine ⟨rfl, ?_⟩
    intro j
    have : ¬ (i ≤ j ∧ j < i + 0) := by omega
    simp only [fill_raw_ngram_words, this, ↓reduceIte]
  | succ n ih =>
    intro i words h
    obtain ⟨h1, h2⟩ := ih (i + 1) (words.set i (hist.getD (n_hist - i) 0))
      (by rw [List.length_set]; omega)
    refine ⟨by simp only [fill_raw_ngram_words, h1, List.length_set], ?_⟩
    intro j
    simp only [fill_raw_ngram_words]
    rw [h2 j, getD_set_nat _ _ _ _ (by omega)]
    by_cases hj : j = i
    · subst hj
      have c1 : ¬ (j + 1 ≤ j ∧ j < j + 1 + n) := by omega
      have c2 : j ≤ j ∧ j < j + (n + 1) := by omega
      simp only [c1, c2, and_self, ↓reduceIte]
    · by_cases hc : i + 1 ≤ j ∧ j < i + 1 + n
      · have c2 : i ≤ j ∧ j < i + (n + 1) := by omega
        simp only [hc, c2, and_self, ↓reduceIte]
      · have c2 : ¬ (i ≤ j ∧ j < i + (n + 1)) := by omega
        simp only [hc, c2, hj, ↓reduceIte]

theorem fill_raw_ngram_emit_spec (hist : List Nat) (k : Nat) :
    (fill_raw_ngram_emit hist k).length = k ∧
    ∀ i, i < k → (fill_raw_ngram_emit hist k).getD i 0 = hist.getD (k - 1 - i) 0 := by
  obtain ⟨h1, h2⟩ := fill_raw_ngram_words_spec hist (k - 1) k 0 (List.replicate k 0)
    (by simp)
  refine ⟨by simpa [fill_raw_ngram_emit] using h1, ?_⟩
  intro i hi
  have := h2 i
  have c : 0 ≤ i ∧ i < 0 + k := by omega
  simp only [c, and_self, ↓reduceIte] at this
  exact this

/-- C28. For every trie path `hist[0 .. k - 1]` the last case of `fill_raw_ngram` emits the
`k` words `words[i] = hist[k - 1 - i]`. When the path holds the words that
`read_ngram_instance` stored for a line with the word tokens `t_1 .. t_k`
(`hist[j] = id(t_(k - j))`), the emitted words are `id(t_1) .. id(t_k)`, and the line that
`ngram_model_trie_write_arpa` prints for this n-gram lists them in this order. -/
theorem fill_raw_ngram_inverts_reading (L : Library) (li : List String) (buf : String)
    (rest : List String) (wid : List (String × Nat)) (order order_max : Nat) (n : Int)
    (wptr : List String) (ids : Nat → Nat) (n_max : Nat) (weights : List ℚ)
    (hnext : lineiter_next li = Except.ok (buf :: rest))
    (hwords : L.str2words (L.string_trim buf) (L.NGRAM_MAX_ORDER + 1) = (n, wptr))
    (hn : (order : Int) + 1 ≤ n)
    (hid : ∀ i, 1 ≤ i → i ≤ order →
      hash_table_lookup wid (wptr.getD i "") = some (ids i)) :
    (∀ (hist : List Nat) (k : Nat), (fill_raw_ngram_emit hist k).length = k ∧
      ∀ i, i < k → (fill_raw_ngram_emit hist k).getD i 0 = hist.getD (k - 1 - i) 0) ∧
    ∃ raw, read_ngram_instance L li wid order order_max =
        Except.ok (L.string_trim buf :: rest, some raw) ∧
      (∀ j, j < order → raw.words.getD j 0 = ids (order - j)) ∧
      fill_raw_ngram_emit raw.words order = (List.range order).map (fun i => ids (i + 1)) ∧
      (write_arpa_ngram_section order n_max
          [⟨fill_raw_ngram_emit raw.words order, weights⟩]).map (fun l => l.words) =
        [(List.range order).map (fun i => ids (i + 1))] := by
  refine ⟨fill_raw_ngram_emit_spec, ?_⟩
  obtain ⟨h1, h2⟩ := read_ngram_words_spec wid wptr order ids hid order 1
    (List.replicate order 0) (le_refl 1) (by omega) (by simp)
  have hnot : ¬ (n < (order : Int) + 1) := by omega
  simp only [read_ngram_instance, hnext, hwords, hnot, ↓reduceIte]
  have hw : ∀ j, j < order →
      (read_ngram_words wid wptr order order 1 (List.replicate order 0)).getD j 0 =
        ids (order - j) := by
    intro j hj
    have := h2 j hj
    have c : j + 1 ≤ order := by omega
    simpa only [c, ↓reduceIte] using this
  have hemit : fill_raw_ngram_emit
      (read_ngram_words wid wptr order order 1 (List.replicate order 0)) order =
      (List.range order).map (fun i => ids (i + 1)) := by
    obtain ⟨e1, e2⟩ := fill_raw_ngram_emit_spec
      (read_ngram_words wid wptr order order 1 (List.replicate order 0)) order
    apply list_eq_of_getD
    · simp [e1]
    · intro i hi
      rw [e1] at hi
      rw [e2 i hi, hw (order - 1 - i) (by omega)]
      have : order - (order - 1 - i) = i + 1 := by omega
      rw [this]
      simp [List.getD_eq_getElem?_getD, List.getElem?_map, List.getElem?_range, hi]
  refine ⟨_, rfl, hw, hemit, ?_⟩
  simp only [write_arpa_ngram_section, List.insertionSort, List.orderedInsert, List.map_cons,
    List.map_nil, ngram_tuple, hemit]
  congr 1
  apply List.map_congr_left
  intro k hk
  simp only [List.mem_range] at hk
  simp [List.getD_eq_getElem?_getD, List.getElem?_map, List.getElem?_range, hk]

theorem fill_raw_ngram_inverts_reading_witness :
    (∀ (hist : List Nat) (k : Nat), (fill_raw_ngram_emit hist k).length = k ∧
      ∀ i, i < k → (fill_raw_ngram_emit hist k).getD i 0 = hist.getD (k - 1 - i) 0) ∧
    ∃ raw, read_ngram_instance ascii_library ["\\2-grams:", "-0.5 B A"] two_word_wid 2 2 =
        Except.ok (ascii_library.string_trim "-0.5 B A" :: [], some raw) ∧
      (∀ j, j < 2 → raw.words.getD j 0 = (fun i => if i = 1 then 1 else 0) (2 - j)) ∧
      fill_raw_ngram_emit raw.words 2 =
        (List.range 2).map (fun i => (fun i => if i = 1 then 1 else 0) (i + 1)) ∧
      (write_arpa_ngram_section 2 2
          [⟨fill_raw_ngram_emit raw.words 2, [-1 / 2]⟩]).map (fun l => l.words) =
        [(List.range 2).map (fun i => (fun i => if i = 1 then 1 else 0) (i + 1))] :=
  fill_raw_ngram_inverts_reading ascii_library ["\\2-grams:", "-0.5 B A"] "-0.5 B A" []
    two_word_wid 2 2 3 ["-0.5", "B", "A"] (fun i => if i = 1 then 1 else 0) 2 [-1 / 2]
    rfl (by decide) (by decide)
    (by
      intro i h1 h2
      interval_cases i <;> decide)

theorem read_counts_lines_run (L : Library) (tail : List String)
    (hblank : L.sscanf_ngram "" = none) :
    ∀ (n : Nat) (g : Nat → String) (p : Int) (counts : List Nat) (cval : Nat → Nat),
      (∀ i, i < n → L.sscanf_ngram (g i) = some (p + 1 + (i : Int), cval i)) →
      read_counts_lines L ((List.range n).map g ++ "" :: tail) p counts =
        some ("" :: tail, counts ++ (List.range n).map cval) := by
  intro n
  induction n with
  | zero =>
    intro g p counts cval _
    simp [read_counts_lines, hblank]
  | succ n ih =>
    intro g p counts cval h
    have h0 := h 0 (Nat.succ_pos n)
    simp only [Nat.cast_zero, add_zero] at h0
    rw [List.range_succ_eq_map, List.map_cons, List.map_map, List.cons_append]
    simp only [read_counts_lines, h0, ne_eq, not_true_eq_false, ↓reduceIte]
    rw [ih (g ∘ Nat.succ) (p + 1) (counts ++ [cval 0]) (cval ∘ Nat.succ) (by
      intro i hi
      have := h (i + 1) (by omega)
      simp only [Function.comp, Nat.succ_eq_add_one]
      rw [this]
      push_cast
      congr 2
      ring)]
    simp [List.range_succ_eq_map, List.map_map]

theorem range_map_getD_eq (l : List Nat) : (List.range l.length).map (fun i => l.getD i 0) = l := by
  apply List.ext_getElem
  · simp
  · intro i h1 h2
    simp [List.getD_eq_getElem?_getD, List.getElem?_eq_getElem h2]

/-- C27. For a model of order `n` with the counts `c_1 .. c_n`, the head of the file that
`ngram_model_trie_write_arpa` prints (comment line, `\data\`, the lines `ngram i=c_i`, an empty
line, `\1-grams:`) is accepted by `read_counts_arpa`: it returns `0` with `order = n`, the same
counts, and the iterator on the `\1-grams:` line. The library routines are taken to trim the
two markers to themselves and the comment to something else, `sscanf` to read back the two
numbers that `fprintf` printed, and to convert nothing on the empty line. -/
theorem write_arpa_header_read_back (L : Library) (fprintf_ngram : Int → Nat → String)
    (n : Nat) (n_counts : List Nat) (rest : List String)
    (hlen : n_counts.length = n)
    (hcomment : L.string_trim
      "This is an ARPA-format language model file, generated by CMU Sphinx" ≠ "\\data\\")
    (hdata : L.string_trim "\\data\\" = "\\data\\")
    (hscan : ∀ i, i < n → L.sscanf_ngram (fprintf_ngram ((i : Int) + 1) (n_counts.getD i 0)) =
      some ((i : Int) + 1, n_counts.getD i 0))
    (hblank : L.sscanf_ngram "" = none)
    (hgrams : L.string_trim "\\1-grams:" = "\\1-grams:") :
    read_counts_arpa L (lineiter_start (write_arpa_header fprintf_ngram n n_counts ++ rest)) =
      some ("\\1-grams:" :: rest, n_counts, n) := by
  have hrun := read_counts_lines_run L ("\\1-grams:" :: rest) hblank n
    (fun i : Nat => fprintf_ngram ((i : Int) + 1) (n_counts.getD i 0)) 0 []
    (fun i => n_counts.getD i 0) (by
      intro i hi
      rw [hscan i hi]
      congr 2
      ring)
  have hc : (List.range n).map (fun i => n_counts.getD i 0) = n_counts := by
    rw [← hlen]
    exact range_map_getD_eq n_counts
  rw [List.nil_append, hc] at hrun
  have hfile : write_arpa_header fprintf_ngram n n_counts ++ rest =
      "This is an ARPA-format language model file, generated by CMU Sphinx" :: "\\data\\" ::
        ((List.range n).map (fun i : Nat => fprintf_ngram ((i : Int) + 1) (n_counts.getD i 0)) ++
          "" :: "\\1-grams:" :: rest) := by
    simp [write_arpa_header]
  rw [hfile]
  simp only [read_counts_arpa, lineiter_start, lineiter_skip_to, hcomment, hdata, ↓reduceIte,
    hrun, hgrams, hlen]

theorem write_arpa_header_read_back_witness :
    read_counts_arpa ascii_library
        (lineiter_start (write_arpa_header decimal_fprintf_ngram 2 [2, 1] ++
          ["-1.0 A -0.5", "-1.0 B -0.5"])) =
      some ("\\1-grams:" :: ["-1.0 A -0.5", "-1.0 B -0.5"], [2, 1], 2) :=
  write_arpa_header_read_back ascii_library decimal_fprintf_ngram 2 [2, 1]
    ["-1.0 A -0.5", "-1.0 B -0.5"] rfl (by decide) (by decide)
    (by
      intro i hi
      interval_cases i <;> rfl)
    (by decide) (by decide)

theorem le_value_le_bytes4 (x : Nat) (hx : x < 2 ^ 32) : le_value (le_bytes 4 x) = x := by
  have h := field_value32 false x hx
  simpa [field_bytes] using h

theorem le_bytes_length (size x : Nat) : (le_bytes size x).length = size := by
  induction size generalizing x with
  | zero => rfl
  | succ n ih => simp [le_bytes, ih]

theorem takeWhile_nonzero_append (w rest : List Nat) (hw : ∀ b ∈ w, b ≠ 0) :
    (w ++ 0 :: rest).takeWhile (fun b => b ≠ 0) = w := by
  induction w with
  | nil => simp [List.takeWhile]
  | cons b bs ih =>
    have hb : b ≠ 0 := hw b (List.mem_cons_self _ _)
    have hbs : ∀ x ∈ bs, x ≠ 0 := fun x hx => hw x (List.mem_cons_of_mem _ hx)
    rw [List.cons_append, List.takeWhile_cons_of_pos (by simpa using hb), ih hbs]

theorem takeWhile_nonzero (w : List Nat) (hw : ∀ b ∈ w, b ≠ 0) :
    w.takeWhile (fun b => b ≠ 0) = w := by
  induction w with
  | nil => rfl
  | cons b bs ih =>
    have hb : b ≠ 0 := hw b (List.mem_cons_self _ _)
    have hbs : ∀ x ∈ bs, x ≠ 0 := fun x hx => hw x (List.mem_cons_of_mem _ hx)
    rw [List.takeWhile_cons_of_pos (by simpa using hb), ih hbs]

theorem range_flatMap_getD (ws : List (List Nat)) (f : List Nat → List Nat) :
    (List.range ws.length).flatMap (fun i => f (ws.getD i [])) = ws.flatMap f := by
  have h : (List.range ws.length).map (fun i => ws.getD i []) = ws := by
    apply List.ext_getElem
    · simp
    · intro i h1 h2
      simp [List.getD_eq_getElem?_getD, List.getElem?_eq_getElem h2]
  conv_rhs => rw [← h]
  simp only [List.flatMap, List.map_map]
  rfl

theorem range_map_sum_getD (ws : List (List Nat)) (f : List Nat → Nat) :
    ((List.range ws.length).map (fun i => f (ws.getD i []))).sum = (ws.map f).sum := by
  have h : (List.range ws.length).map (fun i => ws.getD i []) = ws := by
    apply List.ext_getElem
    · simp
    · intro i h1 h2
      simp [List.getD_eq_getElem?_getD, List.getElem?_eq_getElem h2]
  conv_rhs => rw [← h]
  simp only [List.map_map]
  rfl

theorem word_block_length (ws : List (List Nat)) :
    (ws.flatMap (fun w => w ++ [0])).length = (ws.map (fun w => w.length + 1)).sum := by
  induction ws with
  | nil => rfl
  | cons w ws ih =>
    simp [ih]
    omega

theorem word_block_count (ws : List (List Nat)) (hnz : ∀ w ∈ ws, ∀ b ∈ w, b ≠ 0) :
    (ws.flatMap (fun w => w ++ [0])).count 0 = ws.length := by
  induction ws with
  | nil => rfl
  | cons w ws ih =>
    have hw : ∀ b ∈ w, b ≠ 0 := hnz w (List.mem_cons_self _ _)
    have hws : ∀ v ∈ ws, ∀ b ∈ v, b ≠ 0 := fun v hv => hnz v (List.mem_cons_of_mem _ hv)
    have hc : w.count 0 = 0 := by
      rw [List.count_eq_zero]
      intro h
      exact hw 0 h rfl
    simp [List.count_append, ih hws, hc]

theorem read_word_str_words_block :
    ∀ (ws : List (List Nat)), (∀ w ∈ ws, ∀ b ∈ w, b ≠ 0) →
      ∀ (pre : List Nat) (done : List (Option String)) (wid : List (String × Nat)),
      ∃ wid1,
        read_word_str_words (pre ++ ws.flatMap (fun w => w ++ [0])) ws.length done.length
            pre.length (done ++ List.replicate ws.length none) wid =
          Except.ok (done ++ ws.map (fun w => some (string_of_bytes w)), wid1) ∧
        read_1grams_fill_wid (ws.map (fun w => some (string_of_bytes w))) done.length wid =
          Except.ok wid1 := by
  intro ws
  induction ws with
  | nil =>
    intro _ pre done wid
    exact ⟨wid, by simp [read_word_str_words], rfl⟩
  | cons w ws ih =>
    intro hnz pre done wid
    have hw : ∀ b ∈ w, b ≠ 0 := hnz w (List.mem_cons_self _ _)
    have hws : ∀ v ∈ ws, ∀ b ∈ v, b ≠ 0 := fun v hv => hnz v (List.mem_cons_of_mem _ hv)
    have hdrop : (pre ++ (w :: ws).flatMap (fun w => w ++ [0])).drop pre.length =
        w ++ 0 :: ws.flatMap (fun w => w ++ [0]) := by
      rw [List.drop_left]
      simp
    have hcs : c_string_at (pre ++ (w :: ws).flatMap (fun w => w ++ [0])) pre.length =
        Except.ok w := by
      unfold c_string_at
      rw [hdrop, takeWhile_nonzero_append w _ hw]
      simp
    obtain ⟨wid1, h1, h2⟩ := ih hws (pre ++ w ++ [0]) (done ++ [some (string_of_bytes w)])
      (hash_table_enter wid (string_of_bytes w) done.length).1
    refine ⟨wid1, ?_, ?_⟩
    · simp only [List.length_cons, read_word_str_words, hcs]
      have hset : (done ++ List.replicate (ws.length + 1) none).set done.length
          (some (string_of_bytes w)) =
          (done ++ [some (string_of_bytes w)]) ++ List.replicate ws.length none := by
        rw [List.replicate_succ, List.set_append_right _ _ (le_refl _)]
        simp
      have hbuf : pre ++ (w :: ws).flatMap (fun w => w ++ [0]) =
          (pre ++ w ++ [0]) ++ ws.flatMap (fun w => w ++ [0]) := by
        simp
      have hlen1 : done.length + 1 = (done ++ [some (string_of_bytes w)]).length := by simp
      have hlen2 : pre.length + (w.length + 1) = (pre ++ w ++ [0]).length := by
        simp
      rw [hset, hbuf, hlen1, hlen2, h1]
      simp
    · simp only [List.map_cons, read_1grams_fill_wid]
      have hlen1 : done.length + 1 = (done ++ [some (string_of_bytes w)]).length := by simp
      rw [hlen1]
      exact h2

/-- C26. For every list of words without NUL bytes (their block shorter than `2 ^ 31` bytes),
`write_word_str` writes the length `sum (len(w_i) + 1)` and then every word with its NUL, and
`read_word_str` with the unigram count `n` on these bytes returns `word_str[i] = w_i` for every
`i < n`, reports no mismatch, leaves the rest of the file, and fills the word-id table so that
every word string has the index of its first occurrence and no other string has an id. -/
theorem word_str_round_trip (ws : List (List Nat)) (rest : List Nat)
    (hnz : ∀ w ∈ ws, ∀ b ∈ w, b ≠ 0)
    (hsize : (ws.map (fun w => w.length + 1)).sum < 2 ^ 31) :
    write_word_str ws.length ws =
      le_bytes 4 (ws.map (fun w => w.length + 1)).sum ++ ws.flatMap (fun w => w ++ [0]) ∧
    ∃ wid, read_word_str ws.length (write_word_str ws.length ws ++ rest) =
        Except.ok (ws.map (fun w => some (string_of_bytes w)), wid, rest, false) ∧
      (∀ i s, (ws.map string_of_bytes).get? i = some s →
        (∀ j, j < i → (ws.map string_of_bytes).get? j ≠ some s) →
        hash_table_lookup wid s = some i) ∧
      (∀ s, s ∉ ws.map string_of_bytes → hash_table_lookup wid s = none) := by
  have hstrlen : ∀ w ∈ ws, strlen w = w.length := by
    intro w hw
    unfold strlen
    rw [takeWhile_nonzero w (hnz w hw)]
  have hsum : ((List.range ws.length).map (fun i => strlen (ws.getD i []) + 1)).sum =
      (ws.map (fun w => w.length + 1)).sum := by
    rw [range_map_sum_getD ws (fun w => strlen w + 1)]
    congr 1
    apply List.map_congr_left
    intro w hw
    rw [hstrlen w hw]
  have hbody : (List.range ws.length).flatMap
      (fun i => (ws.getD i []).takeWhile (fun b => b ≠ 0) ++ [0]) =
      ws.flatMap (fun w => w ++ [0]) := by
    rw [range_flatMap_getD ws (fun w => w.takeWhile (fun b => b ≠ 0) ++ [0])]
    simp only [List.flatMap]
    congr 1
    apply List.map_congr_left
    intro w hw
    rw [takeWhile_nonzero w (hnz w hw)]
  have hwrite : write_word_str ws.length ws =
      le_bytes 4 (ws.map (fun w => w.length + 1)).sum ++ ws.flatMap (fun w => w ++ [0]) := by
    unfold write_word_str
    rw [hsum, hbody, Nat.mod_eq_of_lt (by omega)]
  refine ⟨hwrite, ?_⟩
  obtain ⟨wid, h1, h2⟩ := read_word_str_words_block ws hnz [] [] []
  simp only [List.nil_append, List.length_nil] at h1 h2
  obtain ⟨wid1, g1, _, g3, g4⟩ := read_1grams_fill_wid_spec
    (ws.map (fun w => some (string_of_bytes w))) (by
      intro w hw
      simp only [List.mem_map] at hw
      obtain ⟨v, _, rfl⟩ := hw
      simp) 0 []
  rw [h2] at g1
  cases g1
  refine ⟨wid, ?_, ?_, ?_⟩
  · rw [hwrite, List.append_assoc]
    unfold read_word_str
    rw [fread_field_append _ _ 4 (le_bytes_length 4 _), le_value_le_bytes4 _ (by omega)]
    have hk : ¬ ((ws.map (fun w => w.length + 1)).sum ≥ 2 ^ 31) := by omega
    simp only [hk, ↓reduceIte]
    rw [fread_bytes_exact _ _ _ (word_block_length ws)]
    simp only [h1, word_block_count ws hnz, ne_eq, not_true_eq_false, decide_False]
  · intro i s hi hfirst
    have := g3 s i rfl (by
      simp only [List.get?_eq_getElem?, List.getElem?_map] at hi ⊢
      cases hw : ws[i]? with
      | none => simp [hw] at hi
      | some w =>
        simp only [hw, Option.map_some', Option.some.injEq] at hi ⊢
        exact hi) (by
      intro j hj hc
      apply hfirst j hj
      simp only [List.get?_eq_getElem?, List.getElem?_map] at hc ⊢
      cases hw : ws[j]? with
      | none => simp [hw] at hc
      | some w =>
        simp only [hw, Option.map_some', Option.some.injEq] at hc ⊢
        exact hc)
    simpa using this
  · intro s hs
    apply g4 s rfl
    intro hmem
    apply hs
    simp only [List.mem_map] at hmem ⊢
    obtain ⟨w, hw, he⟩ := hmem
    exact ⟨w, hw, Option.some.inj he⟩

theorem word_str_round_trip_witness :
    write_word_str [[97], [98, 99], [97]].length [[97], [98, 99], [97]] =
      le_bytes 4 (([[97], [98, 99], [97]] : List (List Nat)).map (fun w => w.length + 1)).sum ++
        ([[97], [98, 99], [97]] : List (List Nat)).flatMap (fun w => w ++ [0]) ∧
    ∃ wid, read_word_str [[97], [98, 99], [97]].length
        (write_word_str [[97], [98, 99], [97]].length [[97], [98, 99], [97]] ++ [1, 2]) =
        Except.ok (([[97], [98, 99], [97]] : List (List Nat)).map
          (fun w => some (string_of_bytes w)), wid, [1, 2], false) ∧
      (∀ i s, (([[97], [98, 99], [97]] : List (List Nat)).map string_of_bytes).get? i = some s →
        (∀ j, j < i →
          (([[97], [98, 99], [97]] : List (List Nat)).map string_of_bytes).get? j ≠ some s) →
        hash_table_lookup wid s = some i) ∧
      (∀ s, s ∉ ([[97], [98, 99], [97]] : List (List Nat)).map string_of_bytes →
        hash_table_lookup wid s = none) :=
  word_str_round_trip [[97], [98, 99], [97]] [1, 2] (by decide) (by decide)

theorem lex_le_refl : ∀ x : List Nat, lex_le x x
  | [] => by simp [lex_le]
  | a :: as => by
    show a < a ∨ (a = a ∧ lex_le as as)
    exact Or.inr ⟨rfl, lex_le_refl as⟩

theorem lex_le_antisymm : ∀ x y : List Nat, lex_le x y → lex_le y x → x = y
  | [], [] => fun _ _ => rfl
  | [], _ :: _ => fun _ h => by simp [lex_le] at h
  | _ :: _, [] => fun h _ => by simp [lex_le] at h
  | a :: as, b :: bs => by
    simp only [lex_le]
    intro h1 h2
    rcases h1 with h1 | ⟨h1, h1'⟩
    · rcases h2 with h2 | ⟨h2, _⟩
      · omega
      · omega
    · rcases h2 with h2 | ⟨_, h2'⟩
      · omega
      · rw [h1, lex_le_antisymm as bs h1' h2']

theorem lex_le_append_right : ∀ p r : List Nat, lex_le p (p ++ r)
  | [], _ => by simp [lex_le]
  | a :: as, r => by
    show a < a ∨ (a = a ∧ lex_le as (as ++ r))
    exact Or.inr ⟨rfl, lex_le_append_right as r⟩

theorem not_lex_le_append_cons : ∀ (p : List Nat) (x : Nat) (r : List Nat),
    ¬ lex_le (p ++ x :: r) p
  | [], _, _ => by simp [lex_le]
  | a :: as, x, r => by
    simp only [List.cons_append, lex_le]
    intro h
    rcases h with h | ⟨_, h⟩
    · omega
    · exact not_lex_le_append_cons as x r h

/-- A tuple between a prefix and an extension of that prefix, of the length of
the prefix, is the prefix. -/
theorem lex_le_sandwich : ∀ (p l r : List Nat), l.length = p.length →
    lex_le p l → lex_le l (p ++ r) → l = p
  | [], [], _ => fun _ _ _ => rfl
  | [], _ :: _, _ => fun h _ _ => by simp at h
  | _ :: _, [], _ => fun h _ _ => by simp at h
  | a :: as, b :: bs, r => by
    simp only [List.cons_append, lex_le, List.length_cons]
    intro hl h1 h2
    rcases h1 with h1 | ⟨h1, h1'⟩
    · rcases h2 with h2 | ⟨h2, _⟩
      · omega
      · omega
    · rcases h2 with h2 | ⟨_, h2'⟩
      · omega
      · rw [h1, lex_le_sandwich as bs r (by omega) h1' h2']

/-- Against a longer tuple, a tuple compares as against the prefix of its own
length. -/
theorem lex_le_append_iff : ∀ (x p r : List Nat), x.length = p.length →
    (lex_le x (p ++ r) ↔ lex_le x p)
  | [], _, _ => fun _ => by simp [lex_le]
  | _ :: _, [], _ => fun h => by simp at h
  | a :: as, b :: bs, r => by
    intro hl
    show (a < b ∨ (a = b ∧ lex_le as (bs ++ r))) ↔ (a < b ∨ (a = b ∧ lex_le as bs))
    rw [lex_le_append_iff as bs r (by simpa using hl)]

/-- The tuple of the first `order` words has `order` entries. -/
theorem ngram_tuple_length (order : Nat) (g : ngram_raw_t) :
    (ngram_tuple order g).length = order := by
  simp [ngram_tuple]

theorem ngram_tuple_split (j k : Nat) (h : j ≤ k) (g : ngram_raw_t) :
    ngram_tuple k g =
      ngram_tuple j g ++ (List.range' j (k - j)).map (fun i => g.words.getD i 0) := by
  obtain ⟨d, rfl⟩ : ∃ d, k = j + d := ⟨k - j, by omega⟩
  simp only [ngram_tuple, List.range_eq_range', Nat.add_sub_cancel_left]
  rw [← List.map_append]
  congr 1
  rw [show j + d = d + j from by omega, ← List.range'_append_1 0 j d]
  simp

theorem ngram_tuple_getD (order : Nat) (g : ngram_raw_t) (i : Nat) (h : i < order) :
    (ngram_tuple order g).getD i 0 = g.words.getD i 0 := by
  simp only [ngram_tuple]
  rw [List.getD_eq_getElem _ _ (by simpa using h)]
  simp

theorem ngram_tuple_congr (order : Nat) (a b : ngram_raw_t)
    (h : ∀ i < order, a.words.getD i 0 = b.words.getD i 0) :
    ngram_tuple order a = ngram_tuple order b := by
  simp only [ngram_tuple]
  apply List.map_congr_left
  intro i hi
  exact h i (by simpa using hi)

/-- The sign of `ngram_ord_comparator_loop` from index `i` on, over the words
`i, i + 1, ...` of the two entries. -/
theorem ngram_ord_comparator_loop_sign (a b : ngram_raw_ord_t) : ∀ n i : Nat,
    i ≤ a.order → i ≤ b.order → a.order ≤ i + n →
    (0 < ngram_ord_comparator_loop a b n i ↔
      ¬ lex_le ((List.range' i (b.order - i)).map (fun k => b.instance_.words.getD k 0))
        ((List.range' i (a.order - i)).map (fun k => a.instance_.words.getD k 0))) ∧
    (ngram_ord_comparator_loop a b n i < 0 ↔
      ¬ lex_le ((List.range' i (a.order - i)).map (fun k => a.instance_.words.getD k 0))
        ((List.range' i (b.order - i)).map (fun k => b.instance_.words.getD k 0))) := by
  have hend : ∀ i : Nat, i ≤ a.order → i ≤ b.order → ¬ (i < a.order ∧ i < b.order) →
      (0 < (b.order : Int) - (a.order : Int) ↔
        ¬ lex_le ((List.range' i (b.order - i)).map (fun k => b.instance_.words.getD k 0))
          ((List.range' i (a.order - i)).map (fun k => a.instance_.words.getD k 0))) ∧
      ((b.order : Int) - (a.order : Int) < 0 ↔
        ¬ lex_le ((List.range' i (a.order - i)).map (fun k => a.instance_.words.getD k 0))
          ((List.range' i (b.order - i)).map (fun k => b.instance_.words.getD k 0))) := by
    intro i ha hb hnot
    rcases Nat.lt_or_ge i a.order with h1 | h1
    · have h2 : b.order = i := by omega
      have e1 : b.order - i = 0 := by omega
      obtain ⟨d, hd⟩ : ∃ d, a.order - i = d + 1 := ⟨a.order - i - 1, by omega⟩
      rw [e1, hd, List.range'_succ]
      simp only [List.range'_zero, List.map_nil, List.map_cons, lex_le, not_true_eq_false,
        iff_false, not_lt, not_false_eq_true, iff_true]
      constructor <;> omega
    · have h2 : a.order = i := by omega
      have e1 : a.order - i = 0 := by omega
      rcases Nat.eq_or_lt_of_le hb with h3 | h3
      · have e2 : b.order - i = 0 := by omega
        rw [e1, e2]
        simp only [List.range'_zero, List.map_nil, lex_le, not_true_eq_false, iff_false, not_lt]
        constructor <;> omega
      · obtain ⟨d, hd⟩ : ∃ d, b.order - i = d + 1 := ⟨b.order - i - 1, by omega⟩
        rw [e1, hd, List.range'_succ]
        simp only [List.range'_zero, List.map_nil, List.map_cons, lex_le, not_true_eq_false,
          iff_false, not_lt, not_false_eq_true, iff_true]
        constructor <;> omega
  intro n
  induction n with
  | zero =>
    intro i ha hb hn
    simp only [ngram_ord_comparator_loop]
    exact hend i ha hb (by omega)
  | succ n ih =>
    intro i ha hb hn
    simp only [ngram_ord_comparator_loop]
    by_cases hc : i < a.order ∧ i < b.order
    · rw [if_pos hc]
      obtain ⟨da, hda⟩ : ∃ d, a.order - i = d + 1 := ⟨a.order - i - 1, by omega⟩
      obtain ⟨db, hdb⟩ : ∃ d, b.order - i = d + 1 := ⟨b.order - i - 1, by omega⟩
      have ea : a.order - (i + 1) = da := by omega
      have eb : b.order - (i + 1) = db := by omega
      have ih1 := ih (i + 1) (by omega) (by omega) (by omega)
      rw [ea, eb] at ih1
      rw [hda, hdb, List.range'_succ, List.range'_succ]
      simp only [List.map_cons, lex_le]
      by_cases he : a.instance_.words.getD i 0 = b.instance_.words.getD i 0
      · rw [if_pos he]
        simp only [he, lt_self_iff_false, true_and, false_or]
        exact ih1
      · rw [if_neg he]
        by_cases hlt : a.instance_.words.getD i 0 < b.instance_.words.getD i 0
        · rw [if_pos hlt]
          constructor
          · simp only [zero_lt_one, true_iff]
            intro h
            rcases h with h | ⟨h, _⟩ <;> omega
          · simp only [hlt, true_or, not_true_eq_false, iff_false]
            decide
        · rw [if_neg hlt]
          have hgt : b.instance_.words.getD i 0 < a.instance_.words.getD i 0 := by omega
          constructor
          · simp only [hgt, true_or, not_true_eq_false, iff_false]
            decide
          · constructor
            · intro _ h
              rcases h with h | ⟨h, _⟩ <;> omega
            · intro _
              decide
    · rw [if_neg hc]
      exact hend i ha hb hc

/-- The comparator `ngram_ord_comparator` ranks `a` before `b` exactly when the tuple of
`b` is not at or below the tuple of `a`. -/
theorem ngram_ord_comparator_pos_iff (a b : ngram_raw_ord_t) :
    0 < ngram_ord_comparator a b ↔
      ¬ lex_le (ngram_tuple b.order b.instance_) (ngram_tuple a.order a.instance_) := by
  have h := (ngram_ord_comparator_loop_sign a b a.order 0 (Nat.zero_le _) (Nat.zero_le _)
    (by omega)).1
  simpa [ngram_ord_comparator, ngram_tuple, List.range_eq_range'] using h

theorem ngram_ord_comparator_neg_iff (a b : ngram_raw_ord_t) :
    ngram_ord_comparator a b < 0 ↔
      ¬ lex_le (ngram_tuple a.order a.instance_) (ngram_tuple b.order b.instance_) := by
  have h := (ngram_ord_comparator_loop_sign a b a.order 0 (Nat.zero_le _) (Nat.zero_le _)
    (by omega)).2
  simpa [ngram_ord_comparator, ngram_tuple, List.range_eq_range'] using h

/-- The fold of `priority_queue_top` ends on an entry of the queue whose tuple
is least. -/
theorem queue_fold_least : ∀ (rest : List ngram_raw_ord_t) (best : ngram_raw_ord_t),
    (rest.foldl (fun best x => if ngram_ord_comparator x best > 0 then x else best) best
        ∈ best :: rest) ∧
    ∀ x ∈ best :: rest,
      lex_le
        (ngram_tuple
          (rest.foldl (fun best x => if ngram_ord_comparator x best > 0 then x else best)
            best).order
          (rest.foldl (fun best x => if ngram_ord_comparator x best > 0 then x else best)
            best).instance_)
        (ngram_tuple x.order x.instance_)
  | [], best => by
    simp only [List.foldl_nil, List.mem_singleton, forall_eq, true_and]
    exact lex_le_refl _
  | y :: ys, best => by
    simp only [List.foldl_cons]
    obtain ⟨hm, hle⟩ := queue_fold_least ys (if ngram_ord_comparator y best > 0 then y else best)
    generalize hb : (if ngram_ord_comparator y best > 0 then y else best) = b1 at hm hle
    generalize ht : ys.foldl
      (fun best x => if ngram_ord_comparator x best > 0 then x else best) b1 = t at hm hle
    have hb1 : (b1 = y ∨ b1 = best) ∧
        lex_le (ngram_tuple b1.order b1.instance_) (ngram_tuple y.order y.instance_) ∧
        lex_le (ngram_tuple b1.order b1.instance_) (ngram_tuple best.order best.instance_) := by
      by_cases hc : ngram_ord_comparator y best > 0
      · rw [if_pos hc] at hb
        subst hb
        refine ⟨Or.inl rfl, lex_le_refl _, ?_⟩
        have h1 := (ngram_ord_comparator_pos_iff _ best).1 hc
        rcases lex_le_total (ngram_tuple best.order best.instance_)
          (ngram_tuple _ _) with h2 | h2
        · exact absurd h2 h1
        · exact h2
      · rw [if_neg hc] at hb
        subst hb
        refine ⟨Or.inr rfl, ?_, lex_le_refl _⟩
        by_contra h1
        exact hc ((ngram_ord_comparator_pos_iff y _).2 h1)
    constructor
    · rcases List.mem_cons.1 hm with h | h
      · rcases hb1.1 with h1 | h1
        · rw [h, h1]; simp
        · rw [h, h1]; simp
      · exact List.mem_cons_of_mem _ (List.mem_cons_of_mem _ h)
    · intro x hx
      have htb := hle b1 (List.mem_cons_self _ _)
      rcases List.mem_cons.1 hx with h | h
      · rw [h]
        exact lex_le_trans _ _ _ htb hb1.2.2
      · rcases List.mem_cons.1 h with h | h
        · rw [h]
          exact lex_le_trans _ _ _ htb hb1.2.1
        · exact hle x (List.mem_cons_of_mem _ h)

/-- What `priority_queue_poll` hands out under `ngram_ord_comparator`: an entry
of the queue with the least tuple, and the queue without it. -/
theorem priority_queue_poll_least (queue : List ngram_raw_ord_t) (hq : queue ≠ []) :
    ∃ top, priority_queue_poll ngram_ord_comparator queue = some (top, queue.erase top) ∧
      top ∈ queue ∧
      ∀ x ∈ queue, lex_le (ngram_tuple top.order top.instance_)
        (ngram_tuple x.order x.instance_) := by
  cases queue with
  | nil => exact absurd rfl hq
  | cons e rest =>
    obtain ⟨hm, hle⟩ := queue_fold_least rest e
    exact ⟨_, by simp only [priority_queue_poll, priority_queue_top], hm, hle⟩

theorem fix_counts_step_empty (raw_ngrams : List (List ngram_raw_t)) (counts : List Nat)
    (s : fix_counts_state) (h : s.ngrams = []) : fix_counts_step raw_ngrams counts s = none := by
  simp [fix_counts_step, priority_queue_size, h]

/-- One pass of the merge, by the three ways through the body. -/
theorem fix_counts_step_eq (raw_ngrams : List (List ngram_raw_t)) (counts : List Nat)
    (s : fix_counts_state) (top : ngram_raw_ord_t) (queue : List ngram_raw_ord_t)
    (hq : s.ngrams ≠ [])
    (hpoll : priority_queue_poll ngram_ord_comparator s.ngrams = some (top, queue)) :
    fix_counts_step raw_ngrams counts s =
      some
        (if top.order = 2 then
          { ngrams := refill_queue raw_ngrams counts queue (advance_ptr s.raw_ngram_ptrs top) top
            raw_ngram_ptrs := advance_ptr s.raw_ngram_ptrs top
            words := memcpy_words s.words top.instance_.words 2
            fixed_counts := s.fixed_counts }
        else
          match fix_counts_first_diff s.words top.instance_.words (top.order - 1) 0 with
          | some i =>
            { ngrams := refill_queue raw_ngrams counts queue s.raw_ngram_ptrs top
              raw_ngram_ptrs := s.raw_ngram_ptrs
              words :=
                (memcpy_words s.words top.instance_.words ((if i = 0 then 1 else i) + 1)).set
                  (top.order - 1) (top.instance_.words.getD (top.order - 1) 0)
              fixed_counts :=
                s.fixed_counts.set (if i = 0 then 1 else i)
                  ((s.fixed_counts.getD (if i = 0 then 1 else i) 0 + 1) % 2 ^ 32) }
          | none =>
            { ngrams := refill_queue raw_ngrams counts queue (advance_ptr s.raw_ngram_ptrs top) top
              raw_ngram_ptrs := advance_ptr s.raw_ngram_ptrs top
              words := s.words.set (top.order - 1) (top.instance_.words.getD (top.order - 1) 0)
              fixed_counts := s.fixed_counts }) := by
  have hsz : ¬ priority_queue_size s.ngrams = 0 := by
    simpa [priority_queue_size] using hq
  simp only [fix_counts_step, hsz, ↓reduceIte, hpoll]
  by_cases h2 : top.order = 2
  · simp only [h2, ↓reduceIte, refill_queue, advance_ptr]
  · simp only [h2, ↓reduceIte]
    cases hd : fix_counts_first_diff s.words top.instance_.words (top.order - 1) 0 with
    | none => simp only [↓reduceIte, refill_queue, advance_ptr]
    | some i => simp only [Bool.false_eq_true, ↓reduceIte, refill_queue]

/-- The scan for the first difference finds none exactly when the tracked words
agree with the popped n-gram on the indices scanned. -/
theorem fix_counts_first_diff_none (words tw : List Nat) : ∀ n i : Nat,
    (∀ t, i ≤ t → t < i + n → words.getD t 0 = tw.getD t 0) →
    fix_counts_first_diff words tw n i = none
  | 0, _ => fun _ => rfl
  | n + 1, i => by
    intro h
    simp only [fix_counts_first_diff]
    rw [if_neg (by simpa using h i (Nat.le_refl _) (by omega))]
    exact fix_counts_first_diff_none words tw n (i + 1) (fun t h1 h2 => h t (by omega) (by omega))

theorem fix_counts_first_diff_some (words tw : List Nat) : ∀ n i d : Nat,
    fix_counts_first_diff words tw n i = some d →
    i ≤ d ∧ d < i + n ∧ words.getD d 0 ≠ tw.getD d 0 ∧
      ∀ t, i ≤ t → t < d → words.getD t 0 = tw.getD t 0
  | 0, _, _ => fun h => by simp [fix_counts_first_diff] at h
  | n + 1, i, d => by
    intro h
    simp only [fix_counts_first_diff] at h
    by_cases hc : words.getD i 0 ≠ tw.getD i 0
    · rw [if_pos hc] at h
      cases h
      exact ⟨Nat.le_refl _, by omega, hc, fun t h1 h2 => by omega⟩
    · rw [if_neg hc] at h
      obtain ⟨h1, h2, h3, h4⟩ := fix_counts_first_diff_some words tw n (i + 1) d h
      refine ⟨by omega, by omega, h3, fun t h5 h6 => ?_⟩
      rcases Nat.eq_or_lt_of_le h5 with h7 | h7
      · rw [← h7]
        simpa using hc
      · exact h4 t (by omega) h6

/-- The queue invariant carries over a pass of the merge, whatever the pointer
of the popped order is set to within its array. -/
theorem merge_queue_inv_next (raw_ngrams : List (List ngram_raw_t)) (counts : List Nat)
    (order : Nat) (s : fix_counts_state) (top : ngram_raw_ord_t) (ptrs1 w f : List Nat)
    (hinv : merge_queue_inv raw_ngrams counts order s) (htop : top ∈ s.ngrams)
    (hlen : ptrs1.length = order - 1)
    (hle : ptrs1.getD (top.order - 2) 0 ≤ counts.getD (top.order - 1) 0)
    (hother : ∀ i, i ≠ top.order - 2 → ptrs1.getD i 0 = s.raw_ngram_ptrs.getD i 0) :
    merge_queue_inv raw_ngrams counts order
      { ngrams := refill_queue raw_ngrams counts (s.ngrams.erase top) ptrs1 top
        raw_ngram_ptrs := ptrs1
        words := w
        fixed_counts := f } := by
  obtain ⟨h1, h2, h3, h4⟩ := hinv
  obtain ⟨j, hj, hjc, hje⟩ := (h4 top).1 htop
  have ho : top.order = j + 2 := by rw [hje]
  have ho2 : top.order - 2 = j := by omega
  have ho1 : top.order - 1 = j + 1 := by omega
  rw [ho2] at hother
  rw [ho2, ho1] at hle
  have herase : ∀ e, e ∈ s.ngrams.erase top ↔
      ∃ i, i < order - 1 ∧ i ≠ j ∧ s.raw_ngram_ptrs.getD i 0 < counts.getD (i + 1) 0 ∧
        e = ⟨raw_ngram_at raw_ngrams i (s.raw_ngram_ptrs.getD i 0), i + 2⟩ := by
    intro e
    rw [List.Nodup.mem_erase_iff h2, h4 e]
    constructor
    · rintro ⟨hne, i, hi, hic, hie⟩
      refine ⟨i, hi, ?_, hic, hie⟩
      intro hij
      apply hne
      rw [hie, hje, hij]
    · rintro ⟨i, hi, hij, hic, hie⟩
      refine ⟨?_, i, hi, hic, hie⟩
      intro het
      apply hij
      have : e.order = top.order := by rw [het]
      rw [hie, hje] at this
      simpa using this
  refine ⟨hlen, ?_, ?_, ?_⟩
  · show (refill_queue raw_ngrams counts (s.ngrams.erase top) ptrs1 top).Nodup
    simp only [refill_queue, priority_queue_add]
    split
    · rw [List.nodup_append]
      refine ⟨List.Nodup.erase _ h2, List.nodup_singleton _, ?_⟩
      intro e he1 he2
      obtain ⟨i, _, hij, _, hie⟩ := (herase e).1 he1
      rw [List.mem_singleton] at he2
      apply hij
      have : e.order = top.order := by rw [he2]
      rw [hie, ho] at this
      simpa using this
    · exact List.Nodup.erase _ h2
  · intro i hi
    show ptrs1.getD i 0 ≤ counts.getD (i + 1) 0
    by_cases hij : i = j
    · rw [hij]
      exact hle
    · rw [hother i hij]
      exact h3 i hi
  · intro e
    show e ∈ refill_queue raw_ngrams counts (s.ngrams.erase top) ptrs1 top ↔
      ∃ i, i < order - 1 ∧ ptrs1.getD i 0 < counts.getD (i + 1) 0 ∧
        e = ⟨raw_ngram_at raw_ngrams i (ptrs1.getD i 0), i + 2⟩
    simp only [refill_queue, priority_queue_add]
    rw [ho2, ho1, ho]
    constructor
    · intro he
      have he1 : e ∈ s.ngrams.erase top ∨
          (ptrs1.getD j 0 < counts.getD (j + 1) 0 ∧
            e = ⟨raw_ngram_at raw_ngrams j (ptrs1.getD j 0), j + 2⟩) := by
        split at he
        · rename_i hc
          rcases List.mem_append.1 he with h | h
          · exact Or.inl h
          · exact Or.inr ⟨hc, List.mem_singleton.1 h⟩
        · exact Or.inl he
      rcases he1 with he1 | ⟨hc, he1⟩
      · obtain ⟨i, hi, hij, hic, hie⟩ := (herase e).1 he1
        refine ⟨i, hi, ?_, ?_⟩
        · rw [hother i hij]
          exact hic
        · rw [hother i hij]
          exact hie
      · exact ⟨j, hj, hc, he1⟩
    · rintro ⟨i, hi, hic, hie⟩
      by_cases hij : i = j
      · subst hij
        rw [if_pos hic, hie]
        exact List.mem_append_right _ (List.mem_singleton.2 rfl)
      · have he1 : e ∈ s.ngrams.erase top := by
          rw [herase e]
          refine ⟨i, hi, hij, ?_, ?_⟩
          · rw [← hother i hij]
            exact hic
          · rw [← hother i hij]
            exact hie
        split
        · exact List.mem_append_left _ he1
        · exact he1

/-- What `advance_ptr` leaves in the pointer array. -/
theorem advance_ptr_getD (ptrs : List Nat) (top : ngram_raw_ord_t) (c : Nat)
    (hlen : top.order - 2 < ptrs.length) (hlt : ptrs.getD (top.order - 2) 0 < c)
    (hc : c < 2 ^ 32) (i : Nat) :
    (advance_ptr ptrs top).getD i 0 =
      if i = top.order - 2 then ptrs.getD (top.order - 2) 0 + 1 else ptrs.getD i 0 := by
  simp only [advance_ptr]
  rw [getD_set_nat _ _ _ _ hlen, Nat.mod_eq_of_lt (by omega)]

theorem advance_ptr_length (ptrs : List Nat) (top : ngram_raw_ord_t) :
    (advance_ptr ptrs top).length = ptrs.length := by
  simp [advance_ptr]

/-- A sum over a range drops by one when one term does. -/
theorem range_sum_pred (f g : Nat → Nat) (j : Nat) : ∀ n : Nat, j < n →
    g j + 1 = f j → (∀ i, i ≠ j → g i = f i) →
    ((List.range n).map g).sum + 1 = ((List.range n).map f).sum
  | 0 => fun h _ _ => by omega
  | n + 1 => by
    intro hj hgj hother
    rw [List.range_succ, List.map_append, List.map_append, List.sum_append, List.sum_append]
    simp only [List.map_cons, List.map_nil, List.sum_cons, List.sum_nil, Nat.add_zero]
    by_cases hjn : j = n
    · subst hjn
      have : (List.range j).map g = (List.range j).map f := by
        apply List.map_congr_left
        intro i hi
        exact hother i (by have := List.mem_range.1 hi; omega)
      rw [this]
      omega
    · have := range_sum_pred f g j n (by omega) hgj hother
      have h2 := hother n (fun e => hjn e.symm)
      omega

theorem merge_remaining_advance (counts : List Nat) (order : Nat) (ptrs : List Nat)
    (top : ngram_raw_ord_t) (hj : top.order - 2 < order - 1) (hlen : ptrs.length = order - 1)
    (hlt : ptrs.getD (top.order - 2) 0 < counts.getD (top.order - 2 + 1) 0)
    (hc : counts.getD (top.order - 2 + 1) 0 < 2 ^ 32) :
    merge_remaining counts order (advance_ptr ptrs top) + 1 = merge_remaining counts order ptrs := by
  simp only [merge_remaining]
  apply range_sum_pred _ _ (top.order - 2) _ hj
  · rw [advance_ptr_getD ptrs top _ (by omega) hlt hc, if_pos rfl]
    omega
  · intro i hi
    rw [advance_ptr_getD ptrs top _ (by omega) hlt hc, if_neg hi]

/-- The first loop of `ngrams_raw_fix_counts` leaves the pointers at zero and
queues the first n-gram of every non-empty order. -/
theorem fix_counts_init_spec (raw_ngrams : List (List ngram_raw_t)) (counts : List Nat)
    (m : Nat) : ∀ (n i : Nat) (s : fix_counts_state), s.raw_ngram_ptrs = List.replicate m 0 →
    fix_counts_init raw_ngrams counts n i s =
      { s with
        ngrams := s.ngrams ++
          ((List.range' i n).filter (fun k => decide (0 < counts.getD (k - 1) 0))).map
            (fun k => ⟨raw_ngram_at raw_ngrams (k - 2) 0, k⟩) }
  | 0, _, s => fun _ => by simp [fix_counts_init]
  | n + 1, i, s => by
    intro hs
    simp only [fix_counts_init]
    by_cases hc : counts.getD (i - 1) 0 ≤ 0
    · rw [if_pos hc, fix_counts_init_spec raw_ngrams counts m n (i + 1) s hs]
      have : ¬ 0 < counts.getD (i - 1) 0 := by omega
      simp only [List.range'_succ, List.filter_cons, this, decide_False, Bool.false_eq_true,
        ↓reduceIte]
    · rw [if_neg hc, fix_counts_init_spec raw_ngrams counts m n (i + 1) _
        (by simp [hs, List.set_replicate_self])]
      have : 0 < counts.getD (i - 1) 0 := by omega
      simp only [List.range'_succ, List.filter_cons, this, decide_True, ↓reduceIte,
        priority_queue_add, hs, List.set_replicate_self, List.map_cons, List.append_assoc,
        List.singleton_append]

/-- The merge starts from a state that satisfies the queue invariant. -/
theorem merge_queue_inv_init (raw_ngrams : List (List ngram_raw_t)) (counts : List Nat)
    (order : Nat) (w f : List Nat) :
    merge_queue_inv raw_ngrams counts order
      (fix_counts_init raw_ngrams counts (order - 1) 2
        { ngrams := []
          raw_ngram_ptrs := List.replicate (order - 1) 0
          words := w
          fixed_counts := f }) ∧
    (fix_counts_init raw_ngrams counts (order - 1) 2
        { ngrams := []
          raw_ngram_ptrs := List.replicate (order - 1) 0
          words := w
          fixed_counts := f }).raw_ngram_ptrs = List.replicate (order - 1) 0 ∧
    (fix_counts_init raw_ngrams counts (order - 1) 2
        { ngrams := []
          raw_ngram_ptrs := List.replicate (order - 1) 0
          words := w
          fixed_counts := f }).words = w ∧
    (fix_counts_init raw_ngrams counts (order - 1) 2
        { ngrams := []
          raw_ngram_ptrs := List.replicate (order - 1) 0
          words := w
          fixed_counts := f }).fixed_counts = f := by
  rw [fix_counts_init_spec raw_ngrams counts (order - 1) (order - 1) 2 _ rfl]
  refine ⟨⟨by simp, ?_, ?_, ?_⟩, rfl, rfl, rfl⟩
  · show (([] : List ngram_raw_ord_t) ++ _).Nodup
    rw [List.nil_append]
    apply List.Nodup.of_map (fun e => e.order)
    rw [List.map_map]
    have : ((fun e : ngram_raw_ord_t => e.order) ∘
        (fun k => (⟨raw_ngram_at raw_ngrams (k - 2) 0, k⟩ : ngram_raw_ord_t))) = id := by
      funext k
      rfl
    rw [this, List.map_id]
    exact List.Nodup.filter _ (List.nodup_range' _ _)
  · intro j hj
    show (List.replicate (order - 1) 0).getD j 0 ≤ _
    simp [List.getD_eq_getElem?_getD, List.getElem?_replicate, hj]
  · intro e
    show e ∈ ([] : List ngram_raw_ord_t) ++ _ ↔
      ∃ j, j < order - 1 ∧ (List.replicate (order - 1) 0).getD j 0 < counts.getD (j + 1) 0 ∧
        e = ⟨raw_ngram_at raw_ngrams j ((List.replicate (order - 1) 0).getD j 0), j + 2⟩
    rw [List.nil_append, List.mem_map]
    have hz : ∀ j, (List.replicate (order - 1) 0).getD j 0 = 0 := by
      intro j
      by_cases hj : j < order - 1
      · simp [List.getD_eq_getElem?_getD, List.getElem?_replicate, hj]
      · simp [List.getD_eq_getElem?_getD, List.getElem?_replicate, hj]
    constructor
    · rintro ⟨k, hk, hke⟩
      rw [List.mem_filter, List.mem_range'_1] at hk
      refine ⟨k - 2, by omega, ?_, ?_⟩
      · rw [hz, show k - 2 + 1 = k - 1 from by omega]
        simpa using hk.2
      · rw [hz, ← hke, show k - 2 + 2 = k from by omega]
    · rintro ⟨j, hj, hjc, hje⟩
      rw [hz] at hjc hje
      refine ⟨j + 2, ?_, ?_⟩
      · rw [List.mem_filter, List.mem_range'_1]
        refine ⟨by omega, ?_⟩
        simpa using hjc
      · rw [hje]
        rfl

theorem refill_queue_mem (raw_ngrams : List (List ngram_raw_t)) (counts : List Nat)
    (queue : List ngram_raw_ord_t) (ptrs : List Nat) (top x : ngram_raw_ord_t) (h : x ∈ queue) :
    x ∈ refill_queue raw_ngrams counts queue ptrs top := by
  simp only [refill_queue, priority_queue_add]
  split
  · exact List.mem_append_left _ h
  · exact h

/-- The tuple of an entry that extends another entry is the tuple of that entry
followed by at least one more word. -/
theorem ngram_tuple_extends (a b : ngram_raw_ord_t) (hjk : a.order < b.order)
    (hpre : ∀ i, i < a.order → a.instance_.words.getD i 0 = b.instance_.words.getD i 0) :
    ∃ x r, ngram_tuple b.order b.instance_ = ngram_tuple a.order a.instance_ ++ x :: r := by
  obtain ⟨d, hd⟩ : ∃ d, b.order - a.order = d + 1 := ⟨b.order - a.order - 1, by omega⟩
  refine ⟨b.instance_.words.getD a.order 0,
    (List.range' (a.order + 1) d).map (fun i => b.instance_.words.getD i 0), ?_⟩
  rw [ngram_tuple_split a.order b.order (by omega) b.instance_, hd, List.range'_succ,
    ngram_tuple_congr a.order a.instance_ b.instance_ hpre]
  rfl

/-- C30. For two queue entries `a` of order `j` and `b` of order `k > j` whose first `j`
words coincide, `ngram_ord_comparator b a < 0 < ngram_ord_comparator a b`. A queue that
holds both never hands out `b`: the entry polled is another one and `b` stays queued, so
a queue of just the two hands out `a`, in whichever order they were added; and after a
pass of the merge in `ngrams_raw_fix_counts` over a queue that holds both, `b` is still
queued. So `a`, the shorter context, is popped before `b`, the n-gram that extends it. -/
theorem shorter_context_pops_first (a b : ngram_raw_ord_t) (hjk : a.order < b.order)
    (hpre : ∀ i, i < a.order → a.instance_.words.getD i 0 = b.instance_.words.getD i 0) :
    ngram_ord_comparator b a < 0 ∧ 0 < ngram_ord_comparator a b ∧
    (∀ queue : List ngram_raw_ord_t, a ∈ queue → b ∈ queue →
      ∃ top rest, priority_queue_poll ngram_ord_comparator queue = some (top, rest) ∧
        top ≠ b ∧ b ∈ rest) ∧
    priority_queue_poll ngram_ord_comparator [a, b] = some (a, [b]) ∧
    priority_queue_poll ngram_ord_comparator [b, a] = some (a, [b]) ∧
    ∀ (raw_ngrams : List (List ngram_raw_t)) (counts : List Nat) (s : fix_counts_state),
      a ∈ s.ngrams → b ∈ s.ngrams →
      ∃ s1, fix_counts_step raw_ngrams counts s = some s1 ∧ b ∈ s1.ngrams := by
  obtain ⟨x, r, hext⟩ := ngram_tuple_extends a b hjk hpre
  have hnot : ¬ lex_le (ngram_tuple b.order b.instance_) (ngram_tuple a.order a.instance_) := by
    rw [hext]
    exact not_lex_le_append_cons _ _ _
  have hab : a ≠ b := by
    intro h
    rw [h] at hjk
    omega
  have hpoll : ∀ queue : List ngram_raw_ord_t, a ∈ queue → b ∈ queue →
      ∃ top rest, priority_queue_poll ngram_ord_comparator queue = some (top, rest) ∧
        top ≠ b ∧ b ∈ rest ∧ top ∈ queue ∧ rest = queue.erase top := by
    intro queue ha hb
    obtain ⟨top, h1, h2, h3⟩ := priority_queue_poll_least queue (List.ne_nil_of_mem ha)
    have hne : top ≠ b := by
      intro h
      apply hnot
      rw [← h]
      exact h3 a ha
    exact ⟨top, _, h1, hne, (List.mem_erase_of_ne (fun h => hne h.symm)).2 hb, h2, rfl⟩
  have hpair : ∀ queue : List ngram_raw_ord_t, a ∈ queue → b ∈ queue →
      (∀ x ∈ queue, x = a ∨ x = b) → queue.erase a = [b] →
      priority_queue_poll ngram_ord_comparator queue = some (a, [b]) := by
    intro queue ha hb hall herase
    obtain ⟨top, rest, h1, h2, _, h4, h5⟩ := hpoll queue ha hb
    rcases hall top h4 with h | h
    · rw [h1, h5, h, herase]
    · exact absurd h h2
  refine ⟨?_, ?_, ?_, ?_, ?_, ?_⟩
  · rw [ngram_ord_comparator_neg_iff]
    exact hnot
  · rw [ngram_ord_comparator_pos_iff]
    exact hnot
  · intro queue ha hb
    obtain ⟨top, rest, h1, h2, h3, _⟩ := hpoll queue ha hb
    exact ⟨top, rest, h1, h2, h3⟩
  · apply hpair
    · simp
    · simp
    · intro x hx
      simpa using hx
    · simp
  · apply hpair
    · simp
    · simp
    · intro x hx
      rcases List.mem_cons.1 hx with h | h
      · exact Or.inr h
      · exact Or.inl (by simpa using h)
    · rw [List.erase_cons_tail (by simpa using fun h => hab h.symm)]
      simp
  · intro raw_ngrams counts s ha hb
    obtain ⟨top, rest, h1, h2, h3, _⟩ := hpoll s.ngrams ha hb
    rw [fix_counts_step_eq raw_ngrams counts s top rest (List.ne_nil_of_mem ha) h1]
    refine ⟨_, rfl, ?_⟩
    split
    · exact refill_queue_mem _ _ _ _ _ _ h3
    · split
      · exact refill_queue_mem _ _ _ _ _ _ h3
      · exact refill_queue_mem _ _ _ _ _ _ h3

theorem shorter_context_pops_first_witness :
    ngram_ord_comparator ⟨⟨[1, 2, 3], []⟩, 3⟩ ⟨⟨[1, 2], []⟩, 2⟩ < 0 ∧
    0 < ngram_ord_comparator ⟨⟨[1, 2], []⟩, 2⟩ ⟨⟨[1, 2, 3], []⟩, 3⟩ ∧
    priority_queue_poll ngram_ord_comparator [⟨⟨[1, 2, 3], []⟩, 3⟩, ⟨⟨[1, 2], []⟩, 2⟩] =
      some (⟨⟨[1, 2], []⟩, 2⟩, [⟨⟨[1, 2, 3], []⟩, 3⟩]) :=
  ⟨(shorter_context_pops_first ⟨⟨[1, 2], []⟩, 2⟩ ⟨⟨[1, 2, 3], []⟩, 3⟩ (by decide)
      (by decide)).1,
    (shorter_context_pops_first ⟨⟨[1, 2], []⟩, 2⟩ ⟨⟨[1, 2, 3], []⟩, 3⟩ (by decide)
      (by decide)).2.1,
    (shorter_context_pops_first ⟨⟨[1, 2], []⟩, 2⟩ ⟨⟨[1, 2, 3], []⟩, 3⟩ (by decide)
      (by decide)).2.2.2.2.1⟩

theorem raw_ngram_at_mem (raw_ngrams : List (List ngram_raw_t)) (j p : Nat)
    (hp : p < (raw_ngrams.getD j []).length) :
    raw_ngram_at raw_ngrams j p ∈ raw_ngrams.getD j [] := by
  simp only [raw_ngram_at]
  rw [List.getD_eq_getElem _ _ hp]
  exact List.getElem_mem _

theorem mem_raw_ngram_at (raw_ngrams : List (List ngram_raw_t)) (j : Nat) (q : ngram_raw_t)
    (hq : q ∈ raw_ngrams.getD j []) :
    ∃ m, m < (raw_ngrams.getD j []).length ∧ raw_ngram_at raw_ngrams j m = q := by
  obtain ⟨m, hm, hmq⟩ := List.mem_iff_getElem.1 hq
  refine ⟨m, hm, ?_⟩
  simp only [raw_ngram_at]
  rw [List.getD_eq_getElem _ _ hm]
  exact hmq

/-- In a sorted array the tuples do not decrease with the index. -/
theorem sorted_tuple_le (raw_ngrams : List (List ngram_raw_t)) (j : Nat)
    (hs : List.Pairwise (fun a b => ngram_comparator (j + 2) a b ≤ 0) (raw_ngrams.getD j []))
    (p p1 : Nat) (hpp : p ≤ p1) (hp1 : p1 < (raw_ngrams.getD j []).length) :
    lex_le (ngram_tuple (j + 2) (raw_ngram_at raw_ngrams j p))
      (ngram_tuple (j + 2) (raw_ngram_at raw_ngrams j p1)) := by
  rcases Nat.eq_or_lt_of_le hpp with h | h
  · rw [h]
    exact lex_le_refl _
  · have h1 := List.pairwise_iff_getElem.1 hs p p1 (by omega) hp1 h
    rw [ngram_comparator_le_iff (j + 2) (by omega)] at h1
    simp only [raw_ngram_at]
    rw [List.getD_eq_getElem _ _ hp1, List.getD_eq_getElem _ _ (show p < _ by omega)]
    exact h1

theorem memcpy_words_getD (dst src : List Nat) (n t : Nat) (hsrc : n ≤ src.length) :
    (memcpy_words dst src n).getD t 0 = if t < n then src.getD t 0 else dst.getD t 0 := by
  simp only [memcpy_words, List.getD_eq_getElem?_getD]
  by_cases h : t < n
  · rw [if_pos h, List.getElem?_append_left (by simp; omega), List.getElem?_take_of_lt h]
  · rw [if_neg h, List.getElem?_append_right (by simp; omega)]
    simp only [List.length_take, List.getElem?_drop]
    rw [Nat.min_eq_left hsrc, show n + (t - n) = t from by omega]

theorem memcpy_words_length (dst src : List Nat) (n : Nat) (hsrc : n ≤ src.length)
    (hdst : n ≤ dst.length) : (memcpy_words dst src n).length = dst.length := by
  simp only [memcpy_words, List.length_append, List.length_take, List.length_drop]
  omega

theorem merge_remaining_lt_fuel (counts : List Nat) (order : Nat) (ptrs : List Nat) :
    merge_remaining counts order ptrs < fix_counts_fuel counts order := by
  have key : ∀ n : Nat,
      ((List.range n).map (fun j => counts.getD (j + 1) 0 - ptrs.getD j 0)).sum ≤
        ((List.range (n + 1)).map (fun k => counts.getD k 0 * (k + 1))).sum := by
    intro n
    induction n with
    | zero => simp
    | succ n ih =>
      rw [List.range_succ, List.map_append, List.sum_append, List.range_succ (n := n + 1),
        List.map_append, List.sum_append]
      simp only [List.map_cons, List.map_nil, List.sum_cons, List.sum_nil, Nat.add_zero]
      have h1 : counts.getD (n + 1) 0 - ptrs.getD n 0 ≤ counts.getD (n + 1) 0 * (n + 1 + 1) :=
        Nat.le_trans (Nat.sub_le _ _) (Nat.le_mul_of_pos_right _ (by omega))
      omega
  simp only [merge_remaining, fix_counts_fuel]
  cases order with
  | zero => simp
  | succ n =>
    have := key n
    simp only [Nat.add_sub_cancel]
    omega

/-- Over a loaded, reconciled input a pass of the merge pops an n-gram whose
context the tracked words already hold: it advances one pointer and leaves the
counts alone. -/
theorem reconciled_step (raw_ngrams : List (List ngram_raw_t)) (counts : List Nat)
    (order : Nat) (hload : loaded_raw_ngrams raw_ngrams counts order)
    (hrec : reconciled_raw_ngrams raw_ngrams order) (s : fix_counts_state)
    (hinv : reconciled_merge_inv raw_ngrams counts order s) (hq : s.ngrams ≠ []) :
    ∃ s1, fix_counts_step raw_ngrams counts s = some s1 ∧
      reconciled_merge_inv raw_ngrams counts order s1 ∧
      merge_remaining counts order s1.raw_ngram_ptrs + 1 =
        merge_remaining counts order s.raw_ngram_ptrs := by
  obtain ⟨hqi, hfc, hwl, hlast⟩ := hinv
  obtain ⟨top, hpoll, htop, hleast⟩ := priority_queue_poll_least s.ngrams hq
  obtain ⟨j, hj, hjc, hje⟩ := (hqi.2.2.2 top).1 htop
  have ho : top.order = j + 2 := by rw [hje]
  have hti : top.instance_ = raw_ngram_at raw_ngrams j (s.raw_ngram_ptrs.getD j 0) := by rw [hje]
  have ho2 : top.order - 2 = j := by omega
  have ho1 : top.order - 1 = j + 1 := by omega
  obtain ⟨hcnt, h32, hwords, hsorted⟩ := hload j hj
  generalize hg : top.instance_ = g at hti
  generalize hp : s.raw_ngram_ptrs.getD j 0 = p at hjc hti
  have hgm : g ∈ raw_ngrams.getD j [] := by
    rw [hti]
    exact raw_ngram_at_mem _ _ _ (by omega)
  have hgl : g.words.length = j + 2 := hwords g hgm
  have hkey : ngram_tuple top.order top.instance_ = ngram_tuple (j + 2) g := by rw [ho, hg]
  -- the pointers after the pass
  have hadv : ∀ i, (advance_ptr s.raw_ngram_ptrs top).getD i 0 =
      if i = j then p + 1 else s.raw_ngram_ptrs.getD i 0 := by
    intro i
    rw [advance_ptr_getD s.raw_ngram_ptrs top (counts.getD (j + 1) 0)
      (by rw [ho2, hqi.1]; exact hj) (by rw [ho2, hp]; exact hjc) h32, ho2, hp]
  -- the tracked words agree with the popped n-gram below its last word
  have hagree : 1 ≤ j → ∀ t, t < j + 1 → s.words.getD t 0 = g.words.getD t 0 := by
    intro hj1
    have hpre : ∀ i, i < j → 0 < s.raw_ngram_ptrs.getD i 0 ∧
        ngram_tuple (i + 2) (raw_ngram_at raw_ngrams i (s.raw_ngram_ptrs.getD i 0 - 1)) =
          ngram_tuple (i + 2) g := by
      intro i hij
      have hi : i < order - 1 := by omega
      obtain ⟨hcnt1, _, _, hsorted1⟩ := hload i hi
      obtain ⟨q, hqm, hqt⟩ := hrec j hj i hij g hgm
      obtain ⟨m, hm, hmq⟩ := mem_raw_ngram_at raw_ngrams i q hqm
      have hext : ngram_tuple (j + 2) g = ngram_tuple (i + 2) g ++
          (List.range' (i + 2) (j + 2 - (i + 2))).map (fun t => g.words.getD t 0) :=
        ngram_tuple_split (i + 2) (j + 2) (by omega) g
      obtain ⟨d, hd⟩ : ∃ d, j + 2 - (i + 2) = d + 1 := ⟨j - i - 1, by omega⟩
      rw [hd, List.range'_succ, List.map_cons] at hext
      have hpos : m < s.raw_ngram_ptrs.getD i 0 := by
        by_contra hnot
        have hlt : s.raw_ngram_ptrs.getD i 0 < counts.getD (i + 1) 0 := by omega
        have hmem : (⟨raw_ngram_at raw_ngrams i (s.raw_ngram_ptrs.getD i 0), i + 2⟩ :
            ngram_raw_ord_t) ∈ s.ngrams := (hqi.2.2.2 _).2 ⟨i, hi, hlt, rfl⟩
        have h1 := hleast _ hmem
        have h2 := sorted_tuple_le raw_ngrams i hsorted1 (s.raw_ngram_ptrs.getD i 0) m
          (by omega) hm
        rw [hmq, hqt] at h2
        rw [hkey, hext] at h1
        exact not_lex_le_append_cons _ _ _ (lex_le_trans _ _ _ h1 h2)
      refine ⟨by omega, ?_⟩
      have h1 := (hlast i hi (by omega)).2.2 top htop
      have h2 := sorted_tuple_le raw_ngrams i hsorted1 m (s.raw_ngram_ptrs.getD i 0 - 1)
        (by omega) (by have := hqi.2.2.1 i hi; omega)
      rw [hmq, hqt] at h2
      rw [hkey, hext] at h1
      exact lex_le_sandwich _ _ _ (by rw [ngram_tuple_length, ngram_tuple_length]) h2 h1
    intro t ht
    rcases Nat.eq_zero_or_pos t with h0 | h0
    · subst h0
      obtain ⟨hp0, ht0⟩ := hpre 0 (by omega)
      rw [((hlast 0 (by omega) hp0).2.1 rfl), ← ngram_tuple_getD 2 _ 0 (by omega),
        ← ngram_tuple_getD 2 g 0 (by omega)]
      rw [show (2 : Nat) = 0 + 2 from rfl, ht0]
    · obtain ⟨i, rfl⟩ : ∃ i, t = i + 1 := ⟨t - 1, by omega⟩
      obtain ⟨hpi, hti1⟩ := hpre i (by omega)
      rw [((hlast i (by omega) hpi).1), ← ngram_tuple_getD (i + 2) _ (i + 1) (by omega),
        ← ngram_tuple_getD (i + 2) g (i + 1) (by omega), hti1]
  -- the state after the pass
  obtain ⟨w1, hw1len, hw1last, hw1first, hw1other, hstep⟩ : ∃ w1 : List Nat,
      w1.length = order ∧ w1.getD (j + 1) 0 = g.words.getD (j + 1) 0 ∧
      (j = 0 → w1.getD 0 0 = g.words.getD 0 0) ∧
      (∀ t, t ≠ j + 1 → (j = 0 → t ≠ 0) → w1.getD t 0 = s.words.getD t 0) ∧
      fix_counts_step raw_ngrams counts s =
        some
          { ngrams := refill_queue raw_ngrams counts (s.ngrams.erase top)
              (advance_ptr s.raw_ngram_ptrs top) top
            raw_ngram_ptrs := advance_ptr s.raw_ngram_ptrs top
            words := w1
            fixed_counts := s.fixed_counts } := by
    rw [fix_counts_step_eq raw_ngrams counts s top _ hq hpoll]
    by_cases hj0 : j = 0
    · have ho20 : top.order = 2 := by omega
      refine ⟨memcpy_words s.words g.words 2, ?_, ?_, ?_, ?_, ?_⟩
      · rw [memcpy_words_length _ _ _ (by omega) (by omega), hwl]
      · rw [memcpy_words_getD _ _ _ _ (by omega), if_pos (by omega)]
      · intro _
        rw [memcpy_words_getD _ _ _ _ (by omega), if_pos (by omega)]
      · intro t ht1 ht0
        rw [memcpy_words_getD _ _ _ _ (by omega), if_neg (by have := ht0 hj0; omega)]
      · rw [if_pos ho20, hg]
    · have ho20 : ¬ top.order = 2 := by omega
      have hnone : fix_counts_first_diff s.words top.instance_.words (top.order - 1) 0 = none := by
        apply fix_counts_first_diff_none
        intro t _ ht
        rw [hg]
        exact hagree (by omega) t (by omega)
      refine ⟨s.words.set (j + 1) (g.words.getD (j + 1) 0), ?_, ?_, ?_, ?_, ?_⟩
      · rw [List.length_set, hwl]
      · rw [getD_set_nat _ _ _ _ (by omega), if_pos rfl]
      · intro h
        exact absurd h hj0
      · intro t ht1 _
        rw [getD_set_nat _ _ _ _ (by omega), if_neg ht1]
      · rw [if_neg ho20, hnone, ho1, hg]
  refine ⟨_, hstep, ⟨?_, hfc, hw1len, ?_⟩, ?_⟩
  · apply merge_queue_inv_next raw_ngrams counts order s top _ _ _ hqi htop
    · rw [advance_ptr_length, hqi.1]
    · rw [ho2, ho1, hadv j, if_pos rfl]
      omega
    · intro i hi
      rw [ho2] at hi
      rw [hadv i, if_neg hi]
  · intro i hi hpi
    show w1.getD (i + 1) 0 =
        (raw_ngram_at raw_ngrams i
          ((advance_ptr s.raw_ngram_ptrs top).getD i 0 - 1)).words.getD (i + 1) 0 ∧
      (i = 0 → w1.getD 0 0 =
        (raw_ngram_at raw_ngrams 0
          ((advance_ptr s.raw_ngram_ptrs top).getD 0 0 - 1)).words.getD 0 0) ∧
      ∀ e ∈ refill_queue raw_ngrams counts (s.ngrams.erase top)
          (advance_ptr s.raw_ngram_ptrs top) top,
        lex_le (ngram_tuple (i + 2)
            (raw_ngram_at raw_ngrams i ((advance_ptr s.raw_ngram_ptrs top).getD i 0 - 1)))
          (ngram_tuple e.order e.instance_)
    have hpi1 : 0 < (advance_ptr s.raw_ngram_ptrs top).getD i 0 := hpi
    -- the queued entries after the pass
    have hqueue : ∀ e ∈ refill_queue raw_ngrams counts (s.ngrams.erase top)
        (advance_ptr s.raw_ngram_ptrs top) top,
        e ∈ s.ngrams ∨ (p + 1 < counts.getD (j + 1) 0 ∧
          e = ⟨raw_ngram_at raw_ngrams j (p + 1), j + 2⟩) := by
      intro e he
      simp only [refill_queue, priority_queue_add] at he
      rw [ho2, ho1, ho, hadv j, if_pos rfl] at he
      split at he
      · rename_i hc
        rcases List.mem_append.1 he with h | h
        · exact Or.inl (List.mem_of_mem_erase h)
        · exact Or.inr ⟨hc, List.mem_singleton.1 h⟩
      · exact Or.inl (List.mem_of_mem_erase he)
    have hnew : p + 1 < counts.getD (j + 1) 0 →
        lex_le (ngram_tuple (j + 2) g) (ngram_tuple (j + 2) (raw_ngram_at raw_ngrams j (p + 1))) := by
      intro hc
      rw [hti]
      exact sorted_tuple_le raw_ngrams j hsorted p (p + 1) (by omega) (by omega)
    by_cases hij : i = j
    · subst hij
      rw [hadv i, if_pos rfl, Nat.add_sub_cancel, ← hti]
      refine ⟨hw1last, ?_, ?_⟩
      · intro h0
        subst h0
        rw [hadv 0, if_pos rfl, Nat.add_sub_cancel, ← hti]
        exact hw1first rfl
      · intro e he
        rcases hqueue e he with h | ⟨hc, h⟩
        · rw [← hkey]
          exact hleast e h
        · rw [h]
          exact hnew hc
    · rw [hadv i, if_neg hij] at hpi1
      rw [hadv i, if_neg hij]
      obtain ⟨hl1, hl2, hl3⟩ := hlast i hi hpi1
      refine ⟨?_, ?_, ?_⟩
      · rw [hw1other (i + 1) (by omega) (by omega)]
        exact hl1
      · intro h0
        subst h0
        rw [hadv 0, if_neg hij, hw1other 0 (by omega) (fun h => absurd h.symm hij)]
        exact hl2 rfl
      · intro e he
        rcases hqueue e he with h | ⟨hc, h⟩
        · exact hl3 e h
        · rw [h]
          have h1 := hl3 top htop
          rw [hkey] at h1
          exact lex_le_trans _ _ _ h1 (hnew hc)
  · show merge_remaining counts order (advance_ptr s.raw_ngram_ptrs top) + 1 =
      merge_remaining counts order s.raw_ngram_ptrs
    apply merge_remaining_advance counts order s.raw_ngram_ptrs top
    · rw [ho2]
      exact hj
    · exact hqi.1
    · rw [ho2, hp]
      exact hjc
    · rw [ho2]
      exact h32

/-- Over a loaded, reconciled input the merge ends within its fuel and leaves
the counts as they were. -/
theorem reconciled_loop (raw_ngrams : List (List ngram_raw_t)) (counts : List Nat)
    (order : Nat) (hload : loaded_raw_ngrams raw_ngrams counts order)
    (hrec : reconciled_raw_ngrams raw_ngrams order) : ∀ (fuel : Nat) (s : fix_counts_state),
    reconciled_merge_inv raw_ngrams counts order s →
    merge_remaining counts order s.raw_ngram_ptrs < fuel →
    ∃ s1, fix_counts_loop raw_ngrams counts fuel s = some s1 ∧
      s1.fixed_counts = counts.take order
  | 0, _ => fun _ h => by omega
  | fuel + 1, s => by
    intro hinv hfuel
    simp only [fix_counts_loop]
    by_cases hq : s.ngrams = []
    · rw [fix_counts_step_empty raw_ngrams counts s hq]
      exact ⟨s, rfl, hinv.2.1⟩
    · obtain ⟨s1, h1, h2, h3⟩ := reconciled_step raw_ngrams counts order hload hrec s hinv hq
      rw [h1]
      exact reconciled_loop raw_ngrams counts order hload hrec fuel s1 h2 (by omega)

theorem reconciled_fix_counts (raw_ngrams : List (List ngram_raw_t)) (counts : List Nat)
    (order : Nat) (hload : loaded_raw_ngrams raw_ngrams counts order)
    (hrec : reconciled_raw_ngrams raw_ngrams order) :
    ngrams_raw_fix_counts raw_ngrams counts order = some (counts.take order) := by
  obtain ⟨h1, h2, h3, h4⟩ := merge_queue_inv_init raw_ngrams counts order
    (List.replicate order UINT32_MAX) (counts.take order)
  have hz : ∀ j, (List.replicate (order - 1) 0).getD j 0 = 0 := by
    intro j
    by_cases hj : j < order - 1
    · simp [List.getD_eq_getElem?_getD, List.getElem?_replicate, hj]
    · simp [List.getD_eq_getElem?_getD, List.getElem?_replicate, hj]
  have hinv : reconciled_merge_inv raw_ngrams counts order
      (fix_counts_init raw_ngrams counts (order - 1) 2
        { ngrams := []
          raw_ngram_ptrs := List.replicate (order - 1) 0
          words := List.replicate order UINT32_MAX
          fixed_counts := counts.take order }) := by
    refine ⟨h1, h4, ?_, ?_⟩
    · rw [h3]
      simp
    · intro j _ hp
      rw [h2, hz] at hp
      omega
  obtain ⟨s1, hs1, hs2⟩ := reconciled_loop raw_ngrams counts order hload hrec
    (fix_counts_fuel counts order) _ hinv (merge_remaining_lt_fuel _ _ _)
  simp only [ngrams_raw_fix_counts]
  rw [hs1]
  simp [hs2]

theorem mem_pending_tuples (arr : List ngram_raw_t) (p : Nat) (c : List Nat) :
    c ∈ pending_tuples arr p ↔
      ∃ m, p ≤ m ∧ m < arr.length ∧ ngram_tuple 2 (arr.getD m ⟨[], []⟩) = c := by
  simp only [pending_tuples, List.mem_toFinset, List.mem_map, List.mem_drop_iff_getElem]
  constructor
  · rintro ⟨g, ⟨i, hi, hg⟩, hc⟩
    refine ⟨p + i, by omega, by omega, ?_⟩
    rw [List.getD_eq_getElem _ _ (by omega), hg]
    exact hc
  · rintro ⟨m, hpm, hm, hc⟩
    refine ⟨arr.getD m ⟨[], []⟩, ⟨m - p, by omega, ?_⟩, hc⟩
    rw [List.getD_eq_getElem _ _ hm]
    congr 1
    omega

theorem pending_tuples_step (arr : List ngram_raw_t) (p : Nat) (hp : p < arr.length) :
    pending_tuples arr p =
      insert (ngram_tuple 2 (arr.getD p ⟨[], []⟩)) (pending_tuples arr (p + 1)) := by
  simp only [pending_tuples]
  rw [List.drop_eq_getElem_cons hp, List.map_cons, List.toFinset_cons,
    List.getD_eq_getElem _ _ hp]

theorem pending_tuples_end (arr : List ngram_raw_t) (p : Nat) (hp : arr.length ≤ p) :
    pending_tuples arr p = ∅ := by
  simp only [pending_tuples]
  rw [List.drop_eq_nil_of_le hp]
  rfl

/-- The order of two tuples is the order of their prefixes of one length, when
these differ or the rest is cut off. -/
theorem lex_le_heads : ∀ (p1 p2 r1 r2 : List Nat), p1.length = p2.length →
    lex_le (p1 ++ r1) (p2 ++ r2) → lex_le p1 p2
  | [], _, _, _ => fun _ _ => by simp [lex_le]
  | _ :: _, [], _, _ => fun h _ => by simp at h
  | a :: as, b :: bs, r1, r2 => by
    intro hl h
    have h1 : a < b ∨ (a = b ∧ lex_le (as ++ r1) (bs ++ r2)) := h
    show a < b ∨ (a = b ∧ lex_le as bs)
    rcases h1 with h1 | ⟨h1, h2⟩
    · exact Or.inl h1
    · exact Or.inr ⟨h1, lex_le_heads as bs r1 r2 (by simpa using hl) h2⟩

theorem ngram_comparator_loop_lt_iff (f s : List Nat) (n : Nat) : ∀ i : Nat,
    ngram_comparator_loop f s n i < 0 ↔
      ¬ lex_le ((List.range' i n).map (fun k => s.getD k 0))
        ((List.range' i n).map (fun k => f.getD k 0)) := by
  induction n with
  | zero =>
    intro i
    simp [ngram_comparator_loop, lex_le]
  | succ n ih =>
    intro i
    have hstep : ngram_comparator_loop f s (n + 1) i =
        if f.getD i 0 < s.getD i 0 then -1
        else if f.getD i 0 > s.getD i 0 then 1
        else ngram_comparator_loop f s n (i + 1) := rfl
    have hlex : lex_le ((List.range' i (n + 1)).map (fun k => s.getD k 0))
          ((List.range' i (n + 1)).map (fun k => f.getD k 0)) ↔
        (s.getD i 0 < f.getD i 0 ∨ (s.getD i 0 = f.getD i 0 ∧
          lex_le ((List.range' (i + 1) n).map (fun k => s.getD k 0))
            ((List.range' (i + 1) n).map (fun k => f.getD k 0)))) := by
      rw [List.range'_succ]
      rfl
    rw [hstep, hlex]
    have ih1 := ih (i + 1)
    generalize f.getD i 0 = a at *
    generalize s.getD i 0 = b at *
    by_cases h1 : a < b
    · have h2 : ¬ b < a := by omega
      have h3 : ¬ b = a := by omega
      simp [h1, h2, h3]
    · by_cases h2 : a > b
      · simp [h1, h2]
      · have h3 : b = a := by omega
        subst h3
        simp only [lt_self_iff_false, ↓reduceIte, gt_iff_lt, false_or, true_and]
        exact ih1

theorem ngram_comparator_lt_iff (order : Nat) (h : 2 ≤ order) (a b : ngram_raw_t) :
    ngram_comparator order a b < 0 ↔ ¬ lex_le (ngram_tuple order b) (ngram_tuple order a) := by
  have h2 : ¬ order < 2 := by omega
  simp only [ngram_comparator, h2, ↓reduceIte, ngram_tuple, List.range_eq_range']
  exact ngram_comparator_loop_lt_iff a.words b.words order 0

/-- In an array sorted without duplicates the tuples increase with the index. -/
theorem sorted_tuple_lt (arr : List ngram_raw_t) (hs : sorted_raw_ngrams 2 arr) (p p1 : Nat)
    (hpp : p < p1) (hp1 : p1 < arr.length) :
    ¬ lex_le (ngram_tuple 2 (arr.getD p1 ⟨[], []⟩)) (ngram_tuple 2 (arr.getD p ⟨[], []⟩)) := by
  have h1 := List.pairwise_iff_getElem.1 hs p p1 (by omega) hp1 hpp
  rw [ngram_comparator_lt_iff 2 (by omega)] at h1
  rw [List.getD_eq_getElem _ _ hp1, List.getD_eq_getElem _ _ (show p < _ by omega)]
  exact h1

theorem fix_counts_first_diff_agree (words tw : List Nat) : ∀ n i : Nat,
    fix_counts_first_diff words tw n i = none →
    ∀ t, i ≤ t → t < i + n → words.getD t 0 = tw.getD t 0
  | 0, _ => fun _ t h1 h2 => by omega
  | n + 1, i => by
    intro h t h1 h2
    simp only [fix_counts_first_diff] at h
    by_cases hc : words.getD i 0 ≠ tw.getD i 0
    · rw [if_pos hc] at h
      cases h
    · rw [if_neg hc] at h
      rcases Nat.eq_or_lt_of_le h1 with h3 | h3
      · rw [← h3]
        simpa using hc
      · exact fix_counts_first_diff_agree words tw n (i + 1) h t (by omega) (by omega)

theorem ngram_tuple_two (g : ngram_raw_t) :
    ngram_tuple 2 g = [g.words.getD 0 0, g.words.getD 1 0] := rfl

theorem ngram_tuple_three (g : ngram_raw_t) :
    ngram_tuple 3 g = ngram_tuple 2 g ++ [g.words.getD 2 0] := rfl

/-- A pair is not above a triple exactly when it is not above the context of
the triple; a triple is not above a pair only when its context is below it. -/
theorem pair_le_triple (x : List Nat) (g : ngram_raw_t) (hx : x.length = 2) :
    (lex_le x (ngram_tuple 3 g) ↔ lex_le x (ngram_tuple 2 g)) ∧
    (lex_le (ngram_tuple 3 g) x → ¬ lex_le x (ngram_tuple 2 g)) := by
  rw [ngram_tuple_three]
  refine ⟨lex_le_append_iff _ _ _ (by rw [hx, ngram_tuple_length]), ?_⟩
  intro h1 h2
  have h3 := (lex_le_append_iff x (ngram_tuple 2 g) [g.words.getD 2 0]
    (by rw [hx, ngram_tuple_length])).2 h2
  have h4 := lex_le_antisymm _ _ h1 h3
  have h5 : (ngram_tuple 2 g ++ [g.words.getD 2 0]).length = x.length := by rw [h4]
  rw [List.length_append, ngram_tuple_length, hx] at h5
  simp at h5

/-- In a sorted trigram array the contexts do not decrease with the index. -/
theorem sorted_context_le (trigrams : List ngram_raw_t)
    (hs : List.Pairwise (fun a b => ngram_comparator 3 a b ≤ 0) trigrams) (p m : Nat)
    (hpm : p ≤ m) (hm : m < trigrams.length) :
    lex_le (ngram_tuple 2 (trigrams.getD p ⟨[], []⟩))
      (ngram_tuple 2 (trigrams.getD m ⟨[], []⟩)) := by
  have h := sorted_tuple_le [[], trigrams] 1 hs p m hpm hm
  have h1 : lex_le (ngram_tuple 3 (trigrams.getD p ⟨[], []⟩))
      (ngram_tuple 3 (trigrams.getD m ⟨[], []⟩)) := h
  rw [ngram_tuple_three, ngram_tuple_three] at h1
  exact lex_le_heads _ _ _ _ (by rw [ngram_tuple_length, ngram_tuple_length]) h1

theorem sorted_pair_le (bigrams : List ngram_raw_t)
    (hs : List.Pairwise (fun a b => ngram_comparator 2 a b ≤ 0) bigrams) (p m : Nat)
    (hpm : p ≤ m) (hm : m < bigrams.length) :
    lex_le (ngram_tuple 2 (bigrams.getD p ⟨[], []⟩))
      (ngram_tuple 2 (bigrams.getD m ⟨[], []⟩)) :=
  sorted_tuple_le [bigrams] 0 hs p m hpm hm

/-- A pass of the merge of an order-3 model that pops a bigram. -/
theorem context_step_bigram (bigrams trigrams : List ngram_raw_t) (counts : List Nat)
    (hload : loaded_raw_ngrams [bigrams, trigrams] counts 3)
    (hB : sorted_raw_ngrams 2 bigrams) (s : fix_counts_state)
    (hinv : context_merge_inv bigrams trigrams counts s) (hq : s.ngrams ≠ [])
    (top : ngram_raw_ord_t)
    (hpoll : priority_queue_poll ngram_ord_comparator s.ngrams = some (top, s.ngrams.erase top))
    (htop : top ∈ s.ngrams)
    (hleast : ∀ x ∈ s.ngrams, lex_le (ngram_tuple top.order top.instance_)
      (ngram_tuple x.order x.instance_))
    (hjc : s.raw_ngram_ptrs.getD 0 0 < counts.getD 1 0)
    (hje : top = ⟨bigrams.getD (s.raw_ngram_ptrs.getD 0 0) ⟨[], []⟩, 2⟩) :
    ∃ s1, fix_counts_step [bigrams, trigrams] counts s = some s1 ∧
      context_merge_inv bigrams trigrams counts s1 ∧
      s1.fixed_counts.getD 1 0 + missing_contexts bigrams trigrams s1 =
        s.fixed_counts.getD 1 0 + missing_contexts bigrams trigrams s ∧
      context_merge_pending counts s1 + (1 + context_merge_hit trigrams counts s) ≤
        context_merge_pending counts s + context_merge_hit trigrams counts s1 := by
  obtain ⟨hqi, hwl, hfl, hO1, hO3⟩ := hinv
  obtain ⟨hcB, h32B, hwB, hsB⟩ := hload 0 (by omega)
  obtain ⟨hcT, h32T, hwT, hsT⟩ := hload 1 (by omega)
  have hcB1 : counts.getD 1 0 = bigrams.length := hcB
  have hcT1 : counts.getD 2 0 = trigrams.length := hcT
  have hsB1 : List.Pairwise (fun a b => ngram_comparator 2 a b ≤ 0) bigrams := hsB
  have hsT1 : List.Pairwise (fun a b => ngram_comparator 3 a b ≤ 0) trigrams := hsT
  have hwB1 : ∀ g ∈ bigrams, g.words.length = 2 := hwB
  have ho : top.order = 2 := by rw [hje]
  generalize hpb : s.raw_ngram_ptrs.getD 0 0 = pb at *
  generalize hpt : s.raw_ngram_ptrs.getD 1 0 = pt at *
  generalize hg : bigrams.getD pb ⟨[], []⟩ = g at *
  have hti : top.instance_ = g := by rw [hje]
  have hgm : g ∈ bigrams := by
    rw [← hg, List.getD_eq_getElem _ _ (show pb < bigrams.length by omega)]
    exact List.getElem_mem _
  have hgl : g.words.length = 2 := hwB1 g hgm
  have hkey : ngram_tuple top.order top.instance_ = ngram_tuple 2 g := by rw [ho, hti]
  have hgP : ngram_tuple 2 g ∈ pending_tuples bigrams pb :=
    (mem_pending_tuples _ _ _).2 ⟨pb, Nat.le_refl _, by omega, by rw [hg]⟩
  -- the popped bigram is not above any pending trigram context
  have hbS : ∀ c ∈ pending_tuples trigrams pt, lex_le (ngram_tuple 2 g) c := by
    intro c hc
    obtain ⟨m, hpm, hm, hmc⟩ := (mem_pending_tuples _ _ _).1 hc
    have hTq : (⟨trigrams.getD pt ⟨[], []⟩, 3⟩ : ngram_raw_ord_t) ∈ s.ngrams :=
      (hqi.2.2.2 _).2 ⟨1, by omega, by rw [hpt]; show pt < counts.getD 2 0; omega,
        by rw [hpt]; rfl⟩
    have h1 := hleast _ hTq
    rw [hkey] at h1
    have h2 := (pair_le_triple _ _ (ngram_tuple_length 2 g)).1.1 h1
    rw [← hmc]
    exact lex_le_trans _ _ _ h2 (sorted_context_le trigrams hsT1 pt m hpm hm)
  have hwS : tracked_context s ∉ pending_tuples trigrams pt := by
    intro hw
    exact hO1 _ hw rfl _ hgP (hbS _ hw)
  -- the pass
  have hstep := fix_counts_step_eq [bigrams, trigrams] counts s top _ hq hpoll
  rw [if_pos ho] at hstep
  obtain ⟨s1, hs1, hn1, hp1, hw1, hf1⟩ : ∃ s1 : fix_counts_state,
      fix_counts_step [bigrams, trigrams] counts s = some s1 ∧
      s1.ngrams = refill_queue [bigrams, trigrams] counts (s.ngrams.erase top)
        (advance_ptr s.raw_ngram_ptrs top) top ∧
      s1.raw_ngram_ptrs = advance_ptr s.raw_ngram_ptrs top ∧
      s1.words = memcpy_words s.words g.words 2 ∧
      s1.fixed_counts = s.fixed_counts := ⟨_, hstep, rfl, rfl, by rw [hti], rfl⟩
  have hadv : ∀ i, (advance_ptr s.raw_ngram_ptrs top).getD i 0 =
      if i = 0 then pb + 1 else s.raw_ngram_ptrs.getD i 0 := by
    intro i
    have h := advance_ptr_getD s.raw_ngram_ptrs top (counts.getD 1 0)
      (by rw [ho, hqi.1]; omega) (by rw [ho, hpb]; exact hjc) h32B i
    rw [ho, hpb] at h
    exact h
  have hpb1 : s1.raw_ngram_ptrs.getD 0 0 = pb + 1 := by rw [hp1, hadv 0, if_pos rfl]
  have hpt1 : s1.raw_ngram_ptrs.getD 1 0 = pt := by
    rw [hp1, hadv 1, if_neg (by omega), hpt]
  have htr1 : tracked_context s1 = ngram_tuple 2 g := by
    simp only [tracked_context]
    apply ngram_tuple_congr
    intro i hi
    show s1.words.getD i 0 = g.words.getD i 0
    rw [hw1, memcpy_words_getD _ _ _ _ (by omega), if_pos hi]
  have hPstep : pending_tuples bigrams pb =
      insert (ngram_tuple 2 g) (pending_tuples bigrams (pb + 1)) := by
    rw [pending_tuples_step bigrams pb (by omega), hg]
  have hinv1 : merge_queue_inv [bigrams, trigrams] counts 3 s1 := by
    have h := merge_queue_inv_next [bigrams, trigrams] counts 3 s top
      (advance_ptr s.raw_ngram_ptrs top) s1.words s1.fixed_counts hqi htop
      (by rw [advance_ptr_length, hqi.1])
      (by rw [ho, hadv 0, if_pos rfl]; show pb + 1 ≤ counts.getD 1 0; omega)
      (by
        intro i hi
        rw [ho] at hi
        rw [hadv i, if_neg hi])
    rw [← hn1, ← hp1] at h
    exact h
  refine ⟨s1, hs1, ⟨hinv1, ?_, ?_, ?_, ?_⟩, ?_, ?_⟩
  · rw [hw1, memcpy_words_length _ _ _ (by omega) (by omega), hwl]
  · rw [hf1]
    exact hfl
  · rw [hpb1, hpt1, htr1]
    intro c _ _ c1 hc1
    obtain ⟨m, hpm, hm, hmc⟩ := (mem_pending_tuples _ _ _).1 hc1
    rw [← hmc, ← hg]
    exact sorted_tuple_lt bigrams hB pb m (by omega) hm
  · rw [hpt1, htr1]
    exact Or.inr hbS
  · rw [hf1]
    congr 1
    simp only [missing_contexts]
    rw [hpb1, hpt1, htr1, hpb, hpt, ← hPstep, Finset.sdiff_insert_of_not_mem hwS]
  · have hhit : context_merge_hit trigrams counts s = 0 := by
      simp only [context_merge_hit]
      rw [if_neg]
      rintro ⟨h1, h2⟩
      rw [hpt] at h1 h2
      exact hwS ((mem_pending_tuples _ _ _).2 ⟨pt, Nat.le_refl _, by omega, h2⟩)
    simp only [context_merge_pending]
    rw [hhit, hpb1, hpt1, hpb, hpt]
    omega

/-- A pass of the merge of an order-3 model that pops a trigram: when the
tracked pair is not its context, the context is counted and the trigram goes
back into the queue; otherwise the trigram is consumed. -/
theorem context_step_trigram (bigrams trigrams : List ngram_raw_t) (counts : List Nat)
    (hload : loaded_raw_ngrams [bigrams, trigrams] counts 3) (s : fix_counts_state)
    (hinv : context_merge_inv bigrams trigrams counts s) (hq : s.ngrams ≠ [])
    (h32 : s.fixed_counts.getD 1 0 + missing_contexts bigrams trigrams s < 2 ^ 32)
    (top : ngram_raw_ord_t)
    (hpoll : priority_queue_poll ngram_ord_comparator s.ngrams = some (top, s.ngrams.erase top))
    (htop : top ∈ s.ngrams)
    (hleast : ∀ x ∈ s.ngrams, lex_le (ngram_tuple top.order top.instance_)
      (ngram_tuple x.order x.instance_))
    (hjc : s.raw_ngram_ptrs.getD 1 0 < counts.getD 2 0)
    (hje : top = ⟨trigrams.getD (s.raw_ngram_ptrs.getD 1 0) ⟨[], []⟩, 3⟩) :
    ∃ s1, fix_counts_step [bigrams, trigrams] counts s = some s1 ∧
      context_merge_inv bigrams trigrams counts s1 ∧
      s1.fixed_counts.getD 1 0 + missing_contexts bigrams trigrams s1 =
        s.fixed_counts.getD 1 0 + missing_contexts bigrams trigrams s ∧
      context_merge_pending counts s1 + (1 + context_merge_hit trigrams counts s) ≤
        context_merge_pending counts s + context_merge_hit trigrams counts s1 := by
  obtain ⟨hqi, hwl, hfl, hO1, hO3⟩ := hinv
  obtain ⟨hcB, h32B, hwB, hsB⟩ := hload 0 (by omega)
  obtain ⟨hcT, h32T, hwT, hsT⟩ := hload 1 (by omega)
  have hcB1 : counts.getD 1 0 = bigrams.length := hcB
  have hcT1 : counts.getD 2 0 = trigrams.length := hcT
  have hsB1 : List.Pairwise (fun a b => ngram_comparator 2 a b ≤ 0) bigrams := hsB
  have hsT1 : List.Pairwise (fun a b => ngram_comparator 3 a b ≤ 0) trigrams := hsT
  have hwT1 : ∀ g ∈ trigrams, g.words.length = 3 := hwT
  have ho : top.order = 3 := by rw [hje]
  have ho2 : ¬ top.order = 2 := by omega
  simp only [missing_contexts] at h32
  generalize hpb : s.raw_ngram_ptrs.getD 0 0 = pb at *
  generalize hpt : s.raw_ngram_ptrs.getD 1 0 = pt at *
  generalize hg : trigrams.getD pt ⟨[], []⟩ = g at *
  have hti : top.instance_ = g := by rw [hje]
  have hgm : g ∈ trigrams := by
    rw [← hg, List.getD_eq_getElem _ _ (show pt < trigrams.length by omega)]
    exact List.getElem_mem _
  have hgl : g.words.length = 3 := hwT1 g hgm
  have hkey : ngram_tuple top.order top.instance_ = ngram_tuple 3 g := by rw [ho, hti]
  have hgS : ngram_tuple 2 g ∈ pending_tuples trigrams pt :=
    (mem_pending_tuples _ _ _).2 ⟨pt, Nat.le_refl _, by omega, by rw [hg]⟩
  have hSstep : pending_tuples trigrams pt =
      insert (ngram_tuple 2 g) (pending_tuples trigrams (pt + 1)) := by
    rw [pending_tuples_step trigrams pt (by omega), hg]
  have hsub : ∀ c ∈ pending_tuples trigrams (pt + 1), c ∈ pending_tuples trigrams pt := by
    intro c hc
    rw [hSstep]
    exact Finset.mem_insert_of_mem hc
  have hsort : ∀ c ∈ pending_tuples trigrams pt, lex_le (ngram_tuple 2 g) c := by
    intro c hc
    obtain ⟨m, hpm, hm, hmc⟩ := (mem_pending_tuples _ _ _).1 hc
    rw [← hmc, ← hg]
    exact sorted_context_le trigrams hsT1 pt m hpm hm
  -- every pending bigram is above the context of the popped trigram
  have hP : ∀ c1 ∈ pending_tuples bigrams pb, ¬ lex_le c1 (ngram_tuple 2 g) := by
    intro c1 hc1 hle
    obtain ⟨m, hpm, hm, hmc⟩ := (mem_pending_tuples _ _ _).1 hc1
    have hBq : (⟨bigrams.getD pb ⟨[], []⟩, 2⟩ : ngram_raw_ord_t) ∈ s.ngrams :=
      (hqi.2.2.2 _).2 ⟨0, by omega, by rw [hpb]; show pb < counts.getD 1 0; omega,
        by rw [hpb]; rfl⟩
    have h1 := hleast _ hBq
    rw [hkey] at h1
    apply (pair_le_triple _ g (ngram_tuple_length 2 _)).2 h1
    rw [← hmc] at hle
    exact lex_le_trans _ _ _ (sorted_pair_le bigrams hsB1 pb m hpm hm) hle
  have hstep := fix_counts_step_eq [bigrams, trigrams] counts s top _ hq hpoll
  rw [if_neg ho2, ho, hti] at hstep
  cases hd : fix_counts_first_diff s.words g.words (3 - 1) 0 with
  | none =>
    rw [hd] at hstep
    have hagree := fix_counts_first_diff_agree _ _ _ _ hd
    have hwc : tracked_context s = ngram_tuple 2 g := by
      simp only [tracked_context]
      apply ngram_tuple_congr
      intro i hi
      exact hagree i (Nat.zero_le _) (by omega)
    obtain ⟨s1, hs1, hn1, hp1, hw1, hf1⟩ : ∃ s1 : fix_counts_state,
        fix_counts_step [bigrams, trigrams] counts s = some s1 ∧
        s1.ngrams = refill_queue [bigrams, trigrams] counts (s.ngrams.erase top)
          (advance_ptr s.raw_ngram_ptrs top) top ∧
        s1.raw_ngram_ptrs = advance_ptr s.raw_ngram_ptrs top ∧
        s1.words = s.words.set 2 (g.words.getD 2 0) ∧
        s1.fixed_counts = s.fixed_counts := ⟨_, hstep, rfl, rfl, rfl, rfl⟩
    have hadv : ∀ i, (advance_ptr s.raw_ngram_ptrs top).getD i 0 =
        if i = 1 then pt + 1 else s.raw_ngram_ptrs.getD i 0 := by
      intro i
      have h := advance_ptr_getD s.raw_ngram_ptrs top (counts.getD 2 0)
        (by rw [ho, hqi.1]; omega) (by rw [ho, hpt]; exact hjc) h32T i
      rw [ho, hpt] at h
      exact h
    have hpb1 : s1.raw_ngram_ptrs.getD 0 0 = pb := by
      rw [hp1, hadv 0, if_neg (by omega), hpb]
    have hpt1 : s1.raw_ngram_ptrs.getD 1 0 = pt + 1 := by rw [hp1, hadv 1, if_pos rfl]
    have htr1 : tracked_context s1 = tracked_context s := by
      simp only [tracked_context]
      apply ngram_tuple_congr
      intro i hi
      show s1.words.getD i 0 = s.words.getD i 0
      rw [hw1, getD_set_nat _ _ _ _ (by omega), if_neg (by omega)]
    have hinv1 : merge_queue_inv [bigrams, trigrams] counts 3 s1 := by
      have h := merge_queue_inv_next [bigrams, trigrams] counts 3 s top
        (advance_ptr s.raw_ngram_ptrs top) s1.words s1.fixed_counts hqi htop
        (by rw [advance_ptr_length, hqi.1])
        (by rw [ho, hadv 1, if_pos rfl]; show pt + 1 ≤ counts.getD 2 0; omega)
        (by
          intro i hi
          rw [ho] at hi
          rw [hadv i, if_neg hi])
      rw [← hn1, ← hp1] at h
      exact h
    refine ⟨s1, hs1, ⟨hinv1, ?_, ?_, ?_, ?_⟩, ?_, ?_⟩
    · rw [hw1, List.length_set, hwl]
    · rw [hf1]
      exact hfl
    · rw [hpb1, hpt1, htr1]
      intro c hc heq
      exact hO1 c (hsub c hc) heq
    · rw [hpt1, htr1]
      rcases hO3 with h | h
      · exact Or.inl (fun c hc => h c (hsub c hc))
      · exact Or.inr (fun c hc => h c (hsub c hc))
    · rw [hf1]
      congr 1
      simp only [missing_contexts]
      rw [hpb1, hpt1, htr1, hpb, hpt, hSstep, hwc,
        Finset.insert_sdiff_of_mem _ (Finset.mem_insert_self _ _)]
    · have hhit : context_merge_hit trigrams counts s = 1 := by
        simp only [context_merge_hit]
        rw [if_pos]
        rw [hpt, hg]
        exact ⟨hjc, hwc.symm⟩
      simp only [context_merge_pending]
      rw [hhit, hpb1, hpt1, hpb, hpt]
      omega
  | some d =>
    rw [hd] at hstep
    obtain ⟨_, hd2, hdne, _⟩ := fix_counts_first_diff_some _ _ _ _ _ hd
    have hnum : (if d = 0 then 1 else d) = 1 := by
      split <;> omega
    simp only [hnum] at hstep
    have hwc : tracked_context s ≠ ngram_tuple 2 g := by
      intro h
      apply hdne
      have h1 := congrArg (fun l => l.getD d 0) h
      simp only [tracked_context] at h1
      rw [ngram_tuple_getD 2 _ d (by omega), ngram_tuple_getD 2 _ d (by omega)] at h1
      exact h1
    obtain ⟨s1, hs1, hn1, hp1, hw1, hf1⟩ : ∃ s1 : fix_counts_state,
        fix_counts_step [bigrams, trigrams] counts s = some s1 ∧
        s1.ngrams = refill_queue [bigrams, trigrams] counts (s.ngrams.erase top)
          s.raw_ngram_ptrs top ∧
        s1.raw_ngram_ptrs = s.raw_ngram_ptrs ∧
        s1.words = (memcpy_words s.words g.words (1 + 1)).set (3 - 1) (g.words.getD (3 - 1) 0) ∧
        s1.fixed_counts = s.fixed_counts.set 1 ((s.fixed_counts.getD 1 0 + 1) % 2 ^ 32) :=
      ⟨_, hstep, rfl, rfl, rfl, rfl⟩
    have hpb1 : s1.raw_ngram_ptrs.getD 0 0 = pb := by rw [hp1, hpb]
    have hpt1 : s1.raw_ngram_ptrs.getD 1 0 = pt := by rw [hp1, hpt]
    have htr1 : tracked_context s1 = ngram_tuple 2 g := by
      simp only [tracked_context]
      apply ngram_tuple_congr
      intro i hi
      show s1.words.getD i 0 = g.words.getD i 0
      rw [hw1, getD_set_nat _ _ _ _
        (by rw [memcpy_words_length _ _ _ (by omega) (by omega)]; omega),
        if_neg (by omega), memcpy_words_getD _ _ _ _ (by omega), if_pos (by omega)]
    have hwS : tracked_context s ∉ pending_tuples trigrams pt := by
      intro hw
      rcases hO3 with h | h
      · exact h _ hw rfl
      · exact hwc (lex_le_antisymm _ _ (h _ hgS) (hsort _ hw))
    have hinv1 : merge_queue_inv [bigrams, trigrams] counts 3 s1 := by
      have h := merge_queue_inv_next [bigrams, trigrams] counts 3 s top
        s.raw_ngram_ptrs s1.words s1.fixed_counts hqi htop hqi.1
        (by rw [ho, hpt]; show pt ≤ counts.getD 2 0; omega)
        (fun i _ => rfl)
      rw [← hn1, ← hp1] at h
      exact h
    have hmiss : (pending_tuples trigrams pt \
          insert (ngram_tuple 2 g) (pending_tuples bigrams pb)).card + 1 =
        (pending_tuples trigrams pt \
          insert (tracked_context s) (pending_tuples bigrams pb)).card := by
      rw [Finset.sdiff_insert_of_not_mem hwS, Finset.sdiff_insert]
      exact Finset.card_erase_add_one
        (Finset.mem_sdiff.2 ⟨hgS, fun h => hP _ h (lex_le_refl _)⟩)
    have hfc1 : s1.fixed_counts.getD 1 0 = s.fixed_counts.getD 1 0 + 1 := by
      rw [hf1, getD_set_nat _ _ _ _ hfl, if_pos rfl, Nat.mod_eq_of_lt (by omega)]
    refine ⟨s1, hs1, ⟨hinv1, ?_, ?_, ?_, ?_⟩, ?_, ?_⟩
    · rw [hw1, List.length_set, memcpy_words_length _ _ _ (by omega) (by omega), hwl]
    · rw [hf1, List.length_set]
      exact hfl
    · rw [hpb1, hpt1, htr1]
      intro c _ _ c1 hc1
      exact hP c1 hc1
    · rw [hpt1, htr1]
      exact Or.inr hsort
    · simp only [missing_contexts]
      rw [hfc1, hpb1, hpt1, htr1, hpb, hpt]
      omega
    · have hhit : context_merge_hit trigrams counts s = 0 := by
        simp only [context_merge_hit]
        rw [if_neg]
        rintro ⟨_, h2⟩
        rw [hpt, hg] at h2
        exact hwc h2.symm
      have hhit1 : context_merge_hit trigrams counts s1 = 1 := by
        simp only [context_merge_hit]
        rw [if_pos]
        rw [hpt1, hg, htr1]
        exact ⟨hjc, rfl⟩
      simp only [context_merge_pending]
      rw [hhit, hhit1, hpb1, hpt1, hpb, hpt]

/-- A pass of the merge of an order-3 model keeps the sum of the corrected
bigram count and the contexts still to count. -/
theorem context_step (bigrams trigrams : List ngram_raw_t) (counts : List Nat)
    (hload : loaded_raw_ngrams [bigrams, trigrams] counts 3)
    (hB : sorted_raw_ngrams 2 bigrams) (s : fix_counts_state)
    (hinv : context_merge_inv bigrams trigrams counts s) (hq : s.ngrams ≠ [])
    (h32 : s.fixed_counts.getD 1 0 + missing_contexts bigrams trigrams s < 2 ^ 32) :
    ∃ s1, fix_counts_step [bigrams, trigrams] counts s = some s1 ∧
      context_merge_inv bigrams trigrams counts s1 ∧
      s1.fixed_counts.getD 1 0 + missing_contexts bigrams trigrams s1 =
        s.fixed_counts.getD 1 0 + missing_contexts bigrams trigrams s ∧
      context_merge_pending counts s1 + (1 + context_merge_hit trigrams counts s) ≤
        context_merge_pending counts s + context_merge_hit trigrams counts s1 := by
  obtain ⟨top, hpoll, htop, hleast⟩ := priority_queue_poll_least s.ngrams hq
  obtain ⟨j, hj, hjc, hje⟩ := (hinv.1.2.2.2 top).1 htop
  have hj2 : j = 0 ∨ j = 1 := by omega
  rcases hj2 with h | h
  · subst h
    exact context_step_bigram bigrams trigrams counts hload hB s hinv hq top hpoll htop hleast
      hjc hje
  · subst h
    exact context_step_trigram bigrams trigrams counts hload s hinv hq h32 top hpoll htop
      hleast hjc hje

/-- The merge of an order-3 model ends within its fuel, with the corrected
bigram count raised by the number of contexts that were still to count. -/
theorem context_loop (bigrams trigrams : List ngram_raw_t) (counts : List Nat)
    (hload : loaded_raw_ngrams [bigrams, trigrams] counts 3)
    (hB : sorted_raw_ngrams 2 bigrams) : ∀ (fuel : Nat) (s : fix_counts_state),
    context_merge_inv bigrams trigrams counts s →
    s.fixed_counts.getD 1 0 + missing_contexts bigrams trigrams s < 2 ^ 32 →
    context_merge_pending counts s < fuel + context_merge_hit trigrams counts s →
    ∃ s1, fix_counts_loop [bigrams, trigrams] counts fuel s = some s1 ∧
      s1.fixed_counts.getD 1 0 =
        s.fixed_counts.getD 1 0 + missing_contexts bigrams trigrams s
  | 0, s => by
    intro _ _ h
    exfalso
    simp only [context_merge_pending, context_merge_hit] at h
    split at h
    · rename_i hc
      have := hc.1
      omega
    · omega
  | fuel + 1, s => by
    intro hinv h32 hfuel
    simp only [fix_counts_loop]
    by_cases hq : s.ngrams = []
    · rw [fix_counts_step_empty [bigrams, trigrams] counts s hq]
      refine ⟨s, rfl, ?_⟩
      have hcT : counts.getD 2 0 = trigrams.length := (hload 1 (by omega)).1
      have hend : trigrams.length ≤ s.raw_ngram_ptrs.getD 1 0 := by
        by_contra hnot
        have hmem : (⟨raw_ngram_at [bigrams, trigrams] 1 (s.raw_ngram_ptrs.getD 1 0), 1 + 2⟩ :
            ngram_raw_ord_t) ∈ s.ngrams :=
          (hinv.1.2.2.2 _).2 ⟨1, by omega, by show _ < counts.getD 2 0; omega, rfl⟩
        rw [hq] at hmem
        simp at hmem
      simp only [missing_contexts]
      rw [pending_tuples_end trigrams _ hend]
      simp
    · obtain ⟨s1, h1, h2, h3, h4⟩ := context_step bigrams trigrams counts hload hB s hinv hq h32
      rw [h1]
      obtain ⟨s2, h5, h6⟩ := context_loop bigrams trigrams counts hload hB fuel s1 h2
        (by omega) (by omega)
      exact ⟨s2, h5, by omega⟩

theorem take_two_eq_tuple (g : ngram_raw_t) (h : 2 ≤ g.words.length) :
    g.words.take 2 = ngram_tuple 2 g := by
  rw [ngram_tuple_two]
  rcases g with ⟨words, weights⟩
  match words, h with
  | a :: b :: rest, _ => rfl

/-- The bigram tuples of an array sorted without duplicates do not repeat. -/
theorem sorted_tuples_nodup (bigrams : List ngram_raw_t) (hB : sorted_raw_ngrams 2 bigrams) :
    (bigrams.map (ngram_tuple 2)).Nodup := by
  simp only [List.Nodup, List.pairwise_map]
  apply List.Pairwise.imp _ hB
  intro a b hab heq
  rw [ngram_comparator_lt_iff 2 (by omega)] at hab
  apply hab
  rw [heq]
  exact lex_le_refl _

/-- The three ways to count the bigram nodes of an order-3 model agree. -/
theorem context_count_eq (bigrams trigrams : List ngram_raw_t)
    (hwB : ∀ g ∈ bigrams, g.words.length = 2) (hwT : ∀ g ∈ trigrams, g.words.length = 3)
    (hB : sorted_raw_ngrams 2 bigrams) :
    (context_tuples [bigrams, trigrams] 2).length =
      bigrams.length + (pending_tuples trigrams 0 \ pending_tuples bigrams 0).card ∧
    (((trigrams.map (fun t => t.words.take 2)).dedup).filter
        (fun c => decide (c ∉ bigrams.map (fun b => b.words.take 2)))).length =
      (pending_tuples trigrams 0 \ pending_tuples bigrams 0).card := by
  have hmB : bigrams.map (fun b => b.words.take 2) = bigrams.map (ngram_tuple 2) :=
    List.map_congr_left (fun g hg => take_two_eq_tuple g (by rw [hwB g hg]))
  have hmT : trigrams.map (fun b => b.words.take 2) = trigrams.map (ngram_tuple 2) :=
    List.map_congr_left (fun g hg => take_two_eq_tuple g (by rw [hwT g hg]; omega))
  have hP : pending_tuples bigrams 0 = (bigrams.map (ngram_tuple 2)).toFinset := rfl
  have hS : pending_tuples trigrams 0 = (trigrams.map (ngram_tuple 2)).toFinset := rfl
  have hcard : (pending_tuples bigrams 0).card = bigrams.length := by
    rw [hP, List.toFinset_card_of_nodup (sorted_tuples_nodup bigrams hB), List.length_map]
  constructor
  · have h1 : context_tuples [bigrams, trigrams] 2 =
        ((bigrams ++ trigrams).map (fun g => g.words.take 2)).dedup := by
      simp [context_tuples]
    rw [h1, ← List.card_toFinset, List.map_append, List.toFinset_append, hmB, hmT, ← hP, ← hS,
      Finset.union_comm, ← Finset.card_sdiff_add_card, hcard]
    omega
  · rw [hmB, hmT, ← List.toFinset_card_of_nodup (List.Nodup.filter _ (List.nodup_dedup _))]
    congr 1
    ext c
    simp [hP, hS]

theorem getD_take_nat (l : List Nat) (n i : Nat) (h : i < n) :
    (l.take n).getD i 0 = l.getD i 0 := by
  simp [List.getD_eq_getElem?_getD, List.getElem?_take, h]

/-- C21. For every input that is already reconciled (the first `k` stored words of every
n-gram of a higher order form a tuple of the order-`k` array, for all `2 <= k < N`), with
the arrays as the loaders leave them (`counts[k - 1]` elements of `k` words, sorted under
`ngram_comparator`), `ngrams_raw_fix_counts` returns `fixed_counts` equal to the first `N`
entries of `counts`, that is to `counts` itself when it has `N` entries; hence
reconciling again with the corrected counts leaves them unchanged. -/
theorem fix_counts_reconciled_unchanged (raw_ngrams : List (List ngram_raw_t))
    (counts : List Nat) (order : Nat) (hload : loaded_raw_ngrams raw_ngrams counts order)
    (hrec : reconciled_raw_ngrams raw_ngrams order) :
    ngrams_raw_fix_counts raw_ngrams counts order = some (counts.take order) ∧
    (counts.length = order → ngrams_raw_fix_counts raw_ngrams counts order = some counts) ∧
    (ngrams_raw_fix_counts raw_ngrams counts order).bind
      (fun fixed => ngrams_raw_fix_counts raw_ngrams fixed order) = some (counts.take order) := by
  have h1 := reconciled_fix_counts raw_ngrams counts order hload hrec
  have hload1 : loaded_raw_ngrams raw_ngrams (counts.take order) order := by
    intro j hj
    rw [getD_take_nat counts order (j + 1) (by omega)]
    exact hload j hj
  have h2 := reconciled_fix_counts raw_ngrams (counts.take order) order hload1 hrec
  rw [List.take_take, Nat.min_self] at h2
  refine ⟨h1, ?_, ?_⟩
  · intro hlen
    rw [h1, List.take_of_length_le (by omega)]
  · rw [h1]
    exact h2

theorem fix_counts_reconciled_unchanged_witness :
    ngrams_raw_fix_counts reconciled_order3_ngrams [2, 2, 2] 3 = some [2, 2, 2] :=
  (fix_counts_reconciled_unchanged reconciled_order3_ngrams [2, 2, 2] 3 (by decide)
    (by decide)).2.1 rfl

/-- C29. For model order `N = 3`, a bigram array sorted ascending without duplicates and a
sorted trigram array (arrays as the loaders leave them, no trigram context being the
all-ones pair the tracked words start from, the count below `2 ^ 32`),
`ngrams_raw_fix_counts` returns, and `fixed_counts[1]` is the number of distinct pairs in
the union of the bigram array and the trigram contexts `(t.words[0], t.words[1])`, that is
`counts[1]` plus the number of distinct trigram contexts that are absent from the bigram
array: each missing context is counted exactly once. -/
theorem order3_bigram_count (bigrams trigrams : List ngram_raw_t) (counts : List Nat)
    (hlen : counts.length = 3) (hload : loaded_raw_ngrams [bigrams, trigrams] counts 3)
    (hB : sorted_raw_ngrams 2 bigrams)
    (hfresh : ∀ t ∈ trigrams, ngram_tuple 2 t ≠ [UINT32_MAX, UINT32_MAX])
    (h32 : (context_tuples [bigrams, trigrams] 2).length < 2 ^ 32) :
    ∃ fixed, ngrams_raw_fix_counts [bigrams, trigrams] counts 3 = some fixed ∧
      fixed.getD 1 0 = (context_tuples [bigrams, trigrams] 2).length ∧
      fixed.getD 1 0 = counts.getD 1 0 +
        (((trigrams.map (fun t => t.words.take 2)).dedup).filter
          (fun c => decide (c ∉ bigrams.map (fun b => b.words.take 2)))).length := by
  obtain ⟨hcB, _, hwB, _⟩ := hload 0 (by omega)
  obtain ⟨_, _, hwT, _⟩ := hload 1 (by omega)
  have hcB1 : counts.getD 1 0 = bigrams.length := hcB
  obtain ⟨hc1, hc2⟩ := context_count_eq bigrams trigrams hwB hwT hB
  obtain ⟨h1, h2, h3, h4⟩ := merge_queue_inv_init [bigrams, trigrams] counts 3
    (List.replicate 3 UINT32_MAX) (counts.take 3)
  generalize hs0 : fix_counts_init [bigrams, trigrams] counts (3 - 1) 2
    { ngrams := []
      raw_ngram_ptrs := List.replicate (3 - 1) 0
      words := List.replicate 3 UINT32_MAX
      fixed_counts := counts.take 3 } = s0 at h1 h2 h3 h4
  have hpb : s0.raw_ngram_ptrs.getD 0 0 = 0 := by rw [h2]; rfl
  have hpt : s0.raw_ngram_ptrs.getD 1 0 = 0 := by rw [h2]; rfl
  have htr : tracked_context s0 = [UINT32_MAX, UINT32_MAX] := by
    simp only [tracked_context]
    rw [h3]
    rfl
  have hwS : tracked_context s0 ∉ pending_tuples trigrams 0 := by
    intro hw
    obtain ⟨m, _, hm, hmc⟩ := (mem_pending_tuples _ _ _).1 hw
    rw [htr] at hmc
    apply hfresh _ _ hmc
    rw [List.getD_eq_getElem _ _ hm]
    exact List.getElem_mem _
  have hfc : s0.fixed_counts.getD 1 0 = counts.getD 1 0 := by
    rw [h4, getD_take_nat counts 3 1 (by omega)]
  have hmiss : missing_contexts bigrams trigrams s0 =
      (pending_tuples trigrams 0 \ pending_tuples bigrams 0).card := by
    simp only [missing_contexts]
    rw [hpb, hpt, Finset.sdiff_insert_of_not_mem hwS]
  have hinv : context_merge_inv bigrams trigrams counts s0 := by
    refine ⟨h1, ?_, ?_, ?_, ?_⟩
    · rw [h3]
      rfl
    · rw [h4, List.length_take]
      omega
    · rw [hpt]
      intro c hc heq
      rw [heq] at hc
      exact absurd hc hwS
    · rw [hpt]
      left
      intro c hc heq
      rw [heq] at hc
      exact absurd hc hwS
  obtain ⟨s1, hs1, hs2⟩ := context_loop bigrams trigrams counts hload hB
    (fix_counts_fuel counts 3) s0 hinv (by rw [hfc, hmiss, hcB1]; omega)
    (by
      have hfuel : fix_counts_fuel counts 3 =
          counts.getD 0 0 * 1 + (counts.getD 1 0 * 2 + (counts.getD 2 0 * 3 + 0)) + 1 := rfl
      simp only [context_merge_pending]
      rw [hpb, hpt, hfuel]
      omega)
  refine ⟨s1.fixed_counts, ?_, ?_, ?_⟩
  · simp only [ngrams_raw_fix_counts]
    rw [hs0, hs1]
    rfl
  · rw [hs2, hfc, hmiss, hc1, hcB1]
  · rw [hs2, hfc, hmiss, hc2]

theorem order3_bigram_count_witness :
    ∃ fixed, ngrams_raw_fix_counts [sparse_order3_bigrams, sparse_order3_trigrams] [2, 1, 3] 3 =
        some fixed ∧
      fixed.getD 1 0 =
        (context_tuples [sparse_order3_bigrams, sparse_order3_trigrams] 2).length ∧
      fixed.getD 1 0 = ([2, 1, 3] : List Nat).getD 1 0 +
        (((sparse_order3_trigrams.map (fun t => t.words.take 2)).dedup).filter
          (fun c => decide (c ∉ sparse_order3_bigrams.map (fun b => b.words.take 2)))).length :=
  order3_bigram_count sparse_order3_bigrams sparse_order3_trigrams [2, 1, 3] rfl (by decide)
    (by decide) (by decide) (by decide)

/-! ## Comparator order, merge termination, dump assertion, traversal, hangover -/

/-- A tuple is strictly below another in the order `lex_le` exactly when it has
the smaller entry at the first difference or is a proper part of the other from
the start. -/
theorem not_lex_le_iff : ∀ x y : List Nat, ¬ lex_le y x ↔
    (∃ i, i < x.length ∧ i < y.length ∧ (∀ t, t < i → x.getD t 0 = y.getD t 0) ∧
      x.getD i 0 < y.getD i 0) ∨
    (x.length < y.length ∧ ∀ t, t < x.length → x.getD t 0 = y.getD t 0)
  | [], [] => by simp [lex_le]
  | [], b :: bs => by simp [lex_le]
  | a :: as, [] => by simp [lex_le]
  | a :: as, b :: bs => by
    have ih := not_lex_le_iff as bs
    have hl : lex_le (b :: bs) (a :: as) ↔ (b < a ∨ (b = a ∧ lex_le bs as)) := Iff.rfl
    rw [hl]
    constructor
    · intro h
      have h1 : ¬ b < a := fun h2 => h (Or.inl h2)
      by_cases hab : a = b
      · have h2 : ¬ lex_le bs as := fun h3 => h (Or.inr ⟨hab.symm, h3⟩)
        rcases ih.1 h2 with ⟨i, hi1, hi2, hi3, hi4⟩ | ⟨h3, h4⟩
        · refine Or.inl ⟨i + 1, by simpa using hi1, by simpa using hi2, ?_, ?_⟩
          · intro t ht
            cases t with
            | zero => simpa using hab
            | succ t => simpa using hi3 t (by omega)
          · simpa using hi4
        · refine Or.inr ⟨by simpa using h3, ?_⟩
          intro t ht
          cases t with
          | zero => simpa using hab
          | succ t => simpa using h4 t (by simpa using ht)
      · refine Or.inl ⟨0, by simp, by simp, fun t ht => by omega, ?_⟩
        simp only [List.getD_cons_zero]
        omega
    · intro h hle
      rcases h with ⟨i, hi1, hi2, hi3, hi4⟩ | ⟨h3, h4⟩
      · cases i with
        | zero =>
          simp only [List.getD_cons_zero] at hi4
          rcases hle with h5 | ⟨h5, _⟩ <;> omega
        | succ i =>
          have h0 : a = b := by simpa using hi3 0 (by omega)
          rcases hle with h5 | ⟨_, h6⟩
          · omega
          · apply ih.2 _ h6
            refine Or.inl ⟨i, by simpa using hi1, by simpa using hi2, ?_, by simpa using hi4⟩
            intro t ht
            simpa using hi3 (t + 1) (by omega)
      · have h0 : a = b := by simpa using h4 0 (by simp)
        rcases hle with h5 | ⟨_, h6⟩
        · omega
        · apply ih.2 _ h6
          refine Or.inr ⟨by simpa using h3, ?_⟩
          intro t ht
          simpa using h4 (t + 1) (by simpa using ht)

theorem ngram_tuple_eq_iff (a b : ngram_raw_ord_t) :
    ngram_tuple a.order a.instance_ = ngram_tuple b.order b.instance_ ↔
      a.order = b.order ∧
        ∀ t, t < a.order → a.instance_.words.getD t 0 = b.instance_.words.getD t 0 := by
  constructor
  · intro h
    have hl : a.order = b.order := by
      have := congrArg List.length h
      simpa [ngram_tuple_length] using this
    refine ⟨hl, fun t ht => ?_⟩
    have h1 := congrArg (fun l => l.getD t 0) h
    simp only [] at h1
    rw [ngram_tuple_getD _ _ t ht, ngram_tuple_getD _ _ t (by omega)] at h1
    exact h1
  · rintro ⟨hl, h⟩
    rw [← hl]
    exact ngram_tuple_congr _ _ _ h

/-- C33. The comparator `ngram_ord_comparator` orders queue entries by their tuples of the
first `order` words: the result is positive exactly when `a` has the smaller word at the
first difference or its tuple is a proper part of the tuple of `b` from the start, zero
exactly when both have the same order and the same words, the sign of `compare(a, b)` is
the opposite of the sign of `compare(b, a)`, and "positive" is transitive. -/
theorem ngram_ord_comparator_total_order (a b c : ngram_raw_ord_t) :
    (0 < ngram_ord_comparator a b ↔
      (∃ i, i < a.order ∧ i < b.order ∧
        (∀ t, t < i → a.instance_.words.getD t 0 = b.instance_.words.getD t 0) ∧
        a.instance_.words.getD i 0 < b.instance_.words.getD i 0) ∨
      (a.order < b.order ∧
        ∀ t, t < a.order → a.instance_.words.getD t 0 = b.instance_.words.getD t 0)) ∧
    (ngram_ord_comparator a b = 0 ↔
      a.order = b.order ∧
        ∀ t, t < a.order → a.instance_.words.getD t 0 = b.instance_.words.getD t 0) ∧
    Int.sign (ngram_ord_comparator a b) = - Int.sign (ngram_ord_comparator b a) ∧
    (0 < ngram_ord_comparator a b → 0 < ngram_ord_comparator b c →
      0 < ngram_ord_comparator a c) := by
  have hzero : ∀ x y : ngram_raw_ord_t, ngram_ord_comparator x y = 0 ↔
      ngram_tuple x.order x.instance_ = ngram_tuple y.order y.instance_ := by
    intro x y
    have hp := ngram_ord_comparator_pos_iff x y
    have hn := ngram_ord_comparator_neg_iff x y
    constructor
    · intro h
      have h1 : lex_le (ngram_tuple y.order y.instance_) (ngram_tuple x.order x.instance_) := by
        by_contra h2
        have := hp.2 h2
        omega
      have h2 : lex_le (ngram_tuple x.order x.instance_) (ngram_tuple y.order y.instance_) := by
        by_contra h2
        have := hn.2 h2
        omega
      exact lex_le_antisymm _ _ h2 h1
    · intro h
      have h1 : ¬ 0 < ngram_ord_comparator x y := by
        rw [hp, h]
        exact fun h2 => h2 (lex_le_refl _)
      have h2 : ¬ ngram_ord_comparator x y < 0 := by
        rw [hn, h]
        exact fun h2 => h2 (lex_le_refl _)
      omega
  refine ⟨?_, ?_, ?_, ?_⟩
  · rw [ngram_ord_comparator_pos_iff, not_lex_le_iff]
    simp only [ngram_tuple_length]
    constructor
    · rintro (⟨i, hi1, hi2, hi3, hi4⟩ | ⟨h3, h4⟩)
      · refine Or.inl ⟨i, hi1, hi2, ?_, ?_⟩
        · intro t ht
          have := hi3 t ht
          rwa [ngram_tuple_getD _ _ t (by omega), ngram_tuple_getD _ _ t (by omega)] at this
        · rwa [ngram_tuple_getD _ _ i hi1, ngram_tuple_getD _ _ i hi2] at hi4
      · refine Or.inr ⟨h3, ?_⟩
        intro t ht
        have := h4 t ht
        rwa [ngram_tuple_getD _ _ t ht, ngram_tuple_getD _ _ t (by omega)] at this
    · rintro (⟨i, hi1, hi2, hi3, hi4⟩ | ⟨h3, h4⟩)
      · refine Or.inl ⟨i, hi1, hi2, ?_, ?_⟩
        · intro t ht
          rw [ngram_tuple_getD _ _ t (by omega), ngram_tuple_getD _ _ t (by omega)]
          exact hi3 t ht
        · rw [ngram_tuple_getD _ _ i hi1, ngram_tuple_getD _ _ i hi2]
          exact hi4
      · refine Or.inr ⟨h3, ?_⟩
        intro t ht
        rw [ngram_tuple_getD _ _ t ht, ngram_tuple_getD _ _ t (by omega)]
        exact h4 t ht
  · rw [hzero, ngram_tuple_eq_iff]
  · have hp := ngram_ord_comparator_pos_iff a b
    have hn := ngram_ord_comparator_neg_iff a b
    have hp1 := ngram_ord_comparator_pos_iff b a
    have hn1 := ngram_ord_comparator_neg_iff b a
    rcases lt_trichotomy (ngram_ord_comparator a b) 0 with h | h | h
    · have h1 : 0 < ngram_ord_comparator b a := hp1.2 (hn.1 h)
      rw [Int.sign_eq_neg_one_of_neg h, Int.sign_eq_one_of_pos h1]
    · have h1 : ngram_ord_comparator b a = 0 := (hzero b a).2 ((hzero a b).1 h).symm
      rw [h, h1]
      rfl
    · have h1 : ngram_ord_comparator b a < 0 := hn1.2 (hp.1 h)
      rw [Int.sign_eq_one_of_pos h, Int.sign_eq_neg_one_of_neg h1]
      rfl
  · intro h1 h2
    rw [ngram_ord_comparator_pos_iff] at h1 h2 ⊢
    intro h3
    rcases lex_le_total (ngram_tuple a.order a.instance_) (ngram_tuple b.order b.instance_)
      with h4 | h4
    · exact h2 (lex_le_trans _ _ _ h3 h4)
    · exact h1 h4

/-- The word loop of `read_ngram_instance` over a zeroed array: a token without
an id leaves the zero in its slot. -/
theorem read_ngram_words_lookup (wid : List (String × Nat)) (wptr : List String) (order : Nat)
    (n : Nat) : ∀ (i : Nat) (words : List Nat), 1 ≤ i → i + n = order + 1 →
      words.length = order → (∀ p, p + i ≤ order → words.getD p 0 = 0) →
      (read_ngram_words wid wptr order n i words).length = order ∧
      ∀ j, j < order → (read_ngram_words wid wptr order n i words).getD j 0 =
        if j + i ≤ order then (hash_table_lookup wid (wptr.getD (order - j) "")).getD 0
        else words.getD j 0 := by
  induction n with
  | zero =>
    intro i words _ hin hlen _
    refine ⟨hlen, fun j hj => ?_⟩
    have : ¬ (j + i ≤ order) := by omega
    simp [read_ngram_words, this]
  | succ n ih =>
    intro i words hi hin hlen hzero
    have hio : i ≤ order := by omega
    simp only [read_ngram_words]
    cases hl : hash_table_lookup wid (wptr.getD i "") with
    | none =>
      obtain ⟨h1, h2⟩ := ih (i + 1) words (by omega) (by omega) hlen
        (fun p hp => hzero p (by omega))
      refine ⟨h1, fun j hj => ?_⟩
      rw [h2 j hj]
      by_cases hc1 : j + (i + 1) ≤ order
      · have hc2 : j + i ≤ order := by omega
        rw [if_pos hc1, if_pos hc2]
      · by_cases hc2 : j + i ≤ order
        · have hoj : order - j = i := by omega
          rw [if_neg hc1, if_pos hc2, hoj, hl]
          exact hzero j hc2
        · rw [if_neg hc1, if_neg hc2]
    | some v =>
      obtain ⟨h1, h2⟩ := ih (i + 1) (words.set (order - i) v) (by omega) (by omega)
        (by simp [hlen])
        (fun p hp => by
          rw [getD_set_nat _ _ _ _ (by omega), if_neg (by omega)]
          exact hzero p (by omega))
      refine ⟨h1, fun j hj => ?_⟩
      rw [h2 j hj]
      by_cases hc1 : j + (i + 1) ≤ order
      · have hc2 : j + i ≤ order := by omega
        rw [if_pos hc1, if_pos hc2]
      · by_cases hc2 : j + i ≤ order
        · have hoj : order - j = i := by omega
          have hji : j = order - i := by omega
          rw [if_neg hc1, if_pos hc2, hoj, hl, getD_set_nat _ _ _ _ (by omega), if_pos hji]
          rfl
        · rw [if_neg hc1, if_neg hc2, getD_set_nat _ _ _ _ (by omega), if_neg (by omega)]

/-- C37. For a line of any order `k` with at least `k + 1` words, `read_ngram_instance`
returns with the n-gram stored, whether or not its word tokens have an id: `words[j]` is the
id of the token `wptr[k - j]` when it has one and stays `0` when the lookup fails; and the
result is the one obtained with a word-id table in which every such token has the id `0`. -/
theorem read_ngram_instance_unknown_word (L : Library) (li : List String) (buf : String)
    (rest : List String) (wid : List (String × Nat)) (order order_max : Nat) (n : Int)
    (wptr : List String)
    (hnext : lineiter_next li = Except.ok (buf :: rest))
    (hwords : L.str2words (L.string_trim buf) (L.NGRAM_MAX_ORDER + 1) = (n, wptr))
    (hn : (order : Int) + 1 ≤ n) :
    ∃ raw, read_ngram_instance L li wid order order_max =
        Except.ok (L.string_trim buf :: rest, some raw) ∧
      raw.words.length = order ∧
      (∀ j, j < order → raw.words.getD j 0 =
        (hash_table_lookup wid (wptr.getD (order - j) "")).getD 0) ∧
      (∀ i, 1 ≤ i → i ≤ order → hash_table_lookup wid (wptr.getD i "") = none →
        raw.words.getD (order - i) 0 = 0) ∧
      ∀ wid1 : List (String × Nat),
        (∀ i, 1 ≤ i → i ≤ order → hash_table_lookup wid1 (wptr.getD i "") =
          some ((hash_table_lookup wid (wptr.getD i "")).getD 0)) →
        read_ngram_instance L li wid1 order order_max =
          read_ngram_instance L li wid order order_max := by
  have hz : ∀ p, p + 1 ≤ order → (List.replicate order 0).getD p 0 = 0 := by
    intro p hp
    have hp1 : p < order := by omega
    simp [List.getD_eq_getElem?_getD, List.getElem?_replicate, hp1]
  obtain ⟨h1, h2⟩ := read_ngram_words_lookup wid wptr order order 1
    (List.replicate order 0) (le_refl 1) (by omega) (by simp) hz
  have hget : ∀ j, j < order →
      (read_ngram_words wid wptr order order 1 (List.replicate order 0)).getD j 0 =
        (hash_table_lookup wid (wptr.getD (order - j) "")).getD 0 := by
    intro j hj
    rw [h2 j hj, if_pos (by omega)]
  have hnot : ¬ (n < (order : Int) + 1) := by omega
  simp only [read_ngram_instance, hnext, hwords, hnot, ↓reduceIte]
  refine ⟨_, rfl, h1, hget, ?_, ?_⟩
  · intro i hi1 hi2 hnone
    show (read_ngram_words wid wptr order order 1 (List.replicate order 0)).getD (order - i) 0 = 0
    rw [hget (order - i) (by omega), show order - (order - i) = i from by omega, hnone]
    rfl
  · intro wid1 hwid1
    obtain ⟨h3, h4⟩ := read_ngram_words_lookup wid1 wptr order order 1
      (List.replicate order 0) (le_refl 1) (by omega) (by simp) hz
    have hw : read_ngram_words wid1 wptr order order 1 (List.replicate order 0) =
        read_ngram_words wid wptr order order 1 (List.replicate order 0) := by
      apply list_eq_of_getD _ _ (by rw [h3, h1])
      intro j hj
      rw [h3] at hj
      rw [h4 j hj, if_pos (by omega), hget j hj, hwid1 (order - j) (by omega) (by omega)]
      rfl
    rw [hw]

theorem read_ngram_instance_unknown_word_witness :
    ∃ raw, read_ngram_instance ascii_library ["\\2-grams:", "-0.5 B C"] two_word_wid 2 2 =
        Except.ok (ascii_library.string_trim "-0.5 B C" :: [], some raw) ∧
      raw.words.length = 2 ∧
      (∀ j, j < 2 → raw.words.getD j 0 =
        (hash_table_lookup two_word_wid (["-0.5", "B", "C"].getD (2 - j) "")).getD 0) ∧
      (∀ i, 1 ≤ i → i ≤ 2 → hash_table_lookup two_word_wid (["-0.5", "B", "C"].getD i "") = none →
        raw.words.getD (2 - i) 0 = 0) ∧
      ∀ wid1 : List (String × Nat),
        (∀ i, 1 ≤ i → i ≤ 2 → hash_table_lookup wid1 (["-0.5", "B", "C"].getD i "") =
          some ((hash_table_lookup two_word_wid (["-0.5", "B", "C"].getD i "")).getD 0)) →
        read_ngram_instance ascii_library ["\\2-grams:", "-0.5 B C"] wid1 2 2 =
          read_ngram_instance ascii_library ["\\2-grams:", "-0.5 B C"] two_word_wid 2 2 :=
  read_ngram_instance_unknown_word ascii_library ["\\2-grams:", "-0.5 B C"] "-0.5 B C" []
    two_word_wid 2 2 3 ["-0.5", "B", "C"] rfl (by decide) (by decide)

/-- C38. Two files on which `read_counts_arpa` returns `0` with an order outside
`1 .. NGRAM_MAX_ORDER`: without count lines the order is `0`, `counts[0]` is never written
and `ngram_model_trie_read_arpa` goes on to read it; with six count lines the order is `6`
and the sixth count was stored at `counts[5]`, behind the `NGRAM_MAX_ORDER = 5` slots of the
caller's array. With five count lines the order is `5`. -/
theorem read_counts_arpa_order_unchecked :
    read_counts_arpa ascii_library no_counts_file = some (["\\1-grams:", "-1.0 A"], [], 0) ∧
    ngram_model_trie_read_arpa ascii_library (some no_counts_file) =
      Except.error Fault.uninitialised_read ∧
    read_counts_arpa ascii_library six_orders_file =
      some (["\\1-grams:", "-1.0 A"], [1, 1, 1, 1, 1, 1], 6) ∧
    ascii_library.NGRAM_MAX_ORDER < 6 ∧
    read_counts_arpa ascii_library
        ["\\data\\", "ngram 1=1", "ngram 2=1", "ngram 3=1", "ngram 4=1", "ngram 5=1", "",
          "\\1-grams:", "-1.0 A"] =
      some (["\\1-grams:", "-1.0 A"], [1, 1, 1, 1, 1], 5) := by
  refine ⟨by decide, rfl, by decide, by decide, by decide⟩

theorem fe_vad_run_snoc (start_speech post_speech : Int) (frames : List Int) (x : Int) :
    fe_vad_run start_speech post_speech (frames ++ [x]) =
      fe_vad_hangover start_speech post_speech (fe_vad_run start_speech post_speech frames) x := by
  simp [fe_vad_run, List.foldl_append]

theorem trailing_speech_snoc (frames : List Int) (x : Int) :
    trailing_speech (frames ++ [x]) = if x ≠ 0 then trailing_speech frames + 1 else 0 := by
  simp only [trailing_speech, List.reverse_append, List.reverse_cons, List.reverse_nil,
    List.nil_append, List.singleton_append, List.takeWhile_cons]
  by_cases h : x ≠ 0
  · simp [h]
  · simp [h]

theorem trailing_silence_snoc (frames : List Int) (x : Int) :
    trailing_silence (frames ++ [x]) = if x = 0 then trailing_silence frames + 1 else 0 := by
  simp only [trailing_silence, List.reverse_append, List.reverse_cons, List.reverse_nil,
    List.nil_append, List.singleton_append, List.takeWhile_cons]
  by_cases h : x = 0
  · simp [h]
  · simp [h]

/-- The state that `fe_vad_hangover` keeps: the flag is `0` or `1`, each counter
runs only in its own phase, stays below its threshold and counts the frames of
its kind at the end of the frames seen. -/
theorem fe_vad_run_inv (start_speech post_speech : Int) (hs : 1 ≤ start_speech)
    (hp : 1 ≤ post_speech) (frames : List Int) :
    ((fe_vad_run start_speech post_speech frames).in_speech = 0 ∧
      (fe_vad_run start_speech post_speech frames).post_speech_frames = 0 ∧
      (fe_vad_run start_speech post_speech frames).pre_speech_frames =
        (trailing_speech frames : Int) ∧
      (fe_vad_run start_speech post_speech frames).pre_speech_frames < start_speech) ∨
    ((fe_vad_run start_speech post_speech frames).in_speech = 1 ∧
      (fe_vad_run start_speech post_speech frames).pre_speech_frames = 0 ∧
      (fe_vad_run start_speech post_speech frames).post_speech_frames =
        (trailing_silence frames : Int) ∧
      (fe_vad_run start_speech post_speech frames).post_speech_frames < post_speech) := by
  induction frames using List.reverseRecOn with
  | nil =>
    left
    refine ⟨rfl, rfl, rfl, ?_⟩
    show (0 : Int) < start_speech
    omega
  | append_singleton xs x ih =>
    rw [fe_vad_run_snoc, trailing_speech_snoc, trailing_silence_snoc]
    generalize fe_vad_run start_speech post_speech xs = v at ih
    rcases v with ⟨i, pre, post⟩
    simp only at ih
    rcases ih with ⟨h1, h2, h3, h4⟩ | ⟨h1, h2, h3, h4⟩
    · subst h1 h2
      by_cases hx : x ≠ 0
      · have hx0 : ¬ x = 0 := hx
        rw [if_pos hx, if_neg hx0]
        by_cases hc : pre + 1 ≥ start_speech
        · have hstep : fe_vad_hangover start_speech post_speech ⟨0, pre, 0⟩ x = ⟨1, 0, 0⟩ := by
            simp [fe_vad_hangover, hx, hc]
          rw [hstep]
          right
          refine ⟨rfl, rfl, rfl, ?_⟩
          show (0 : Int) < post_speech
          omega
        · have hstep : fe_vad_hangover start_speech post_speech ⟨0, pre, 0⟩ x =
              ⟨0, pre + 1, 0⟩ := by
            simp [fe_vad_hangover, hx, hc]
          rw [hstep]
          left
          refine ⟨rfl, rfl, ?_, ?_⟩
          · show pre + 1 = ((trailing_speech xs + 1 : Nat) : Int)
            push_cast
            omega
          · show pre + 1 < start_speech
            omega
      · have hx0 : x = 0 := not_not.1 hx
        rw [if_neg hx, if_pos hx0]
        have hstep : fe_vad_hangover start_speech post_speech ⟨0, pre, 0⟩ x = ⟨0, 0, 0⟩ := by
          simp [fe_vad_hangover, hx0]
        rw [hstep]
        left
        refine ⟨rfl, rfl, rfl, ?_⟩
        show (0 : Int) < start_speech
        omega
    · subst h1 h2
      by_cases hx : x ≠ 0
      · have hx0 : ¬ x = 0 := hx
        rw [if_pos hx, if_neg hx0]
        have hstep : fe_vad_hangover start_speech post_speech ⟨1, 0, post⟩ x = ⟨1, 0, 0⟩ := by
          simp [fe_vad_hangover, hx]
        rw [hstep]
        right
        refine ⟨rfl, rfl, rfl, ?_⟩
        show (0 : Int) < post_speech
        omega
      · have hx0 : x = 0 := not_not.1 hx
        rw [if_neg hx, if_pos hx0]
        by_cases hc : post + 1 ≥ post_speech
        · have hstep : fe_vad_hangover start_speech post_speech ⟨1, 0, post⟩ x = ⟨0, 0, 0⟩ := by
            simp [fe_vad_hangover, hx0, hc]
          rw [hstep]
          left
          refine ⟨rfl, rfl, rfl, ?_⟩
          show (0 : Int) < start_speech
          omega
        · have hstep : fe_vad_hangover start_speech post_speech ⟨1, 0, post⟩ x =
              ⟨1, 0, post + 1⟩ := by
            simp [fe_vad_hangover, hx0, hc]
          rw [hstep]
          right
          refine ⟨rfl, rfl, ?_, ?_⟩
          · show post + 1 = ((trailing_silence xs + 1 : Nat) : Int)
            push_cast
            omega
          · show post + 1 < post_speech
            omega

/-- The step of `fe_vad_hangover` from a state outside speech and from a state
in speech. -/
theorem fe_vad_hangover_cases (start_speech post_speech : Int) (pre post x : Int) :
    fe_vad_hangover start_speech post_speech ⟨0, pre, 0⟩ x =
      (if x ≠ 0 then (if pre + 1 ≥ start_speech then ⟨1, 0, 0⟩ else ⟨0, pre + 1, 0⟩)
       else ⟨0, 0, 0⟩) ∧
    fe_vad_hangover start_speech post_speech ⟨1, 0, post⟩ x =
      (if x ≠ 0 then ⟨1, 0, 0⟩
       else (if post + 1 ≥ post_speech then ⟨0, 0, 0⟩ else ⟨1, 0, post + 1⟩)) := by
  constructor
  · by_cases hx : x = 0
    · simp [fe_vad_hangover, hx]
    · by_cases hc : pre + 1 ≥ start_speech
      · simp [fe_vad_hangover, hx, hc]
      · simp [fe_vad_hangover, hx, hc]
  · by_cases hx : x = 0
    · by_cases hc : post + 1 ≥ post_speech
      · simp [fe_vad_hangover, hx, hc]
      · simp [fe_vad_hangover, hx, hc]
    · simp [fe_vad_hangover, hx]

/-- C39. With thresholds `start_speech >= 1` and `post_speech >= 1`, every state that
`fe_vad_hangover` reaches from `(0, 0, 0)` has `in_speech` `0` or `1`, `pre_speech_frames = 0`
when `in_speech = 1`, `post_speech_frames = 0` when `in_speech = 0`, and both counters from
`0` to below their thresholds. On the next frame `in_speech` goes from `0` to `1` exactly
when the frame is a speech frame that completes `start_speech` speech frames in a row, and
from `1` to `0` exactly when it is a non-speech frame that completes `post_speech`
non-speech frames in a row. -/
theorem vad_hangover_reachable (start_speech post_speech : Int) (hs : 1 ≤ start_speech)
    (hp : 1 ≤ post_speech) (frames : List Int) :
    ((fe_vad_run start_speech post_speech frames).in_speech = 0 ∨
      (fe_vad_run start_speech post_speech frames).in_speech = 1) ∧
    ((fe_vad_run start_speech post_speech frames).in_speech = 1 →
      (fe_vad_run start_speech post_speech frames).pre_speech_frames = 0) ∧
    ((fe_vad_run start_speech post_speech frames).in_speech = 0 →
      (fe_vad_run start_speech post_speech frames).post_speech_frames = 0) ∧
    0 ≤ (fe_vad_run start_speech post_speech frames).pre_speech_frames ∧
    (fe_vad_run start_speech post_speech frames).pre_speech_frames < start_speech ∧
    0 ≤ (fe_vad_run start_speech post_speech frames).post_speech_frames ∧
    (fe_vad_run start_speech post_speech frames).post_speech_frames < post_speech ∧
    ∀ x : Int,
      ((fe_vad_run start_speech post_speech frames).in_speech = 0 →
        ((fe_vad_run start_speech post_speech (frames ++ [x])).in_speech = 1 ↔
          x ≠ 0 ∧ (trailing_speech (frames ++ [x]) : Int) = start_speech)) ∧
      ((fe_vad_run start_speech post_speech frames).in_speech = 1 →
        ((fe_vad_run start_speech post_speech (frames ++ [x])).in_speech = 0 ↔
          x = 0 ∧ (trailing_silence (frames ++ [x]) : Int) = post_speech)) := by
  have hinv := fe_vad_run_inv start_speech post_speech hs hp frames
  have hsnoc := fun x => fe_vad_run_snoc start_speech post_speech frames x
  generalize fe_vad_run start_speech post_speech frames = v at hinv hsnoc
  rcases v with ⟨i, pre, post⟩
  simp only at hinv
  rcases hinv with ⟨h1, h2, h3, h4⟩ | ⟨h1, h2, h3, h4⟩
  · subst h1 h2
    refine ⟨Or.inl rfl, fun h => absurd (show (0 : Nat) = 1 from h) (by decide), fun _ => rfl, ?_, h4, le_refl _, ?_, ?_⟩
    · show 0 ≤ pre
      omega
    · show (0 : Int) < post_speech
      omega
    · intro x
      refine ⟨fun _ => ?_, fun h => absurd (show (0 : Nat) = 1 from h) (by decide)⟩
      rw [hsnoc x, (fe_vad_hangover_cases start_speech post_speech pre 0 x).1,
        trailing_speech_snoc]
      by_cases hx : x ≠ 0
      · rw [if_pos hx, if_pos hx]
        by_cases hc : pre + 1 ≥ start_speech
        · rw [if_pos hc]
          refine ⟨fun _ => ⟨hx, ?_⟩, fun _ => rfl⟩
          push_cast
          omega
        · rw [if_neg hc]
          refine ⟨fun h => absurd (show (0 : Nat) = 1 from h) (by decide), fun h => ?_⟩
          have h5 := h.2
          push_cast at h5
          omega
      · rw [if_neg hx, if_neg hx]
        exact ⟨fun h => absurd (show (0 : Nat) = 1 from h) (by decide), fun h => absurd h.1 hx⟩
  · subst h1 h2
    refine ⟨Or.inr rfl, fun _ => rfl, fun h => absurd (show (1 : Nat) = 0 from h) (by decide), le_refl _, ?_, ?_, h4, ?_⟩
    · show (0 : Int) < start_speech
      omega
    · show 0 ≤ post
      omega
    · intro x
      refine ⟨fun h => absurd (show (1 : Nat) = 0 from h) (by decide), fun _ => ?_⟩
      rw [hsnoc x, (fe_vad_hangover_cases start_speech post_speech 0 post x).2,
        trailing_silence_snoc]
      by_cases hx : x ≠ 0
      · have hx0 : ¬ x = 0 := hx
        rw [if_pos hx, if_neg hx0]
        exact ⟨fun h => absurd (show (1 : Nat) = 0 from h) (by decide), fun h => absurd h.1 hx0⟩
      · have hx0 : x = 0 := not_not.1 hx
        rw [if_neg hx, if_pos hx0]
        by_cases hc : post + 1 ≥ post_speech
        · rw [if_pos hc]
          refine ⟨fun _ => ⟨hx0, ?_⟩, fun _ => rfl⟩
          push_cast
          omega
        · rw [if_neg hc]
          refine ⟨fun h => absurd (show (1 : Nat) = 0 from h) (by decide), fun h => ?_⟩
          have h5 := h.2
          push_cast at h5
          omega

theorem vad_hangover_reachable_witness :
    (fe_vad_run 2 3 [1, 1, 0, 0]).in_speech = 1 ∧
    (fe_vad_run 2 3 [1, 1, 0, 0]).post_speech_frames < 3 ∧
    ((fe_vad_run 2 3 ([1, 1, 0, 0] ++ [0])).in_speech = 0 ↔
      (0 : Int) = 0 ∧ (trailing_silence ([1, 1, 0, 0] ++ [0]) : Int) = 3) :=
  ⟨by decide, (vad_hangover_reachable 2 3 (by decide) (by decide) [1, 1, 0, 0]).2.2.2.2.2.2.1,
    ((vad_hangover_reachable 2 3 (by decide) (by decide) [1, 1, 0, 0]).2.2.2.2.2.2.2 0).2
      (by decide)⟩

/-- The `while` loop of the bigram loop of `ngrams_raw_read_dmp` keeps
`ngram_idx` within `1 .. counts[0]` and leaves it on a unigram whose pointer is
above `j`, when the pointers `next[1 .. counts[0] - 1]` do not decrease. -/
theorem dmp_advance_unigram_above (c0 : Nat) (next : List Nat)
    (hmono : ∀ a b, 1 ≤ a → a ≤ b → b < c0 → next.getD a 0 ≤ next.getD b 0)
    (j idx : Nat) (h1 : 1 ≤ idx) (h2 : idx ≤ c0) (h3 : idx < c0 → j ≤ next.getD idx 0) :
    1 ≤ dmp_advance_unigram c0 next j c0 idx ∧ dmp_advance_unigram c0 next j c0 idx ≤ c0 ∧
    (dmp_advance_unigram c0 next j c0 idx < c0 →
      j + 1 ≤ next.getD (dmp_advance_unigram c0 next j c0 idx) 0) := by
  obtain ⟨a1, a2, _, a4⟩ := dmp_advance_unigram_spec c0 next j c0 idx h2 (by omega)
  generalize dmp_advance_unigram c0 next j c0 idx = r1 at a1 a2 a4
  refine ⟨by omega, a2, fun hlt => ?_⟩
  have hne := a4 hlt
  have hle : j ≤ next.getD r1 0 := by
    have e1 := h3 (by omega)
    have e2 := hmono idx r1 h1 a1 hlt
    omega
  omega

/-- The bigram loop of `ngrams_raw_read_dmp`, when it runs through: `ngram_idx`
ends within `1 .. counts[0]` on a unigram whose pointer is above the last `j`,
and every bigram read got a context word below `counts[0]`. -/
theorem read_dmp_bigrams_idx (c0 : Nat) (next : List Nat) (sw : Bool)
    (hmono : ∀ a b, 1 ≤ a → a ≤ b → b < c0 → next.getD a 0 ≤ next.getD b 0) :
    ∀ (n j idx : Nat) (fp : List Nat) (raw : List ngram_raw_t) (bn : List Nat)
      (raw1 : List ngram_raw_t) (bn1 : List Nat) (idx1 : Nat) (fp1 : List Nat),
      1 ≤ idx → idx ≤ c0 → (idx < c0 → j ≤ next.getD idx 0) →
      (∀ g ∈ raw, g.words.getD 1 0 < c0) →
      read_dmp_bigrams c0 next sw n j idx fp raw bn = Except.ok (raw1, bn1, idx1, fp1) →
      1 ≤ idx1 ∧ idx1 ≤ c0 ∧ (idx1 < c0 → j + n ≤ next.getD idx1 0) ∧
      raw1.length = raw.length + n ∧ ∀ g ∈ raw1, g.words.getD 1 0 < c0 := by
  intro n
  induction n with
  | zero =>
    intro j idx fp raw bn raw1 bn1 idx1 fp1 h1 h2 h3 h4 h
    simp only [read_dmp_bigrams, Except.ok.injEq, Prod.mk.injEq] at h
    obtain ⟨e1, _, e3, _⟩ := h
    subst e1 e3
    exact ⟨h1, h2, h3, rfl, h4⟩
  | succ n ih =>
    intro j idx fp raw bn raw1 bn1 idx1 fp1 h1 h2 h3 h4 h
    obtain ⟨b1, b2, b3⟩ := dmp_advance_unigram_above c0 next hmono j idx h1 h2 h3
    simp only [read_dmp_bigrams] at h
    split at h
    · cases h
    · split at h
      · cases h
      · split at h
        · cases h
        · split at h
          · cases h
          · obtain ⟨c1, c2, c3, c4, c5⟩ := ih _ _ _ _ _ _ _ _ _ b1 b2
              (fun hlt => b3 hlt)
              (by
                intro g hg
                rcases List.mem_append.1 hg with hg1 | hg1
                · exact h4 g hg1
                · rw [List.mem_singleton.1 hg1]
                  show dmp_advance_unigram c0 next j c0 idx - 1 < c0
                  omega) h
            refine ⟨c1, c2, fun hlt => ?_, ?_, c5⟩
            · have := c3 hlt
              omega
            · rw [c4, List.length_append]
              simp
              omega

/-- The bigram loop of `ngrams_raw_read_dmp` runs through on a file that holds
the records. -/
theorem read_dmp_bigrams_reads (c0 : Nat) (next : List Nat) (sw : Bool) :
    ∀ (recs : List dmp_bigram_rec),
      (∀ r ∈ recs, r.wid < 2 ^ 16 ∧ r.prob_idx < 2 ^ 16 ∧ r.bo_idx < 2 ^ 16 ∧ r.next < 2 ^ 16) →
      ∀ (j idx : Nat) (rest : List Nat) (raw : List ngram_raw_t) (bn : List Nat),
        ∃ raw1 idx1,
          read_dmp_bigrams c0 next sw recs.length j idx
              (recs.flatMap (dmp_bigram_bytes sw) ++ rest) raw bn =
            Except.ok (raw1, bn ++ recs.map (fun r => r.next), idx1, rest) := by
  intro recs
  induction recs with
  | nil =>
    intro _ j idx rest raw bn
    exact ⟨raw, idx, by simp [read_dmp_bigrams]⟩
  | cons r rs ih =>
    intro hfit j idx rest raw bn
    obtain ⟨f1, f2, f3, f4⟩ := hfit r (List.mem_cons_self _ _)
    obtain ⟨raw2, idx2, g1⟩ := ih (fun x hx => hfit x (List.mem_cons_of_mem _ hx))
      (j + 1) (dmp_advance_unigram c0 next j c0 idx) rest
      (raw ++ [⟨[r.wid, dmp_advance_unigram c0 next j c0 idx - 1],
        [(r.prob_idx : ℚ) + 1 / 2, (r.bo_idx : ℚ) + 1 / 2]⟩])
      (bn ++ [r.next])
    refine ⟨raw2, idx2, ?_⟩
    simp only [List.flatMap_cons, dmp_bigram_bytes, List.append_assoc, List.length_cons,
      read_dmp_bigrams, fread_int16_field _ _ _ f1, fread_int16_field _ _ _ f2,
      fread_int16_field _ _ _ f3, fread_int16_field _ _ _ f4]
    rw [g1]
    simp

/-- C34. For a dump with `counts[0] >= 1` whose unigram pointers
`next[1 .. counts[0] - 1]` do not decrease and lie in `[0, counts[1]]`: whenever the bigram
loop of `ngrams_raw_read_dmp` runs through its `counts[1] + 1` records, it ends with
`ngram_idx == counts[0]`, so the assertion behind it holds, and every bigram has a context
word `words[1]` below `counts[0]`; and it does run through on every file that holds the
records. -/
theorem read_dmp_bigrams_assertion_holds (c0 c1 : Nat) (next : List Nat) (sw : Bool)
    (hc0 : 1 ≤ c0)
    (hmono : ∀ a b, 1 ≤ a → a ≤ b → b < c0 → next.getD a 0 ≤ next.getD b 0)
    (hrange : ∀ a, 1 ≤ a → a < c0 → next.getD a 0 ≤ c1) :
    (∀ (fp : List Nat) (raw : List ngram_raw_t) (bn : List Nat) (idx : Nat) (fp1 : List Nat),
      read_dmp_bigrams c0 next sw (c1 + 1) 0 1 fp [] [] = Except.ok (raw, bn, idx, fp1) →
      idx = c0 ∧ raw.length = c1 + 1 ∧ ∀ g ∈ raw, g.words.getD 1 0 < c0) ∧
    ∀ (recs : List dmp_bigram_rec),
      (∀ r ∈ recs, r.wid < 2 ^ 16 ∧ r.prob_idx < 2 ^ 16 ∧ r.bo_idx < 2 ^ 16 ∧ r.next < 2 ^ 16) →
      recs.length = c1 + 1 → ∀ rest : List Nat,
      ∃ raw, read_dmp_bigrams c0 next sw (c1 + 1) 0 1
          (recs.flatMap (dmp_bigram_bytes sw) ++ rest) [] [] =
          Except.ok (raw, recs.map (fun r => r.next), c0, rest) ∧
        raw.length = c1 + 1 ∧ ∀ g ∈ raw, g.words.getD 1 0 < c0 := by
  have hfirst : ∀ (fp : List Nat) (raw : List ngram_raw_t) (bn : List Nat) (idx : Nat)
      (fp1 : List Nat),
      read_dmp_bigrams c0 next sw (c1 + 1) 0 1 fp [] [] = Except.ok (raw, bn, idx, fp1) →
      idx = c0 ∧ raw.length = c1 + 1 ∧ ∀ g ∈ raw, g.words.getD 1 0 < c0 := by
    intro fp raw bn idx fp1 h
    obtain ⟨h1, h2, h3, h4, h5⟩ := read_dmp_bigrams_idx c0 next sw hmono (c1 + 1) 0 1 fp [] []
      raw bn idx fp1 (le_refl 1) hc0 (fun _ => Nat.zero_le _)
      (fun g hg => by simp at hg) h
    refine ⟨?_, by simpa using h4, h5⟩
    by_contra hne
    have hlt : idx < c0 := by omega
    have e1 := h3 hlt
    have e2 := hrange idx h1 hlt
    omega
  refine ⟨hfirst, ?_⟩
  intro recs hfit hlen rest
  obtain ⟨raw1, idx1, g1⟩ := read_dmp_bigrams_reads c0 next sw recs hfit 0 1 rest [] []
  rw [hlen, List.nil_append] at g1
  obtain ⟨e1, e2, e3⟩ := hfirst _ _ _ _ _ g1
  rw [e1] at g1
  exact ⟨raw1, g1, e2, e3⟩

theorem read_dmp_bigrams_assertion_holds_witness :
    ∃ raw, read_dmp_bigrams 2 minimal_dump_next true (1 + 1) 0 1
        (minimal_dump_sections.bigrams.flatMap (dmp_bigram_bytes true) ++ [7]) [] [] =
        Except.ok (raw, minimal_dump_sections.bigrams.map (fun r => r.next), 2, [7]) ∧
      raw.length = 1 + 1 ∧ ∀ g ∈ raw, g.words.getD 1 0 < 2 :=
  (read_dmp_bigrams_assertion_holds 2 1 minimal_dump_next true (by decide)
    (by
      intro a b h1 h2 h3
      have ha : a = 1 := by omega
      have hb : b = 1 := by omega
      subst ha hb
      exact le_refl _)
    (by
      intro a h1 h2
      have ha : a = 1 := by omega
      subst ha
      decide)).2 minimal_dump_sections.bigrams (by decide) rfl [7]

theorem ngrams_raw_fix_counts_eq (raw_ngrams : List (List ngram_raw_t)) (counts : List Nat)
    (order : Nat) :
    ngrams_raw_fix_counts raw_ngrams counts order =
      (fix_counts_loop raw_ngrams counts (fix_counts_fuel counts order)
        (fix_counts_start raw_ngrams counts order)).map (fun s => s.fixed_counts) := rfl

/-- A sum over a range drops by `d` when one term does. -/
theorem range_sum_drop (f g : Nat → Nat) (j d : Nat) : ∀ n : Nat, j < n →
    g j + d = f j → (∀ i, i ≠ j → g i = f i) →
    ((List.range n).map g).sum + d = ((List.range n).map f).sum
  | 0 => fun h _ _ => by omega
  | n + 1 => by
    intro hj hgj hother
    rw [List.range_succ, List.map_append, List.map_append, List.sum_append, List.sum_append]
    simp only [List.map_cons, List.map_nil, List.sum_cons, List.sum_nil, Nat.add_zero]
    by_cases hjn : j = n
    · subst hjn
      have : (List.range j).map g = (List.range j).map f := by
        apply List.map_congr_left
        intro i hi
        exact hother i (by have := List.mem_range.1 hi; omega)
      rw [this]
      omega
    · have := range_sum_drop f g j d n (by omega) hgj hother
      have h2 := hother n (fun e => hjn e.symm)
      omega

theorem range_sum_term_le (f : Nat → Nat) (j : Nat) : ∀ n : Nat, j < n →
    f j ≤ ((List.range n).map f).sum
  | 0 => fun h => by omega
  | n + 1 => by
    intro hj
    rw [List.range_succ, List.map_append, List.sum_append]
    simp only [List.map_cons, List.map_nil, List.sum_cons, List.sum_nil, Nat.add_zero]
    by_cases hjn : j = n
    · subst hjn
      omega
    · have := range_sum_term_le f j n (by omega)
      omega

theorem range_sum_shift (f : Nat → Nat) : ∀ n : Nat,
    ((List.range n).map (fun j => f (j + 1))).sum ≤ ((List.range (n + 1)).map f).sum
  | 0 => by simp
  | n + 1 => by
    have ih := range_sum_shift f n
    rw [List.range_succ, List.map_append, List.sum_append, List.range_succ (n := n + 1),
      List.map_append, List.sum_append]
    simp only [List.map_cons, List.map_nil, List.sum_cons, List.sum_nil, Nat.add_zero]
    omega

theorem merge_weighted_remaining_lt_fuel (counts : List Nat) (order : Nat) (ptrs : List Nat) :
    merge_weighted_remaining counts order ptrs < fix_counts_fuel counts order := by
  simp only [merge_weighted_remaining, fix_counts_fuel]
  have h1 : ((List.range (order - 1)).map
        (fun j => (counts.getD (j + 1) 0 - ptrs.getD j 0) * (j + 2))).sum ≤
      ((List.range (order - 1)).map (fun j => counts.getD (j + 1) 0 * (j + 1 + 1))).sum := by
    apply List.sum_le_sum
    intro j _
    exact Nat.mul_le_mul_right _ (Nat.sub_le _ _)
  have h2 := range_sum_shift (fun k => counts.getD k 0 * (k + 1)) (order - 1)
  cases order with
  | zero => simp
  | succ n =>
    simp only [Nat.add_sub_cancel] at h1 h2 ⊢
    omega

theorem merge_weighted_remaining_advance (counts : List Nat) (order : Nat) (ptrs : List Nat)
    (top : ngram_raw_ord_t) (hj : top.order - 2 < order - 1) (hlen : ptrs.length = order - 1)
    (hlt : ptrs.getD (top.order - 2) 0 < counts.getD (top.order - 2 + 1) 0)
    (hc : counts.getD (top.order - 2 + 1) 0 < 2 ^ 32) :
    merge_weighted_remaining counts order (advance_ptr ptrs top) + (top.order - 2 + 2) =
      merge_weighted_remaining counts order ptrs := by
  simp only [merge_weighted_remaining]
  apply range_sum_drop _ _ (top.order - 2) _ _ hj
  · rw [advance_ptr_getD ptrs top _ (by omega) hlt hc, if_pos rfl]
    have e : counts.getD (top.order - 2 + 1) 0 - ptrs.getD (top.order - 2) 0 =
        (counts.getD (top.order - 2 + 1) 0 - (ptrs.getD (top.order - 2) 0 + 1)) + 1 := by omega
    rw [e, Nat.add_mul]
    omega
  · intro i hi
    rw [advance_ptr_getD ptrs top _ (by omega) hlt hc, if_neg hi]

/-- Under the queue invariant the queue holds at most one entry per order. -/
theorem merge_queue_inv_small (raw_ngrams : List (List ngram_raw_t)) (counts : List Nat)
    (order : Nat) (s : fix_counts_state) (hinv : merge_queue_inv raw_ngrams counts order s) :
    (s.ngrams.map (fun e => e.order)).Nodup ∧ s.ngrams.length ≤ order - 1 ∧
    ∀ e ∈ s.ngrams, 2 ≤ e.order ∧ e.order ≤ order := by
  obtain ⟨_, h2, _, h4⟩ := hinv
  have hnd : (s.ngrams.map (fun e => e.order)).Nodup := by
    apply List.Nodup.map_on _ h2
    intro x hx y hy hxy
    obtain ⟨j, _, _, hje⟩ := (h4 x).1 hx
    obtain ⟨j1, _, _, hje1⟩ := (h4 y).1 hy
    rw [hje, hje1] at hxy
    have : j = j1 := by simpa using hxy
    rw [hje, hje1, this]
  have hrange : ∀ e ∈ s.ngrams, 2 ≤ e.order ∧ e.order ≤ order := by
    intro e he
    obtain ⟨j, hj, _, hje⟩ := (h4 e).1 he
    rw [hje]
    constructor
    · show 2 ≤ j + 2
      omega
    · show j + 2 ≤ order
      omega
  refine ⟨hnd, ?_, hrange⟩
  have hsub : (s.ngrams.map (fun e => e.order)).toFinset ⊆ Finset.Ico 2 (order + 1) := by
    intro k hk
    rw [List.mem_toFinset, List.mem_map] at hk
    obtain ⟨e, he, hek⟩ := hk
    have := hrange e he
    rw [Finset.mem_Ico]
    omega
  have hcard := Finset.card_le_card hsub
  rw [List.toFinset_card_of_nodup hnd, List.length_map, Nat.card_Ico] at hcard
  omega

/-- Two queued entries with the same tuple are the same entry. -/
theorem merge_queue_inv_unique (raw_ngrams : List (List ngram_raw_t)) (counts : List Nat)
    (order : Nat) (s : fix_counts_state) (hinv : merge_queue_inv raw_ngrams counts order s)
    (a b : ngram_raw_ord_t) (ha : a ∈ s.ngrams) (hb : b ∈ s.ngrams)
    (hab : lex_le (ngram_tuple a.order a.instance_) (ngram_tuple b.order b.instance_))
    (hba : lex_le (ngram_tuple b.order b.instance_) (ngram_tuple a.order a.instance_)) :
    a = b := by
  have heq := lex_le_antisymm _ _ hab hba
  have hl : a.order = b.order := by
    have := congrArg List.length heq
    simpa [ngram_tuple_length] using this
  obtain ⟨j, _, _, hje⟩ := (hinv.2.2.2 a).1 ha
  obtain ⟨j1, _, _, hje1⟩ := (hinv.2.2.2 b).1 hb
  rw [hje, hje1] at hl
  have : j = j1 := by simpa using hl
  rw [hje, hje1, this]

/-- A pass of the merge over any allocated input: either it consumes the n-gram
it popped, or it raises one count between the first and the last, copies words
of the n-gram into the tracked words and leaves the n-gram queued, with more
leading words in agreement than before. -/
theorem merge_step_any (raw_ngrams : List (List ngram_raw_t)) (counts : List Nat)
    (order : Nat) (halloc : allocated_raw_ngrams raw_ngrams counts order)
    (s : fix_counts_state) (hqi : merge_queue_inv raw_ngrams counts order s)
    (hwl : s.words.length = order) (hq : s.ngrams ≠ []) :
    ∃ s1, fix_counts_step raw_ngrams counts s = some s1 ∧
      merge_queue_inv raw_ngrams counts order s1 ∧ s1.words.length = order ∧
      merge_weighted_remaining counts order s1.raw_ngram_ptrs + 1 + merge_agree s ≤
        merge_weighted_remaining counts order s.raw_ngram_ptrs + merge_agree s1 ∧
      (s1.fixed_counts = s.fixed_counts ∨
        ∃ num, 1 ≤ num ∧ num + 2 ≤ order ∧
          s1.fixed_counts =
            s.fixed_counts.set num ((s.fixed_counts.getD num 0 + 1) % 2 ^ 32)) := by
  obtain ⟨top, hpoll, htop, hleast⟩ := priority_queue_poll_least s.ngrams hq
  obtain ⟨j, hj, hjc, hje⟩ := (hqi.2.2.2 top).1 htop
  have ho : top.order = j + 2 := by rw [hje]
  have hti : top.instance_ = raw_ngram_at raw_ngrams j (s.raw_ngram_ptrs.getD j 0) := by rw [hje]
  have ho2 : top.order - 2 = j := by omega
  have ho1 : top.order - 1 = j + 1 := by omega
  obtain ⟨hcnt, h32, hwords⟩ := halloc j hj
  generalize hg : top.instance_ = g at hti
  generalize hp : s.raw_ngram_ptrs.getD j 0 = p at hjc hti
  have hgm : g ∈ raw_ngrams.getD j [] := by
    rw [hti]
    exact raw_ngram_at_mem _ _ _ (by omega)
  have hgl : g.words.length = j + 2 := hwords g hgm
  have hag : merge_agree s =
      match fix_counts_first_diff s.words g.words (j + 1) 0 with
      | some i => i
      | none => j + 1 := by
    simp only [merge_agree, hpoll, hg, ho1]
  have hstep := fix_counts_step_eq raw_ngrams counts s top _ hq hpoll
  rw [hg, ho1] at hstep
  -- the pass that consumes the n-gram
  have hconsume : ∀ w1 : List Nat, w1.length = order → merge_agree s ≤ j + 1 →
      fix_counts_step raw_ngrams counts s =
        some
          { ngrams := refill_queue raw_ngrams counts (s.ngrams.erase top)
              (advance_ptr s.raw_ngram_ptrs top) top
            raw_ngram_ptrs := advance_ptr s.raw_ngram_ptrs top
            words := w1
            fixed_counts := s.fixed_counts } →
      ∃ s1, fix_counts_step raw_ngrams counts s = some s1 ∧
        merge_queue_inv raw_ngrams counts order s1 ∧ s1.words.length = order ∧
        merge_weighted_remaining counts order s1.raw_ngram_ptrs + 1 + merge_agree s ≤
          merge_weighted_remaining counts order s.raw_ngram_ptrs + merge_agree s1 ∧
        (s1.fixed_counts = s.fixed_counts ∨
          ∃ num, 1 ≤ num ∧ num + 2 ≤ order ∧
            s1.fixed_counts =
              s.fixed_counts.set num ((s.fixed_counts.getD num 0 + 1) % 2 ^ 32)) := by
    intro w1 hw1 hle hst
    have hadv : ∀ i, (advance_ptr s.raw_ngram_ptrs top).getD i 0 =
        if i = j then p + 1 else s.raw_ngram_ptrs.getD i 0 := by
      intro i
      rw [advance_ptr_getD s.raw_ngram_ptrs top (counts.getD (j + 1) 0)
        (by rw [ho2, hqi.1]; exact hj) (by rw [ho2, hp]; exact hjc) h32, ho2, hp]
    have hrem := merge_weighted_remaining_advance counts order s.raw_ngram_ptrs top
      (by rw [ho2]; exact hj) hqi.1 (by rw [ho2, hp]; exact hjc) (by rw [ho2]; exact h32)
    rw [ho2] at hrem
    refine ⟨_, hst, ?_, hw1, ?_, Or.inl rfl⟩
    · apply merge_queue_inv_next raw_ngrams counts order s top _ _ _ hqi htop
      · rw [advance_ptr_length, hqi.1]
      · rw [ho2, ho1, hadv j, if_pos rfl]
        omega
      · intro i hi
        rw [ho2] at hi
        rw [hadv i, if_neg hi]
    · show merge_weighted_remaining counts order (advance_ptr s.raw_ngram_ptrs top) + 1 +
          merge_agree s ≤ _
      omega
  by_cases hj0 : top.order = 2
  · rw [if_pos hj0] at hstep
    apply hconsume (memcpy_words s.words g.words 2)
      (by rw [memcpy_words_length _ _ _ (by omega) (by omega), hwl]) _ hstep
    rw [hag]
    split
    · rename_i i hi
      have := (fix_counts_first_diff_some _ _ _ _ _ hi).2.1
      omega
    · exact le_refl _
  · rw [if_neg hj0] at hstep
    cases hd : fix_counts_first_diff s.words g.words (j + 1) 0 with
    | none =>
      rw [hd] at hstep hag
      exact hconsume _ (by rw [List.length_set, hwl]) (by rw [hag]) hstep
    | some i =>
      simp only [hd] at hstep hag
      obtain ⟨_, hi2, _, _⟩ := fix_counts_first_diff_some _ _ _ _ _ hd
      have hj1 : 1 ≤ j := by omega
      generalize hnum : (if i = 0 then 1 else i) = num at hstep
      have hnum1 : 1 ≤ num := by
        rw [← hnum]
        split <;> omega
      have hnumi : i ≤ num := by
        rw [← hnum]
        split <;> omega
      have hnumj : num ≤ j := by
        rw [← hnum]
        split <;> omega
      obtain ⟨s1, hs1, hn1, hp1, hw1, hf1⟩ : ∃ s1 : fix_counts_state,
          fix_counts_step raw_ngrams counts s = some s1 ∧
          s1.ngrams = refill_queue raw_ngrams counts (s.ngrams.erase top)
            s.raw_ngram_ptrs top ∧
          s1.raw_ngram_ptrs = s.raw_ngram_ptrs ∧
          s1.words = (memcpy_words s.words g.words (num + 1)).set (j + 1)
            (g.words.getD (j + 1) 0) ∧
          s1.fixed_counts = s.fixed_counts.set num ((s.fixed_counts.getD num 0 + 1) % 2 ^ 32) :=
        ⟨_, hstep, rfl, rfl, rfl, rfl⟩
      have hinv1 : merge_queue_inv raw_ngrams counts order s1 := by
        have h := merge_queue_inv_next raw_ngrams counts order s top
          s.raw_ngram_ptrs s1.words s1.fixed_counts hqi htop hqi.1
          (by rw [ho2, ho1, hp]; omega) (fun i _ => rfl)
        rw [← hn1, ← hp1] at h
        exact h
      have hwl1 : s1.words.length = order := by
        rw [hw1, List.length_set, memcpy_words_length _ _ _ (by omega) (by omega), hwl]
      -- the same entries are queued, so the same n-gram is handed out next
      have hmem : ∀ e, e ∈ s1.ngrams ↔ e ∈ s.ngrams := by
        intro e
        rw [hinv1.2.2.2 e, hqi.2.2.2 e, hp1]
      have hq1 : s1.ngrams ≠ [] := List.ne_nil_of_mem ((hmem top).2 htop)
      obtain ⟨top1, hpoll1, htop1, hleast1⟩ := priority_queue_poll_least s1.ngrams hq1
      have htt : top1 = top :=
        merge_queue_inv_unique raw_ngrams counts order s hqi top1 top ((hmem top1).1 htop1) htop
          (hleast1 top ((hmem top).2 htop)) (hleast top1 ((hmem top1).1 htop1))
      have hag1 : i + 1 ≤ merge_agree s1 := by
        simp only [merge_agree, hpoll1, htt, hg, ho1]
        split
        · rename_i i1 hi1
          obtain ⟨_, _, hne, _⟩ := fix_counts_first_diff_some _ _ _ _ _ hi1
          by_contra hlt
          apply hne
          rw [hw1, getD_set_nat _ _ _ _
            (by rw [memcpy_words_length _ _ _ (by omega) (by omega)]; omega),
            if_neg (by omega), memcpy_words_getD _ _ _ _ (by omega), if_pos (by omega)]
        · omega
      refine ⟨s1, hs1, hinv1, hwl1, ?_, Or.inr ⟨num, hnum1, by omega, hf1⟩⟩
      rw [hp1, hag]
      omega

theorem merge_agree_empty (s : fix_counts_state) (h : s.ngrams = []) : merge_agree s = 0 := by
  simp [merge_agree, priority_queue_poll, priority_queue_top, h]

/-- While an entry is queued, the passes still allowed for exceed the number of
tracked words in agreement with it. -/
theorem merge_agree_lt_remaining (raw_ngrams : List (List ngram_raw_t)) (counts : List Nat)
    (order : Nat) (s : fix_counts_state) (hqi : merge_queue_inv raw_ngrams counts order s)
    (hq : s.ngrams ≠ []) :
    merge_agree s < merge_weighted_remaining counts order s.raw_ngram_ptrs := by
  obtain ⟨top, hpoll, htop, _⟩ := priority_queue_poll_least s.ngrams hq
  obtain ⟨j, hj, hjc, hje⟩ := (hqi.2.2.2 top).1 htop
  have ho1 : top.order - 1 = j + 1 := by rw [hje]; rfl
  have h1 : merge_agree s ≤ j + 1 := by
    simp only [merge_agree, hpoll, ho1]
    split
    · rename_i i hi
      have := (fix_counts_first_diff_some _ _ _ _ _ hi).2.1
      omega
    · exact le_refl _
  have h2 := range_sum_term_le
    (fun j => (counts.getD (j + 1) 0 - s.raw_ngram_ptrs.getD j 0) * (j + 2)) j (order - 1) hj
  have h3 : j + 2 ≤ (counts.getD (j + 1) 0 - s.raw_ngram_ptrs.getD j 0) * (j + 2) :=
    Nat.le_mul_of_pos_left _ (by omega)
  simp only [merge_weighted_remaining]
  simp only [] at h2
  omega

theorem getD_set_ne (l : List Nat) (i t a : Nat) (h : t ≠ i) :
    (l.set i a).getD t 0 = l.getD t 0 := by
  have h2 : ¬ i = t := fun e => h e.symm
  simp [List.getD_eq_getElem?_getD, List.getElem?_set, h2]

theorem getD_take_le (l : List Nat) (n i : Nat) : (l.take n).getD i 0 ≤ l.getD i 0 := by
  by_cases h : i < n
  · rw [getD_take_nat l n i h]
  · rw [List.getD_eq_default _ _ (by rw [List.length_take]; omega)]
    exact Nat.zero_le _

/-- The merge ends within its fuel on every allocated input: the queue is
empty, the first count and the counts from the last order on are as they
were, and no count has gone down when none could wrap. -/
theorem merge_loop_any (raw_ngrams : List (List ngram_raw_t)) (counts : List Nat)
    (order : Nat) (halloc : allocated_raw_ngrams raw_ngrams counts order) :
    ∀ (fuel : Nat) (s : fix_counts_state),
    merge_queue_inv raw_ngrams counts order s → s.words.length = order →
    merge_weighted_remaining counts order s.raw_ngram_ptrs < fuel + merge_agree s →
    ∃ s1, fix_counts_loop raw_ngrams counts fuel s = some s1 ∧ s1.ngrams = [] ∧
      merge_queue_inv raw_ngrams counts order s1 ∧
      s1.fixed_counts.length = s.fixed_counts.length ∧
      s1.fixed_counts.getD 0 0 = s.fixed_counts.getD 0 0 ∧
      (∀ i, order ≤ i + 1 → s1.fixed_counts.getD i 0 = s.fixed_counts.getD i 0) ∧
      ((∀ i, s.fixed_counts.getD i 0 + fuel < 2 ^ 32) →
        ∀ i, s.fixed_counts.getD i 0 ≤ s1.fixed_counts.getD i 0)
  | 0, s => by
    intro hqi _ h
    exfalso
    by_cases hq : s.ngrams = []
    · rw [merge_agree_empty s hq] at h
      omega
    · have := merge_agree_lt_remaining raw_ngrams counts order s hqi hq
      omega
  | fuel + 1, s => by
    intro hqi hwl hfuel
    simp only [fix_counts_loop]
    by_cases hq : s.ngrams = []
    · rw [fix_counts_step_empty raw_ngrams counts s hq]
      exact ⟨s, rfl, hq, hqi, rfl, rfl, fun _ _ => rfl, fun _ _ => le_refl _⟩
    · obtain ⟨s1, h1, h2, h3, h4, h5⟩ :=
        merge_step_any raw_ngrams counts order halloc s hqi hwl hq
      rw [h1]
      obtain ⟨s2, g1, g2, g3, g4, g5, g6, g7⟩ :=
        merge_loop_any raw_ngrams counts order halloc fuel s1 h2 h3 (by omega)
      refine ⟨s2, g1, g2, g3, ?_, ?_, ?_, ?_⟩
      · rcases h5 with h5 | ⟨num, _, _, h5⟩
        · rw [g4, h5]
        · rw [g4, h5, List.length_set]
      · rcases h5 with h5 | ⟨num, hn1, _, h5⟩
        · rw [g5, h5]
        · rw [g5, h5, getD_set_ne _ _ _ _ (by omega)]
      · intro i hi
        rcases h5 with h5 | ⟨num, _, hn2, h5⟩
        · rw [g6 i hi, h5]
        · rw [g6 i hi, h5, getD_set_ne _ _ _ _ (by omega)]
      · intro hb i
        rcases h5 with h5 | ⟨num, _, _, h5⟩
        · have := g7 (fun t => by rw [h5]; have := hb t; omega) i
          rw [h5] at this
          exact this
        · have hstep : ∀ t, s.fixed_counts.getD t 0 ≤ s1.fixed_counts.getD t 0 ∧
              s1.fixed_counts.getD t 0 ≤ s.fixed_counts.getD t 0 + 1 := by
            intro t
            rw [h5]
            by_cases ht : t = num
            · subst ht
              by_cases hl : t < s.fixed_counts.length
              · rw [getD_set_nat _ _ _ _ hl, if_pos rfl,
                  Nat.mod_eq_of_lt (by have := hb t; omega)]
                omega
              · rw [List.set_eq_of_length_le (by omega)]
                omega
            · rw [getD_set_ne _ _ _ _ ht]
              omega
          have := g7 (fun t => by have := hb t; have := (hstep t).2; omega) i
          have := (hstep i).1
          omega

/-- The queue invariant holds after any number of passes of the merge. -/
theorem fix_counts_passes_inv (raw_ngrams : List (List ngram_raw_t)) (counts : List Nat)
    (order : Nat) (halloc : allocated_raw_ngrams raw_ngrams counts order) :
    ∀ (n : Nat) (s s1 : fix_counts_state),
    merge_queue_inv raw_ngrams counts order s → s.words.length = order →
    fix_counts_passes raw_ngrams counts n s = some s1 →
    merge_queue_inv raw_ngrams counts order s1
  | 0, s, s1 => by
    intro hqi _ h
    simp only [fix_counts_passes, Option.some.injEq] at h
    rw [← h]
    exact hqi
  | n + 1, s, s1 => by
    intro hqi hwl h
    simp only [fix_counts_passes] at h
    by_cases hq : s.ngrams = []
    · rw [fix_counts_step_empty raw_ngrams counts s hq] at h
      cases h
    · obtain ⟨s2, h1, h2, h3, _, _⟩ :=
        merge_step_any raw_ngrams counts order halloc s hqi hwl hq
      rw [h1] at h
      exact fix_counts_passes_inv raw_ngrams counts order halloc n s2 s1 h2 h3 h

/-- The state on which the loop ends is the state after some number of passes
below the fuel, and the next pass finds the queue empty. -/
theorem fix_counts_loop_passes (raw_ngrams : List (List ngram_raw_t)) (counts : List Nat) :
    ∀ (fuel : Nat) (s s1 : fix_counts_state),
    fix_counts_loop raw_ngrams counts fuel s = some s1 →
    ∃ m, m < fuel ∧ fix_counts_passes raw_ngrams counts m s = some s1 ∧
      fix_counts_step raw_ngrams counts s1 = none
  | 0, s, s1 => by
    intro h
    simp [fix_counts_loop] at h
  | fuel + 1, s, s1 => by
    intro h
    simp only [fix_counts_loop] at h
    cases hs : fix_counts_step raw_ngrams counts s with
    | none =>
      rw [hs] at h
      simp only [Option.some.injEq] at h
      rw [← h]
      exact ⟨0, by omega, rfl, hs⟩
    | some s2 =>
      rw [hs] at h
      obtain ⟨m, hm, h1, h2⟩ := fix_counts_loop_passes raw_ngrams counts fuel s2 s1 h
      refine ⟨m + 1, by omega, ?_, h2⟩
      simp only [fix_counts_passes, hs]
      exact h1

/-- The merge starts from a state that satisfies the queue invariant, with the
pointers at zero, the tracked words all-ones and the counts copied. -/
theorem fix_counts_start_spec (raw_ngrams : List (List ngram_raw_t)) (counts : List Nat)
    (order : Nat) :
    merge_queue_inv raw_ngrams counts order (fix_counts_start raw_ngrams counts order) ∧
    (fix_counts_start raw_ngrams counts order).words.length = order ∧
    (fix_counts_start raw_ngrams counts order).fixed_counts = counts.take order := by
  obtain ⟨h1, _, h3, h4⟩ := merge_queue_inv_init raw_ngrams counts order
    (List.replicate order UINT32_MAX) (counts.take order)
  refine ⟨h1, ?_, h4⟩
  show (fix_counts_init raw_ngrams counts (order - 1) 2 _).words.length = order
  rw [h3]
  simp

/-- C31. For every order `N` and all arrays as they are allocated (`counts[k - 1] < 2 ^ 32`
elements of `k` words in the array of order `k`, in any order), the merge loop of
`ngrams_raw_fix_counts` terminates: it ends after `m` passes, `m` below the fuel of the
model; on exit the queue is empty, so the final assertion holds, and every array of order `k`
with `counts[k - 1] > 0` is consumed (`raw_ngram_ptrs[k - 2] = counts[k - 1]`); and after any number of passes the queue
holds at most one entry per order, at most `N - 1` entries. -/
theorem fix_counts_merge_terminates (raw_ngrams : List (List ngram_raw_t)) (counts : List Nat)
    (order : Nat) (halloc : allocated_raw_ngrams raw_ngrams counts order) :
    ∃ s1 m, fix_counts_loop raw_ngrams counts (fix_counts_fuel counts order)
        (fix_counts_start raw_ngrams counts order) = some s1 ∧
      m < fix_counts_fuel counts order ∧
      fix_counts_passes raw_ngrams counts m (fix_counts_start raw_ngrams counts order) =
        some s1 ∧
      fix_counts_step raw_ngrams counts s1 = none ∧
      priority_queue_size s1.ngrams = 0 ∧
      (∀ k, 2 ≤ k → k ≤ order → 0 < counts.getD (k - 1) 0 →
        s1.raw_ngram_ptrs.getD (k - 2) 0 = counts.getD (k - 1) 0) ∧
      ngrams_raw_fix_counts raw_ngrams counts order = some s1.fixed_counts ∧
      ∀ (n : Nat) (s : fix_counts_state),
        fix_counts_passes raw_ngrams counts n (fix_counts_start raw_ngrams counts order) =
          some s →
        (s.ngrams.map (fun e => e.order)).Nodup ∧ priority_queue_size s.ngrams ≤ order - 1 := by
  obtain ⟨hqi, hwl, _⟩ := fix_counts_start_spec raw_ngrams counts order
  obtain ⟨s1, g1, g2, g3, _⟩ := merge_loop_any raw_ngrams counts order halloc
    (fix_counts_fuel counts order) _ hqi hwl
    (by have := merge_weighted_remaining_lt_fuel counts order
          (fix_counts_start raw_ngrams counts order).raw_ngram_ptrs
        omega)
  obtain ⟨m, hm, h1, h2⟩ := fix_counts_loop_passes raw_ngrams counts _ _ _ g1
  refine ⟨s1, m, g1, hm, h1, h2, ?_, ?_, ?_, ?_⟩
  · rw [g2]
    rfl
  · intro k hk1 hk2 _
    obtain ⟨j, rfl⟩ : ∃ j, k = j + 2 := ⟨k - 2, by omega⟩
    show s1.raw_ngram_ptrs.getD j 0 = counts.getD (j + 1) 0
    have hle := g3.2.2.1 j (by omega)
    by_contra hne
    have hlt : s1.raw_ngram_ptrs.getD j 0 < counts.getD (j + 1) 0 := by omega
    have hmem := (g3.2.2.2 ⟨raw_ngram_at raw_ngrams j (s1.raw_ngram_ptrs.getD j 0),
      j + 2⟩).2 ⟨j, by omega, hlt, rfl⟩
    rw [g2] at hmem
    simp at hmem
  · rw [ngrams_raw_fix_counts_eq, g1]
    rfl
  · intro n s hs
    have hinv := fix_counts_passes_inv raw_ngrams counts order halloc n _ s hqi hwl hs
    obtain ⟨h3, h4, _⟩ := merge_queue_inv_small raw_ngrams counts order s hinv
    exact ⟨h3, h4⟩

theorem fix_counts_merge_terminates_witness :
    ∃ s1 m, fix_counts_loop [sparse_order3_bigrams, sparse_order3_trigrams] [2, 1, 3]
        (fix_counts_fuel [2, 1, 3] 3)
        (fix_counts_start [sparse_order3_bigrams, sparse_order3_trigrams] [2, 1, 3] 3) =
          some s1 ∧
      m < fix_counts_fuel [2, 1, 3] 3 ∧
      fix_counts_passes [sparse_order3_bigrams, sparse_order3_trigrams] [2, 1, 3] m
        (fix_counts_start [sparse_order3_bigrams, sparse_order3_trigrams] [2, 1, 3] 3) =
          some s1 ∧
      fix_counts_step [sparse_order3_bigrams, sparse_order3_trigrams] [2, 1, 3] s1 = none ∧
      priority_queue_size s1.ngrams = 0 ∧
      (∀ k, 2 ≤ k → k ≤ 3 → 0 < ([2, 1, 3] : List Nat).getD (k - 1) 0 →
        s1.raw_ngram_ptrs.getD (k - 2) 0 = ([2, 1, 3] : List Nat).getD (k - 1) 0) ∧
      ngrams_raw_fix_counts [sparse_order3_bigrams, sparse_order3_trigrams] [2, 1, 3] 3 =
        some s1.fixed_counts ∧
      ∀ (n : Nat) (s : fix_counts_state),
        fix_counts_passes [sparse_order3_bigrams, sparse_order3_trigrams] [2, 1, 3] n
          (fix_counts_start [sparse_order3_bigrams, sparse_order3_trigrams] [2, 1, 3] 3) =
            some s →
        (s.ngrams.map (fun e => e.order)).Nodup ∧ priority_queue_size s.ngrams ≤ 3 - 1 :=
  fix_counts_merge_terminates [sparse_order3_bigrams, sparse_order3_trigrams] [2, 1, 3] 3
    (by decide)

/-- C32. For every order `N >= 1` and all arrays as they are allocated,
`ngrams_raw_fix_counts` returns `fixed_counts` with the `N` entries of `counts`, the
unigram count and the count of the highest order unchanged (`fixed_counts[0] = counts[0]`,
`fixed_counts[N - 1] = counts[N - 1]`); and no count is decreased
(`fixed_counts[i] >= counts[i]` for every `i < N`) when the counts are small enough for the
32-bit increments not to wrap. The arrays and `counts` are arguments that no pass of the
merge writes to. -/
theorem fix_counts_frame (raw_ngrams : List (List ngram_raw_t)) (counts : List Nat)
    (order : Nat) (halloc : allocated_raw_ngrams raw_ngrams counts order) :
    ∃ fixed, ngrams_raw_fix_counts raw_ngrams counts order = some fixed ∧
      fixed.length = (counts.take order).length ∧
      (1 ≤ order → fixed.getD 0 0 = counts.getD 0 0 ∧
        fixed.getD (order - 1) 0 = counts.getD (order - 1) 0) ∧
      ((∀ i, counts.getD i 0 + fix_counts_fuel counts order < 2 ^ 32) →
        ∀ i, i < order → counts.getD i 0 ≤ fixed.getD i 0) := by
  obtain ⟨hqi, hwl, hfc⟩ := fix_counts_start_spec raw_ngrams counts order
  obtain ⟨s1, g1, _, _, g4, g5, g6, g7⟩ := merge_loop_any raw_ngrams counts order halloc
    (fix_counts_fuel counts order) _ hqi hwl
    (by have := merge_weighted_remaining_lt_fuel counts order
          (fix_counts_start raw_ngrams counts order).raw_ngram_ptrs
        omega)
  rw [hfc] at g4 g5 g6 g7
  refine ⟨s1.fixed_counts, ?_, g4, ?_, ?_⟩
  · rw [ngrams_raw_fix_counts_eq, g1]
    rfl
  · intro ho
    rw [g5, g6 (order - 1) (by omega), getD_take_nat counts order 0 (by omega),
      getD_take_nat counts order (order - 1) (by omega)]
    exact ⟨rfl, rfl⟩
  · intro hb i hi
    have := g7 (fun t => by have := hb t; have := getD_take_le counts order t; omega) i
    rw [getD_take_nat counts order i hi] at this
    exact this

theorem fix_counts_frame_witness :
    ∃ fixed, ngrams_raw_fix_counts reconciled_order3_ngrams [2, 2, 2] 3 = some fixed ∧
      fixed.length = (([2, 2, 2] : List Nat).take 3).length ∧
      (1 ≤ 3 → fixed.getD 0 0 = ([2, 2, 2] : List Nat).getD 0 0 ∧
        fixed.getD (3 - 1) 0 = ([2, 2, 2] : List Nat).getD (3 - 1) 0) ∧
      ((∀ i, ([2, 2, 2] : List Nat).getD i 0 + fix_counts_fuel [2, 2, 2] 3 < 2 ^ 32) →
        ∀ i, i < 3 → ([2, 2, 2] : List Nat).getD i 0 ≤ fixed.getD i 0) :=
  fix_counts_frame reconciled_order3_ngrams [2, 2, 2] 3 (by decide)

/-- A loop whose body takes a property from one value of the loop variable to
the next ends without a fault, with the property at the final value. -/
theorem for_range_inv (body : fill_state → Nat → Except Fault fill_state)
    (P : Nat → fill_state → Prop) : ∀ (k p : Nat) (s : fill_state),
    (∀ q t, p ≤ q → q < p + k → P q t → ∃ t1, body t q = Except.ok t1 ∧ P (q + 1) t1) →
    P p s → ∃ s1, for_range body k p s = Except.ok s1 ∧ P (p + k) s1
  | 0, p, s => fun _ hp => ⟨s, rfl, hp⟩
  | k + 1, p, s => by
    intro hstep hp
    obtain ⟨t1, h1, h2⟩ := hstep p s (le_refl _) (by omega) hp
    obtain ⟨s1, h3, h4⟩ := for_range_inv body P k (p + 1) t1
      (fun q t hq1 hq2 hq => hstep q t (by omega) (by omega) hq) h2
    refine ⟨s1, ?_, ?_⟩
    · simp only [for_range, h1]
      exact h3
    · rw [show p + (k + 1) = p + 1 + k from by omega]
      exact h4

/-- The `next` fields of a level stay below the sentinel. -/
theorem next_ranges_le (next : Nat → Nat) (c c_next : Nat) (h : next_ranges next c c_next) :
    ∀ p, p ≤ c → next p ≤ c_next := by
  obtain ⟨_, h2, h3⟩ := h
  have key : ∀ d p, p + d = c → next p ≤ next c := by
    intro d
    induction d with
    | zero =>
      intro p hp
      rw [show p = c from by omega]
    | succ d ih =>
      intro p hp
      exact le_trans (h3 p (by omega)) (ih (p + 1) (by omega))
  intro p hp
  rw [← h2]
  exact key (c - p) p (by omega)

/-- The descendants of the first record of a level start at index 0, and those
of the sentinel at the record count of the level reached. -/
theorem leaf_boundary_ends (trie : trie_levels) (n_counts : List Nat) (n : Nat)
    (hinv : range_invariant trie n_counts n) : ∀ (d m : Nat), m + d + 2 ≤ n →
    leaf_boundary trie d (m + 1) 0 = 0 ∧
    leaf_boundary trie d (m + 1) (n_counts.getD (m + 1) 0) = n_counts.getD (m + 1 + d) 0
  | 0, _ => fun _ => ⟨rfl, rfl⟩
  | d + 1, m => by
    intro h
    obtain ⟨h1, h2, _⟩ := hinv.2 m (by omega)
    obtain ⟨g1, g2⟩ := leaf_boundary_ends trie n_counts n hinv d (m + 1) (by omega)
    simp only [] at h1 h2
    refine ⟨?_, ?_⟩
    · show leaf_boundary trie d (m + 1 + 1) (middle_at trie m 0).next = 0
      rw [h1]
      exact g1
    · show leaf_boundary trie d (m + 1 + 1)
        (middle_at trie m (n_counts.getD (m + 1) 0)).next = n_counts.getD (m + 1 + (d + 1)) 0
      rw [h2, show m + 1 + (d + 1) = m + 1 + 1 + d from by omega]
      exact g2

/-- A call of `fill_raw_ngram` for order `m + d + 2` with `n_hist = m + 1` and the
range `[b, e)` of the level of order `m + 2` returns after it has visited the
records of order `m + d + 2` from the boundary of `b` to the boundary of `e`, one
after the other. -/
theorem fill_raw_ngram_range (trie : trie_levels) (n_counts : List Nat) (n : Nat)
    (hinv : range_invariant trie n_counts n) : ∀ (d m b e : Nat) (s : fill_state),
    m + d + 2 ≤ n → n_counts.getD (m + d + 1) 0 < 2 ^ 32 →
    b ≤ e → e ≤ n_counts.getD (m + 1) 0 →
    s.raw_ngram_idx = leaf_boundary trie d (m + 1) b →
    s.visited = List.range (leaf_boundary trie d (m + 1) b) →
    s.raw_ngrams.length = n_counts.getD (m + d + 1) 0 →
    ∃ s1, fill_raw_ngram trie n_counts (m + d + 2) n (d + 1) (b, e) (m + 1) s = Except.ok s1 ∧
      s1.raw_ngram_idx = leaf_boundary trie d (m + 1) e ∧
      s1.visited = List.range (leaf_boundary trie d (m + 1) e) ∧
      s1.raw_ngrams.length = n_counts.getD (m + d + 1) 0
  | 0, m, b, e, s => by
    intro _ h32 hbe hec hi hv hl
    by_cases heq : b = e
    · refine ⟨s, ?_, ?_, ?_, hl⟩
      · simp [fill_raw_ngram, heq]
      · rw [← heq]; exact hi
      · rw [← heq]; exact hv
    · have hc1 : ¬ (m + 1 > 0 ∧ b = e) := fun h => heq h.2
      have hc2 : ¬ m + 1 = 0 := by omega
      have hc3 : ¬ m + 1 < m + 0 + 2 - 1 := by omega
      simp only [fill_raw_ngram, hc1, hc2, hc3, ↓reduceIte]
      obtain ⟨s1, h1, h2, h3, h4⟩ := for_range_inv
        (fun s1 ptr =>
          if s1.raw_ngram_idx < s1.raw_ngrams.length then
            Except.ok
              { raw_ngrams := s1.raw_ngrams.set s1.raw_ngram_idx
                  (fill_raw_ngram_emit
                    (s1.hist.set (m + 1)
                      (if m + 0 + 2 = n then trie.longest.getD ptr 0
                       else (middle_at trie (m + 1 - 1) ptr).word)) (m + 0 + 2))
                raw_ngram_idx := (s1.raw_ngram_idx + 1) % 2 ^ 32
                hist := s1.hist.set (m + 1)
                  (if m + 0 + 2 = n then trie.longest.getD ptr 0
                   else (middle_at trie (m + 1 - 1) ptr).word)
                visited := s1.visited ++ [ptr] }
          else Except.error Fault.out_of_bounds)
        (fun x t => t.raw_ngram_idx = x ∧ t.visited = List.range x ∧
          t.raw_ngrams.length = n_counts.getD (m + 0 + 1) 0) (e - b) b s
        (by
          intro q t hq1 hq2 ⟨p1, p2, p3⟩
          have hlt : t.raw_ngram_idx < t.raw_ngrams.length := by
            rw [p1, p3]
            show q < n_counts.getD (m + 1) 0
            omega
          have hq32 : q + 1 < 2 ^ 32 := by
            have : n_counts.getD (m + 0 + 1) 0 = n_counts.getD (m + 1) 0 := rfl
            omega
          simp only [hlt, ↓reduceIte]
          refine ⟨_, rfl, ?_, ?_, ?_⟩
          · show (t.raw_ngram_idx + 1) % 2 ^ 32 = q + 1
            rw [p1, Nat.mod_eq_of_lt hq32]
          · show t.visited ++ [q] = List.range (q + 1)
            rw [p2, List.range_succ]
          · show (t.raw_ngrams.set _ _).length = _
            rw [List.length_set, p3])
        ⟨hi, hv, hl⟩
      rw [show b + (e - b) = e from by omega] at h2 h3
      exact ⟨s1, h1, h2, h3, h4⟩
  | d + 1, m, b, e, s => by
    intro hn h32 hbe hec hi hv hl
    by_cases heq : b = e
    · refine ⟨s, ?_, ?_, ?_, hl⟩
      · simp [fill_raw_ngram, heq]
      · rw [← heq]; exact hi
      · rw [← heq]; exact hv
    · have hc1 : ¬ (m + 1 > 0 ∧ b = e) := fun h => heq h.2
      have hc2 : ¬ m + 1 = 0 := by omega
      have hc3 : m + 1 < m + (d + 1) + 2 - 1 := by omega
      simp only [fill_raw_ngram, hc1, hc2, hc3, ↓reduceIte, Nat.add_sub_cancel]
      obtain ⟨hr1, hr2, hr3⟩ := hinv.2 m (by omega)
      have hr4 := next_ranges_le _ _ _ (hinv.2 m (by omega))
      simp only [] at hr3 hr4
      obtain ⟨s1, h1, h2, h3, h4⟩ := for_range_inv
        (fun s1 ptr =>
          fill_raw_ngram trie n_counts (m + (d + 1) + 2) n (d + 1)
            ((middle_at trie m ptr).next, (middle_at trie m (ptr + 1)).next) (m + 1 + 1)
            { s1 with hist := s1.hist.set (m + 1) (middle_at trie m ptr).word })
        (fun x t => t.raw_ngram_idx = leaf_boundary trie (d + 1) (m + 1) x ∧
          t.visited = List.range (leaf_boundary trie (d + 1) (m + 1) x) ∧
          t.raw_ngrams.length = n_counts.getD (m + (d + 1) + 1) 0) (e - b) b s
        (by
          intro q t hq1 hq2 ⟨p1, p2, p3⟩
          have hfuel : m + (d + 1) + 2 = m + 1 + d + 2 := by omega
          have hcnt : m + (d + 1) + 1 = m + 1 + d + 1 := by omega
          simp only [hfuel]
          rw [hcnt] at p3 h32
          obtain ⟨t1, g1, g2, g3, g4⟩ := fill_raw_ngram_range trie n_counts n hinv d (m + 1)
            (middle_at trie m q).next (middle_at trie m (q + 1)).next
            { t with hist := t.hist.set (m + 1) (middle_at trie m q).word }
            (by omega) h32 (hr3 q (by omega)) (hr4 (q + 1) (by omega)) p1 p2 p3
          refine ⟨t1, g1, g2, g3, ?_⟩
          rw [hcnt]
          exact g4)
        ⟨hi, hv, hl⟩
      rw [show b + (e - b) = e from by omega] at h2 h3
      exact ⟨s1, h1, h2, h3, h4⟩

/-- C35. For every trie of order `n` that satisfies the range invariant (the `next` fields of
the unigrams and of every middle level start at 0, do not decrease, and the sentinel entry is
the record count of the next level) and every order `2 <= i <= n` with a 32-bit count,
`fill_raw_ngram` called for order `i` as in `ngram_model_trie_write_arpa` returns after it
has visited the records `0, 1, ..., n_counts[i - 1] - 1` of level `i`, every one once and no
other; `raw_ngram_idx` is then `n_counts[i - 1]`, so the assertion holds, and no write goes
behind the end of the array `raw_ngrams`. -/
theorem fill_raw_ngram_visits_level (trie : trie_levels) (n_counts : List Nat) (n i : Nat)
    (hist : List Nat) (hinv : range_invariant trie n_counts n) (hi : 2 ≤ i) (hin : i ≤ n)
    (h32 : n_counts.getD (i - 1) 0 < 2 ^ 32) :
    ∃ s, write_arpa_fill trie n_counts n i hist = Except.ok s ∧
      fill_raw_ngram trie n_counts i n i (0, 0) 0
        ⟨List.replicate (n_counts.getD (i - 1) 0) [], 0, hist, []⟩ = Except.ok s ∧
      s.visited = List.range (n_counts.getD (i - 1) 0) ∧
      s.raw_ngram_idx = n_counts.getD (i - 1) 0 ∧
      s.raw_ngrams.length = n_counts.getD (i - 1) 0 := by
  obtain ⟨d, rfl⟩ : ∃ d, i = d + 2 := ⟨i - 2, by omega⟩
  have hcnt : d + 2 - 1 = d + 1 := by omega
  rw [hcnt] at h32 ⊢
  obtain ⟨hu1, hu2, hu3⟩ := hinv.1
  have hu4 := next_ranges_le _ _ _ hinv.1
  simp only [] at hu1 hu2 hu3 hu4
  obtain ⟨hb0, hbc⟩ := leaf_boundary_ends trie n_counts n hinv d 0 (by omega)
  rw [show 0 + 1 + d = d + 1 from by omega] at hbc
  simp only [Nat.zero_add] at hb0 hbc
  have hc1 : ¬ ((0 : Nat) > 0 ∧ (0 : Nat) = 0) := fun h => absurd h.1 (by decide)
  have hfill : ∃ s, fill_raw_ngram trie n_counts (d + 2) n (d + 2) (0, 0) 0
        ⟨List.replicate (n_counts.getD (d + 1) 0) [], 0, hist, []⟩ = Except.ok s ∧
      s.visited = List.range (n_counts.getD (d + 1) 0) ∧
      s.raw_ngram_idx = n_counts.getD (d + 1) 0 ∧
      s.raw_ngrams.length = n_counts.getD (d + 1) 0 := by
    simp only [fill_raw_ngram, hc1, ↓reduceIte]
    obtain ⟨s1, h1, h2, h3, h4⟩ := for_range_inv
      (fun s1 i =>
        fill_raw_ngram trie n_counts (d + 2) n (d + 1) (unigram_find trie.unigrams i) 1
          { s1 with hist := s1.hist.set 0 i })
      (fun x t =>
        t.raw_ngram_idx = leaf_boundary trie d 1 (trie.unigrams.getD x ⟨0, 0, 0⟩).next ∧
        t.visited =
          List.range (leaf_boundary trie d 1 (trie.unigrams.getD x ⟨0, 0, 0⟩).next) ∧
        t.raw_ngrams.length = n_counts.getD (d + 1) 0) (n_counts.getD 0 0) 0
      ⟨List.replicate (n_counts.getD (d + 1) 0) [], 0, hist, []⟩
      (by
        intro q t hq1 hq2 ⟨p1, p2, p3⟩
        have key := fill_raw_ngram_range trie n_counts n hinv d 0
          (trie.unigrams.getD q ⟨0, 0, 0⟩).next (trie.unigrams.getD (q + 1) ⟨0, 0, 0⟩).next
          { t with hist := t.hist.set 0 q }
          (by omega) (by simpa only [Nat.zero_add] using h32) (hu3 q (by omega))
          (hu4 (q + 1) (by omega)) p1 p2 (by simpa only [Nat.zero_add] using p3)
        simpa only [Nat.zero_add, unigram_find] using key)
      ⟨by rw [hu1, hb0], by rw [hu1, hb0]; rfl, by simp⟩
    rw [Nat.zero_add, hu2, hbc] at h2 h3
    exact ⟨s1, h1, h3, h2, h4⟩
  obtain ⟨s, g1, g2, g3, g4⟩ := hfill
  refine ⟨s, ?_, g1, g2, g3, g4⟩
  simp only [write_arpa_fill]
  rw [hcnt, g1]
  simp only [g3, ↓reduceIte]

theorem fill_raw_ngram_visits_level_witness :
    ∃ s, write_arpa_fill small_trie [2, 2, 3] 3 3 [7, 7, 7, 7, 7] = Except.ok s ∧
      fill_raw_ngram small_trie [2, 2, 3] 3 3 3 (0, 0) 0
        ⟨List.replicate (([2, 2, 3] : List Nat).getD (3 - 1) 0) [], 0, [7, 7, 7, 7, 7], []⟩ =
          Except.ok s ∧
      s.visited = List.range (([2, 2, 3] : List Nat).getD (3 - 1) 0) ∧
      s.raw_ngram_idx = ([2, 2, 3] : List Nat).getD (3 - 1) 0 ∧
      s.raw_ngrams.length = ([2, 2, 3] : List Nat).getD (3 - 1) 0 :=
  fill_raw_ngram_visits_level small_trie [2, 2, 3] 3 3 [7, 7, 7, 7, 7] (by decide) (by decide)
    (by decide) (by decide)

/-! ## Single-precision rounding, the unigram table, and the amended claims -/

theorem int_log_two_eq (x : ℚ) (e : Int) (h1 : (2 : ℚ) ^ e ≤ x) (h2 : x < (2 : ℚ) ^ (e + 1)) :
    Int.log 2 x = e := by
  have hx : 0 < x := lt_of_lt_of_le (by positivity) h1
  have a : e ≤ Int.log 2 x :=
    (Int.zpow_le_iff_le_log (b := 2) (by norm_num) hx (x := e)).1 (by exact_mod_cast h1)
  have b : Int.log 2 x < e + 1 :=
    (Int.lt_zpow_iff_log_lt (b := 2) (by norm_num) hx (x := e + 1)).1 (by exact_mod_cast h2)
  omega

theorem round_half_even_intCast (k : Int) : round_half_even (k : ℚ) = k := by
  unfold round_half_even
  rw [Int.floor_intCast, sub_self, if_pos (by norm_num)]

/-- A value that is a whole multiple of the unit in its last place is not changed
by the rounding. -/
theorem binary_round_exact (prec : Nat) (emin : Int) (x : ℚ) (k : Int)
    (h : x = (k : ℚ) * (2 : ℚ) ^ binary_ulp_exp prec emin x) : binary_round prec emin x = x := by
  unfold binary_round
  generalize binary_ulp_exp prec emin x = e at h ⊢
  have hne : (2 : ℚ) ^ e ≠ 0 := zpow_ne_zero _ two_ne_zero
  have hq : x / (2 : ℚ) ^ e = (k : ℚ) := by
    rw [div_eq_iff hne]
    exact h
  rw [hq, round_half_even_intCast]
  exact h.symm

/-- Every integer of magnitude at most `2 ^ 24` is a `float`. -/
theorem float32_round_int (z : Int) (hz : |z| ≤ 2 ^ 24) : float32_round (z : ℚ) = (z : ℚ) := by
  unfold float32_round
  by_cases h0 : z = 0
  · subst h0
    apply binary_round_exact 24 (-149) _ 0
    simp
  · have hz1 : (1 : ℚ) ≤ |(z : ℚ)| := by
      have : (1 : Int) ≤ |z| := Int.one_le_abs h0
      exact_mod_cast this
    have hpos : (0 : ℚ) < |(z : ℚ)| := lt_of_lt_of_le one_pos hz1
    have hzq : |(z : ℚ)| ≤ (2 : ℚ) ^ (24 : Int) := by
      have : ((|z| : Int) : ℚ) ≤ ((2 ^ 24 : Int) : ℚ) := by exact_mod_cast hz
      rw [Int.cast_abs, show ((2 ^ 24 : Int) : ℚ) = (2 : ℚ) ^ (24 : Int) from by norm_num] at this
      exact this
    have hL0 : 0 ≤ Int.log 2 |(z : ℚ)| :=
      (Int.zpow_le_iff_le_log (b := 2) (by norm_num) hpos (x := 0)).1 (by simpa using hz1)
    have hL24 : Int.log 2 |(z : ℚ)| ≤ 24 := by
      have := Int.log_mono_right (b := 2) hpos hzq
      rwa [show ((2 : ℚ) ^ (24 : Int)) = (((2 : Nat) : ℚ) ^ (24 : Int)) from by norm_num,
        Int.log_zpow (by norm_num)] at this
    have h1 : (2 : ℚ) ^ Int.log 2 |(z : ℚ)| ≤ |(z : ℚ)| := by
      have := Int.zpow_log_le_self (b := 2) (by norm_num) hpos
      simpa using this
    have he : binary_ulp_exp 24 (-149) (z : ℚ) = Int.log 2 |(z : ℚ)| - 23 := by
      unfold binary_ulp_exp
      rw [max_eq_left (by push_cast; omega)]
      push_cast
      omega
    generalize Int.log 2 |(z : ℚ)| = L at hL0 hL24 h1 he
    by_cases hL : L ≤ 23
    · apply binary_round_exact 24 (-149) _ (z * 2 ^ (23 - L).toNat)
      rw [he]
      push_cast
      rw [mul_assoc, ← zpow_natCast, ← zpow_add₀ (by norm_num : (2 : ℚ) ≠ 0),
        show (((23 - L).toNat : Int)) + (L - 23) = 0 from by omega, zpow_zero, mul_one]
    · have hL2 : L = 24 := by omega
      subst hL2
      have habs : |(z : ℚ)| = (2 : ℚ) ^ (24 : Int) := le_antisymm hzq h1
      have hzz : |z| = 2 ^ 24 := by
        have : ((|z| : Int) : ℚ) = ((2 ^ 24 : Int) : ℚ) := by
          rw [Int.cast_abs, habs]
          norm_num
        exact_mod_cast this
      apply binary_round_exact 24 (-149) _ (z / 2)
      rw [he]
      rcases abs_eq (by norm_num : (0 : Int) ≤ 2 ^ 24) |>.1 hzz with h | h
      · subst h
        norm_num
      · subst h
        norm_num

/-- The `float` nearest to `-21656893.5` is `-21656894`, and the `float` nearest
to `-536986047` is `-536986048`. -/
theorem float32_round_examples :
    float32_round (-43313787 / 2) = -21656894 ∧ float32_round (-536986047) = -536986048 := by
  constructor
  · have he : binary_ulp_exp 24 (-149) (-43313787 / 2) = 1 := by
      unfold binary_ulp_exp
      rw [int_log_two_eq _ 24 (by norm_num [abs_of_neg]) (by norm_num [abs_of_neg])]
      norm_num
    unfold float32_round binary_round
    rw [he]
    have hf : ⌊(-43313787 / 2 : ℚ) / 2 ^ (1 : Int)⌋ = -10828447 := by
      rw [Int.floor_eq_iff]
      norm_num
    unfold round_half_even
    rw [hf]
    norm_num
  · have he : binary_ulp_exp 24 (-149) (-536986047) = 6 := by
      unfold binary_ulp_exp
      rw [int_log_two_eq _ 29 (by norm_num [abs_of_neg]) (by norm_num [abs_of_neg])]
      norm_num
    unfold float32_round binary_round
    rw [he]
    have hf : ⌊(-536986047 : ℚ) / 2 ^ (6 : Int)⌋ = -8390407 := by
      rw [Int.floor_eq_iff]
      norm_num
    unfold round_half_even
    rw [hf]
    norm_num

/-- C36, as stated, fails when the sum is no `float`: on a model with two unigrams,
`lm_trie_add_ug(2, -536986040)` with `logmath_log` returning `-7` adds up to `-536986047`, and
the new unigram gets the probability `-536986048`, the `float` nearest to the sum. -/
theorem add_ug_probability_rounded :
    ∃ model1 ret, lm_trie_add_ug sample_logmath_log sample_junk two_unigram_model 2
        (-536986040) = Except.ok (model1, ret) ∧
      (-536986040 + sample_logmath_log (float64_round (1 / (((2 + 1 : Nat)) : ℚ))) : Int) =
        -536986047 ∧
      (model1.trie.unigrams.getD 2 ⟨0, 0, 0⟩).prob = -536986048 ∧
      (model1.trie.unigrams.getD 2 ⟨0, 0, 0⟩).prob ≠ ((-536986047 : Int) : ℚ) := by
  obtain ⟨model1, ret, h1, _, _, _, _, _, _, _, _, h10⟩ :=
    lm_trie_add_ug_spec sample_logmath_log sample_junk two_unigram_model 2 (-536986040)
      (by decide) (by decide) (by decide)
  obtain ⟨h11, _⟩ := h10 (by decide) (by decide)
  have hp : (model1.trie.unigrams.getD 2 ⟨0, 0, 0⟩).prob = -536986048 := by
    have e : (2 : Int).toNat = 2 := rfl
    rw [e] at h11
    rw [h11]
    show float32_round (((-536986040 + -7 : Int)) : ℚ) = -536986048
    rw [show (((-536986040 + -7 : Int)) : ℚ) = -536986047 from by norm_num]
    exact float32_round_examples.2
  refine ⟨model1, ret, h1, rfl, hp, ?_⟩
  rw [hp]
  norm_num

/-- C36, amended. After `lm_trie_add_ug(c, lweight)` on a model with unigram count `c` (the
table holding the entries `0 .. c`, room for one more word, `c + 1 < 2 ^ 32`), the new unigram
`c` has back-off `0`, the probability `(float) (lweight + logmath_log(1.0 / (c + 1)))`, which
is the sum rounded to the nearest `float` and the sum itself when its magnitude is at most
`2 ^ 24`, and an empty range of bigrams: the `next` of entry `c + 1` equals the `next` of
entry `c`, which is the `next` the end sentinel had. -/
theorem add_ug_new_unigram (logmath_log : ℚ → Int) (junk : Nat → unigram_t)
    (model : trie_model_t) (lweight : Int) (c : Nat)
    (hc : model.base.n_counts.getD 0 0 = c) (hlen : c < model.trie.unigrams.length)
    (hroom : c + 1 ≤ model.base.n_1g_alloc) (hc32 : c + 1 < 2 ^ 32) :
    ∃ model1 ret, lm_trie_add_ug logmath_log junk model (c : Int) lweight =
        Except.ok (model1, ret) ∧
      (model1.trie.unigrams.getD c ⟨0, 0, 0⟩).bo = 0 ∧
      (model1.trie.unigrams.getD c ⟨0, 0, 0⟩).prob =
        float32_round
          ((lweight + logmath_log (float64_round (1 / (((c + 1 : Nat)) : ℚ))) : Int) : ℚ) ∧
      (|lweight + logmath_log (float64_round (1 / (((c + 1 : Nat)) : ℚ)))| ≤ 2 ^ 24 →
        (model1.trie.unigrams.getD c ⟨0, 0, 0⟩).prob =
          ((lweight + logmath_log (float64_round (1 / (((c + 1 : Nat)) : ℚ))) : Int) : ℚ)) ∧
      (model1.trie.unigrams.getD (c + 1) ⟨0, 0, 0⟩).next =
        (model1.trie.unigrams.getD c ⟨0, 0, 0⟩).next ∧
      (model1.trie.unigrams.getD c ⟨0, 0, 0⟩).next =
        (model.trie.unigrams.getD c ⟨0, 0, 0⟩).next := by
  have ht : ((c : Int)).toNat = c := Int.toNat_ofNat c
  obtain ⟨model1, ret, h1, _, _, _, _, _, _, _, _, h10⟩ :=
    lm_trie_add_ug_spec logmath_log junk model (c : Int) lweight (Int.ofNat_nonneg c)
      (by rw [hc]; omega) (by rw [ht]; exact hroom)
  rw [ht, hc] at h10
  obtain ⟨h11, h12⟩ := h10 (le_refl _) hlen
  rw [Nat.mod_eq_of_lt hc32] at h11
  refine ⟨model1, ret, h1, ?_, ?_, ?_, ?_, ?_⟩
  · rw [h11]
  · rw [h11]
  · intro hsmall
    rw [h11]
    exact float32_round_int _ hsmall
  · rw [h12, h11]
  · rw [h11]

theorem add_ug_new_unigram_witness :
    ∃ model1 ret, lm_trie_add_ug sample_logmath_log sample_junk two_unigram_model ((2 : Nat) : Int)
        5 = Except.ok (model1, ret) ∧
      (model1.trie.unigrams.getD 2 ⟨0, 0, 0⟩).bo = 0 ∧
      (model1.trie.unigrams.getD 2 ⟨0, 0, 0⟩).prob =
        float32_round
          ((5 + sample_logmath_log (float64_round (1 / (((2 + 1 : Nat)) : ℚ))) : Int) : ℚ) ∧
      (|5 + sample_logmath_log (float64_round (1 / (((2 + 1 : Nat)) : ℚ)))| ≤ 2 ^ 24 →
        (model1.trie.unigrams.getD 2 ⟨0, 0, 0⟩).prob =
          ((5 + sample_logmath_log (float64_round (1 / (((2 + 1 : Nat)) : ℚ))) : Int) : ℚ)) ∧
      (model1.trie.unigrams.getD (2 + 1) ⟨0, 0, 0⟩).next =
        (model1.trie.unigrams.getD 2 ⟨0, 0, 0⟩).next ∧
      (model1.trie.unigrams.getD 2 ⟨0, 0, 0⟩).next =
        (two_unigram_model.trie.unigrams.getD 2 ⟨0, 0, 0⟩).next :=
  add_ug_new_unigram sample_logmath_log sample_junk two_unigram_model 5 2 rfl (by decide)
    (by decide) (by decide)

theorem raw_score_three_word_cut_eval :
    ngram_model_trie_raw_score three_word_model 0 [1, -1] 2 = (-12, 1) := by
  have h : raw_score_n_hist three_word_model [1, -1] 2 = 1 := by decide
  have hs : lm_trie_score three_word_model.trie three_word_model.n 0 [1, -1] 1 =
      (((-12 : Int) : ℚ), 1) := by
    simp [lm_trie_score, lm_trie_score_from, lm_trie_find, lm_trie_backoff, three_word_model]
    norm_num
  simp only [ngram_model_trie_raw_score, h, hs, float_to_int32_intCast]

/-- C22, as stated, fails for the entry at the length itself: on the order-3 model
`three_word_model` the history `[1, -1]` with `n_hist = 2` is cut to the length `1`, and the
history `[1, 2]`, which has the same entry below this length, gets another score (`-16`
against `-12`): the sign of the entry at the cut decides the length. -/
theorem raw_score_entry_at_cut_matters :
    raw_score_n_hist three_word_model [1, -1] 2 = 1 ∧
    ([1, 2] : List Int).take 1 = ([1, -1] : List Int).take 1 ∧
    ngram_model_trie_raw_score three_word_model 0 [1, -1] 2 = (-12, 1) ∧
    ngram_model_trie_raw_score three_word_model 0 [1, 2] 2 = (-16, 1) ∧
    ngram_model_trie_raw_score three_word_model 0 [1, 2] 2 ≠
      ngram_model_trie_raw_score three_word_model 0 [1, -1] 2 := by
  refine ⟨by decide, rfl, raw_score_three_word_cut_eval, raw_score_three_word_eval, ?_⟩
  rw [raw_score_three_word_cut_eval, raw_score_three_word_eval]
  decide

theorem raw_score_history_length_witness :
    ngram_model_trie_raw_score three_word_model 0 [1, -5, 7] 2 =
      ngram_model_trie_raw_score three_word_model 0 [1, -1] 2 :=
  (raw_score_history_length three_word_model 0 [1, -1] 2).2.2 [1, -5, 7] (by decide) (by decide)

end Durandal
